import Mathlib

/-! SROS kernel (`memory.c`, `task.c`, `event.c`, `util.c`, `x86/system.c`):
shallow embedding and verification.

The heap manager of the kernel works on raw memory through pointers that it
casts to `UINT` (32-bit unsigned).  The embedding keeps that view:

* memory is a map from byte addresses to byte values;
* a `UINT` held in memory is four bytes, least significant first (x86);
* arithmetic that the C text performs on `UINT` values wraps modulo 2^32
  (`uadd`, `usub`); member and array accesses (`hcb->size`, `wbuf[idx]`)
  are plain address additions;
* the structures have the ILP32 layout of the x86 target: `HEAP` is
  `size` at 0, `address` at 4, `sizeof(HEAP) = 12`; `HCB` is `magic` at 0,
  `status` at 4 (one byte), `start` at 8, `size` at 12, `sizeof(HCB) = 20`;
* a loop whose termination depends on the memory contents takes a fuel
  argument and yields `none` when the fuel runs out before the loop ends.
-/

namespace Sros

/-! ## Machine model -/

/-- Byte-addressed memory. -/
abbrev Mem := Nat → Nat

/-- Two to the power 32, the modulus of `UINT` arithmetic. -/
abbrev U32 : Nat := 4294967296

/-- Addition of two `UINT` values. -/
def uadd (a b : Nat) : Nat := (a + b) % U32

/-- Subtraction of two `UINT` values. -/
def usub (a b : Nat) : Nat := (a % U32 + U32 - b % U32) % U32

/-- Load of an `UCHAR`. -/
def read8 (m : Mem) (a : Nat) : Nat := m a % 256

/-- Store of an `UCHAR`. -/
def write8 (m : Mem) (a v : Nat) : Mem := fun x => if x = a then v % 256 else m x

/-- Load of a `UINT` (little endian). -/
def read32 (m : Mem) (a : Nat) : Nat :=
  read8 m a + 256 * read8 m (a + 1) + 65536 * read8 m (a + 2) + 16777216 * read8 m (a + 3)

/-- Store of a `UINT` (little endian). -/
def write32 (m : Mem) (a v : Nat) : Mem :=
  write8 (write8 (write8 (write8 m a v) (a + 1) (v / 256)) (a + 2) (v / 65536))
    (a + 3) (v / 16777216)

/-! ## Constants and layout (`kern.h`) -/

def HEAP_MAGIC : Nat := 0xABADFADE
def HEAP_STATUS_FREE : Nat := 1
def HEAP_STATUS_USED : Nat := 2
def HEAP_MIN_SIZE : Nat := 1024
def HEAP_MIN_NODE_SIZE : Nat := 24

/-- The value of `sizeof(HCB)`. -/
def sizeof_HCB : Nat := 20

/-- The value of `sizeof(HEAP)`. -/
def sizeof_HEAP : Nat := 12

/-- The macro `HEAP_PTR_TO_HCB(ptr)`: `((UINT)(ptr)) - sizeof(HCB)`. -/
def HEAP_PTR_TO_HCB (ptr : Nat) : Nat := usub ptr sizeof_HCB

/-- The macro `HEAP_HCB_TO_PTR(hcb)`: `((UINT)(hcb)) + sizeof(HCB)`. -/
def HEAP_HCB_TO_PTR (hcb : Nat) : Nat := uadd hcb sizeof_HCB

/-- Field `heap->size`. -/
def heap_size (m : Mem) (heap : Nat) : Nat := read32 m heap

/-- Field `heap->address`. -/
def heap_address (m : Mem) (heap : Nat) : Nat := read32 m (heap + 4)

/-- Field `hcb->magic`. -/
def hcb_magic (m : Mem) (hcb : Nat) : Nat := read32 m hcb

/-- Field `hcb->status`. -/
def hcb_status (m : Mem) (hcb : Nat) : Nat := read8 m (hcb + 4)

/-- Field `hcb->start`. -/
def hcb_start (m : Mem) (hcb : Nat) : Nat := read32 m (hcb + 8)

/-- Field `hcb->size`. -/
def hcb_size (m : Mem) (hcb : Nat) : Nat := read32 m (hcb + 12)

def set_heap_size (m : Mem) (heap v : Nat) : Mem := write32 m heap v
def set_heap_address (m : Mem) (heap v : Nat) : Mem := write32 m (heap + 4) v
def set_magic (m : Mem) (hcb v : Nat) : Mem := write32 m hcb v
def set_status (m : Mem) (hcb v : Nat) : Mem := write8 m (hcb + 4) v
def set_start (m : Mem) (hcb v : Nat) : Mem := write32 m (hcb + 8) v
def set_size (m : Mem) (hcb v : Nat) : Mem := write32 m (hcb + 12) v

/-! ## The functions of `memory.c` -/

/-- The function `init_heap(start, size)`: the memory afterwards and the
returned pointer (`0` is `NULL`). -/
def init_heap (m : Mem) (start size : Nat) : Mem × Nat :=
  if start = 0 then (m, 0)
  else if size < HEAP_MIN_SIZE then (m, 0)
  else
    let heap := start
    let m1 := set_heap_size m heap size
    let m2 := set_heap_address m1 heap start
    let hcb := start + sizeof_HEAP
    let m3 := set_size m2 hcb (usub size sizeof_HEAP)
    let m4 := set_start m3 hcb sizeof_HEAP
    let m5 := set_magic m4 hcb HEAP_MAGIC
    let m6 := set_status m5 hcb HEAP_STATUS_FREE
    (m6, heap)

/-- The static function `verify_node(h, hcb)`. -/
def verify_node (m : Mem) (h hcb : Nat) : Nat :=
  if hcb_magic m hcb ≠ HEAP_MAGIC then 1
  else if hcb_start m hcb ≠ usub h hcb then 2
  else 0

/-- The function `heap_verify_node(h, node)`. -/
def heap_verify_node (m : Mem) (h node : Nat) : Nat :=
  verify_node m h (HEAP_PTR_TO_HCB node)

/-- The `for` loop of `heap_walk`, entered with the cursor `hcb`. -/
def heap_walk_loop (m : Mem) (heap max_addr : Nat) : Nat → Nat → Option Nat
  | 0, _ => none
  | fuel + 1, hcb =>
    if hcb < max_addr then
      if verify_node m heap hcb ≠ 0 then some 4
      else heap_walk_loop m heap max_addr fuel (uadd hcb (hcb_size m hcb))
    else some 0

/-- The function `heap_walk(h)`. -/
def heap_walk (fuel : Nat) (m : Mem) (h : Nat) : Option Nat :=
  if h = 0 then some 1
  else if heap_size m h < HEAP_MIN_SIZE then some 2
  else if h ≠ heap_address m h then some 3
  else heap_walk_loop m h (uadd h (heap_size m h)) fuel (uadd h sizeof_HEAP)

/-- The first loop of `clear_memory`: `wbuf[idx] = 0` for `idx < k`. -/
def clear_words (m : Mem) (wbuf : Nat) : Nat → Mem
  | 0 => m
  | k + 1 => write32 (clear_words m wbuf k) (wbuf + 4 * k) 0

/-- The second loop of `clear_memory`: `cbuf[idx] = 0` for `idx < k`. -/
def clear_bytes (m : Mem) (cbuf : Nat) : Nat → Mem
  | 0 => m
  | k + 1 => write8 (clear_bytes m cbuf k) (cbuf + k) 0

/-- The static function `clear_memory(ptr, size)`. -/
def clear_memory (m : Mem) (ptr size : Nat) : Mem :=
  let maxword := size / 4
  let remainder := size % 4
  let wbuf := ptr
  let cbuf := wbuf + 4 * maxword
  clear_bytes (clear_words m wbuf maxword) cbuf remainder

/-- The search loop of `heap_alloc`.  `none`: out of fuel; `some none`: the
`return NULL` inside the loop; `some (some hcb)`: the loop was left (by its
condition or by `break`) with the cursor at `hcb`. -/
def heap_alloc_loop (m : Mem) (max_addr size : Nat) : Nat → Nat → Option (Option Nat)
  | 0, _ => none
  | fuel + 1, hcb =>
    if hcb < max_addr then
      if hcb_size m hcb = 0 ∨ hcb_status m hcb = 0 then some none
      else if hcb_status m hcb = HEAP_STATUS_FREE ∧ hcb_size m hcb ≥ uadd size sizeof_HCB then
        some (some hcb)
      else heap_alloc_loop m max_addr size fuel (uadd hcb (hcb_size m hcb))
    else some (some hcb)

/-- The part of `heap_alloc` that follows the search, up to the split: mark
the node used and, if it is large enough, split it. -/
def heap_alloc_split (m : Mem) (hcb size : Nat) : Mem :=
  let m1 := set_status m hcb HEAP_STATUS_USED
  if hcb_size m1 hcb > uadd (uadd size sizeof_HCB) HEAP_MIN_NODE_SIZE then
    let nhcb := uadd (uadd hcb size) sizeof_HCB
    let a := set_magic m1 nhcb HEAP_MAGIC
    let b := set_status a nhcb HEAP_STATUS_FREE
    let c := set_start b nhcb (uadd (uadd (hcb_start b hcb) size) sizeof_HCB)
    let d := set_size c nhcb (usub (hcb_size c hcb) (uadd size sizeof_HCB))
    set_size d hcb (uadd size sizeof_HCB)
  else m1

/-- The end of `heap_alloc`, once a node was found: mark and split it, clear
the payload, return the payload pointer. -/
def heap_alloc_take (m : Mem) (hcb size : Nat) : Mem × Nat :=
  let m2 := heap_alloc_split m hcb size
  let ptr := HEAP_HCB_TO_PTR hcb
  (clear_memory m2 ptr size, ptr)

/-- The static function `heap_alloc(h, size)`: the memory afterwards and the
returned pointer (`0` is `NULL`). -/
def heap_alloc (fuel : Nat) (m : Mem) (h size : Nat) : Option (Mem × Nat) :=
  if h = 0 then some (m, 0)
  else if h ≠ heap_address m h then some (m, 0)
  else
    let max_addr := uadd h (heap_size m h)
    match heap_alloc_loop m max_addr size fuel (uadd h sizeof_HEAP) with
    | none => none
    | some none => some (m, 0)
    | some (some hcb) =>
      if hcb ≥ max_addr then some (m, 0)
      else some (heap_alloc_take m hcb size)

/-- The merging loop of `heap_free`, with the cursor `hcb`, the first node
`fhcb` of the current free run and `free_flag`. -/
def heap_free_loop (max_addr : Nat) : Nat → Mem → Nat → Nat → Nat → Option Mem
  | 0, _, _, _, _ => none
  | fuel + 1, m, hcb, fhcb, free_flag =>
    if hcb < max_addr then
      if hcb_status m hcb = HEAP_STATUS_FREE then
        if free_flag ≠ 0 then
          let m1 := set_size m fhcb (uadd (hcb_size m fhcb) (hcb_size m hcb))
          heap_free_loop max_addr fuel m1 (uadd hcb (hcb_size m1 hcb)) fhcb free_flag
        else
          heap_free_loop max_addr fuel m (uadd hcb (hcb_size m hcb)) hcb 1
      else
        heap_free_loop max_addr fuel m (uadd hcb (hcb_size m hcb)) fhcb 0
    else some m

/-- The static function `heap_free(h, ptr)`: the memory afterwards and the
returned code. -/
def heap_free (fuel : Nat) (m : Mem) (h ptr : Nat) : Option (Mem × Nat) :=
  let hcb := HEAP_PTR_TO_HCB ptr
  let m1 := set_status m hcb HEAP_STATUS_FREE
  let max_addr := uadd h (heap_size m1 h)
  match heap_free_loop max_addr fuel m1 (uadd h sizeof_HEAP) 0 0 with
  | none => none
  | some m2 => some (m2, 0)

/-! ## Chunk chains -/

/-- The four fields of a chunk header, as values. -/
structure HCB where
  magic : Nat
  status : Nat
  start : Nat
  size : Nat
deriving DecidableEq

/-- The header stored at address `a`. -/
def readHCB (m : Mem) (a : Nat) : HCB :=
  ⟨hcb_magic m a, hcb_status m a, hcb_start m a, hcb_size m a⟩

/-- The headers met by `hcb += hcb->size` from offset `off` of heap `h` are
the elements of the list, in order. -/
def Chain (m : Mem) (h : Nat) : Nat → List HCB → Prop
  | _, [] => True
  | off, c :: cs => readHCB m (h + off) = c ∧ Chain m h (off + c.size) cs

/-- Sum of the sizes of the chunks of a list. -/
def sizeSum : List HCB → Nat
  | [] => 0
  | c :: cs => c.size + sizeSum cs

/-- A well-formed heap at address `h` whose chunk chain is `cs`: a valid
heap header, a chain of chunks with non-zero sizes that add up to
`heap.size - sizeof(HEAP)`, every status FREE or USED. -/
structure WellFormed (m : Mem) (h : Nat) (cs : List HCB) : Prop where
  nonnull : h ≠ 0
  inrange : h + heap_size m h < U32
  address : heap_address m h = h
  chain : Chain m h sizeof_HEAP cs
  total : sizeof_HEAP + sizeSum cs = heap_size m h
  sizes : ∀ c ∈ cs, c.size ≠ 0
  statuses : ∀ c ∈ cs, c.status = HEAP_STATUS_FREE ∨ c.status = HEAP_STATUS_USED

/-- Every chunk is large enough to hold its own header. -/
def HeadersFit (cs : List HCB) : Prop := ∀ c ∈ cs, sizeof_HCB ≤ c.size

instance (cs : List HCB) : Decidable (HeadersFit cs) := by
  unfold HeadersFit; infer_instance

/-- A chunk that `heap_alloc(h, n)` can allocate from: FREE and of size at
least `n + sizeof(HCB)`. -/
def Fits (n : Nat) (c : HCB) : Prop :=
  c.status = HEAP_STATUS_FREE ∧ n + sizeof_HCB ≤ c.size

instance (n : Nat) (c : HCB) : Decidable (Fits n c) := by
  unfold Fits; infer_instance

/-- Every header of the chain is valid: its magic is `HEAP_MAGIC` and its
`start` field is its offset from the heap base. -/
def ValidHeaders : Nat → List HCB → Prop
  | _, [] => True
  | off, c :: cs => c.magic = HEAP_MAGIC ∧ c.start = off ∧ ValidHeaders (off + c.size) cs

/-- The chunk list after the merging pass of `heap_free`, in the words of
the specification: every run of consecutive FREE chunks is merged into the
first chunk of the run by summing the sizes; the other chunks are kept.
Read from the right: a FREE chunk that is followed by a FREE chunk (itself
already the merge of the run it starts) absorbs it. -/
def mergeRuns : List HCB → List HCB
  | [] => []
  | c :: cs =>
    match mergeRuns cs with
    | [] => [c]
    | d :: ds =>
      if c.status = HEAP_STATUS_FREE ∧ d.status = HEAP_STATUS_FREE then
        { c with size := c.size + d.size } :: ds
      else c :: d :: ds

/-- No two adjacent chunks of the list are both FREE. -/
def NoAdjacentFree : List HCB → Prop
  | c :: d :: cs =>
    ¬ (c.status = HEAP_STATUS_FREE ∧ d.status = HEAP_STATUS_FREE) ∧ NoAdjacentFree (d :: cs)
  | _ => True

/-- Address `a` is one of the four bytes of the `size` field of a FREE chunk
of the chain that starts at offset `off` of heap `h`. -/
def InFreeSize (h : Nat) : Nat → List HCB → Nat → Prop
  | _, [], _ => False
  | off, c :: cs, a =>
    (c.status = HEAP_STATUS_FREE ∧ h + off + 12 ≤ a ∧ a < h + off + 16) ∨
      InFreeSize h (off + c.size) cs a

/-- The chunk with its status set to FREE. -/
def setFree (c : HCB) : HCB := { c with status := HEAP_STATUS_FREE }

/-- The chunks that replace a chosen FREE chunk `c` in `heap_alloc(h, n)`, in
the words of the specification: if the size of `c` exceeds
`n + sizeof(HCB) + HEAP_MIN_NODE_SIZE`, a USED chunk of size exactly
`n + sizeof(HCB)` followed by a new FREE chunk that inherits the remainder;
otherwise `c` itself, USED, with its size unchanged. -/
def splitChunk (n : Nat) (c : HCB) : List HCB :=
  if c.size > n + sizeof_HCB + HEAP_MIN_NODE_SIZE then
    [⟨c.magic, HEAP_STATUS_USED, c.start, n + sizeof_HCB⟩,
      ⟨HEAP_MAGIC, HEAP_STATUS_FREE, uadd (uadd c.start n) sizeof_HCB,
        c.size - (n + sizeof_HCB)⟩]
  else [⟨c.magic, HEAP_STATUS_USED, c.start, c.size⟩]

/-- The invariants of the data model for the heap at `h` with chunk chain
`cs`: well-formed, every chunk holds its header, every header is valid. -/
def HeapInv (m : Mem) (h : Nat) (cs : List HCB) : Prop :=
  WellFormed m h cs ∧ HeadersFit cs ∧ ValidHeaders sizeof_HEAP cs

/-- The all-zero memory. -/
def zeroMem : Mem := fun _ => 0

/-- A freshly initialised heap of 1024 bytes at address 4096. -/
def freshMem : Mem := (init_heap zeroMem 4096 1024).1

/-- The only chunk of `freshMem`. -/
def freshChunk : HCB := ⟨HEAP_MAGIC, HEAP_STATUS_FREE, 12, 1012⟩

/-- The memory after `heap_alloc(h, 16)` on `freshMem`. -/
def allocMem : Mem := (heap_alloc_take freshMem 4108 16).1

/-- The chunks of `allocMem`: the USED chunk of the allocation and the FREE
remainder. -/
def allocChunks : List HCB :=
  [⟨HEAP_MAGIC, HEAP_STATUS_USED, 12, 36⟩, ⟨HEAP_MAGIC, HEAP_STATUS_FREE, 48, 976⟩]

/-- A request so large that `size + sizeof(HCB)` is `2^32`, which is 0 as a
`UINT`. -/
def hugeRequest : Nat := 0xFFFFFFEC

/-- The memory after `heap_alloc(h, 0xFFFFFFEC)` on `freshMem`. -/
def overflowMem : Mem := (heap_alloc_take freshMem 4108 hugeRequest).1

/-- The fresh heap with the first header changed: status 0, and a start field
(`2^32 - 12`) that is not the header offset. -/
def zeroStatusMem : Mem := set_status (set_start freshMem 4108 0xFFFFFFF4) 4108 0

/-- The fresh heap with the first header changed: size 0, and a start field
(`2^32 - 12`) that is not the header offset. -/
def zeroSizeMem : Mem := set_size (set_start freshMem 4108 0xFFFFFFF4) 4108 0

/-- The fresh heap with the magic of the first header overwritten. -/
def badMagicMem : Mem := set_magic freshMem 4108 0

/-! ## The task subsystem (`task.c`)

A `TCB` lives in the global heap; its fields are only ever accessed through
the structure, so the embedding keeps the task control blocks in a typed
store indexed by address, next to the byte memory that holds the heaps.
The saved context of a task is opaque and is not modelled.  `NULL` is 0. -/

/-- The fields of a task control block (`TCB` of `kern.h`), without the
saved context. -/
structure TCB where
  task_number : Nat
  stack : Nat
  ssize : Nat
  heap : Nat
  hsize : Nat
  priority : Nat
  status : Int
  flags : Nat
  entry : Nat
  arg : Nat
  event_queue : Nat
  tnext : Nat
  tprev : Nat

/-- The constant `TASK_KILLED`, `((UCHAR)-1)`. -/
def TASK_KILLED : Nat := 255
def TASK_RUNABLE : Int := 0
def TASK_STACK_MAGIC : Nat := 0x5A

/-- The value of `sizeof(TCB)`: 94 bytes of packed fields with a context of
12 words, aligned to 32. -/
def sizeof_TCB : Nat := 96

/-- The value of `sizeof(EVENT_QUEUE)`. -/
def sizeof_EVENT_QUEUE : Nat := 12

/-- A task control block whose bytes are all zero. -/
def zeroTCB : TCB := ⟨0, 0, 0, 0, 0, 0, 0, 0, 0, 0, 0, 0, 0⟩

/-- The state of the kernel: the byte memory, the global heap pointer of
`memory.c`, the task control blocks, and the module variables of `task.c`
(`task_queue.first`, `task_queue.last`, `current_task`, `task_number`,
`task_crit_flag`). -/
structure Kernel where
  mem : Mem
  global_heap : Nat
  tcbs : Nat → TCB
  first : Nat
  last : Nat
  current_task : Nat
  task_number : Nat
  task_crit_flag : Nat

/-- Store into the task control block at address `p`. -/
def setTcb (k : Kernel) (p : Nat) (f : TCB → TCB) : Kernel :=
  { k with tcbs := fun q => if q = p then f (k.tcbs p) else k.tcbs q }

/-- The macro `NEXT_TASK(t)`. -/
def NEXT_TASK (k : Kernel) (t : Nat) : Nat :=
  if (k.tcbs t).tnext = 0 then k.first else (k.tcbs t).tnext

/-- The static function `task_queue_add(tcb)`. -/
def task_queue_add (k : Kernel) (tcb : Nat) : Kernel :=
  if k.last = 0 then
    let k1 := { k with last := tcb }
    let k2 := { k1 with first := tcb }
    let k3 := { k2 with current_task := tcb }
    let k4 := setTcb k3 tcb (fun t => { t with tnext := 0 })
    setTcb k4 tcb (fun t => { t with tprev := 0 })
  else
    let k1 := setTcb k k.last (fun t => { t with tnext := tcb })
    let k2 := setTcb k1 tcb (fun t => { t with tprev := k1.last })
    let k3 := setTcb k2 tcb (fun t => { t with tnext := 0 })
    { k3 with last := tcb }

/-- The first statement of `task_queue_del(tcb)`: when the task deleted is
the current one, `current_task` moves to its successor. -/
def task_queue_del_cursor (k : Kernel) (tcb : Nat) : Kernel :=
  if (k.tcbs tcb).task_number = (k.tcbs k.current_task).task_number then
    { k with current_task := NEXT_TASK k k.current_task }
  else k

/-- The `if` / `else if` / `else` statement of `task_queue_del(tcb)`, which
takes the task out of the chain of links. -/
def task_queue_del_unlink (k1 : Kernel) (tcb : Nat) : Kernel :=
  if (k1.tcbs tcb).task_number = (k1.tcbs k1.first).task_number then
    let a := { k1 with first := (k1.tcbs k1.first).tnext }
    if a.first = 0 then { a with last := 0 }
    else setTcb a a.first (fun t => { t with tprev := 0 })
  else if tcb = k1.last then
    let a := { k1 with last := (k1.tcbs k1.last).tprev }
    if a.last = 0 then { a with first := 0 }
    else setTcb a a.last (fun t => { t with tnext := 0 })
  else
    let a :=
      if (k1.tcbs tcb).tnext ≠ 0 then
        setTcb k1 (k1.tcbs tcb).tnext (fun t => { t with tprev := (k1.tcbs tcb).tprev })
      else k1
    if (a.tcbs tcb).tprev ≠ 0 then
      setTcb a (a.tcbs tcb).tprev (fun t => { t with tnext := (a.tcbs tcb).tnext })
    else a

/-- The static function `task_queue_del(tcb)`: the state afterwards and the
returned code. -/
def task_queue_del (k : Kernel) (tcb : Nat) : Kernel × Nat :=
  let k1 := task_queue_del_cursor k tcb
  let k2 := task_queue_del_unlink k1 tcb
  let k3 := setTcb k2 tcb (fun t => { t with tprev := 0 })
  let k4 := setTcb k3 tcb (fun t => { t with tnext := 0 })
  (k4, if k4.first = 0 then 1 else 0)

/-- The function `global_free(ptr)`, with the fuel of the loop of
`heap_free`. -/
def global_free (hfuel : Nat) (k : Kernel) (ptr : Nat) : Option (Kernel × Nat) :=
  match heap_free hfuel k.mem k.global_heap ptr with
  | none => none
  | some (m, r) => some ({ k with mem := m }, r)

/-- The function `global_alloc(size)`. -/
def global_alloc (hfuel : Nat) (k : Kernel) (size : Nat) : Option (Kernel × Nat) :=
  match heap_alloc hfuel k.mem k.global_heap size with
  | none => none
  | some (m, p) => some ({ k with mem := m }, p)

/-- The function `tcb_alloc(tcb, size)`. -/
def tcb_alloc (hfuel : Nat) (k : Kernel) (tcb size : Nat) : Option (Kernel × Nat) :=
  match heap_alloc hfuel k.mem (k.tcbs tcb).heap size with
  | none => none
  | some (m, p) => some ({ k with mem := m }, p)

/-- The function `free_task_resources(tcb)`. -/
def free_task_resources (hfuel : Nat) (k : Kernel) (tcb : Nat) : Option Kernel :=
  match global_free hfuel k (k.tcbs tcb).heap with
  | none => none
  | some (k1, _) =>
    match global_free hfuel k1 tcb with
    | none => none
    | some (k2, _) => some k2

/-- The static function `delete_task(tcb)`: the state afterwards and the
returned pointer. -/
def delete_task (hfuel : Nat) (k : Kernel) (tcb : Nat) : Option (Kernel × Nat) :=
  let tmp_tcb := NEXT_TASK k tcb
  if tmp_tcb = 0 then some (k, 0)
  else
    match free_task_resources hfuel (task_queue_del k tcb).1 tcb with
    | none => none
    | some k2 => some (k2, tmp_tcb)

/-- The update of `priority` in the loop of `get_sched_priority`. -/
def update_priority (k : Kernel) (tcb priority : Nat) : Nat :=
  if (k.tcbs tcb).status = 0 ∧ priority > (k.tcbs tcb).priority then (k.tcbs tcb).priority
  else priority

/-- The `for` loop of `get_sched_priority`, with the cursor `tcb` and the
running `priority`. -/
def get_sched_priority_loop (hfuel : Nat) : Nat → Kernel → Nat → Nat → Option (Kernel × Nat)
  | 0, _, _, _ => none
  | fuel + 1, k, tcb, priority =>
    if tcb = 0 then some (k, priority)
    else if (k.tcbs tcb).status = 255 then
      match delete_task hfuel k tcb with
      | none => none
      | some (k1, tcb1) =>
        if tcb1 = 0 then some (k1, TASK_KILLED)
        else
          get_sched_priority_loop hfuel fuel k1 (k1.tcbs tcb1).tnext
            (update_priority k1 tcb1 priority)
    else
      get_sched_priority_loop hfuel fuel k (k.tcbs tcb).tnext (update_priority k tcb priority)

/-- The static function `get_sched_priority()`. -/
def get_sched_priority (fuel hfuel : Nat) (k : Kernel) : Option (Kernel × Nat) :=
  get_sched_priority_loop hfuel fuel k k.first 0xFF

/-- What one turn of the loop of `scheduler` ends with: the function
returns, or control is transferred to a task. -/
inductive SchedOutcome where
  | returned : SchedOutcome
  | dispatched : Nat → SchedOutcome
deriving DecidableEq

/-- The inner `while` loop of `scheduler`, which looks for the task to
run. -/
def scheduler_select : Nat → Kernel → Nat → Nat → Option Nat
  | 0, _, _, _ => none
  | fuel + 1, k, tcb, current_priority =>
    if (k.tcbs tcb).priority > current_priority ∨ (k.tcbs tcb).status ≠ 0 then
      scheduler_select fuel k (NEXT_TASK k tcb) current_priority
    else some tcb

/-- One turn of the `while(1)` loop of `scheduler`, entered from the top:
`save_task_context(sched_context)` returns 0 as for a direct call, so the
turn ends either in `return` or in `restore_task_context(tcb->context, 1)`. -/
def scheduler_pass (fuel hfuel : Nat) (k : Kernel) : Option (Kernel × SchedOutcome) :=
  match get_sched_priority fuel hfuel k with
  | none => none
  | some (k1, current_priority) =>
    if current_priority = TASK_KILLED then some (k1, SchedOutcome.returned)
    else
      match scheduler_select fuel k1 (NEXT_TASK k1 k1.current_task) current_priority with
      | none => none
      | some tcb => some ({ k1 with current_task := tcb }, SchedOutcome.dispatched tcb)

/-- Consecutive turns of the scheduler in which every dispatched task gives
the control back (by `yield`) without changing the kernel state: the tasks
dispatched, in order.  A turn that returns ends the run. -/
def scheduler_run (fuel hfuel : Nat) : Nat → Kernel → Option (Kernel × List Nat)
  | 0, k => some (k, [])
  | n + 1, k =>
    match scheduler_pass fuel hfuel k with
    | none => none
    | some (k1, SchedOutcome.returned) => some (k1, [])
    | some (k1, SchedOutcome.dispatched t) =>
      match scheduler_run fuel hfuel n k1 with
      | none => none
      | some (k2, ts) => some (k2, t :: ts)

/-- What `system_yield` ends with: it returns to its caller, or control is
transferred to the scheduler with a code. -/
inductive YieldOutcome where
  | returned : YieldOutcome
  | entered_scheduler : Nat → YieldOutcome
deriving DecidableEq

/-- The static function `system_yield(code)`, called by a running task:
`save_task_context` returns 0 as for a direct call. -/
def system_yield (k : Kernel) (code : Nat) : Kernel × YieldOutcome :=
  if k.task_crit_flag = 0 then (k, YieldOutcome.entered_scheduler code)
  else (k, YieldOutcome.returned)

/-- The function `yield()`. -/
def yield (k : Kernel) : Kernel × YieldOutcome := system_yield k 1

/-- The function `task_start_critical()`. -/
def task_start_critical (k : Kernel) : Kernel := { k with task_crit_flag := 1 }

/-- The function `task_end_critical()`. -/
def task_end_critical (k : Kernel) : Kernel := { k with task_crit_flag := 0 }

/-- The fill loop of `setup_stack_frame`: `p[i] = v` for `i < n`. -/
def fill_bytes (m : Mem) (p v : Nat) : Nat → Mem
  | 0 => m
  | n + 1 => write8 (fill_bytes m p v n) (p + n) v

/-- The function `setup_stack_frame(tcb, entry)` of `x86/system.c`; `saved`
is the value that `save_task_context(tcb->context)` returns (0 for a direct
call). -/
def setup_stack_frame (saved : Nat) (k : Kernel) (tcb : Nat) : Kernel × Nat :=
  let k1 := { k with mem := fill_bytes k.mem (k.tcbs tcb).stack TASK_STACK_MAGIC (k.tcbs tcb).ssize }
  if saved ≠ 0 then (k1, 1) else (k1, 0)

/-- The `handle_error` part of `task_create`. -/
def task_create_error (hfuel : Nat) (k : Kernel) (tcb heap_tmp : Nat) : Option (Kernel × Nat) :=
  match (if tcb ≠ 0 then global_free hfuel k tcb else some (k, 0)) with
  | none => none
  | some (k1, _) =>
    match (if heap_tmp ≠ 0 then global_free hfuel k1 heap_tmp else some (k1, 0)) with
    | none => none
    | some (k2, _) => some (k2, 0)

/-- The end of `task_create`, from `tcb->ssize = stksize` on. -/
def task_create_finish (hfuel saved : Nat) (k : Kernel) (tcb heap_tmp : Nat)
    (entry arg stksize prio : Nat) : Option (Kernel × Nat) :=
  let k1 := setTcb k tcb (fun t => { t with ssize := stksize })
  let r := setup_stack_frame saved k1 tcb
  if r.2 ≠ 0 then task_create_error hfuel r.1 tcb heap_tmp
  else
    let k2 := setTcb r.1 tcb (fun t => { t with entry := entry })
    let k3 := setTcb k2 tcb (fun t => { t with arg := arg })
    let k4 := setTcb k3 tcb (fun t => { t with tnext := 0 })
    let k5 := setTcb k4 tcb (fun t => { t with tprev := 0 })
    let k6 := setTcb k5 tcb (fun t => { t with status := TASK_RUNABLE })
    let k7 := setTcb k6 tcb (fun t => { t with flags := 0 })
    let k8 := setTcb k7 tcb (fun t => { t with priority := prio })
    let k9 := setTcb k8 tcb (fun t => { t with task_number := k8.task_number })
    let k10 := { k9 with task_number := uadd k9.task_number 1 }
    some (task_queue_add k10 tcb, tcb)

/-- The part of `task_create` that follows the allocation of the heap
block: `init_heap`, the stack and the event queue. -/
def task_create_heap (hfuel saved : Nat) (k : Kernel) (tcb heap_tmp : Nat)
    (entry arg stksize hsize prio : Nat) : Option (Kernel × Nat) :=
  let r := init_heap k.mem heap_tmp hsize
  let k1 := setTcb { k with mem := r.1 } tcb (fun t => { t with heap := r.2 })
  if (k1.tcbs tcb).heap = 0 then task_create_error hfuel k1 tcb heap_tmp
  else
    match tcb_alloc hfuel k1 tcb stksize with
    | none => none
    | some (k2, stack) =>
      let k3 := setTcb k2 tcb (fun t => { t with stack := stack })
      if (k3.tcbs tcb).stack = 0 then task_create_error hfuel k3 tcb heap_tmp
      else
        match tcb_alloc hfuel k3 tcb sizeof_EVENT_QUEUE with
        | none => none
        | some (k4, eq) =>
          let k5 := setTcb k4 tcb (fun t => { t with event_queue := eq })
          if (k5.tcbs tcb).event_queue = 0 then task_create_error hfuel k5 tcb heap_tmp
          else task_create_finish hfuel saved k5 tcb heap_tmp entry arg stksize prio

/-- The function `task_create(entry, arg, stksize, hsize, prio)`: the state
afterwards and the returned pointer.  `hfuel` is the fuel of the heap
loops, `saved` the value returned by `save_task_context` in
`setup_stack_frame`.  The block that `global_alloc` returns for the `TCB`
is zero-filled, so the task control block at that address starts as
`zeroTCB`. -/
def task_create (hfuel saved : Nat) (k : Kernel) (entry arg stksize hsize prio : Nat) :
    Option (Kernel × Nat) :=
  match global_alloc hfuel k sizeof_TCB with
  | none => none
  | some (k1, tcb) =>
    if tcb = 0 then task_create_error hfuel k1 0 0
    else
      let k2 := setTcb k1 tcb (fun _ => zeroTCB)
      match global_alloc hfuel k2 hsize with
      | none => none
      | some (k3, heap_tmp) =>
        if heap_tmp = 0 then task_create_error hfuel k3 tcb 0
        else task_create_heap hfuel saved k3 tcb heap_tmp entry arg stksize hsize prio

/-- The tasks of the list, from the one at `cur` (whose predecessor is
`prev`) up to the link `e`, are doubly linked through `tnext` and `tprev`
and are the elements of the list, in order. -/
def DSeg (tcbs : Nat → TCB) : Nat → Nat → List Nat → Nat → Prop
  | _, cur, [], e => cur = e
  | prev, cur, p :: ps, e =>
    cur = p ∧ p ≠ 0 ∧ (tcbs p).tprev = prev ∧ DSeg tcbs p (tcbs p).tnext ps e

/-- A well-formed task list: `task_queue.first` and `task_queue.last` bound
a doubly linked list of the tasks `L`, which are distinct and have distinct
task numbers, and `current_task` is one of them when there is any. -/
structure TaskList (k : Kernel) (L : List Nat) : Prop where
  seg : DSeg k.tcbs 0 k.first L 0
  last_eq : k.last = L.getLast?.getD 0
  nodup : L.Nodup
  numbers : ∀ a ∈ L, ∀ b ∈ L, (k.tcbs a).task_number = (k.tcbs b).task_number → a = b
  cursor : L ≠ [] → k.current_task ∈ L

/-- The value of `priority` after the loop of `get_sched_priority` has
looked at the tasks of the list in turn. -/
def scanPriority (k : Kernel) : List Nat → Nat → Nat
  | [], p => p
  | t :: ts, p => scanPriority k ts (update_priority k t p)

/-- The test that ends the search loop of `scheduler`: the task is not
blocked and its priority value is at most `current_priority`. -/
def eligible (k : Kernel) (current_priority : Nat) (t : Nat) : Bool :=
  decide (¬ ((k.tcbs t).priority > current_priority ∨ (k.tcbs t).status ≠ 0))

/-- A task of status 0 whose priority value is the minimum over the tasks of
status 0 of the list. -/
def MinRunnable (k : Kernel) (L : List Nat) (t : Nat) : Prop :=
  (k.tcbs t).status = 0 ∧ ∀ u ∈ L, (k.tcbs u).status = 0 → (k.tcbs t).priority ≤ (k.tcbs u).priority

/-- A kernel state with three tasks, at 100, 200 and 300, of priorities 50,
20 and 20; the first is blocked (status 1), the cursor is on the second. -/
def demoKernel : Kernel where
  mem := zeroMem
  global_heap := 0
  tcbs := fun p =>
    if p = 100 then ⟨0, 0, 0, 0, 0, 50, 1, 0, 0, 0, 0, 200, 0⟩
    else if p = 200 then ⟨1, 0, 0, 0, 0, 20, 0, 0, 0, 0, 0, 300, 100⟩
    else if p = 300 then ⟨2, 0, 0, 0, 0, 20, 0, 0, 0, 0, 0, 0, 200⟩
    else zeroTCB
  first := 100
  last := 300
  current_task := 200
  task_number := 3
  task_crit_flag := 0

/-- The address `p` is the payload address of a chunk in use of the heap at
`h` whose chunk chain is `cs`. -/
def Live (h : Nat) (cs : List HCB) (p : Nat) : Prop :=
  ∃ pre c post, cs = pre ++ c :: post ∧ c.status = HEAP_STATUS_USED ∧
    p = h + sizeof_HEAP + sizeSum pre + sizeof_HCB

/-- The global heap satisfies the invariants of the heap manager, with fewer
chunks than `hfuel`, and every task of the list owns two chunks in use of
it, its `TCB` and its heap block; no chunk has two owners. -/
def HeapOwns (hfuel : Nat) (k : Kernel) (L : List Nat) : Prop :=
  ∃ cs, HeapInv k.mem k.global_heap cs ∧ cs.length < hfuel ∧
    (∀ t ∈ L, Live k.global_heap cs t ∧ Live k.global_heap cs (k.tcbs t).heap) ∧
    (∀ t ∈ L, ∀ u ∈ L, (k.tcbs t).heap ≠ u ∧ (t ≠ u → (k.tcbs t).heap ≠ (k.tcbs u).heap))

/-- The two states hold the same tasks: only the links `tnext` and `tprev`
of a task control block may differ. -/
def SameTasks (k k' : Kernel) : Prop :=
  ∀ p, { k'.tcbs p with tnext := 0, tprev := 0 } = { k.tcbs p with tnext := 0, tprev := 0 }

/-- Store a whole chunk header at address `a`. -/
def put_hcb (m : Mem) (a : Nat) (c : HCB) : Mem :=
  set_status (set_magic (set_start (set_size m a c.size) a c.start) a c.magic) a c.status

/-- The chunks of the global heap of `reapKernel`: for each of three tasks
a block of `sizeof(TCB)` bytes and a heap block of 1024 bytes, then the FREE
remainder; this is the chain that three calls of `task_create` with a heap
size of 1024 leave in a global heap of 8192 bytes. -/
def reapChunks : List HCB :=
  [⟨HEAP_MAGIC, HEAP_STATUS_USED, 12, 116⟩, ⟨HEAP_MAGIC, HEAP_STATUS_USED, 128, 1044⟩,
   ⟨HEAP_MAGIC, HEAP_STATUS_USED, 1172, 116⟩, ⟨HEAP_MAGIC, HEAP_STATUS_USED, 1288, 1044⟩,
   ⟨HEAP_MAGIC, HEAP_STATUS_USED, 2332, 116⟩, ⟨HEAP_MAGIC, HEAP_STATUS_USED, 2448, 1044⟩,
   ⟨HEAP_MAGIC, HEAP_STATUS_FREE, 3492, 4700⟩]

/-- A memory that holds a global heap of 8192 bytes at 4096 with the chunks
`reapChunks`. -/
def reapMem : Mem :=
  put_hcb (put_hcb (put_hcb (put_hcb (put_hcb (put_hcb (put_hcb
    (init_heap zeroMem 4096 8192).1
    4108 ⟨HEAP_MAGIC, HEAP_STATUS_USED, 12, 116⟩)
    4224 ⟨HEAP_MAGIC, HEAP_STATUS_USED, 128, 1044⟩)
    5268 ⟨HEAP_MAGIC, HEAP_STATUS_USED, 1172, 116⟩)
    5384 ⟨HEAP_MAGIC, HEAP_STATUS_USED, 1288, 1044⟩)
    6428 ⟨HEAP_MAGIC, HEAP_STATUS_USED, 2332, 116⟩)
    6544 ⟨HEAP_MAGIC, HEAP_STATUS_USED, 2448, 1044⟩)
    7588 ⟨HEAP_MAGIC, HEAP_STATUS_FREE, 3492, 4700⟩

/-- A kernel state with three tasks, at 4128, 5288 and 6448, created in that
order with a stack of 64 bytes, a heap of 1024 bytes and priority 10; the
first two are killed, the third is runnable and is the current task. -/
def reapKernel : Kernel where
  mem := reapMem
  global_heap := 4096
  tcbs := fun p =>
    if p = 4128 then ⟨0, 4276, 64, 4244, 1024, 10, 255, 0, 7, 8, 4360, 5288, 0⟩
    else if p = 5288 then ⟨1, 5436, 64, 5404, 1024, 10, 255, 0, 7, 8, 5520, 6448, 4128⟩
    else if p = 6448 then ⟨2, 6596, 64, 6564, 1024, 10, 0, 0, 7, 8, 6680, 0, 5288⟩
    else zeroTCB
  first := 4128
  last := 6448
  current_task := 6448
  task_number := 3
  task_crit_flag := 0

/-- A kernel state with one task, runnable, of priority 255. -/
def lowestKernel : Kernel where
  mem := zeroMem
  global_heap := 0
  tcbs := fun p =>
    if p = 100 then ⟨0, 0, 0, 0, 0, 255, 0, 0, 0, 0, 0, 0, 0⟩ else zeroTCB
  first := 100
  last := 100
  current_task := 100
  task_number := 1
  task_crit_flag := 0

/-- The kernel state after `init_global_heap` on 8192 bytes at 4096, before
any task is created. -/
def bootKernel : Kernel :=
  ⟨(init_heap zeroMem 4096 8192).1, 4096, fun _ => zeroTCB, 0, 0, 0, 0, 0⟩

/-- The memory of `bootKernel` after `global_alloc(sizeof(TCB))`. -/
def bootTcbMem : Mem := (heap_alloc_take bootKernel.mem 4108 sizeof_TCB).1

/-- The memory after `global_alloc(0xFFFFFFEC)` on `bootTcbMem`. -/
def wrapMem : Mem := (heap_alloc_take bootTcbMem 4224 hugeRequest).1

/-- The memory after `init_heap` on the block that this call returned. -/
def wrapHeapMem : Mem := (init_heap wrapMem 4244 hugeRequest).1

/-! ## The event system (`event.c`)

An `EVENT` and an `EVENT_QUEUE` are objects of the byte memory: events are
blocks of the global heap, the queue of a task is a block of its own heap.
Layout of an `EVENT` (packed): `type` at 0, `subtype` at 4, `sender` at 8,
`destination` at 12, `next` at 16; of an `EVENT_QUEUE`: `num_events` at 0,
`first` at 4, `last` at 8.  The module variable `event_task_tcb` is the
parameter `et` of the functions that use it.  The out-parameters `*type` and
`*subtype` are values that go in and come out. -/

/-- The value of `sizeof(EVENT)`: 20 bytes of packed fields, aligned to 32. -/
def sizeof_EVENT : Nat := 32

def WAIT_FOR_EVENT : Nat := 0x01
def TASK_SUSPENDED : Int := 1
def TASK_ERROR : Nat := 0xFFFFFFFF
def TASK_SUCCESS : Nat := 0

/-- The value of an integer expression as an `int`: 32 bits, two's
complement, with wrap-around. -/
def toInt32 (x : Int) : Int := (x + 2147483648) % 4294967296 - 2147483648

/-- The macro `INCR_STATUS(tcb)`, as a function of `tcb->status`.  For a
status of `INT_MAX` the expression `status + 1` overflows, which C leaves
undefined; the value here is the one of wrap-around arithmetic (the status
stays), so what is said of this function at `INT_MAX` holds of the
embedding only. -/
def INCR_STATUS (s : Int) : Int := if toInt32 (s + 1) > s then toInt32 (s + 1) else s

/-- The macro `DECR_STATUS(tcb)`, as a function of `tcb->status`.  For a
status of `INT_MIN` the expression `status - 1` overflows, which C leaves
undefined; the value here is the one of wrap-around arithmetic (the status
stays), so what is said of this function at `INT_MIN` holds of the
embedding only. -/
def DECR_STATUS (s : Int) : Int := if toInt32 (s - 1) < s then toInt32 (s - 1) else s

/-- The macro `SETFLAG(v, f)` on an `UCHAR`: the new value of `v`. -/
def SETFLAG (v f : Nat) : Nat := (v ||| f) % 256

/-- The macro `CLEARFLAG(v, f)` on an `UCHAR`: the new value of `v`. -/
def CLEARFLAG (v f : Nat) : Nat := (v &&& (0xFFFFFFFF ^^^ f)) % 256

/-- The macro `TESTFLAG(v, f)`. -/
def TESTFLAG (v f : Nat) : Nat := v &&& f

def event_type (m : Mem) (e : Nat) : Nat := read32 m e
def event_subtype (m : Mem) (e : Nat) : Nat := read32 m (e + 4)
def event_sender (m : Mem) (e : Nat) : Nat := read32 m (e + 8)
def event_destination (m : Mem) (e : Nat) : Nat := read32 m (e + 12)
def event_next (m : Mem) (e : Nat) : Nat := read32 m (e + 16)
def eq_num_events (m : Mem) (eq : Nat) : Nat := read32 m eq
def eq_first (m : Mem) (eq : Nat) : Nat := read32 m (eq + 4)
def eq_last (m : Mem) (eq : Nat) : Nat := read32 m (eq + 8)
def set_event_next (m : Mem) (e v : Nat) : Mem := write32 m (e + 16) v
def set_eq_num_events (m : Mem) (eq v : Nat) : Mem := write32 m eq v
def set_eq_first (m : Mem) (eq v : Nat) : Mem := write32 m (eq + 4) v
def set_eq_last (m : Mem) (eq v : Nat) : Mem := write32 m (eq + 8) v

/-- The static function `enqueue_event(eq, event)`. -/
def enqueue_event (m : Mem) (eq event : Nat) : Mem :=
  let m1 :=
    if eq_last m eq = 0 then
      let a := set_eq_last m eq event
      set_eq_first a eq event
    else
      let a := set_event_next m (eq_last m eq) event
      let b := set_eq_last a eq event
      set_event_next b event 0
  set_eq_num_events m1 eq (uadd (eq_num_events m1 eq) 1)

/-- The static function `dequeue_event(eq)`: the memory afterwards and the
returned pointer. -/
def dequeue_event (m : Mem) (eq : Nat) : Mem × Nat :=
  if eq_first m eq = 0 then (m, 0)
  else
    let event := eq_first m eq
    let m1 := set_eq_first m eq (event_next m (eq_first m eq))
    let m2 := if eq_first m1 eq = 0 then set_eq_last m1 eq 0 else m1
    let m3 := set_eq_num_events m2 eq (usub (eq_num_events m2 eq) 1)
    (m3, event)

/-- The static function `allocate_event()`. -/
def allocate_event (hfuel : Nat) (k : Kernel) : Option (Kernel × Nat) :=
  global_alloc hfuel k sizeof_EVENT

/-- The static function `free_event(event)`. -/
def free_event (hfuel : Nat) (k : Kernel) (event : Nat) : Option (Kernel × Nat) :=
  global_free hfuel k event

/-- The function `get_current_task_tcb()`. -/
def get_current_task_tcb (k : Kernel) : Nat := k.current_task

/-- The function `generate_event(tcb, type, subtype)`: the state in which it
calls `yield()` (or returns, on an error), and the code it returns. -/
def generate_event (hfuel : Nat) (k : Kernel) (et tcb type subtype : Nat) :
    Option (Kernel × Nat) :=
  let local_tcb := if tcb = 0 then get_current_task_tcb k else tcb
  match allocate_event hfuel k with
  | none => none
  | some (k1, event) =>
    if event = 0 then some (k1, TASK_ERROR)
    else
      let m1 := write32 k1.mem event type
      let m2 := write32 m1 (event + 4) subtype
      let m3 := write32 m2 (event + 12) local_tcb
      let m4 := write32 m3 (event + 8) (get_current_task_tcb k1)
      let m5 := write32 m4 (event + 16) 0
      let m6 := enqueue_event m5 (k1.tcbs et).event_queue event
      let k2 := setTcb { k1 with mem := m6 } et (fun t => { t with status := TASK_RUNABLE })
      some (k2, TASK_SUCCESS)

/-- The function `check_event(&type, &subtype)`, with the value `sty` of
`*subtype` before the call (`*type` is written on every path): the state in
which it calls `yield()` (or returns, when there is no event), the pointer
it returns, and the values of `*type` and `*subtype` afterwards. -/
def check_event (hfuel : Nat) (k : Kernel) (sty : Nat) :
    Option (Kernel × Nat × Nat × Nat) :=
  let tcb := get_current_task_tcb k
  if eq_num_events k.mem (k.tcbs tcb).event_queue = 0 then some (k, 0, 0, sty)
  else
    let r := dequeue_event k.mem (k.tcbs tcb).event_queue
    let event := r.2
    let sender := event_sender r.1 event
    let ty1 := event_type r.1 event
    let sty1 := event_subtype r.1 event
    match free_event hfuel { k with mem := r.1 } event with
    | none => none
    | some (k2, _) => some (k2, sender, ty1, sty1)

/-- The body of the `while` loop of `wait_event`, up to `yield()`. -/
def wait_event_block (k : Kernel) : Kernel :=
  let tcb := get_current_task_tcb k
  let k1 := setTcb k tcb (fun t => { t with status := INCR_STATUS t.status })
  setTcb k1 tcb (fun t => { t with flags := SETFLAG t.flags WAIT_FOR_EVENT })

/-- What a call of `wait_event` comes to: the task has given up the
processor inside the loop, or the function has returned a sender, a type
and a subtype. -/
inductive WaitOutcome where
  | blocked : Kernel → WaitOutcome
  | received : Kernel → Nat → Nat → Nat → WaitOutcome

/-- The function `wait_event(&type, &subtype)` up to the first `yield()`
that enters the scheduler, or up to its return.  A `yield()` that returns
(the critical flag is set) is followed by the next turn of the loop. -/
def wait_event (hfuel : Nat) : Nat → Kernel → Option WaitOutcome
  | 0, _ => none
  | fuel + 1, k =>
    let tcb := get_current_task_tcb k
    if eq_num_events k.mem (k.tcbs tcb).event_queue = 0 then
      let k1 := wait_event_block k
      match (yield k1).2 with
      | YieldOutcome.entered_scheduler _ => some (WaitOutcome.blocked k1)
      | YieldOutcome.returned => wait_event hfuel fuel k1
    else
      let r := dequeue_event k.mem (k.tcbs tcb).event_queue
      let event := r.2
      let sender := event_sender r.1 event
      let ty1 := event_type r.1 event
      let sty1 := event_subtype r.1 event
      match free_event hfuel { k with mem := r.1 } event with
      | none => none
      | some (k2, _) => some (WaitOutcome.received k2 sender ty1 sty1)

/-- The body of the inner `while` loop of `event_task`, for the event that
`dequeue_event` has returned. -/
def event_task_deliver (k : Kernel) (event : Nat) : Kernel :=
  let dest := event_destination k.mem event
  let k1 :=
    if TESTFLAG (k.tcbs dest).flags WAIT_FOR_EVENT ≠ 0 then
      let a := setTcb k dest (fun t => { t with status := DECR_STATUS t.status })
      setTcb a dest (fun t => { t with flags := CLEARFLAG t.flags WAIT_FOR_EVENT })
    else k
  let m1 := enqueue_event k1.mem (k1.tcbs dest).event_queue event
  { k1 with mem := m1 }

/-- The inner `while` loop of `event_task`. -/
def event_task_loop (et : Nat) : Nat → Kernel → Option Kernel
  | 0, _ => none
  | fuel + 1, k =>
    let r := dequeue_event k.mem (k.tcbs et).event_queue
    if r.2 ≠ 0 then event_task_loop et fuel (event_task_deliver { k with mem := r.1 } r.2)
    else some { k with mem := r.1 }

/-- One turn of the outer loop of `event_task`, up to `yield()`. -/
def event_task_turn (et fuel : Nat) (k : Kernel) : Option Kernel :=
  match event_task_loop et fuel k with
  | none => none
  | some k1 => some (setTcb k1 et (fun t => { t with status := TASK_SUSPENDED }))

/-- The function `task_kill(tcb)`: the state in which it calls
`system_yield(1)`, or the code it returns at once. -/
def task_kill (k : Kernel) (tcb : Nat) : Kernel × Option Nat :=
  let t := if tcb = 0 then get_current_task_tcb k else tcb
  if t = 0 then (k, some TASK_ERROR)
  else (setTcb k t (fun x => { x with status := TASK_KILLED }), none)

/-- The function `task_set_status(tcb, status)`: the state in which it calls
`system_yield(1)`, or the code it returns at once. -/
def task_set_status (k : Kernel) (tcb : Nat) (status : Int) : Kernel × Option Nat :=
  let t := if tcb = 0 then get_current_task_tcb k else tcb
  if t = 0 then (k, some TASK_ERROR)
  else (setTcb k t (fun x => { x with status := status }), none)

/-- The function `task_set_priority(tcb, prio)`: the state in which it calls
`system_yield(1)`, or returns at once. -/
def task_set_priority (k : Kernel) (tcb prio : Nat) : Kernel :=
  let t := if tcb = 0 then get_current_task_tcb k else tcb
  if t = 0 then k
  else setTcb k t (fun x => { x with priority := prio })

/-- The counting loop of `sys_check_stack`, with the counter `i`.  `some none`:
the `return -3` inside the loop; `some (some i)`: the loop was left with the
counter at `i`. -/
def sys_check_stack_loop (m : Mem) (stack ssize : Nat) : Nat → Nat → Option (Option Nat)
  | 0, _ => none
  | fuel + 1, i =>
    if read8 m (stack + i) = TASK_STACK_MAGIC then
      if i > ssize then some none
      else sys_check_stack_loop m stack ssize fuel (i + 1)
    else some (some i)

/-- The function `sys_check_stack(tcb)` of `x86/system.c`; the value returned
is an `int`.  The counter `i` is an `int` too: the embedding follows it as
long as it stays below `2^31`. -/
def sys_check_stack (fuel : Nat) (k : Kernel) (tcb : Nat) : Option Int :=
  let t := if tcb = 0 then get_current_task_tcb k else tcb
  if t = 0 then some (-1)
  else if read8 k.mem (k.tcbs t).stack ≠ TASK_STACK_MAGIC then some (-2)
  else
    match sys_check_stack_loop k.mem (k.tcbs t).stack (k.tcbs t).ssize fuel 0 with
    | none => none
    | some none => some (-3)
    | some (some i) => some (toInt32 (usub (k.tcbs t).ssize i))

/-- A kernel state with the event task at 4128 (priority 0, suspended) and
two tasks, at 5288 and 6448, of priority 10, both runnable; the global heap
is the one of `reapMem`, the event queues of the three tasks (at 4360, 5520
and 6680, inside their heaps) are empty, the task at 6448 is running. -/
def eventKernel : Kernel where
  mem := reapMem
  global_heap := 4096
  tcbs := fun p =>
    if p = 4128 then ⟨0, 4276, 64, 4244, 0, 0, 1, 0, 7, 0, 4360, 5288, 0⟩
    else if p = 5288 then ⟨1, 5436, 64, 5404, 0, 10, 0, 0, 8, 0, 5520, 6448, 4128⟩
    else if p = 6448 then ⟨2, 6596, 64, 6564, 0, 10, 0, 0, 9, 0, 6680, 0, 5288⟩
    else zeroTCB
  first := 4128
  last := 6448
  current_task := 6448
  task_number := 3
  task_crit_flag := 0

/-- The state with the task at `t` running (what the scheduler does when it
dispatches `t`). -/
def running (k : Kernel) (t : Nat) : Kernel := { k with current_task := t }

/-- A kernel state with one task, at 100, whose stack of 8 bytes at 1000 was
filled by `setup_stack_frame` and then used from byte 3 on. -/
def stackKernel : Kernel where
  mem := write8 (fill_bytes zeroMem 1000 TASK_STACK_MAGIC 8) 1003 0
  global_heap := 0
  tcbs := fun p =>
    if p = 100 then ⟨0, 1000, 8, 0, 0, 10, 0, 0, 0, 0, 0, 0, 0⟩ else zeroTCB
  first := 100
  last := 100
  current_task := 100
  task_number := 1
  task_crit_flag := 0

/-- The state reached from `eventKernel` when the task at 5288 blocks in
`wait_event` on its empty queue, the task at 6448 then unblocks it with
`task_set_status(tcb, TASK_RUNABLE)` and sends it an event with
`generate_event(tcb, 1, 100)`: the state in which the event task runs next. -/
def unblockedKernel : Option Kernel :=
  let k1 := wait_event_block (running eventKernel 5288)
  let k2 := (task_set_status (running k1 6448) 5288 TASK_RUNABLE).1
  match generate_event 9 k2 4128 5288 1 100 with
  | none => none
  | some (k3, _) => some (running k3 4128)

/-- Two blocks of memory, at `a` of `la` bytes and at `b` of `lb` bytes, do
not overlap. -/
def Apart (a la b lb : Nat) : Prop := a + la ≤ b ∨ b + lb ≤ a

instance (a la b lb : Nat) : Decidable (Apart a la b lb) := by
  unfold Apart; infer_instance

/-- The events of the list are linked through `next`, from the one at `cur`
up to the link `e`. -/
def EvSeg (m : Mem) : Nat → List Nat → Nat → Prop
  | cur, [], e => cur = e
  | cur, p :: ps, e => cur = p ∧ p ≠ 0 ∧ EvSeg m (event_next m p) ps e

/-- The event queue at `eq` holds the events `evs`, oldest first: the counter
is their number, `first` starts the chain of their `next` links, which ends
with `NULL`, and `last` is the last of them (`NULL` when there is none). -/
structure EvQueue (m : Mem) (eq : Nat) (evs : List Nat) : Prop where
  num : eq_num_events m eq = evs.length
  seg : EvSeg m (eq_first m eq) evs 0
  last : eq_last m eq = evs.getLast?.getD 0

/-- The events of the list are objects of their own: none is at `NULL`, the
20 bytes of the fields of each lie inside the address space and overlap
neither the fields of another one nor the 12 bytes of the queue at `eq`. -/
def EvSep (eq : Nat) (evs : List Nat) : Prop :=
  evs.Pairwise (fun a b => Apart a 20 b 20) ∧
  ∀ e ∈ evs, e ≠ 0 ∧ e + 20 ≤ U32 ∧ Apart e 20 eq 12

/-- A call on an event queue: `enqueue_event(eq, e)` or `dequeue_event(eq)`. -/
inductive QOp where
  | enq : Nat → QOp
  | deq : QOp

/-- A sequence of calls of `enqueue_event` and `dequeue_event` on the queue
at `eq`: the memory afterwards and the pointers that the calls of
`dequeue_event` returned, in order. -/
def runQueue (eq : Nat) : Mem → List QOp → Mem × List Nat
  | m, [] => (m, [])
  | m, QOp.enq e :: ops => runQueue eq (enqueue_event m eq e) ops
  | m, QOp.deq :: ops =>
    ((runQueue eq (dequeue_event m eq).1 ops).1,
      (dequeue_event m eq).2 :: (runQueue eq (dequeue_event m eq).1 ops).2)

/-- The events enqueued by a sequence of calls, in order. -/
def enqueued : List QOp → List Nat
  | [] => []
  | QOp.enq e :: ops => e :: enqueued ops
  | QOp.deq :: ops => enqueued ops

/-- A first-in first-out queue, in the words of the specification: the
content after a sequence of calls and the results of the dequeues, 0 for a
dequeue that found the queue empty. -/
def fifo : List Nat → List QOp → List Nat × List Nat
  | q, [] => (q, [])
  | q, QOp.enq e :: ops => fifo (q ++ [e]) ops
  | [], QOp.deq :: ops => ((fifo [] ops).1, 0 :: (fifo [] ops).2)
  | x :: q, QOp.deq :: ops => ((fifo q ops).1, x :: (fifo q ops).2)

/-- A queue at 100 on zeroed memory and five calls on it: two events in,
three dequeues. -/
def queueOps : List QOp := [QOp.enq 200, QOp.enq 300, QOp.deq, QOp.deq, QOp.deq]

/-- The `len` bytes at `a` lie in the payload (behind the header) of one of
the chunks of the list, which starts at offset `off` of the heap `h`. -/
def InPayloadAt (h : Nat) : Nat → List HCB → Nat → Nat → Prop
  | _, [], _, _ => False
  | off, c :: cs, a, len =>
    (h + off + sizeof_HCB ≤ a ∧ a + len ≤ h + off + c.size) ∨
      InPayloadAt h (off + c.size) cs a len

/-- The `len` bytes at `a` lie in the payload of a chunk in use of the
list. -/
def InUsedAt (h : Nat) : Nat → List HCB → Nat → Nat → Prop
  | _, [], _, _ => False
  | off, c :: cs, a, len =>
    (c.status = HEAP_STATUS_USED ∧ h + off + sizeof_HCB ≤ a ∧ a + len ≤ h + off + c.size) ∨
      InUsedAt h (off + c.size) cs a len

instance (h : Nat) : ∀ (cs : List HCB) (off a len : Nat), Decidable (InUsedAt h off cs a len)
  | [], _, _, _ => isFalse (fun x => x)
  | c :: cs, off, a, len =>
    have := instDecidableInUsedAt h cs (off + c.size) a len
    by unfold InUsedAt; infer_instance

/-- The `len` bytes at `a` lie in the payload of a chunk in use of the heap
`h` whose chunks are `cs`. -/
def InUsed (h : Nat) (cs : List HCB) (a len : Nat) : Prop := InUsedAt h sizeof_HEAP cs a len

instance (h : Nat) (cs : List HCB) (a len : Nat) : Decidable (InUsed h cs a len) := by
  unfold InUsed; infer_instance

/-- A heap of 1024 bytes at 4096 whose only chunk is in use. -/
def fullMem : Mem :=
  put_hcb (init_heap zeroMem 4096 1024).1 4108 ⟨HEAP_MAGIC, HEAP_STATUS_USED, 12, 1012⟩

/-- The only chunk of `fullMem`. -/
def fullChunks : List HCB := [⟨HEAP_MAGIC, HEAP_STATUS_USED, 12, 1012⟩]

/-- A kernel state whose global heap has no free chunk: one task, at 4128,
with its event queue at 4360. -/
def fullKernel : Kernel where
  mem := fullMem
  global_heap := 4096
  tcbs := fun p =>
    if p = 4128 then ⟨0, 4276, 64, 4244, 0, 0, 1, 0, 7, 0, 4360, 0, 0⟩ else zeroTCB
  first := 4128
  last := 4128
  current_task := 4128
  task_number := 1
  task_crit_flag := 0

/-- The chunks of the global heap of `inboxKernel`: those of `reapChunks`,
with a chunk in use for one event cut from the free chunk. -/
def inboxChunks : List HCB :=
  [⟨HEAP_MAGIC, HEAP_STATUS_USED, 12, 116⟩, ⟨HEAP_MAGIC, HEAP_STATUS_USED, 128, 1044⟩,
   ⟨HEAP_MAGIC, HEAP_STATUS_USED, 1172, 116⟩, ⟨HEAP_MAGIC, HEAP_STATUS_USED, 1288, 1044⟩,
   ⟨HEAP_MAGIC, HEAP_STATUS_USED, 2332, 116⟩, ⟨HEAP_MAGIC, HEAP_STATUS_USED, 2448, 1044⟩,
   ⟨HEAP_MAGIC, HEAP_STATUS_USED, 3492, 52⟩, ⟨HEAP_MAGIC, HEAP_STATUS_FREE, 3544, 4648⟩]

/-- The memory of `reapMem` with one event at 7608 (type 1, subtype 100, sent
by the task at 6448 to the task at 5288) in the inbox at 5520 of the task at
5288. -/
def inboxMem : Mem :=
  write32 (write32 (write32
    (write32 (write32 (write32 (write32 (write32
      (put_hcb (put_hcb reapMem
        7588 ⟨HEAP_MAGIC, HEAP_STATUS_USED, 3492, 52⟩)
        7640 ⟨HEAP_MAGIC, HEAP_STATUS_FREE, 3544, 4648⟩)
      7608 1) 7612 100) 7616 6448) 7620 5288) 7624 0)
    5520 1) 5524 7608) 5528 7608

/-- The state of `eventKernel` with the memory `inboxMem`, the task at 5288
running. -/
def inboxKernel : Kernel := { eventKernel with mem := inboxMem, current_task := 5288 }

/-- The inbox of the destination of the event `x`. -/
def destBox (k : Kernel) (x : Nat) : Nat := (k.tcbs (event_destination k.mem x)).event_queue

/-- What a drain of the inbox `qb` of the broker relies on: the inbox is a
sound queue of the events `evs`, which are distinct objects; the inboxes of
their destinations overlap neither the inbox of the broker nor an event, and
two of them are the same or do not overlap; the last event of such an inbox,
if there is one, overlaps neither an event of `evs` nor an inbox. -/
structure DrainInv (k : Kernel) (qb : Nat) (evs : List Nat) : Prop where
  queue : EvQueue k.mem qb evs
  sep : EvSep qb evs
  boxes : ∀ x ∈ evs, Apart (destBox k x) 12 qb 12 ∧
    ∀ y ∈ evs, Apart y 20 (destBox k x) 12 ∧
      (destBox k y = destBox k x ∨ Apart (destBox k y) 12 (destBox k x) 12)
  lasts : ∀ x ∈ evs, eq_last k.mem (destBox k x) ≠ 0 →
    Apart (eq_last k.mem (destBox k x)) 20 qb 12 ∧
    ∀ y ∈ evs, Apart y 20 (eq_last k.mem (destBox k x)) 20 ∧
      Apart (eq_last k.mem (destBox k x)) 20 (destBox k y) 12

/-- The `TCB` of a task to which the broker has delivered an event while it
was waiting. -/
def woken (t : TCB) : TCB :=
  { t with status := DECR_STATUS t.status, flags := CLEARFLAG t.flags WAIT_FOR_EVENT }

/-- A memory with two events, at 7608 and 7660, for the task at 5288, in the
inbox at 4360 of the broker. -/
def drainMem : Mem :=
  write32 (write32 (write32 (write32 (write32 (write32 (write32 zeroMem
    7620 5288) 7624 7660) 7672 5288) 7676 0) 4360 2) 4364 7608) 4368 7660

/-- The state of `eventKernel` with the memory `drainMem`, the broker
running and the task at 5288 waiting for an event. -/
def drainKernel : Kernel :=
  setTcb { eventKernel with mem := drainMem, current_task := 4128 } 5288
    (fun t => { t with status := 1, flags := 1 })

/-- One turn of the inner loop of `event_task` that finds an event: the event
is taken from the inbox of the broker and delivered. -/
def event_task_step (et : Nat) (k : Kernel) : Option Kernel :=
  let r := dequeue_event k.mem (k.tcbs et).event_queue
  if r.2 ≠ 0 then some (event_task_deliver { k with mem := r.1 } r.2) else none

/-- The end of a turn of the outer loop of `event_task`: `dequeue_event`
returns NULL and the broker sets its status to `TASK_SUSPENDED` (and calls
`yield()`). -/
def event_task_suspend (et : Nat) (k : Kernel) : Option Kernel :=
  let r := dequeue_event k.mem (k.tcbs et).event_queue
  if r.2 ≠ 0 then none
  else some (setTcb { k with mem := r.1 } et (fun t => { t with status := TASK_SUSPENDED }))

/-- The state in which a call of `wait_event` has left the kernel. -/
def waitState : WaitOutcome → Kernel
  | WaitOutcome.blocked k => k
  | WaitOutcome.received k _ _ _ => k

/-- The task on which `task_kill(tcb)`, `task_set_status(tcb, ..)` and
`task_set_priority(tcb, ..)` act: the current task when `tcb` is NULL. -/
def callTarget (k : Kernel) (tcb : Nat) : Nat := if tcb = 0 then get_current_task_tcb k else tcb

/-- The steps of the kernel: the system calls, made by the current task, the
steps of the broker and the turns of the scheduler. -/
inductive Call where
  | create (hfuel saved entry arg stksize hsize prio : Nat) : Call
  | kill (tcb : Nat) : Call
  | set_status (tcb : Nat) (status : Int) : Call
  | set_priority (tcb prio : Nat) : Call
  | generate (hfuel tcb type subtype : Nat) : Call
  | check (hfuel sty : Nat) : Call
  | wait (hfuel fuel : Nat) : Call
  | deliver : Call
  | suspend : Call
  | sched (fuel hfuel : Nat) : Call

/-- The state after a step (for a system call: the state in which it yields
or returns), `none` when the step does not apply or runs out of fuel.  The
broker is the task at `et`. -/
def callResult (et : Nat) (k : Kernel) : Call → Option Kernel
  | Call.create hfuel saved entry arg stksize hsize prio =>
    (task_create hfuel saved k entry arg stksize hsize prio).map (fun r => r.1)
  | Call.kill tcb => some (task_kill k tcb).1
  | Call.set_status tcb status => some (task_set_status k tcb status).1
  | Call.set_priority tcb prio => some (task_set_priority k tcb prio)
  | Call.generate hfuel tcb type subtype =>
    (generate_event hfuel k et tcb type subtype).map (fun r => r.1)
  | Call.check hfuel sty => (check_event hfuel k sty).map (fun r => r.1)
  | Call.wait hfuel fuel => (wait_event hfuel fuel k).map waitState
  | Call.deliver => event_task_step et k
  | Call.suspend => event_task_suspend et k
  | Call.sched fuel hfuel => (scheduler_pass fuel hfuel k).map (fun r => r.1)

/-- The states reached from `k` by steps that satisfy the side condition
`ok`. -/
inductive ReachBy (ok : Kernel → Call → Prop) (et : Nat) : Kernel → Kernel → Prop where
  | refl (k : Kernel) : ReachBy ok et k k
  | step (k k1 k2 : Kernel) (c : Call) : ReachBy ok et k k1 → ok k1 c →
      callResult et k1 c = some k2 → ReachBy ok et k k2

/-- The status and the flags of the task at `t` are the same in both
states. -/
def SameSF (k k2 : Kernel) (t : Nat) : Prop :=
  (k2.tcbs t).status = (k.tcbs t).status ∧ (k2.tcbs t).flags = (k.tcbs t).flags

/-- The chunks of the global heap of `twoKernel`: one block in use that
holds the event queues of the tasks, two events in use, and the free rest. -/
def twoChunks : List HCB :=
  [⟨HEAP_MAGIC, HEAP_STATUS_USED, 12, 3480⟩, ⟨HEAP_MAGIC, HEAP_STATUS_USED, 3492, 52⟩,
   ⟨HEAP_MAGIC, HEAP_STATUS_USED, 3544, 52⟩, ⟨HEAP_MAGIC, HEAP_STATUS_FREE, 3596, 4596⟩]

/-- A memory with a global heap of 8192 bytes at 4096 in which the task at
6448 has generated two events: the one at 7608 (type 1, subtype 100) for the
task at 5288, then the one at 7660 (type 2, subtype 200) for itself.  Both
are in the inbox at 4360 of the broker; the inboxes at 5520 and 6680 are
empty. -/
def twoMem : Mem :=
  write32 (write32 (write32
  (write32 (write32 (write32 (write32 (write32
  (write32 (write32 (write32 (write32 (write32
  (put_hcb (put_hcb (put_hcb (put_hcb
    (write32 (write32 zeroMem 4096 8192) 4100 4096)
    4108 ⟨HEAP_MAGIC, HEAP_STATUS_USED, 12, 3480⟩)
    7588 ⟨HEAP_MAGIC, HEAP_STATUS_USED, 3492, 52⟩)
    7640 ⟨HEAP_MAGIC, HEAP_STATUS_USED, 3544, 52⟩)
    7692 ⟨HEAP_MAGIC, HEAP_STATUS_FREE, 3596, 4596⟩)
  7608 1) 7612 100) 7616 6448) 7620 5288) 7624 7660)
  7660 2) 7664 200) 7668 6448) 7672 6448) 7676 0)
  4360 2) 4364 7608) 4368 7660

/-- The state with the memory `twoMem`: the broker at 4128 (inbox 4360) has
been made runnable by `generate_event` and is running; the tasks at 5288
(inbox 5520) and 6448 (inbox 6680) are runnable. -/
def twoKernel : Kernel where
  mem := twoMem
  global_heap := 4096
  tcbs := fun p =>
    if p = 4128 then ⟨0, 4276, 64, 4244, 0, 0, 0, 0, 7, 0, 4360, 5288, 0⟩
    else if p = 5288 then ⟨1, 5436, 64, 5404, 0, 10, 0, 0, 8, 0, 5520, 6448, 4128⟩
    else if p = 6448 then ⟨2, 6596, 64, 6564, 0, 10, 0, 0, 9, 0, 6680, 0, 5288⟩
    else zeroTCB
  first := 4128
  last := 6448
  current_task := 4128
  task_number := 3
  task_crit_flag := 0

/-- The broker drains its inbox in `twoKernel`. -/
def staleDrain : Option Kernel := event_task_turn 4128 3 twoKernel

/-- Then the task at 5288 calls `check_event`. -/
def staleCheck : Option (Kernel × Nat × Nat × Nat) :=
  staleDrain.bind (fun k => check_event 5 (running k 5288) 0)

/-- Then the task at 6448 generates a third event (type 3, subtype 300) for
the task at 5288. -/
def staleGenerate : Option (Kernel × Nat) :=
  staleCheck.bind (fun r => generate_event 5 (running r.1 6448) 4128 5288 3 300)

/-- Then the broker drains its inbox again. -/
def staleDrain2 : Option Kernel :=
  staleGenerate.bind (fun r => event_task_turn 4128 3 (running r.1 4128))

/-- Then the task at 5288 calls `check_event` again. -/
def staleCheck2 : Option (Kernel × Nat × Nat × Nat) :=
  staleDrain2.bind (fun k => check_event 5 (running k 5288) 0)

/-- With respect to the state `k0`, the state `k` has the same status and
flags for every task but the one at `tcb`, which has status 0 and no flag. -/
def FreshAt (k0 k : Kernel) (tcb : Nat) : Prop :=
  (∀ t, t ≠ tcb → SameSF k0 k t) ∧ (k.tcbs tcb).status = 0 ∧ (k.tcbs tcb).flags = 0

/-- Every status is a non-negative `int`, and a task that has
`WAIT_FOR_EVENT` set has a status greater than zero. -/
def WaitInv (k : Kernel) : Prop :=
  ∀ t, 0 ≤ (k.tcbs t).status ∧ (k.tcbs t).status ≤ 2147483647 ∧
    (TESTFLAG (k.tcbs t).flags WAIT_FOR_EVENT ≠ 0 → 0 < (k.tcbs t).status)

/-- The side conditions on the steps: `task_set_status` is given a
non-negative `int`, which is not 0 for a task that has `WAIT_FOR_EVENT` set;
the broker does not call `wait_event`; and the status of a task that calls
`wait_event` is below `INT_MAX`, so that `status + 1` in `INCR_STATUS` does
not overflow. -/
def Allowed (et : Nat) (k : Kernel) : Call → Prop
  | Call.set_status tcb status =>
    0 ≤ status ∧ status ≤ 2147483647 ∧
      (TESTFLAG (k.tcbs (callTarget k tcb)).flags WAIT_FOR_EVENT ≠ 0 → 0 < status)
  | Call.wait _ _ => k.current_task ≠ et ∧ (k.tcbs k.current_task).status < 2147483647
  | _ => True

/-- No side condition. -/
def AnyCall (_ : Kernel) (_ : Call) : Prop := True

/-- The task at 5288 calls `wait_event` on its empty inbox in `eventKernel`;
the scheduler then runs; the task it dispatches calls
`task_set_status(5288, TASK_RUNABLE)`. -/
def flagRun : Option Kernel :=
  ((callResult 4128 (running eventKernel 5288) (Call.wait 5 1)).bind
    (fun k => callResult 4128 k (Call.sched 4 5))).bind
    (fun k => callResult 4128 k (Call.set_status 5288 TASK_RUNABLE))

/-- The task at `a` is blocked by one blocking step of `wait_event`: its
status is 1 and `WAIT_FOR_EVENT` is set. -/
def Waiting (k : Kernel) (a : Nat) : Prop :=
  (k.tcbs a).status = 1 ∧ TESTFLAG (k.tcbs a).flags WAIT_FOR_EVENT ≠ 0

/-- The steps that leave the blocked task at `a` alone: no `task_kill` and
no `task_set_status` on it, no call of `wait_event` by it (it does not run),
no delivery of an event addressed to it, and no `task_create` for which
`global_alloc` hands out its `TCB`. -/
def Quiet (et a : Nat) (k : Kernel) : Call → Prop
  | Call.create hfuel _ _ _ _ _ _ =>
    ∀ k1 tcb, global_alloc hfuel k sizeof_TCB = some (k1, tcb) → tcb ≠ a
  | Call.kill tcb => callTarget k tcb ≠ a
  | Call.set_status tcb _ => callTarget k tcb ≠ a
  | Call.wait _ _ => k.current_task ≠ a
  | Call.deliver =>
    event_destination (dequeue_event k.mem (k.tcbs et).event_queue).1
      (dequeue_event k.mem (k.tcbs et).event_queue).2 ≠ a
  | _ => True

/-- The memory of `twoMem` after the broker has taken the first event from
its inbox (`dequeue_event` in the loop of `event_task`). -/
def takenMem : Mem := (dequeue_event twoMem 4360).1

/-- Then the broker has put the event into the empty inbox at 5520 of its
destination (`enqueue_event` in the loop of `event_task`). -/
def staleMem : Mem := enqueue_event takenMem 5520 (dequeue_event twoMem 4360).2

/-- A memory in which the inbox at 4360 of the broker holds one event, at
7608, whose destination is the broker (the task at 4128) itself. -/
def selfMem : Mem :=
  write32 (write32 (write32 (write32 (write32 (write32 (write32 (write32 zeroMem
    7608 1) 7612 100) 7616 6448) 7620 4128) 7624 0) 4360 1) 4364 7608) 4368 7608

/-- The state of `eventKernel` with the memory `selfMem`, the broker
running. -/
def selfKernel : Kernel := { eventKernel with mem := selfMem, current_task := 4128 }

/-- A stack of 8 bytes at 1000 that has never been used: all its bytes are
`TASK_STACK_MAGIC`.  The byte behind it, at 1008, holds `b8`, and the next
one `b9`. -/
def freshStackKernel (b8 b9 : Nat) : Kernel where
  mem := write8 (write8 (fill_bytes zeroMem 1000 TASK_STACK_MAGIC 8) 1008 b8) 1009 b9
  global_heap := 0
  tcbs := fun p =>
    if p = 100 then ⟨0, 1000, 8, 0, 0, 10, 0, 0, 0, 0, 0, 0, 0⟩ else zeroTCB
  first := 100
  last := 100
  current_task := 100
  task_number := 1
  task_crit_flag := 0

/-- The first loop of `copy_memory`: `*wbufd++ = *wbufs++` for `k` words. -/
def copy_words (m : Mem) (wbufd wbufs : Nat) : Nat → Mem
  | 0 => m
  | k + 1 =>
    write32 (copy_words m wbufd wbufs k) (wbufd + 4 * k)
      (read32 (copy_words m wbufd wbufs k) (wbufs + 4 * k))

/-- The second loop of `copy_memory`: `*cbufd++ = *cbufs++` for `k` bytes. -/
def copy_bytes (m : Mem) (cbufd cbufs : Nat) : Nat → Mem
  | 0 => m
  | k + 1 =>
    write8 (copy_bytes m cbufd cbufs k) (cbufd + k) (read8 (copy_bytes m cbufd cbufs k) (cbufs + k))

/-- The function `copy_memory(dest, src, size)` of `util.c`. -/
def copy_memory (m : Mem) (dest src size : Nat) : Mem :=
  let maxword := size / 4
  let remainder := size % 4
  let wbufd := dest
  let wbufs := src
  let cbufd := wbufd + 4 * maxword
  let cbufs := wbufs + 4 * maxword
  copy_bytes (copy_words m wbufd wbufs maxword) cbufd cbufs remainder

/-- A plain copy of `n` bytes from `src` to `dest`, one byte at a time, in
the words of the specification. -/
def plain_copy (m : Mem) (dest src : Nat) : Nat → Mem
  | 0 => m
  | k + 1 => write8 (plain_copy m dest src k) (dest + k) (read8 (plain_copy m dest src k) (src + k))

/-- The stress scenario on a fresh heap of 1024 bytes at 4096: allocations
of 16, 400, 16 and 400 bytes, then the release of both blocks of 16 bytes,
then an allocation of 16 bytes.  The value is the memory at the end and the
pointers and codes returned, in order. -/
def stressRun : Option (Mem × List Nat) :=
  (heap_alloc 8 freshMem 4096 16).bind (fun r1 =>
  (heap_alloc 8 r1.1 4096 400).bind (fun r2 =>
  (heap_alloc 8 r2.1 4096 16).bind (fun r3 =>
  (heap_alloc 8 r3.1 4096 400).bind (fun r4 =>
  (heap_free 8 r4.1 4096 r1.2).bind (fun r5 =>
  (heap_free 8 r5.1 4096 r3.2).bind (fun r6 =>
  (heap_alloc 8 r6.1 4096 16).bind (fun r7 =>
    some (r7.1, [r1.2, r2.2, r3.2, r4.2, r5.2, r6.2, r7.2]))))))))

/-- Every task of the list has a number below the counter `task_number`. -/
def NumbersBelow (k : Kernel) (L : List Nat) : Prop :=
  ∀ t ∈ L, (k.tcbs t).task_number < k.task_number

/-- The chunk chain of the heap of a task that `task_create(entry, arg,
stksize, hsize, prio)` has made, in the words of the specification: a USED
chunk for the stack, of size `stksize + sizeof(HCB)`; a USED chunk for the
event inbox; and, when the space after the stack exceeds what the inbox
takes by more than `HEAP_MIN_NODE_SIZE`, a FREE chunk that holds the rest
(the inbox chunk takes all of it otherwise). -/
def taskHeapChunks (stksize hsize : Nat) : List HCB :=
  if hsize - (stksize + 32) > sizeof_EVENT_QUEUE + sizeof_HCB + HEAP_MIN_NODE_SIZE then
    [⟨HEAP_MAGIC, HEAP_STATUS_USED, sizeof_HEAP, stksize + sizeof_HCB⟩,
      ⟨HEAP_MAGIC, HEAP_STATUS_USED, stksize + 32, sizeof_EVENT_QUEUE + sizeof_HCB⟩,
      ⟨HEAP_MAGIC, HEAP_STATUS_FREE, stksize + 64, hsize - (stksize + 64)⟩]
  else
    [⟨HEAP_MAGIC, HEAP_STATUS_USED, sizeof_HEAP, stksize + sizeof_HCB⟩,
      ⟨HEAP_MAGIC, HEAP_STATUS_USED, stksize + 32, hsize - (stksize + 32)⟩]

/-- The bytes at `a` are in the payload of a chunk of the global heap and
hold what they hold in the state `k0`. -/
def KeepsPayload (k0 : Kernel) (a len : Nat) (k : Kernel) : Prop :=
  k.global_heap = k0.global_heap ∧
  ∃ cs, HeapInv k.mem k.global_heap cs ∧ InPayloadAt k.global_heap sizeof_HEAP cs a len ∧
    ∀ x, a ≤ x → x < a + len → k.mem x = k0.mem x

/-- The memory of the kernel is in order: the global heap satisfies the
invariants of the heap manager with the chunks `cs`; the tasks `L` are a
well-formed task list, the broker is one of them, each of them is a block in
use of the global heap and its inbox lies in the payload of a chunk in use;
the inboxes of two tasks do not overlap; an inbox whose counter is not 0 has
a first event; the first event of an inbox is a block in use, the first and
the last event of an inbox overlap no inbox; and the first event of the
inbox of the broker is addressed to a task of the list other than the
broker. -/
structure MemSafe (et : Nat) (k : Kernel) (cs : List HCB) (L : List Nat) : Prop where
  heap : HeapInv k.mem k.global_heap cs
  tasks : TaskList k L
  broker : et ∈ L
  owns : ∀ t ∈ L, Live k.global_heap cs t
  boxes : ∀ t ∈ L, InUsed k.global_heap cs (k.tcbs t).event_queue 12
  apart : ∀ a ∈ L, ∀ b ∈ L, a ≠ b →
    Apart (k.tcbs a).event_queue 12 (k.tcbs b).event_queue 12
  counts : ∀ a ∈ L, eq_num_events k.mem (k.tcbs a).event_queue ≠ 0 →
    eq_first k.mem (k.tcbs a).event_queue ≠ 0
  firsts : ∀ a ∈ L, eq_first k.mem (k.tcbs a).event_queue ≠ 0 →
    Live k.global_heap cs (eq_first k.mem (k.tcbs a).event_queue) ∧
    ∀ b ∈ L, Apart (eq_first k.mem (k.tcbs a).event_queue) 32 (k.tcbs b).event_queue 12
  lasts : ∀ a ∈ L, eq_last k.mem (k.tcbs a).event_queue ≠ 0 →
    ∀ b ∈ L, Apart (eq_last k.mem (k.tcbs a).event_queue) 32 (k.tcbs b).event_queue 12
  dests : eq_first k.mem (k.tcbs et).event_queue ≠ 0 →
    event_destination k.mem (eq_first k.mem (k.tcbs et).event_queue) ∈ L ∧
    event_destination k.mem (eq_first k.mem (k.tcbs et).event_queue) ≠ et

/-- What a step needs besides: fuel for the loops of the heap manager (more
than the number of chunks), sizes that do not wrap around for `task_create`,
and, for a turn of the scheduler, that the tasks own their blocks
(`HeapOwns`). -/
def StepFuel (k : Kernel) (cs : List HCB) (L : List Nat) : Call → Prop
  | Call.create hfuel _ _ _ stksize hsize _ =>
    cs.length + 2 < hfuel ∧ stksize + sizeof_HCB + HEAP_MIN_NODE_SIZE < U32 ∧
      hsize + sizeof_HCB + HEAP_MIN_NODE_SIZE < U32
  | Call.generate hfuel _ _ _ => cs.length < hfuel
  | Call.check hfuel _ => cs.length < hfuel
  | Call.wait hfuel _ => cs.length < hfuel
  | Call.sched _ hfuel => HeapOwns hfuel k L
  | _ => True

/-- The side condition of a step in a run that keeps the memory in order:
the step is allowed, and it starts in a state whose memory is in order. -/
def SafeStep (et : Nat) (k : Kernel) (c : Call) : Prop :=
  Allowed et k c ∧ ∃ cs L, MemSafe et k cs L ∧ StepFuel k cs L c

/-- The counter of the inbox of every task of the list that has
`WAIT_FOR_EVENT` set is 0. -/
def InboxInv (k : Kernel) : Prop :=
  ∀ L, TaskList k L → ∀ t ∈ L, TESTFLAG (k.tcbs t).flags WAIT_FOR_EVENT ≠ 0 →
    eq_num_events k.mem (k.tcbs t).event_queue = 0

/-- The state `k2` has the same list links and the same inboxes as `k`. -/
def SameBoxes (k k2 : Kernel) : Prop :=
  k2.first = k.first ∧
  ∀ p, (k2.tcbs p).tnext = (k.tcbs p).tnext ∧ (k2.tcbs p).event_queue = (k.tcbs p).event_queue

/-- With respect to the state `k0`, the state `k` has the same head of the
task list and the same task control blocks but the one at `tcb`. -/
def SameButAt (k0 k : Kernel) (tcb : Nat) : Prop :=
  k.first = k0.first ∧ ∀ q, q ≠ tcb → k.tcbs q = k0.tcbs q

/-! ## Memory lemmas -/

theorem read8_lt (m : Mem) (a : Nat) : read8 m a < 256 := by
  unfold read8; omega

theorem read32_lt (m : Mem) (a : Nat) : read32 m a < U32 := by
  have h0 := read8_lt m a
  have h1 := read8_lt m (a + 1)
  have h2 := read8_lt m (a + 2)
  have h3 := read8_lt m (a + 3)
  unfold read32 U32; omega

theorem write8_same (m : Mem) (a v : Nat) : write8 m a v a = v % 256 := by
  simp [write8]

theorem write8_frame (m : Mem) (a v x : Nat) (h : x ≠ a) : write8 m a v x = m x := by
  simp [write8, h]

theorem write32_frame (m : Mem) (a v x : Nat) (h : x < a ∨ a + 4 ≤ x) :
    write32 m a v x = m x := by
  unfold write32
  rw [write8_frame _ _ _ _ (by omega), write8_frame _ _ _ _ (by omega),
    write8_frame _ _ _ _ (by omega), write8_frame _ _ _ _ (by omega)]

theorem read8_congr (m m' : Mem) (a : Nat) (h : m' a = m a) : read8 m' a = read8 m a := by
  unfold read8; rw [h]

theorem read32_congr (m m' : Mem) (a : Nat)
    (h : ∀ x, a ≤ x → x < a + 4 → m' x = m x) : read32 m' a = read32 m a := by
  unfold read32
  rw [read8_congr m m' a (h _ (by omega) (by omega)),
    read8_congr m m' (a + 1) (h _ (by omega) (by omega)),
    read8_congr m m' (a + 2) (h _ (by omega) (by omega)),
    read8_congr m m' (a + 3) (h _ (by omega) (by omega))]

theorem read8_write8_same (m : Mem) (a v : Nat) : read8 (write8 m a v) a = v % 256 := by
  simp [read8, write8]

theorem read32_write32_same (m : Mem) (a v : Nat) : read32 (write32 m a v) a = v % U32 := by
  simp only [read32, read8, write32, write8, U32]
  simp
  omega

theorem read32_write32_frame (m : Mem) (a v b : Nat) (h : b + 4 ≤ a ∨ a + 4 ≤ b) :
    read32 (write32 m a v) b = read32 m b :=
  read32_congr _ _ _ (fun x h1 h2 => write32_frame m a v x (by omega))

theorem read8_write32_frame (m : Mem) (a v b : Nat) (h : b < a ∨ a + 4 ≤ b) :
    read8 (write32 m a v) b = read8 m b :=
  read8_congr _ _ _ (write32_frame m a v b h)

theorem read32_write8_frame (m : Mem) (a v b : Nat) (h : a < b ∨ b + 4 ≤ a) :
    read32 (write8 m a v) b = read32 m b :=
  read32_congr _ _ _ (fun x h1 h2 => write8_frame m a v x (by omega))

theorem read8_write8_frame (m : Mem) (a v b : Nat) (h : b ≠ a) :
    read8 (write8 m a v) b = read8 m b :=
  read8_congr _ _ _ (write8_frame m a v b h)

theorem clear_words_frame (m : Mem) (wbuf k x : Nat) (h : x < wbuf ∨ wbuf + 4 * k ≤ x) :
    clear_words m wbuf k x = m x := by
  induction k with
  | zero => rfl
  | succ k ih =>
    simp only [clear_words]
    rw [write32_frame _ _ _ _ (by omega), ih (by omega)]

theorem clear_bytes_frame (m : Mem) (cbuf k x : Nat) (h : x < cbuf ∨ cbuf + k ≤ x) :
    clear_bytes m cbuf k x = m x := by
  induction k with
  | zero => rfl
  | succ k ih =>
    simp only [clear_bytes]
    rw [write8_frame _ _ _ _ (by omega), ih (by omega)]

theorem write32_zero_inside (m : Mem) (a x : Nat) (h1 : a ≤ x) (h2 : x < a + 4) :
    write32 m a 0 x = 0 := by
  have hx : x = a ∨ x = a + 1 ∨ x = a + 2 ∨ x = a + 3 := by omega
  rcases hx with rfl | rfl | rfl | rfl <;> simp [write32, write8]

theorem clear_words_zero (m : Mem) (wbuf k x : Nat) (h1 : wbuf ≤ x) (h2 : x < wbuf + 4 * k) :
    clear_words m wbuf k x = 0 := by
  induction k with
  | zero => omega
  | succ k ih =>
    simp only [clear_words]
    by_cases hx : x < wbuf + 4 * k
    · rw [write32_frame _ _ _ _ (by omega), ih hx]
    · exact write32_zero_inside _ _ _ (by omega) (by omega)

theorem clear_bytes_zero (m : Mem) (cbuf k x : Nat) (h1 : cbuf ≤ x) (h2 : x < cbuf + k) :
    clear_bytes m cbuf k x = 0 := by
  induction k with
  | zero => omega
  | succ k ih =>
    simp only [clear_bytes]
    by_cases hx : x < cbuf + k
    · rw [write8_frame _ _ _ _ (by omega), ih hx]
    · have : x = cbuf + k := by omega
      subst this
      simp [write8]

theorem clear_memory_frame (m : Mem) (ptr size x : Nat) (h : x < ptr ∨ ptr + size ≤ x) :
    clear_memory m ptr size x = m x := by
  simp only [clear_memory]
  rw [clear_bytes_frame _ _ _ _ (by omega), clear_words_frame _ _ _ _ (by omega)]

theorem clear_memory_zero (m : Mem) (ptr size x : Nat) (h1 : ptr ≤ x) (h2 : x < ptr + size) :
    clear_memory m ptr size x = 0 := by
  simp only [clear_memory]
  by_cases hx : x < ptr + 4 * (size / 4)
  · rw [clear_bytes_frame _ _ _ _ (by omega)]
    exact clear_words_zero _ _ _ _ h1 hx
  · exact clear_bytes_zero _ _ _ _ (by omega) (by omega)

/-! ## Header fields under stores -/

theorem set_magic_frame (m : Mem) (a v x : Nat) (h : x < a ∨ a + 4 ≤ x) :
    set_magic m a v x = m x := write32_frame m a v x h

theorem set_status_frame (m : Mem) (a v x : Nat) (h : x ≠ a + 4) :
    set_status m a v x = m x := write8_frame m (a + 4) v x h

theorem set_start_frame (m : Mem) (a v x : Nat) (h : x < a + 8 ∨ a + 12 ≤ x) :
    set_start m a v x = m x := write32_frame m (a + 8) v x (by omega)

theorem set_size_frame (m : Mem) (a v x : Nat) (h : x < a + 12 ∨ a + 16 ≤ x) :
    set_size m a v x = m x := write32_frame m (a + 12) v x (by omega)

theorem hcb_magic_congr (m m' : Mem) (a : Nat)
    (h : ∀ x, a ≤ x → x < a + 4 → m' x = m x) : hcb_magic m' a = hcb_magic m a :=
  read32_congr m m' a h

theorem hcb_status_congr (m m' : Mem) (a : Nat) (h : m' (a + 4) = m (a + 4)) :
    hcb_status m' a = hcb_status m a := read8_congr m m' (a + 4) h

theorem hcb_start_congr (m m' : Mem) (a : Nat)
    (h : ∀ x, a + 8 ≤ x → x < a + 12 → m' x = m x) : hcb_start m' a = hcb_start m a :=
  read32_congr m m' (a + 8) (fun x h1 h2 => h x h1 (by omega))

theorem hcb_size_congr (m m' : Mem) (a : Nat)
    (h : ∀ x, a + 12 ≤ x → x < a + 16 → m' x = m x) : hcb_size m' a = hcb_size m a :=
  read32_congr m m' (a + 12) (fun x h1 h2 => h x h1 (by omega))

theorem readHCB_congr (m m' : Mem) (a : Nat)
    (h : ∀ x, a ≤ x → x < a + 16 → m' x = m x) : readHCB m' a = readHCB m a := by
  unfold readHCB
  rw [hcb_magic_congr m m' a (fun x h1 h2 => h x h1 (by omega)),
    hcb_status_congr m m' a (h _ (by omega) (by omega)),
    hcb_start_congr m m' a (fun x h1 h2 => h x (by omega) (by omega)),
    hcb_size_congr m m' a (fun x h1 h2 => h x (by omega) (by omega))]

theorem readHCB_set_magic (m : Mem) (a v : Nat) :
    readHCB (set_magic m a v) a =
      ⟨v % U32, (readHCB m a).status, (readHCB m a).start, (readHCB m a).size⟩ := by
  unfold readHCB
  rw [hcb_status_congr m _ a (set_magic_frame m a v _ (by omega)),
    hcb_start_congr m _ a (fun x h1 h2 => set_magic_frame m a v x (by omega)),
    hcb_size_congr m _ a (fun x h1 h2 => set_magic_frame m a v x (by omega))]
  simp only [hcb_magic, set_magic, read32_write32_same]

theorem readHCB_set_status (m : Mem) (a v : Nat) :
    readHCB (set_status m a v) a =
      ⟨(readHCB m a).magic, v % 256, (readHCB m a).start, (readHCB m a).size⟩ := by
  unfold readHCB
  rw [hcb_magic_congr m _ a (fun x h1 h2 => set_status_frame m a v x (by omega)),
    hcb_start_congr m _ a (fun x h1 h2 => set_status_frame m a v x (by omega)),
    hcb_size_congr m _ a (fun x h1 h2 => set_status_frame m a v x (by omega))]
  simp only [hcb_status, set_status, read8_write8_same]

theorem readHCB_set_start (m : Mem) (a v : Nat) :
    readHCB (set_start m a v) a =
      ⟨(readHCB m a).magic, (readHCB m a).status, v % U32, (readHCB m a).size⟩ := by
  unfold readHCB
  rw [hcb_magic_congr m _ a (fun x h1 h2 => set_start_frame m a v x (by omega)),
    hcb_status_congr m _ a (set_start_frame m a v _ (by omega)),
    hcb_size_congr m _ a (fun x h1 h2 => set_start_frame m a v x (by omega))]
  simp only [hcb_start, set_start, read32_write32_same]

theorem readHCB_set_size (m : Mem) (a v : Nat) :
    readHCB (set_size m a v) a =
      ⟨(readHCB m a).magic, (readHCB m a).status, (readHCB m a).start, v % U32⟩ := by
  unfold readHCB
  rw [hcb_magic_congr m _ a (fun x h1 h2 => set_size_frame m a v x (by omega)),
    hcb_status_congr m _ a (set_size_frame m a v _ (by omega)),
    hcb_start_congr m _ a (fun x h1 h2 => set_size_frame m a v x (by omega))]
  simp only [hcb_size, set_size, read32_write32_same]

theorem init_heap_ok (m : Mem) (start size : Nat) (h0 : start ≠ 0)
    (hs : ¬ size < HEAP_MIN_SIZE) :
    init_heap m start size =
      (set_status (set_magic (set_start (set_size
        (set_heap_address (set_heap_size m start size) start start)
        (start + sizeof_HEAP) (usub size sizeof_HEAP))
        (start + sizeof_HEAP) sizeof_HEAP)
        (start + sizeof_HEAP) HEAP_MAGIC)
        (start + sizeof_HEAP) HEAP_STATUS_FREE, start) := by
  unfold init_heap
  rw [if_neg h0, if_neg hs]

/-! ## Arithmetic and chain lemmas -/

theorem uadd_eq (a b : Nat) (h : a + b < U32) : uadd a b = a + b := by
  unfold uadd; exact Nat.mod_eq_of_lt h

theorem usub_eq (a b : Nat) (h : b ≤ a) (ha : a < U32) : usub a b = a - b := by
  unfold usub U32 at *; omega

theorem readHCB_size {m : Mem} {a : Nat} {c : HCB} (h : readHCB m a = c) :
    hcb_size m a = c.size := by rw [← h]; rfl

theorem readHCB_status {m : Mem} {a : Nat} {c : HCB} (h : readHCB m a = c) :
    hcb_status m a = c.status := by rw [← h]; rfl

theorem readHCB_start {m : Mem} {a : Nat} {c : HCB} (h : readHCB m a = c) :
    hcb_start m a = c.start := by rw [← h]; rfl

theorem readHCB_magic {m : Mem} {a : Nat} {c : HCB} (h : readHCB m a = c) :
    hcb_magic m a = c.magic := by rw [← h]; rfl

theorem sizeSum_append (xs ys : List HCB) : sizeSum (xs ++ ys) = sizeSum xs + sizeSum ys := by
  induction xs with
  | nil => simp [sizeSum]
  | cons x xs ih => simp [sizeSum, ih]; omega

theorem Chain_append (m : Mem) (h : Nat) (xs ys : List HCB) (off : Nat) :
    Chain m h off (xs ++ ys) ↔ Chain m h off xs ∧ Chain m h (off + sizeSum xs) ys := by
  induction xs generalizing off with
  | nil => simp [Chain, sizeSum]
  | cons x xs ih =>
    have e : off + (x.size + sizeSum xs) = off + x.size + sizeSum xs := by omega
    show readHCB m (h + off) = x ∧ Chain m h (off + x.size) (xs ++ ys) ↔
      (readHCB m (h + off) = x ∧ Chain m h (off + x.size) xs) ∧
        Chain m h (off + (x.size + sizeSum xs)) ys
    rw [ih, e, and_assoc]

/-- The search loop of `heap_alloc` on a chain: it stops at the first chunk
that fits, or leaves the loop at `max_addr` when none does. -/
theorem heap_alloc_loop_chain (m : Mem) (h max_addr n : Nat) (hn : n + sizeof_HCB < U32)
    (hmax : max_addr < U32) :
    ∀ (cs : List HCB) (off fuel : Nat), Chain m h off cs →
      (∀ c ∈ cs, c.size ≠ 0) →
      (∀ c ∈ cs, c.status = HEAP_STATUS_FREE ∨ c.status = HEAP_STATUS_USED) →
      h + off + sizeSum cs = max_addr → cs.length < fuel →
      (∃ pre c post, cs = pre ++ c :: post ∧ (∀ d ∈ pre, ¬ Fits n d) ∧ Fits n c ∧
          h + off + sizeSum pre < max_addr ∧
          heap_alloc_loop m max_addr n fuel (h + off) = some (some (h + off + sizeSum pre))) ∨
      ((∀ d ∈ cs, ¬ Fits n d) ∧
          heap_alloc_loop m max_addr n fuel (h + off) = some (some max_addr)) := by
  intro cs
  induction cs with
  | nil =>
    intro off fuel _ _ _ hsum hfuel
    right
    refine ⟨by simp, ?_⟩
    obtain ⟨f, rfl⟩ : ∃ f, fuel = f + 1 := ⟨fuel - 1, by simp at hfuel; omega⟩
    simp only [sizeSum] at hsum
    simp only [heap_alloc_loop]
    rw [if_neg (by omega)]
    congr 2
  | cons c cs ih =>
    intro off fuel hch hsz hst hsum hfuel
    obtain ⟨f, rfl⟩ : ∃ f, fuel = f + 1 := ⟨fuel - 1, by simp at hfuel; omega⟩
    obtain ⟨hc, hrest⟩ := hch
    have hcsz : c.size ≠ 0 := hsz c (List.mem_cons_self _ _)
    have hcst := hst c (List.mem_cons_self _ _)
    simp only [sizeSum] at hsum
    have hlt : h + off < max_addr := by omega
    have hsize := readHCB_size hc
    have hstatus := readHCB_status hc
    have hadd : uadd n sizeof_HCB = n + sizeof_HCB := uadd_eq _ _ hn
    by_cases hfit : Fits n c
    · left
      refine ⟨[], c, cs, rfl, by simp, hfit, by simpa [sizeSum] using hlt, ?_⟩
      simp only [heap_alloc_loop, sizeSum, Nat.add_zero]
      rw [if_pos hlt, hsize, hstatus, hadd]
      rw [if_neg (by
        rcases hcst with h1 | h1 <;> simp [h1, hcsz, HEAP_STATUS_FREE, HEAP_STATUS_USED])]
      rw [if_pos ⟨hfit.1, hfit.2⟩]
    · have hnext : uadd (h + off) c.size = h + (off + c.size) := by
        rw [uadd_eq _ _ (by omega)]; omega
      have hstep : heap_alloc_loop m max_addr n (f + 1) (h + off) =
          heap_alloc_loop m max_addr n f (h + (off + c.size)) := by
        simp only [heap_alloc_loop]
        rw [if_pos hlt, hsize, hstatus, hadd]
        rw [if_neg (by
          rcases hcst with h1 | h1 <;> simp [h1, hcsz, HEAP_STATUS_FREE, HEAP_STATUS_USED])]
        rw [if_neg (by intro hh; exact hfit ⟨hh.1, hh.2⟩), hnext]
      have hrec := ih (off + c.size) f hrest
        (fun d hd => hsz d (List.mem_cons_of_mem _ hd))
        (fun d hd => hst d (List.mem_cons_of_mem _ hd))
        (by omega) (by simp at hfuel; omega)
      rcases hrec with ⟨pre, x, post, hcs, hpre, hx, hlt2, hloop⟩ | ⟨hnone, hloop⟩
      · left
        refine ⟨c :: pre, x, post, by simp [hcs], ?_, hx, ?_, ?_⟩
        · intro d hd
          rcases List.mem_cons.mp hd with rfl | hd
          · exact hfit
          · exact hpre d hd
        · simp only [sizeSum]; omega
        · rw [hstep, hloop]
          simp only [sizeSum]
          congr 2; omega
      · right
        refine ⟨?_, by rw [hstep, hloop]⟩
        intro d hd
        rcases List.mem_cons.mp hd with rfl | hd
        · exact hfit
        · exact hnone d hd

theorem heap_alloc_take_ptr (m : Mem) (hcb n : Nat) :
    (heap_alloc_take m hcb n).2 = HEAP_HCB_TO_PTR hcb := rfl

/-- The run of `heap_alloc` on a well-formed heap, up to the point where a
node has been chosen. -/
theorem heap_alloc_search (m : Mem) (h : Nat) (cs : List HCB) (n fuel : Nat)
    (hwf : WellFormed m h cs) (hn : n + sizeof_HCB < U32) (hfuel : cs.length < fuel) :
    (∃ pre c post, cs = pre ++ c :: post ∧ (∀ d ∈ pre, ¬ Fits n d) ∧ Fits n c ∧
        heap_alloc fuel m h n =
          some (heap_alloc_take m (h + sizeof_HEAP + sizeSum pre) n)) ∨
    ((∀ c ∈ cs, ¬ Fits n c) ∧ heap_alloc fuel m h n = some (m, 0)) := by
  have hin := hwf.inrange
  have htot := hwf.total
  have hmax : uadd h (heap_size m h) = h + heap_size m h := uadd_eq _ _ hin
  have hfirst : uadd h sizeof_HEAP = h + sizeof_HEAP := by
    rw [uadd_eq _ _ (by omega)]
  have hloop := heap_alloc_loop_chain m h (h + heap_size m h) n hn hin cs sizeof_HEAP fuel
    hwf.chain hwf.sizes hwf.statuses (by omega) hfuel
  unfold heap_alloc
  rw [if_neg hwf.nonnull, if_neg (by rw [hwf.address]; simp)]
  simp only [hmax, hfirst]
  rcases hloop with ⟨pre, c, post, hcs, hpre, hc, hlt, hl⟩ | ⟨hnone, hl⟩
  · left
    refine ⟨pre, c, post, hcs, hpre, hc, ?_⟩
    rw [hl]
    simp only
    rw [if_neg (by omega)]
  · right
    refine ⟨hnone, ?_⟩
    rw [hl]
    simp

/-- C2: on a well-formed heap and for a request `n` with
`n + sizeof(HCB) < 2^32`, `heap_alloc(h, n)` returns (given fuel for one step
per chunk) the payload address, header address plus `sizeof(HCB)`, of the
lowest-address FREE chunk of size at least `n + sizeof(HCB)`; it returns
`NULL` if and only if there is no such chunk, and then it leaves the memory
as it was. -/
theorem heap_alloc_first_fit (m : Mem) (h : Nat) (cs : List HCB) (n fuel : Nat)
    (hwf : WellFormed m h cs) (hn : n + sizeof_HCB < U32) (hfuel : cs.length < fuel) :
    ∃ m' p, heap_alloc fuel m h n = some (m', p) ∧
      (p = 0 ↔ ∀ c ∈ cs, ¬ Fits n c) ∧
      ((∃ pre c post, cs = pre ++ c :: post ∧ (∀ d ∈ pre, ¬ Fits n d) ∧ Fits n c ∧
          p = h + sizeof_HEAP + sizeSum pre + sizeof_HCB) ∨
       ((∀ c ∈ cs, ¬ Fits n c) ∧ p = 0 ∧ m' = m)) := by
  rcases heap_alloc_search m h cs n fuel hwf hn hfuel with
    ⟨pre, c, post, hcs, hpre, hc, hrun⟩ | ⟨hnone, hrun⟩
  · have hin := hwf.inrange
    have htot := hwf.total
    have hsum : sizeSum cs = sizeSum pre + (c.size + sizeSum post) := by
      rw [hcs, sizeSum_append]; rfl
    have hfit := hc.2
    have hp : (heap_alloc_take m (h + sizeof_HEAP + sizeSum pre) n).2 =
        h + sizeof_HEAP + sizeSum pre + sizeof_HCB := by
      rw [heap_alloc_take_ptr]
      unfold HEAP_HCB_TO_PTR
      rw [uadd_eq _ _ (by omega)]
    refine ⟨(heap_alloc_take m (h + sizeof_HEAP + sizeSum pre) n).1,
      h + sizeof_HEAP + sizeSum pre + sizeof_HCB, by rw [hrun, ← hp], ?_,
      Or.inl ⟨pre, c, post, hcs, hpre, hc, rfl⟩⟩
    constructor
    · intro h0; simp [sizeof_HCB] at h0
    · intro hall
      exact absurd hc (hall c (by rw [hcs]; simp))
  · exact ⟨m, 0, hrun, ⟨fun _ => hnone, fun _ => rfl⟩, Or.inr ⟨hnone, rfl, rfl⟩⟩

theorem freshMem_wellFormed : WellFormed freshMem 4096 [freshChunk] :=
  ⟨by decide, by decide, by decide, ⟨by decide, trivial⟩, by decide, by decide, by decide⟩

theorem heap_alloc_first_fit_witness :
    ∃ m' p, heap_alloc 2 freshMem 4096 16 = some (m', p) ∧
      (p = 0 ↔ ∀ c ∈ [freshChunk], ¬ Fits 16 c) ∧
      ((∃ pre c post, [freshChunk] = pre ++ c :: post ∧
          (∀ d ∈ pre, ¬ Fits 16 d) ∧ Fits 16 c ∧
          p = 4096 + sizeof_HEAP + sizeSum pre + sizeof_HCB) ∨
       ((∀ c ∈ [freshChunk], ¬ Fits 16 c) ∧ p = 0 ∧ m' = freshMem)) :=
  heap_alloc_first_fit freshMem 4096 [freshChunk] 16 2
    freshMem_wellFormed (by decide) (by decide)

/-- The fields written by a successful `init_heap`. -/
theorem init_heap_fields (m : Mem) (start size : Nat) (hstart : start < U32)
    (hsize : size < U32) (h0 : start ≠ 0) (hs : ¬ size < HEAP_MIN_SIZE) :
    (init_heap m start size).2 = start ∧
    heap_size (init_heap m start size).1 start = size ∧
    heap_address (init_heap m start size).1 start = start ∧
    readHCB (init_heap m start size).1 (start + sizeof_HEAP) =
      ⟨HEAP_MAGIC, HEAP_STATUS_FREE, sizeof_HEAP, size - sizeof_HEAP⟩ := by
  have hbig : 1024 ≤ size := by simpa [HEAP_MIN_SIZE] using hs
  rw [init_heap_ok m start size h0 hs]
  have hsz : heap_size (set_status (set_magic (set_start (set_size
        (set_heap_address (set_heap_size m start size) start start)
        (start + sizeof_HEAP) (usub size sizeof_HEAP))
        (start + sizeof_HEAP) sizeof_HEAP)
        (start + sizeof_HEAP) HEAP_MAGIC)
        (start + sizeof_HEAP) HEAP_STATUS_FREE) start = size := by
    unfold heap_size
    rw [read32_congr (set_heap_size m start size) _ start, set_heap_size,
      read32_write32_same, Nat.mod_eq_of_lt hsize]
    intro x h1 h2
    simp only [sizeof_HEAP]
    rw [set_status_frame _ _ _ _ (by omega), set_magic_frame _ _ _ _ (by omega),
      set_start_frame _ _ _ _ (by omega), set_size_frame _ _ _ _ (by omega),
      set_heap_address, write32_frame _ _ _ _ (by omega)]
  have had : heap_address (set_status (set_magic (set_start (set_size
        (set_heap_address (set_heap_size m start size) start start)
        (start + sizeof_HEAP) (usub size sizeof_HEAP))
        (start + sizeof_HEAP) sizeof_HEAP)
        (start + sizeof_HEAP) HEAP_MAGIC)
        (start + sizeof_HEAP) HEAP_STATUS_FREE) start = start := by
    unfold heap_address
    rw [read32_congr (set_heap_address (set_heap_size m start size) start start) _ (start + 4),
      set_heap_address, read32_write32_same, Nat.mod_eq_of_lt hstart]
    intro x h1 h2
    simp only [sizeof_HEAP]
    rw [set_status_frame _ _ _ _ (by omega), set_magic_frame _ _ _ _ (by omega),
      set_start_frame _ _ _ _ (by omega), set_size_frame _ _ _ _ (by omega)]
  have hhcb : readHCB (set_status (set_magic (set_start (set_size
        (set_heap_address (set_heap_size m start size) start start)
        (start + sizeof_HEAP) (usub size sizeof_HEAP))
        (start + sizeof_HEAP) sizeof_HEAP)
        (start + sizeof_HEAP) HEAP_MAGIC)
        (start + sizeof_HEAP) HEAP_STATUS_FREE) (start + sizeof_HEAP) =
      ⟨HEAP_MAGIC, HEAP_STATUS_FREE, sizeof_HEAP, size - sizeof_HEAP⟩ := by
    rw [readHCB_set_status, readHCB_set_magic, readHCB_set_start, readHCB_set_size,
      usub_eq _ _ (by simp only [sizeof_HEAP]; omega) hsize]
    simp only [HEAP_MAGIC, HEAP_STATUS_FREE, sizeof_HEAP, U32, HCB.mk.injEq]
    refine ⟨by norm_num, by norm_num, by norm_num, ?_⟩
    unfold U32 at hsize
    omega
  exact ⟨rfl, hsz, had, hhcb⟩

/-- C9: `init_heap(start, size)` returns `NULL` and writes nothing exactly
when `start` is `NULL` or `size < HEAP_MIN_SIZE`; otherwise it returns
`start`, with `heap.size = size`, `heap.address = start` and one chunk: FREE,
at offset `sizeof(HEAP)`, of size `size - sizeof(HEAP)`, with magic
`HEAP_MAGIC`, which reaches the end of the heap. -/
theorem init_heap_spec (m : Mem) (start size : Nat) (hstart : start < U32)
    (hsize : size < U32) :
    ((init_heap m start size).2 = 0 ↔ (start = 0 ∨ size < HEAP_MIN_SIZE)) ∧
    ((start = 0 ∨ size < HEAP_MIN_SIZE) → (init_heap m start size).1 = m) ∧
    (¬ (start = 0 ∨ size < HEAP_MIN_SIZE) →
      (init_heap m start size).2 = start ∧
      heap_size (init_heap m start size).1 start = size ∧
      heap_address (init_heap m start size).1 start = start ∧
      readHCB (init_heap m start size).1 (start + sizeof_HEAP) =
        ⟨HEAP_MAGIC, HEAP_STATUS_FREE, sizeof_HEAP, size - sizeof_HEAP⟩ ∧
      Chain (init_heap m start size).1 start sizeof_HEAP
        [⟨HEAP_MAGIC, HEAP_STATUS_FREE, sizeof_HEAP, size - sizeof_HEAP⟩] ∧
      sizeof_HEAP + (size - sizeof_HEAP) = heap_size (init_heap m start size).1 start) := by
  by_cases h0 : start = 0
  · simp [init_heap, h0]
  by_cases hs : size < HEAP_MIN_SIZE
  · simp [init_heap, h0, hs]
  have hbig : 1024 ≤ size := by simpa [HEAP_MIN_SIZE] using hs
  obtain ⟨h1, h2, h3, h4⟩ := init_heap_fields m start size hstart hsize h0 hs
  refine ⟨by simp [h0, hs, h1], by simp [h0, hs], fun _ => ⟨h1, h2, h3, h4, ⟨h4, trivial⟩, ?_⟩⟩
  rw [h2]
  simp only [sizeof_HEAP]
  omega

theorem init_heap_spec_witness :
    ((init_heap zeroMem 4096 1024).2 = 0 ↔ (4096 = 0 ∨ 1024 < HEAP_MIN_SIZE)) ∧
    ((4096 = 0 ∨ 1024 < HEAP_MIN_SIZE) → (init_heap zeroMem 4096 1024).1 = zeroMem) ∧
    (¬ (4096 = 0 ∨ 1024 < HEAP_MIN_SIZE) →
      (init_heap zeroMem 4096 1024).2 = 4096 ∧
      heap_size (init_heap zeroMem 4096 1024).1 4096 = 1024 ∧
      heap_address (init_heap zeroMem 4096 1024).1 4096 = 4096 ∧
      readHCB (init_heap zeroMem 4096 1024).1 (4096 + sizeof_HEAP) =
        ⟨HEAP_MAGIC, HEAP_STATUS_FREE, sizeof_HEAP, 1024 - sizeof_HEAP⟩ ∧
      Chain (init_heap zeroMem 4096 1024).1 4096 sizeof_HEAP
        [⟨HEAP_MAGIC, HEAP_STATUS_FREE, sizeof_HEAP, 1024 - sizeof_HEAP⟩] ∧
      sizeof_HEAP + (1024 - sizeof_HEAP) = heap_size (init_heap zeroMem 4096 1024).1 4096) :=
  init_heap_spec zeroMem 4096 1024 (by decide) (by decide)

/-! ## `verify_node` and `heap_walk` on valid heaps -/

/-- On every heap that `init_heap` has just set up inside the address
space, `verify_node` rejects the first chunk header with code 2 and
`heap_walk` returns 4. -/
theorem heap_walk_after_init (m : Mem) (start size fuel : Nat) (h0 : start ≠ 0)
    (hs : ¬ size < HEAP_MIN_SIZE) (hin : start + size < U32) :
    verify_node (init_heap m start size).1 start (start + sizeof_HEAP) = 2 ∧
    heap_walk (fuel + 1) (init_heap m start size).1 start = some 4 := by
  have e12 : sizeof_HEAP = 12 := rfl
  have hbig : 1024 ≤ size := by simpa [HEAP_MIN_SIZE] using hs
  simp only [U32] at hin
  obtain ⟨_, h2, h3, h4⟩ := init_heap_fields m start size (by simp only [U32]; omega)
    (by simp only [U32]; omega) h0 hs
  have hv : verify_node (init_heap m start size).1 start (start + sizeof_HEAP) = 2 := by
    unfold verify_node
    rw [readHCB_magic h4, readHCB_start h4]
    rw [if_neg (by simp), if_pos (by simp only [usub, U32, sizeof_HEAP]; omega)]
  refine ⟨hv, ?_⟩
  unfold heap_walk
  rw [if_neg h0, if_neg (by rw [h2]; exact hs), if_neg (by rw [h3]; simp), h2,
    uadd_eq _ _ (by simp only [U32]; omega), uadd_eq _ _ (by simp only [U32]; omega)]
  simp only [heap_walk_loop]
  rw [if_pos (by omega), hv]
  simp

/-- C1: `heap_walk` on a freshly initialised heap.  `init_heap` succeeds on
the 1024-byte region at 4096, and the walk of that heap returns 4 (invalid
node), whatever the fuel: `verify_node` compares `hcb->start`, which is 12,
with `(UINT)h - (UINT)hcb`, which is `2^32 - 12`. -/
theorem heap_walk_fresh_heap_returns_4 :
    (init_heap zeroMem 4096 1024).2 = 4096 ∧
    hcb_start freshMem 4108 = 12 ∧ usub 4096 4108 = 4294967284 ∧
    verify_node freshMem 4096 4108 = 2 ∧
    ∀ fuel, heap_walk (fuel + 1) freshMem 4096 = some 4 :=
  ⟨by decide, by decide, by decide, by decide, fun _ => rfl⟩

/-- C10: `heap_verify_node` on a live pointer.  After `heap_alloc(h, 16)` on
the fresh heap returned 4128, the header before it (at 4108) has magic
`HEAP_MAGIC` and its start index plus the heap address is the header
address, and `heap_verify_node(h, 4128)` returns 2. -/
theorem heap_verify_node_live_pointer_returns_2 :
    heap_alloc 2 freshMem 4096 16 = some (allocMem, 4128) ∧
    HEAP_PTR_TO_HCB 4128 = 4108 ∧
    hcb_magic allocMem 4108 = HEAP_MAGIC ∧
    hcb_start allocMem 4108 + 4096 = 4108 ∧
    heap_verify_node allocMem 4096 4128 = 2 :=
  ⟨rfl, by decide, by decide, by decide, by decide⟩

/-! ## Zero fill -/

/-- C5: `clear_memory(ptr, n)` sets the bytes `ptr[0..n)` to zero and leaves
every other byte as it was; hence after a successful `heap_alloc(h, n)` the
first `n` bytes of the returned payload are zero, whatever the memory held
before. -/
theorem heap_alloc_zero_fill (m : Mem) (n : Nat) :
    (∀ ptr x, clear_memory m ptr n x = if ptr ≤ x ∧ x < ptr + n then 0 else m x) ∧
    (∀ fuel h m' p, heap_alloc fuel m h n = some (m', p) → p ≠ 0 →
      ∀ i, i < n → m' (p + i) = 0) := by
  constructor
  · intro ptr x
    by_cases hx : ptr ≤ x ∧ x < ptr + n
    · rw [if_pos hx]; exact clear_memory_zero m ptr n x hx.1 hx.2
    · rw [if_neg hx]; exact clear_memory_frame m ptr n x (by omega)
  · intro fuel h m' p hrun hp i hi
    unfold heap_alloc at hrun
    split at hrun
    · simp only [Option.some.injEq, Prod.mk.injEq] at hrun; exact absurd hrun.2.symm hp
    split at hrun
    · simp only [Option.some.injEq, Prod.mk.injEq] at hrun; exact absurd hrun.2.symm hp
    simp only at hrun
    split at hrun
    · exact absurd hrun (by simp)
    · simp only [Option.some.injEq, Prod.mk.injEq] at hrun; exact absurd hrun.2.symm hp
    · split at hrun
      · simp only [Option.some.injEq, Prod.mk.injEq] at hrun; exact absurd hrun.2.symm hp
      · simp only [heap_alloc_take, Option.some.injEq, Prod.mk.injEq] at hrun
        obtain ⟨hm, hpp⟩ := hrun
        rw [← hm, ← hpp]
        exact clear_memory_zero _ _ _ _ (by omega) (by omega)

theorem heap_alloc_zero_fill_witness :
    (∀ ptr x, clear_memory freshMem ptr 16 x =
      if ptr ≤ x ∧ x < ptr + 16 then 0 else freshMem x) ∧
    ∀ i, i < 16 → allocMem (4128 + i) = 0 :=
  ⟨(heap_alloc_zero_fill freshMem 16).1,
    (heap_alloc_zero_fill freshMem 16).2 2 4096 allocMem 4128 rfl (by decide)⟩

/-! ## Requests whose size wraps around -/

theorem overflowMem_header : readHCB overflowMem 4108 = ⟨HEAP_MAGIC, HEAP_STATUS_FREE, 12, 0⟩ := by
  have h : readHCB overflowMem 4108 = readHCB (heap_alloc_split freshMem 4108 hugeRequest) 4108 :=
    readHCB_congr _ _ _ (fun x _ h2 => clear_memory_frame _ _ _ _ (Or.inl (by
      show x < HEAP_HCB_TO_PTR 4108
      have : HEAP_HCB_TO_PTR 4108 = 4128 := by decide
      omega)))
  rw [h]
  decide

theorem overflowMem_heap_size : heap_size overflowMem 4096 = 1024 := by
  have h : heap_size overflowMem 4096 = heap_size (heap_alloc_split freshMem 4108 hugeRequest) 4096 :=
    read32_congr _ _ _ (fun x _ h2 => clear_memory_frame _ _ _ _ (Or.inl (by
      show x < HEAP_HCB_TO_PTR 4108
      have : HEAP_HCB_TO_PTR 4108 = 4128 := by decide
      omega)))
  rw [h]
  decide

theorem overflowMem_size : hcb_size overflowMem 4108 = 0 := by
  rw [readHCB_size overflowMem_header]

theorem overflowMem_chain_sum (cs : List HCB) (hc : Chain overflowMem 4096 12 cs) :
    sizeSum cs = 0 := by
  induction cs with
  | nil => rfl
  | cons c cs ih =>
    obtain ⟨h1, h2⟩ := hc
    have hsz : c.size = 0 := by
      rw [← h1]
      exact congrArg HCB.size overflowMem_header
    rw [hsz] at h2
    simp only [sizeSum, hsz, ih h2]

/-- C3: a request whose size plus `sizeof(HCB)` wraps around.  On the fresh
1024-byte heap no FREE chunk has size at least `0xFFFFFFEC + sizeof(HCB)`,
yet `heap_alloc(h, 0xFFFFFFEC)` returns the non-null pointer 4128 and
changes the header of the chunk: its size goes from 1012 to 0. -/
theorem heap_alloc_wrapped_request_not_null :
    WellFormed freshMem 4096 [freshChunk] ∧
    (∀ c ∈ [freshChunk], ¬ Fits hugeRequest c) ∧
    uadd hugeRequest sizeof_HCB = 0 ∧
    heap_alloc 2 freshMem 4096 hugeRequest = some (overflowMem, 4128) ∧
    hcb_size freshMem 4108 = 1012 ∧ hcb_size overflowMem 4108 = 0 :=
  ⟨freshMem_wellFormed, by decide, by decide, rfl, by decide, overflowMem_size⟩

/-- C4: the split decision for a request that wraps around.  On the fresh
heap `heap_alloc(h, 0xFFFFFFEC)` chooses the FREE chunk of size 1012, which
is not larger than `0xFFFFFFEC + sizeof(HCB) + HEAP_MIN_NODE_SIZE`;
afterwards the chunk is FREE, not USED, and its size is 0, not 1012. -/
theorem heap_alloc_wrapped_request_splits :
    readHCB freshMem 4108 = ⟨HEAP_MAGIC, HEAP_STATUS_FREE, 12, 1012⟩ ∧
    ¬ (1012 > hugeRequest + sizeof_HCB + HEAP_MIN_NODE_SIZE) ∧
    heap_alloc 2 freshMem 4096 hugeRequest = some (overflowMem, 4128) ∧
    readHCB overflowMem 4108 = ⟨HEAP_MAGIC, HEAP_STATUS_FREE, 12, 0⟩ :=
  ⟨by decide, by decide, rfl, overflowMem_header⟩

/-- C7: the sum of the chunk sizes after a request that wraps around.  The
fresh heap satisfies the equality (12 + 1012 = 1024); after
`heap_alloc(h, 0xFFFFFFEC)` no chain of chunks from the first header has
sizes that add up to `heap.size - sizeof(HEAP)`. -/
theorem heap_alloc_wrapped_request_breaks_sum :
    (Chain freshMem 4096 sizeof_HEAP [freshChunk] ∧
      sizeof_HEAP + sizeSum [freshChunk] = heap_size freshMem 4096) ∧
    heap_alloc 2 freshMem 4096 hugeRequest = some (overflowMem, 4128) ∧
    ¬ ∃ cs, Chain overflowMem 4096 sizeof_HEAP cs ∧
      sizeof_HEAP + sizeSum cs = heap_size overflowMem 4096 := by
  refine ⟨⟨freshMem_wellFormed.chain, by decide⟩, rfl, ?_⟩
  rintro ⟨cs, hc, hs⟩
  rw [overflowMem_chain_sum cs hc, overflowMem_heap_size] at hs
  exact absurd hs (by decide)

/-- C8: a reachable heap with a zero-size chunk.  The heap `overflowMem` is
reached from a successful `init_heap` by one call `heap_alloc(h, 0xFFFFFFEC)`,
and the first chunk header of its chain has size 0. -/
theorem heap_alloc_wrapped_request_zero_size :
    (init_heap zeroMem 4096 1024) = (freshMem, 4096) ∧
    heap_alloc 2 freshMem 4096 hugeRequest = some (overflowMem, 4128) ∧
    Chain overflowMem 4096 sizeof_HEAP [⟨HEAP_MAGIC, HEAP_STATUS_FREE, 12, 0⟩] ∧
    hcb_size overflowMem 4108 = 0 :=
  ⟨rfl, rfl, ⟨overflowMem_header, trivial⟩, overflowMem_size⟩

/-! ## The merging pass of `heap_free` -/

theorem Chain_congr (m m' : Mem) (h : Nat) :
    ∀ (cs : List HCB) (off : Nat), (∀ c ∈ cs, 16 ≤ c.size) →
      (∀ a, h + off ≤ a → a < h + off + sizeSum cs → m' a = m a) →
      Chain m h off cs → Chain m' h off cs := by
  intro cs
  induction cs with
  | nil => intro _ _ _ _; trivial
  | cons c cs ih =>
    intro off hsz hfr hch
    obtain ⟨hc, hrest⟩ := hch
    have hcsz := hsz c (List.mem_cons_self _ _)
    simp only [sizeSum] at hfr
    refine ⟨?_, ih (off + c.size) (fun d hd => hsz d (List.mem_cons_of_mem _ hd)) ?_ hrest⟩
    · rw [readHCB_congr m m' (h + off) (fun x h1 h2 => hfr x h1 (by omega))]
      exact hc
    · intro a h1 h2
      exact hfr a (by omega) (by omega)

theorem InFreeSize_ge (h : Nat) :
    ∀ (cs : List HCB) (off a : Nat), InFreeSize h off cs a → h + off + 12 ≤ a := by
  intro cs
  induction cs with
  | nil => intro off a hin; exact absurd hin (by simp [InFreeSize])
  | cons c cs ih =>
    intro off a hin
    rcases hin with ⟨_, h1, _⟩ | hin
    · exact h1
    · have := ih (off + c.size) a hin
      omega

theorem mergeRuns_cons_used (c : HCB) (cs : List HCB) (hc : c.status ≠ HEAP_STATUS_FREE) :
    mergeRuns (c :: cs) = c :: mergeRuns cs := by
  simp only [mergeRuns]
  cases mergeRuns cs with
  | nil => rfl
  | cons d ds => simp [hc]

theorem mergeRuns_absorb (f c : HCB) (cs : List HCB) (hf : f.status = HEAP_STATUS_FREE)
    (hc : c.status = HEAP_STATUS_FREE) :
    mergeRuns (f :: c :: cs) = mergeRuns ({ f with size := f.size + c.size } :: cs) := by
  simp only [mergeRuns]
  cases mergeRuns cs with
  | nil => simp [hf, hc]
  | cons d ds =>
    by_cases hd : d.status = HEAP_STATUS_FREE
    · simp [hf, hc, hd, Nat.add_assoc]
    · simp [hf, hc, hd]

theorem mergeRuns_free_used (f c : HCB) (cs : List HCB) (hc : c.status ≠ HEAP_STATUS_FREE) :
    mergeRuns (f :: c :: cs) = f :: c :: mergeRuns cs := by
  have h1 := mergeRuns_cons_used c cs hc
  rw [show mergeRuns (f :: c :: cs) =
    (match mergeRuns (c :: cs) with
      | [] => [f]
      | d :: ds =>
        if f.status = HEAP_STATUS_FREE ∧ d.status = HEAP_STATUS_FREE then
          { f with size := f.size + d.size } :: ds
        else f :: d :: ds) from rfl, h1]
  simp [hc]

theorem mergeRuns_of_nil (c : HCB) (cs : List HCB) (hm : mergeRuns cs = []) :
    mergeRuns (c :: cs) = [c] := by
  simp only [mergeRuns, hm]

theorem mergeRuns_of_cons (c d : HCB) (cs ds : List HCB) (hm : mergeRuns cs = d :: ds) :
    mergeRuns (c :: cs) =
      if c.status = HEAP_STATUS_FREE ∧ d.status = HEAP_STATUS_FREE then
        { c with size := c.size + d.size } :: ds
      else c :: d :: ds := by
  simp only [mergeRuns, hm]

theorem NoAdjacentFree_mergeRuns (cs : List HCB) : NoAdjacentFree (mergeRuns cs) := by
  induction cs with
  | nil => trivial
  | cons c cs ih =>
    cases hm : mergeRuns cs with
    | nil => rw [mergeRuns_of_nil c cs hm]; trivial
    | cons d ds =>
      rw [hm] at ih
      rw [mergeRuns_of_cons c d cs ds hm]
      by_cases hcd : c.status = HEAP_STATUS_FREE ∧ d.status = HEAP_STATUS_FREE
      · rw [if_pos hcd]
        cases ds with
        | nil => trivial
        | cons e es =>
          obtain ⟨h1, h2⟩ := ih
          exact ⟨fun hh => h1 ⟨hcd.2, hh.2⟩, h2⟩
      · rw [if_neg hcd]
        exact ⟨hcd, ih⟩

theorem sizeSum_mergeRuns (cs : List HCB) : sizeSum (mergeRuns cs) = sizeSum cs := by
  induction cs with
  | nil => rfl
  | cons c cs ih =>
    cases hm : mergeRuns cs with
    | nil =>
      rw [mergeRuns_of_nil c cs hm]
      rw [hm] at ih; simp only [sizeSum] at ih ⊢; omega
    | cons d ds =>
      rw [hm] at ih
      rw [mergeRuns_of_cons c d cs ds hm]
      by_cases hcd : c.status = HEAP_STATUS_FREE ∧ d.status = HEAP_STATUS_FREE
      · rw [if_pos hcd]; simp only [sizeSum] at ih ⊢; omega
      · rw [if_neg hcd]; simp only [sizeSum] at ih ⊢; omega

theorem heap_free_loop_end (max_addr fuel : Nat) (m : Mem) (hcb fhcb flag : Nat)
    (h : ¬ hcb < max_addr) : heap_free_loop max_addr (fuel + 1) m hcb fhcb flag = some m := by
  simp only [heap_free_loop]
  rw [if_neg h]

theorem heap_free_loop_used (max_addr fuel : Nat) (m : Mem) (hcb fhcb flag : Nat)
    (h : hcb < max_addr) (hs : hcb_status m hcb ≠ HEAP_STATUS_FREE) :
    heap_free_loop max_addr (fuel + 1) m hcb fhcb flag =
      heap_free_loop max_addr fuel m (uadd hcb (hcb_size m hcb)) fhcb 0 := by
  simp only [heap_free_loop]
  rw [if_pos h, if_neg hs]

theorem heap_free_loop_first (max_addr fuel : Nat) (m : Mem) (hcb fhcb : Nat)
    (h : hcb < max_addr) (hs : hcb_status m hcb = HEAP_STATUS_FREE) :
    heap_free_loop max_addr (fuel + 1) m hcb fhcb 0 =
      heap_free_loop max_addr fuel m (uadd hcb (hcb_size m hcb)) hcb 1 := by
  simp only [heap_free_loop]
  rw [if_pos h, if_pos hs, if_neg (by simp)]

theorem heap_free_loop_merge (max_addr fuel : Nat) (m : Mem) (hcb fhcb : Nat)
    (h : hcb < max_addr) (hs : hcb_status m hcb = HEAP_STATUS_FREE) :
    heap_free_loop max_addr (fuel + 1) m hcb fhcb 1 =
      heap_free_loop max_addr fuel
        (set_size m fhcb (uadd (hcb_size m fhcb) (hcb_size m hcb)))
        (uadd hcb (hcb_size (set_size m fhcb (uadd (hcb_size m fhcb) (hcb_size m hcb))) hcb))
        fhcb 1 := by
  simp only [heap_free_loop]
  rw [if_pos h, if_pos hs, if_pos (by simp)]

/-- The merging loop of `heap_free` on a chain.  First part: entered with
`free_flag = 0`.  Second part: entered with `free_flag = 1` and `fhcb` the
header `f` of a FREE chunk that ends where the cursor stands. -/
theorem heap_free_loop_chain (h max_addr : Nat) (hmax : max_addr < U32) :
    ∀ (rest : List HCB),
      (∀ (m : Mem) (off fuel fhcb : Nat), Chain m h off rest →
        (∀ c ∈ rest, sizeof_HCB ≤ c.size) →
        h + off + sizeSum rest = max_addr → rest.length < fuel →
        ∃ m', heap_free_loop max_addr fuel m (h + off) fhcb 0 = some m' ∧
          Chain m' h off (mergeRuns rest) ∧
          ∀ a, ¬ InFreeSize h off rest a → m' a = m a) ∧
      (∀ (m : Mem) (off fuel foff : Nat) (f : HCB), Chain m h off rest →
        (∀ c ∈ rest, sizeof_HCB ≤ c.size) →
        h + off + sizeSum rest = max_addr → rest.length < fuel →
        readHCB m (h + foff) = f → f.status = HEAP_STATUS_FREE → foff + f.size = off →
        sizeof_HCB ≤ f.size →
        ∃ m', heap_free_loop max_addr fuel m (h + off) (h + foff) 1 = some m' ∧
          Chain m' h foff (mergeRuns (f :: rest)) ∧
          ∀ a, ¬ (h + foff + 12 ≤ a ∧ a < h + foff + 16) → ¬ InFreeSize h off rest a →
            m' a = m a) := by
  intro rest
  induction rest with
  | nil =>
    constructor
    · intro m off fuel fhcb _ _ hsum hfuel
      obtain ⟨k, rfl⟩ : ∃ k, fuel = k + 1 := ⟨fuel - 1, by simp at hfuel; omega⟩
      simp only [sizeSum] at hsum
      exact ⟨m, heap_free_loop_end _ _ _ _ _ _ (by omega), trivial, fun _ _ => rfl⟩
    · intro m off fuel foff f _ _ hsum hfuel hf _ _ _
      obtain ⟨k, rfl⟩ : ∃ k, fuel = k + 1 := ⟨fuel - 1, by simp at hfuel; omega⟩
      simp only [sizeSum] at hsum
      exact ⟨m, heap_free_loop_end _ _ _ _ _ _ (by omega), ⟨hf, trivial⟩, fun _ _ _ => rfl⟩
  | cons c rest ih =>
    obtain ⟨ih0, ih1⟩ := ih
    constructor
    · intro m off fuel fhcb hch hsz hsum hfuel
      obtain ⟨k, rfl⟩ : ∃ k, fuel = k + 1 := ⟨fuel - 1, by simp at hfuel; omega⟩
      obtain ⟨hc, hrest⟩ := hch
      have hcsz : sizeof_HCB ≤ c.size := hsz c (List.mem_cons_self _ _)
      have hsz' : ∀ d ∈ rest, sizeof_HCB ≤ d.size := fun d hd => hsz d (List.mem_cons_of_mem _ hd)
      simp only [sizeSum] at hsum
      simp only [sizeof_HCB] at hcsz
      have hlt : h + off < max_addr := by omega
      have hnext : uadd (h + off) (hcb_size m (h + off)) = h + (off + c.size) := by
        rw [readHCB_size hc, uadd_eq _ _ (by omega)]; omega
      have hk : rest.length < k := by simp at hfuel; omega
      by_cases hfree : c.status = HEAP_STATUS_FREE
      · rw [heap_free_loop_first _ _ _ _ _ hlt (by rw [readHCB_status hc]; exact hfree), hnext]
        obtain ⟨m', hloop, hchain, hframe⟩ :=
          ih1 m (off + c.size) k off c hrest hsz' (by omega) hk hc hfree rfl
            (by simp only [sizeof_HCB]; exact hcsz)
        refine ⟨m', hloop, hchain, ?_⟩
        intro a ha
        exact hframe a (fun hh => ha (Or.inl ⟨hfree, hh.1, hh.2⟩)) (fun hh => ha (Or.inr hh))
      · rw [heap_free_loop_used _ _ _ _ _ _ hlt (by rw [readHCB_status hc]; exact hfree), hnext]
        obtain ⟨m', hloop, hchain, hframe⟩ :=
          ih0 m (off + c.size) k fhcb hrest hsz' (by omega) hk
        refine ⟨m', hloop, ?_, ?_⟩
        · rw [mergeRuns_cons_used c rest hfree]
          refine ⟨?_, hchain⟩
          rw [readHCB_congr m m' (h + off) (fun x h1 h2 => hframe x (fun hin => by
            have := InFreeSize_ge h rest (off + c.size) x hin
            omega))]
          exact hc
        · intro a ha
          exact hframe a (fun hh => ha (Or.inr hh))
    · intro m off fuel foff f hch hsz hsum hfuel hf hfst hfoff hfsz
      obtain ⟨k, rfl⟩ : ∃ k, fuel = k + 1 := ⟨fuel - 1, by simp at hfuel; omega⟩
      obtain ⟨hc, hrest⟩ := hch
      have hcsz : sizeof_HCB ≤ c.size := hsz c (List.mem_cons_self _ _)
      have hsz' : ∀ d ∈ rest, sizeof_HCB ≤ d.size := fun d hd => hsz d (List.mem_cons_of_mem _ hd)
      simp only [sizeSum] at hsum
      simp only [sizeof_HCB] at hcsz hfsz
      have hlt : h + off < max_addr := by omega
      have hk : rest.length < k := by simp at hfuel; omega
      by_cases hfree : c.status = HEAP_STATUS_FREE
      · have hsum2 : uadd (hcb_size m (h + foff)) (hcb_size m (h + off)) = f.size + c.size := by
          rw [readHCB_size hc, readHCB_size hf, uadd_eq _ _ (by omega)]
        have hsame : hcb_size (set_size m (h + foff) (f.size + c.size)) (h + off) = c.size := by
          rw [hcb_size_congr m _ (h + off) (fun x h1 h2 => set_size_frame _ _ _ _ (by omega))]
          exact readHCB_size hc
        rw [heap_free_loop_merge _ _ _ _ _ hlt (by rw [readHCB_status hc]; exact hfree),
          hsum2, hsame, uadd_eq _ _ (by omega)]
        have hrest1 : Chain (set_size m (h + foff) (f.size + c.size)) h (off + c.size) rest :=
          Chain_congr m _ h rest (off + c.size)
            (fun d hd => by have := hsz' d hd; simp only [sizeof_HCB] at this; omega)
            (fun a h1 h2 => set_size_frame _ _ _ _ (by omega)) hrest
        have hf1 : readHCB (set_size m (h + foff) (f.size + c.size)) (h + foff) =
            { f with size := f.size + c.size } := by
          rw [readHCB_set_size, hf, Nat.mod_eq_of_lt (by omega)]
        obtain ⟨m', hloop, hchain, hframe⟩ :=
          ih1 (set_size m (h + foff) (f.size + c.size)) (off + c.size) k foff
            { f with size := f.size + c.size } hrest1 hsz' (by omega) hk hf1 hfst
            (by show foff + (f.size + c.size) = off + c.size; omega)
            (by show sizeof_HCB ≤ f.size + c.size; simp only [sizeof_HCB]; omega)
        refine ⟨m', by rw [← hloop]; congr 1; omega, ?_, ?_⟩
        · rw [mergeRuns_absorb f c rest hfst hfree]
          exact hchain
        · intro a ha1 ha2
          rw [hframe a ha1 (fun hh => ha2 (Or.inr hh))]
          exact set_size_frame _ _ _ _ (by omega)
      · have hnext : uadd (h + off) (hcb_size m (h + off)) = h + (off + c.size) := by
          rw [readHCB_size hc, uadd_eq _ _ (by omega)]; omega
        rw [heap_free_loop_used _ _ _ _ _ _ hlt (by rw [readHCB_status hc]; exact hfree), hnext]
        obtain ⟨m', hloop, hchain, hframe⟩ :=
          ih0 m (off + c.size) k (h + foff) hrest hsz' (by omega) hk
        refine ⟨m', hloop, ?_, ?_⟩
        · rw [mergeRuns_free_used f c rest hfree]
          have hf' : readHCB m' (h + foff) = f := by
            rw [readHCB_congr m m' (h + foff) (fun x h1 h2 => hframe x (fun hin => by
              have := InFreeSize_ge h rest (off + c.size) x hin
              omega))]
            exact hf
          have hc' : readHCB m' (h + off) = c := by
            rw [readHCB_congr m m' (h + off) (fun x h1 h2 => hframe x (fun hin => by
              have := InFreeSize_ge h rest (off + c.size) x hin
              omega))]
            exact hc
          subst hfoff
          exact ⟨hf', hc', hchain⟩
        · intro a _ ha
          exact hframe a (fun hh => ha (Or.inr hh))

theorem mergeRuns_head_status (y d : HCB) (ys ds : List HCB)
    (hm : mergeRuns (y :: ys) = d :: ds) : d.status = y.status := by
  cases hr : mergeRuns ys with
  | nil =>
    rw [mergeRuns_of_nil y ys hr] at hm
    simp only [List.cons.injEq] at hm
    rw [← hm.1]
  | cons e es =>
    rw [mergeRuns_of_cons y e ys es hr] at hm
    split at hm
    · simp only [List.cons.injEq] at hm
      rw [← hm.1]
    · simp only [List.cons.injEq] at hm
      rw [← hm.1]

theorem mergeRuns_eq_nil (cs : List HCB) (hm : mergeRuns cs = []) : cs = [] := by
  cases cs with
  | nil => rfl
  | cons c cs =>
    cases hr : mergeRuns cs with
    | nil => rw [mergeRuns_of_nil c cs hr] at hm; exact absurd hm (by simp)
    | cons e es =>
      rw [mergeRuns_of_cons c e cs es hr] at hm
      split at hm <;> exact absurd hm (by simp)

/-- Merging distributes over a cut that does not separate two FREE chunks:
here the chunk before the cut is not FREE. -/
theorem mergeRuns_append_of_last (us ys : List HCB)
    (hl : ∀ u, us.getLast? = some u → u.status ≠ HEAP_STATUS_FREE) :
    mergeRuns (us ++ ys) = mergeRuns us ++ mergeRuns ys := by
  induction us with
  | nil => rfl
  | cons x us ih =>
    cases us with
    | nil =>
      have hx : x.status ≠ HEAP_STATUS_FREE := hl x rfl
      rw [List.singleton_append, mergeRuns_cons_used x ys hx, mergeRuns_cons_used x [] hx]
      rfl
    | cons z zs =>
      have ih' := ih (fun u hu => hl u (by rw [List.getLast?_cons_cons]; exact hu))
      cases hr : mergeRuns (z :: zs) with
      | nil => exact absurd (mergeRuns_eq_nil _ hr) (by simp)
      | cons d ds =>
        rw [hr] at ih'
        rw [List.cons_append, mergeRuns_of_cons x d _ _ ih', mergeRuns_of_cons x d _ _ hr]
        split <;> rfl

/-- Merging distributes over a cut that does not separate two FREE chunks:
here the chunk after the cut is not FREE. -/
theorem mergeRuns_append_of_head (us ys : List HCB)
    (hh : ∀ d, ys.head? = some d → d.status ≠ HEAP_STATUS_FREE) :
    mergeRuns (us ++ ys) = mergeRuns us ++ mergeRuns ys := by
  induction us with
  | nil => rfl
  | cons x us ih =>
    cases hr : mergeRuns us with
    | nil =>
      have hus := mergeRuns_eq_nil us hr
      subst hus
      cases hy : mergeRuns ys with
      | nil =>
        rw [List.singleton_append, mergeRuns_of_nil x ys hy, mergeRuns_of_nil x [] rfl]
        rfl
      | cons d ds =>
        cases ys with
        | nil => exact absurd hy (by simp [mergeRuns])
        | cons y ys' =>
          have hd : d.status ≠ HEAP_STATUS_FREE := by
            rw [mergeRuns_head_status y d ys' ds hy]
            exact hh y rfl
          rw [List.singleton_append, mergeRuns_of_cons x d _ ds hy, if_neg (fun h => hd h.2),
            mergeRuns_of_nil x [] rfl]
          rfl
    | cons d ds =>
      rw [hr] at ih
      rw [List.cons_append, mergeRuns_of_cons x d _ _ ih, mergeRuns_of_cons x d _ _ hr]
      split <;> rfl

/-- A FREE chunk followed by a run of FREE chunks, the run being maximal to
the right, merges into one chunk whose size is the sum of the sizes. -/
theorem mergeRuns_run (run rest : List HCB) :
    ∀ (f : HCB), f.status = HEAP_STATUS_FREE → (∀ d ∈ run, d.status = HEAP_STATUS_FREE) →
      (∀ d, rest.head? = some d → d.status ≠ HEAP_STATUS_FREE) →
      mergeRuns (f :: run ++ rest) = { f with size := f.size + sizeSum run } :: mergeRuns rest := by
  induction run with
  | nil =>
    intro f hf _ hrest
    simp only [List.cons_append, List.nil_append, sizeSum, Nat.add_zero]
    cases hr : mergeRuns rest with
    | nil => rw [mergeRuns_of_nil f rest hr]
    | cons d ds =>
      rw [mergeRuns_of_cons f d rest ds hr]
      cases rest with
      | nil => exact absurd hr (by simp [mergeRuns])
      | cons y ys =>
        have hd : d.status ≠ HEAP_STATUS_FREE := by
          rw [mergeRuns_head_status y d ys ds hr]
          exact hrest y rfl
        rw [if_neg (fun hh => hd hh.2)]
  | cons r run ih =>
    intro f hf hrun hrest
    have hr : r.status = HEAP_STATUS_FREE := hrun r (List.mem_cons_self _ _)
    rw [List.cons_append, List.cons_append, mergeRuns_absorb f r (run ++ rest) hf hr]
    have := ih { f with size := f.size + r.size } hf
      (fun d hd => hrun d (List.mem_cons_of_mem _ hd)) hrest
    rw [List.cons_append] at this
    rw [this]
    simp only [sizeSum, Nat.add_assoc]

theorem InFreeSize_not_header (h : Nat) (c : HCB) (post : List HCB) :
    ∀ (pre : List HCB) (off a : Nat), (∀ d ∈ pre, 16 ≤ d.size) →
      InFreeSize h off (pre ++ c :: post) a →
      a < h + off + sizeSum pre ∨ h + off + sizeSum pre + 12 ≤ a := by
  intro pre
  induction pre with
  | nil =>
    intro off a _ hin
    right
    have := InFreeSize_ge h (c :: post) off a hin
    simp only [sizeSum]
    omega
  | cons x pre ih =>
    intro off a hsz hin
    have hx := hsz x (List.mem_cons_self _ _)
    simp only [sizeSum]
    rcases hin with ⟨_, _, h2⟩ | hin
    · left; omega
    · rcases ih (off + x.size) a (fun d hd => hsz d (List.mem_cons_of_mem _ hd)) hin with h1 | h1
      · left; omega
      · right; omega

/-- The memory after `hcb->status = HEAP_STATUS_FREE` holds the same chain,
with that chunk FREE. -/
theorem Chain_set_status_free (m : Mem) (h : Nat) (pre post : List HCB) (c : HCB)
    (hfit : HeadersFit (pre ++ c :: post))
    (hch : Chain m h sizeof_HEAP (pre ++ c :: post)) :
    Chain (set_status m (h + sizeof_HEAP + sizeSum pre) HEAP_STATUS_FREE) h sizeof_HEAP
      (pre ++ setFree c :: post) := by
  rw [Chain_append] at hch ⊢
  obtain ⟨hpre, hc, hpost⟩ := hch
  have hsz : ∀ d ∈ pre ++ c :: post, 16 ≤ d.size := fun d hd => by
    have := hfit d hd; simp only [sizeof_HCB] at this; omega
  have hcsz : 16 ≤ c.size := hsz c (by simp)
  refine ⟨?_, ?_, ?_⟩
  · exact Chain_congr m _ h pre sizeof_HEAP (fun d hd => hsz d (by simp [hd]))
      (fun a h1 h2 => set_status_frame _ _ _ _ (by omega)) hpre
  · have e : h + (sizeof_HEAP + sizeSum pre) = h + sizeof_HEAP + sizeSum pre := by omega
    rw [e, readHCB_set_status]
    rw [e] at hc
    rw [hc]
    rfl
  · exact Chain_congr m _ h post _ (fun d hd => hsz d (by simp [hd]))
      (fun a h1 h2 => set_status_frame _ _ _ _ (by
        have : (setFree c).size = c.size := rfl
        omega)) hpost

/-- The run of `heap_free` on a well-formed heap whose chunks hold their
headers, for the payload address of the chunk `c`. -/
theorem heap_free_chain (m : Mem) (h : Nat) (pre post : List HCB) (c : HCB) (fuel : Nat)
    (hwf : WellFormed m h (pre ++ c :: post)) (hfit : HeadersFit (pre ++ c :: post))
    (hfuel : (pre ++ c :: post).length < fuel) :
    ∃ m', heap_free fuel m h (h + sizeof_HEAP + sizeSum pre + sizeof_HCB) = some (m', 0) ∧
      hcb_status m' (h + sizeof_HEAP + sizeSum pre) = HEAP_STATUS_FREE ∧
      Chain m' h sizeof_HEAP (mergeRuns (pre ++ setFree c :: post)) ∧
      (∀ a, a ≠ h + sizeof_HEAP + sizeSum pre + 4 →
        ¬ InFreeSize h sizeof_HEAP (pre ++ setFree c :: post) a → m' a = m a) := by
  have hin := hwf.inrange
  have htot := hwf.total
  have hsum : sizeSum (pre ++ c :: post) = sizeSum pre + (c.size + sizeSum post) := by
    rw [sizeSum_append]; rfl
  have hcsz : sizeof_HCB ≤ c.size := hfit c (by simp)
  simp only [sizeof_HCB, sizeof_HEAP] at hcsz htot
  simp only [U32] at hin
  have hptr : HEAP_PTR_TO_HCB (h + sizeof_HEAP + sizeSum pre + sizeof_HCB) =
      h + sizeof_HEAP + sizeSum pre := by
    simp only [HEAP_PTR_TO_HCB, usub, sizeof_HCB, sizeof_HEAP, U32]
    omega
  have hsize1 : heap_size (set_status m (h + sizeof_HEAP + sizeSum pre) HEAP_STATUS_FREE) h =
      heap_size m h :=
    read32_congr _ _ _ (fun x h1 h2 => set_status_frame _ _ _ _ (by
      simp only [sizeof_HEAP]; omega))
  have hch1 := Chain_set_status_free m h pre post c hfit hwf.chain
  have hsum1 : sizeSum (pre ++ setFree c :: post) = sizeSum (pre ++ c :: post) := by
    rw [sizeSum_append, sizeSum_append]; rfl
  have hfit1 : ∀ d ∈ pre ++ setFree c :: post, sizeof_HCB ≤ d.size := by
    intro d hd
    rcases List.mem_append.mp hd with hd | hd
    · exact hfit d (by simp [hd])
    · rcases List.mem_cons.mp hd with rfl | hd
      · exact hfit c (by simp)
      · exact hfit d (by simp [hd])
  have hlen1 : (pre ++ setFree c :: post).length < fuel := by
    simpa using hfuel
  obtain ⟨m', hloop, hchain, hframe⟩ :=
    (heap_free_loop_chain h (h + heap_size m h) hin (pre ++ setFree c :: post)).1
      (set_status m (h + sizeof_HEAP + sizeSum pre) HEAP_STATUS_FREE) sizeof_HEAP fuel 0
      hch1 hfit1 (by rw [hsum1]; simp only [sizeof_HEAP]; omega) hlen1
  have hrun : heap_free fuel m h (h + sizeof_HEAP + sizeSum pre + sizeof_HCB) = some (m', 0) := by
    unfold heap_free
    simp only [hptr, hsize1]
    rw [uadd_eq h (heap_size m h) hin, uadd_eq h sizeof_HEAP (by
      simp only [sizeof_HEAP, U32]; omega), hloop]
  have hnothdr : ∀ a, h + sizeof_HEAP + sizeSum pre ≤ a → a < h + sizeof_HEAP + sizeSum pre + 12 →
      ¬ InFreeSize h sizeof_HEAP (pre ++ setFree c :: post) a := by
    intro a h1 h2 hh
    have := InFreeSize_not_header h (setFree c) post pre sizeof_HEAP a
      (fun d hd => by
        have := hfit d (by simp [hd]); simp only [sizeof_HCB] at this; omega) hh
    omega
  refine ⟨m', hrun, ?_, hchain, ?_⟩
  · rw [hcb_status_congr _ m' _ (hframe _ (hnothdr _ (by omega) (by omega)))]
    simp only [hcb_status, set_status, read8_write8_same]
    rfl
  · intro a ha hnin
    rw [hframe a hnin]
    exact set_status_frame _ _ _ _ ha

/-- C6: on a well-formed heap whose chunks hold their headers, with any
arrangement of FREE and USED chunks, `heap_free(h, p)` for the payload
address `p` of the chunk `c` (given fuel for one step per chunk) returns 0
and leaves a memory in which: the header of `c` has status FREE; the chain
is the former chain, `c` now FREE, with every run of consecutive FREE chunks
merged (`mergeRuns`); no two adjacent chunks are both FREE; a maximal run of
FREE chunks `f :: run` has become the single chunk `f` with size the sum of
the sizes of the run, every chunk that is not FREE is kept as it is; and no byte
has changed other than the status byte of `c` and the size fields of FREE
chunks. -/
theorem heap_free_coalesces (m : Mem) (h : Nat) (pre post : List HCB) (c : HCB) (fuel : Nat)
    (hwf : WellFormed m h (pre ++ c :: post)) (hfit : HeadersFit (pre ++ c :: post))
    (hfuel : (pre ++ c :: post).length < fuel) :
    ∃ m', heap_free fuel m h (h + sizeof_HEAP + sizeSum pre + sizeof_HCB) = some (m', 0) ∧
      hcb_status m' (h + sizeof_HEAP + sizeSum pre) = HEAP_STATUS_FREE ∧
      Chain m' h sizeof_HEAP (mergeRuns (pre ++ setFree c :: post)) ∧
      NoAdjacentFree (mergeRuns (pre ++ setFree c :: post)) ∧
      (∀ us f run rest, pre ++ setFree c :: post = us ++ (f :: run ++ rest) →
        (∀ u, us.getLast? = some u → u.status ≠ HEAP_STATUS_FREE) →
        f.status = HEAP_STATUS_FREE → (∀ d ∈ run, d.status = HEAP_STATUS_FREE) →
        (∀ d, rest.head? = some d → d.status ≠ HEAP_STATUS_FREE) →
        mergeRuns (pre ++ setFree c :: post) =
          mergeRuns us ++ { f with size := f.size + sizeSum run } :: mergeRuns rest) ∧
      (∀ us u rest, pre ++ setFree c :: post = us ++ u :: rest →
        u.status ≠ HEAP_STATUS_FREE →
        mergeRuns (pre ++ setFree c :: post) = mergeRuns us ++ u :: mergeRuns rest) ∧
      (∀ a, a ≠ h + sizeof_HEAP + sizeSum pre + 4 →
        ¬ InFreeSize h sizeof_HEAP (pre ++ setFree c :: post) a → m' a = m a) := by
  obtain ⟨m', hrun, hst, hchain, hframe⟩ := heap_free_chain m h pre post c fuel hwf hfit hfuel
  refine ⟨m', hrun, hst, hchain, NoAdjacentFree_mergeRuns _, ?_, ?_, hframe⟩
  · intro us f run rest hcs hus hf hrun' hrest
    rw [hcs, mergeRuns_append_of_last us _ hus, mergeRuns_run run rest f hf hrun' hrest]
  · intro us u rest hcs hu
    rw [hcs, mergeRuns_append_of_head us _ (fun d hd => by
      simp only [List.head?_cons, Option.some.injEq] at hd
      rw [← hd]; exact hu), mergeRuns_cons_used u rest hu]

theorem allocMem_wellFormed : WellFormed allocMem 4096 allocChunks :=
  ⟨by decide, by decide, by decide, ⟨by decide, by decide, trivial⟩, by decide, by decide,
    by decide⟩

theorem heap_free_coalesces_witness :
    ∃ m', heap_free 3 allocMem 4096 (4096 + sizeof_HEAP + sizeSum [] + sizeof_HCB) = some (m', 0) ∧
      hcb_status m' (4096 + sizeof_HEAP + sizeSum []) = HEAP_STATUS_FREE ∧
      Chain m' 4096 sizeof_HEAP [freshChunk] ∧
      NoAdjacentFree [freshChunk] :=
  have h := heap_free_coalesces allocMem 4096 [] [⟨HEAP_MAGIC, HEAP_STATUS_FREE, 48, 976⟩]
    ⟨HEAP_MAGIC, HEAP_STATUS_USED, 12, 36⟩ 3 allocMem_wellFormed (by decide) (by decide)
  h.elim fun m' hm => ⟨m', hm.1, hm.2.1, hm.2.2.1, hm.2.2.2.1⟩

/-! ## The split of `heap_alloc` when the request does not wrap around -/

theorem heap_alloc_split_whole (m : Mem) (hcb n : Nat) (c : HCB) (hc : readHCB m hcb = c)
    (hn : n + sizeof_HCB + HEAP_MIN_NODE_SIZE < U32)
    (hsmall : ¬ c.size > n + sizeof_HCB + HEAP_MIN_NODE_SIZE) :
    heap_alloc_split m hcb n = set_status m hcb HEAP_STATUS_USED := by
  have e20 : sizeof_HCB = 20 := rfl
  have e24 : HEAP_MIN_NODE_SIZE = 24 := rfl
  have hsz : hcb_size (set_status m hcb HEAP_STATUS_USED) hcb = c.size := by
    rw [hcb_size_congr m _ hcb (fun x h1 h2 => set_status_frame _ _ _ _ (by omega))]
    exact readHCB_size hc
  simp only [U32] at hn
  have h1 : uadd (uadd n sizeof_HCB) HEAP_MIN_NODE_SIZE =
      n + sizeof_HCB + HEAP_MIN_NODE_SIZE := by
    simp only [uadd, U32]; omega
  unfold heap_alloc_split
  simp only [hsz, h1]
  rw [if_neg hsmall]

theorem heap_alloc_split_large (m : Mem) (hcb n : Nat) (c : HCB) (hc : readHCB m hcb = c)
    (hlarge : c.size > n + sizeof_HCB + HEAP_MIN_NODE_SIZE) (hhi : hcb + c.size < U32) :
    heap_alloc_split m hcb n =
      set_size (set_size (set_start (set_status (set_magic
        (set_status m hcb HEAP_STATUS_USED)
        (hcb + n + sizeof_HCB) HEAP_MAGIC)
        (hcb + n + sizeof_HCB) HEAP_STATUS_FREE)
        (hcb + n + sizeof_HCB) (uadd (uadd c.start n) sizeof_HCB))
        (hcb + n + sizeof_HCB) (c.size - (n + sizeof_HCB)))
        hcb (n + sizeof_HCB) := by
  have e20 : sizeof_HCB = 20 := rfl
  have e24 : HEAP_MIN_NODE_SIZE = 24 := rfl
  have hcl := read32_lt m (hcb + 12)
  have hcsize : hcb_size m hcb = c.size := readHCB_size hc
  have hsz : hcb_size (set_status m hcb HEAP_STATUS_USED) hcb = c.size := by
    rw [hcb_size_congr m _ hcb (fun x h1 h2 => set_status_frame _ _ _ _ (by omega))]
    exact hcsize
  simp only [U32] at hhi hcl
  have hclt : c.size < U32 := by rw [← hcsize]; exact hcl
  have h1 : uadd (n + sizeof_HCB) HEAP_MIN_NODE_SIZE =
      n + sizeof_HCB + HEAP_MIN_NODE_SIZE := by
    simp only [uadd, U32]; omega
  have h2 : uadd n sizeof_HCB = n + sizeof_HCB := by
    simp only [uadd, U32]; omega
  have h3 : uadd (uadd hcb n) sizeof_HCB = hcb + n + sizeof_HCB := by
    simp only [uadd, U32]; omega
  have hst : hcb_start (set_status (set_magic (set_status m hcb HEAP_STATUS_USED)
      (hcb + n + sizeof_HCB) HEAP_MAGIC) (hcb + n + sizeof_HCB) HEAP_STATUS_FREE) hcb =
      c.start := by
    rw [hcb_start_congr m _ hcb (fun x h1 h2 => by
      rw [set_status_frame _ _ _ _ (by omega), set_magic_frame _ _ _ _ (by omega),
        set_status_frame _ _ _ _ (by omega)])]
    exact readHCB_start hc
  have hsz2 : hcb_size (set_start (set_status (set_magic (set_status m hcb HEAP_STATUS_USED)
      (hcb + n + sizeof_HCB) HEAP_MAGIC) (hcb + n + sizeof_HCB) HEAP_STATUS_FREE)
      (hcb + n + sizeof_HCB) (uadd (uadd c.start n) sizeof_HCB)) hcb = c.size := by
    rw [hcb_size_congr m _ hcb (fun x h1 h2 => by
      rw [set_start_frame _ _ _ _ (by omega), set_status_frame _ _ _ _ (by omega),
        set_magic_frame _ _ _ _ (by omega), set_status_frame _ _ _ _ (by omega)])]
    exact hcsize
  have h4 : usub c.size (n + sizeof_HCB) = c.size - (n + sizeof_HCB) :=
    usub_eq _ _ (by omega) hclt
  unfold heap_alloc_split
  simp only [hsz, h1, h2, h3]
  rw [if_pos hlarge]
  simp only [hst, hsz2, h4]

theorem sizeSum_splitChunk (n : Nat) (c : HCB) (hc : n + sizeof_HCB ≤ c.size) :
    sizeSum (splitChunk n c) = c.size := by
  unfold splitChunk
  split
  · simp only [sizeSum]; omega
  · simp only [sizeSum]; omega

/-- The end of `heap_alloc` on a well-formed heap, for a chosen chunk `c`
that fits and a request that does not wrap around: the returned pointer is
the payload address of `c`, the chain afterwards has `splitChunk n c` in the
place of `c`, and no byte outside the chunk `c` has changed. -/
theorem heap_alloc_take_chain (m : Mem) (h : Nat) (pre post : List HCB) (c : HCB) (n : Nat)
    (hwf : WellFormed m h (pre ++ c :: post)) (hfit : HeadersFit (pre ++ c :: post))
    (hc : Fits n c) (hn : n + sizeof_HCB + HEAP_MIN_NODE_SIZE < U32) :
    (heap_alloc_take m (h + sizeof_HEAP + sizeSum pre) n).2 =
        h + sizeof_HEAP + sizeSum pre + sizeof_HCB ∧
    Chain (heap_alloc_take m (h + sizeof_HEAP + sizeSum pre) n).1 h sizeof_HEAP
        (pre ++ splitChunk n c ++ post) ∧
    (∀ a, a < h + sizeof_HEAP + sizeSum pre ∨ h + sizeof_HEAP + sizeSum pre + c.size ≤ a →
        (heap_alloc_take m (h + sizeof_HEAP + sizeSum pre) n).1 a = m a) := by
  have e20 : sizeof_HCB = 20 := rfl
  have e24 : HEAP_MIN_NODE_SIZE = 24 := rfl
  have e12 : sizeof_HEAP = 12 := rfl
  have hin := hwf.inrange
  have htot := hwf.total
  have hsum : sizeSum (pre ++ c :: post) = sizeSum pre + (c.size + sizeSum post) := by
    rw [sizeSum_append]; rfl
  have hcfit := hc.2
  simp only [U32] at hin hn
  have hch := hwf.chain
  rw [Chain_append] at hch
  obtain ⟨hpre, hc0, hpost⟩ := hch
  have e : h + (sizeof_HEAP + sizeSum pre) = h + sizeof_HEAP + sizeSum pre := by omega
  rw [e] at hc0
  have hsz16 : ∀ d ∈ pre ++ c :: post, 16 ≤ d.size := fun d hd => by
    have := hfit d hd; omega
  have hptr : HEAP_HCB_TO_PTR (h + sizeof_HEAP + sizeSum pre) =
      h + sizeof_HEAP + sizeSum pre + sizeof_HCB := by
    unfold HEAP_HCB_TO_PTR
    rw [uadd_eq _ _ (by simp only [U32]; omega)]
  have hhi : h + sizeof_HEAP + sizeSum pre + c.size < U32 := by simp only [U32]; omega
  by_cases hlarge : c.size > n + sizeof_HCB + HEAP_MIN_NODE_SIZE
  · have hsplit := heap_alloc_split_large m _ n c hc0 hlarge hhi
    have hframe : ∀ a, a < h + sizeof_HEAP + sizeSum pre ∨
        h + sizeof_HEAP + sizeSum pre + c.size ≤ a →
        (heap_alloc_take m (h + sizeof_HEAP + sizeSum pre) n).1 a = m a := by
      intro a ha
      simp only [heap_alloc_take, hptr, hsplit]
      rw [clear_memory_frame _ _ _ _ (by omega), set_size_frame _ _ _ _ (by omega),
        set_size_frame _ _ _ _ (by omega), set_start_frame _ _ _ _ (by omega),
        set_status_frame _ _ _ _ (by omega), set_magic_frame _ _ _ _ (by omega),
        set_status_frame _ _ _ _ (by omega)]
    have hfirst : readHCB (heap_alloc_take m (h + sizeof_HEAP + sizeSum pre) n).1
        (h + sizeof_HEAP + sizeSum pre) =
        ⟨c.magic, HEAP_STATUS_USED, c.start, n + sizeof_HCB⟩ := by
      simp only [heap_alloc_take, hptr, hsplit]
      rw [readHCB_congr _ _ _ (fun x h1 h2 => clear_memory_frame _ _ _ _ (by omega)),
        readHCB_set_size,
        readHCB_congr _ _ _ (fun x h1 h2 => by
          rw [set_size_frame _ _ _ _ (by omega), set_start_frame _ _ _ _ (by omega),
            set_status_frame _ _ _ _ (by omega), set_magic_frame _ _ _ _ (by omega)]),
        readHCB_set_status, hc0]
      have hm : (n + sizeof_HCB) % U32 = n + sizeof_HCB :=
        Nat.mod_eq_of_lt (by simp only [U32]; omega)
      simp only [hm]
      rfl
    have hsecond : readHCB (heap_alloc_take m (h + sizeof_HEAP + sizeSum pre) n).1
        (h + sizeof_HEAP + sizeSum pre + n + sizeof_HCB) =
        ⟨HEAP_MAGIC, HEAP_STATUS_FREE, uadd (uadd c.start n) sizeof_HCB,
          c.size - (n + sizeof_HCB)⟩ := by
      simp only [heap_alloc_take, hptr, hsplit]
      rw [readHCB_congr _ _ _ (fun x h1 h2 => by
          rw [clear_memory_frame _ _ _ _ (by omega), set_size_frame _ _ _ _ (by omega)]),
        readHCB_set_size, readHCB_set_start, readHCB_set_status, readHCB_set_magic]
      have hm1 : (c.size - (n + sizeof_HCB)) % U32 = c.size - (n + sizeof_HCB) :=
        Nat.mod_eq_of_lt (by simp only [U32]; omega)
      have hm2 : uadd (uadd c.start n) sizeof_HCB % U32 = uadd (uadd c.start n) sizeof_HCB :=
        Nat.mod_eq_of_lt (by unfold uadd; exact Nat.mod_lt _ (by decide))
      simp only [hm1, hm2]
      rfl
    refine ⟨by rw [heap_alloc_take_ptr, hptr], ?_, hframe⟩
    rw [List.append_assoc, Chain_append]
    refine ⟨Chain_congr m _ h pre sizeof_HEAP (fun d hd => hsz16 d (by simp [hd]))
      (fun a h1 h2 => hframe a (by omega)) hpre, ?_⟩
    unfold splitChunk
    rw [if_pos hlarge]
    refine ⟨by rw [e]; exact hfirst, ?_, ?_⟩
    · have e2 : h + (sizeof_HEAP + sizeSum pre + (n + sizeof_HCB)) =
          h + sizeof_HEAP + sizeSum pre + n + sizeof_HCB := by omega
      show readHCB _ (h + (sizeof_HEAP + sizeSum pre + (n + sizeof_HCB))) = _
      rw [e2]; exact hsecond
    · have e3 : sizeof_HEAP + sizeSum pre + (n + sizeof_HCB) + (c.size - (n + sizeof_HCB)) =
          sizeof_HEAP + sizeSum pre + c.size := by omega
      show Chain _ h (sizeof_HEAP + sizeSum pre + (n + sizeof_HCB) +
        (c.size - (n + sizeof_HCB))) post
      rw [e3]
      exact Chain_congr m _ h post _ (fun d hd => hsz16 d (by simp [hd]))
        (fun a h1 h2 => hframe a (by omega)) hpost
  · have hsplit := heap_alloc_split_whole m _ n c hc0 (by simp only [U32]; omega) hlarge
    have hframe : ∀ a, a < h + sizeof_HEAP + sizeSum pre ∨
        h + sizeof_HEAP + sizeSum pre + c.size ≤ a →
        (heap_alloc_take m (h + sizeof_HEAP + sizeSum pre) n).1 a = m a := by
      intro a ha
      simp only [heap_alloc_take, hptr, hsplit]
      rw [clear_memory_frame _ _ _ _ (by omega), set_status_frame _ _ _ _ (by omega)]
    have hfirst : readHCB (heap_alloc_take m (h + sizeof_HEAP + sizeSum pre) n).1
        (h + sizeof_HEAP + sizeSum pre) = ⟨c.magic, HEAP_STATUS_USED, c.start, c.size⟩ := by
      simp only [heap_alloc_take, hptr, hsplit]
      rw [readHCB_congr _ _ _ (fun x h1 h2 => clear_memory_frame _ _ _ _ (by omega)),
        readHCB_set_status, hc0]
      rfl
    refine ⟨by rw [heap_alloc_take_ptr, hptr], ?_, hframe⟩
    rw [List.append_assoc, Chain_append]
    refine ⟨Chain_congr m _ h pre sizeof_HEAP (fun d hd => hsz16 d (by simp [hd]))
      (fun a h1 h2 => hframe a (by omega)) hpre, ?_⟩
    unfold splitChunk
    rw [if_neg hlarge]
    refine ⟨by rw [e]; exact hfirst, ?_⟩
    show Chain _ h (sizeof_HEAP + sizeSum pre + c.size) post
    exact Chain_congr m _ h post _ (fun d hd => hsz16 d (by simp [hd]))
      (fun a h1 h2 => hframe a (by omega)) hpost

/-! ## Preservation of the invariants by requests that do not wrap around -/

theorem ValidHeaders_append (xs ys : List HCB) (off : Nat) :
    ValidHeaders off (xs ++ ys) ↔ ValidHeaders off xs ∧ ValidHeaders (off + sizeSum xs) ys := by
  induction xs generalizing off with
  | nil => simp [ValidHeaders, sizeSum]
  | cons x xs ih =>
    have e : off + (x.size + sizeSum xs) = off + x.size + sizeSum xs := by omega
    show x.magic = HEAP_MAGIC ∧ x.start = off ∧ ValidHeaders (off + x.size) (xs ++ ys) ↔
      (x.magic = HEAP_MAGIC ∧ x.start = off ∧ ValidHeaders (off + x.size) xs) ∧
        ValidHeaders (off + (x.size + sizeSum xs)) ys
    rw [ih, e]
    tauto

theorem heap_alloc_take_inv (m : Mem) (h : Nat) (pre post : List HCB) (c : HCB) (n : Nat)
    (hinv : HeapInv m h (pre ++ c :: post)) (hc : Fits n c)
    (hn : n + sizeof_HCB + HEAP_MIN_NODE_SIZE < U32) :
    HeapInv (heap_alloc_take m (h + sizeof_HEAP + sizeSum pre) n).1 h
      (pre ++ splitChunk n c ++ post) ∧
    heap_size (heap_alloc_take m (h + sizeof_HEAP + sizeSum pre) n).1 h = heap_size m h := by
  obtain ⟨hwf, hfit, hval⟩ := hinv
  obtain ⟨_, hchain, hframe⟩ := heap_alloc_take_chain m h pre post c n hwf hfit hc hn
  have e20 : sizeof_HCB = 20 := rfl
  have e24 : HEAP_MIN_NODE_SIZE = 24 := rfl
  have e12 : sizeof_HEAP = 12 := rfl
  have hin := hwf.inrange
  have htot := hwf.total
  have hsum : sizeSum (pre ++ c :: post) = sizeSum pre + (c.size + sizeSum post) := by
    rw [sizeSum_append]; rfl
  have hcfit := hc.2
  simp only [U32] at hin hn
  have hsize : heap_size (heap_alloc_take m (h + sizeof_HEAP + sizeSum pre) n).1 h =
      heap_size m h :=
    read32_congr _ _ _ (fun x h1 h2 => hframe x (by omega))
  have haddr : heap_address (heap_alloc_take m (h + sizeof_HEAP + sizeSum pre) n).1 h =
      heap_address m h :=
    read32_congr _ _ _ (fun x h1 h2 => hframe x (by omega))
  have hmem : ∀ d ∈ pre ++ splitChunk n c ++ post,
      d ∈ pre ++ c :: post ∨ d ∈ splitChunk n c := by
    intro d hd
    simp only [List.mem_append, List.mem_cons] at hd ⊢
    tauto
  have hsplit : ∀ d ∈ splitChunk n c, sizeof_HCB ≤ d.size ∧
      (d.status = HEAP_STATUS_FREE ∨ d.status = HEAP_STATUS_USED) := by
    intro d hd
    unfold splitChunk at hd
    split at hd
    · simp only [List.mem_cons, List.mem_singleton, List.not_mem_nil, or_false] at hd
      rcases hd with rfl | rfl
      · exact ⟨by show sizeof_HCB ≤ n + sizeof_HCB; omega, Or.inr rfl⟩
      · exact ⟨by show sizeof_HCB ≤ c.size - (n + sizeof_HCB); omega, Or.inl rfl⟩
    · simp only [List.mem_singleton] at hd
      subst hd
      exact ⟨by show sizeof_HCB ≤ c.size; omega, Or.inr rfl⟩
  refine ⟨⟨⟨hwf.nonnull, by rw [hsize]; exact hwf.inrange, by rw [haddr]; exact hwf.address,
    hchain, ?_, ?_, ?_⟩, ?_, ?_⟩, hsize⟩
  · rw [hsize, ← htot, sizeSum_append, sizeSum_append, sizeSum_splitChunk n c hcfit, hsum]
    omega
  · intro d hd
    rcases hmem d hd with hd | hd
    · exact hwf.sizes d hd
    · have := (hsplit d hd).1; omega
  · intro d hd
    rcases hmem d hd with hd | hd
    · exact hwf.statuses d hd
    · exact (hsplit d hd).2
  · intro d hd
    rcases hmem d hd with hd | hd
    · exact hfit d hd
    · exact (hsplit d hd).1
  · rw [ValidHeaders_append] at hval
    obtain ⟨hv1, hv2, hv3, hv4⟩ := hval
    rw [List.append_assoc, ValidHeaders_append]
    refine ⟨hv1, ?_⟩
    unfold splitChunk
    split
    · refine ⟨hv2, hv3, rfl, ?_, ?_⟩
      · show uadd (uadd c.start n) sizeof_HCB = sizeof_HEAP + sizeSum pre + (n + sizeof_HCB)
        rw [hv3]
        simp only [uadd, U32]
        omega
      · have e3 : sizeof_HEAP + sizeSum pre + (n + sizeof_HCB) + (c.size - (n + sizeof_HCB)) =
            sizeof_HEAP + sizeSum pre + c.size := by omega
        show ValidHeaders (sizeof_HEAP + sizeSum pre + (n + sizeof_HCB) +
          (c.size - (n + sizeof_HCB))) post
        rw [e3]; exact hv4
    · exact ⟨hv2, hv3, hv4⟩

/-- Preservation by `heap_alloc`: on a heap that satisfies the invariants,
a request `n` with `n + sizeof(HCB) + HEAP_MIN_NODE_SIZE < 2^32` returns
(given fuel for one step per chunk) with a heap that satisfies them again
and has the same `heap.size`. -/
theorem heap_alloc_preserves_inv (m : Mem) (h : Nat) (cs : List HCB) (n fuel : Nat)
    (hinv : HeapInv m h cs) (hn : n + sizeof_HCB + HEAP_MIN_NODE_SIZE < U32)
    (hfuel : cs.length < fuel) :
    ∃ m' p cs', heap_alloc fuel m h n = some (m', p) ∧ HeapInv m' h cs' ∧
      heap_size m' h = heap_size m h := by
  have hn' : n + sizeof_HCB < U32 := by
    have e24 : HEAP_MIN_NODE_SIZE = 24 := rfl
    omega
  rcases heap_alloc_search m h cs n fuel hinv.1 hn' hfuel with
    ⟨pre, c, post, hcs, _, hc, hrun⟩ | ⟨_, hrun⟩
  · subst hcs
    obtain ⟨h1, h2⟩ := heap_alloc_take_inv m h pre post c n hinv hc hn
    exact ⟨_, _, _, hrun, h1, h2⟩
  · exact ⟨m, 0, cs, hrun, hinv, rfl⟩

theorem mergeRuns_mem (cs : List HCB) :
    ∀ d ∈ mergeRuns cs, ∃ c ∈ cs, d.status = c.status ∧ c.size ≤ d.size := by
  induction cs with
  | nil => intro d hd; exact absurd hd (by simp [mergeRuns])
  | cons c cs ih =>
    intro d hd
    cases hm : mergeRuns cs with
    | nil =>
      rw [mergeRuns_of_nil c cs hm] at hd
      simp only [List.mem_singleton] at hd
      exact ⟨c, by simp, by rw [hd], by rw [hd]⟩
    | cons e es =>
      rw [hm] at ih
      rw [mergeRuns_of_cons c e cs es hm] at hd
      split at hd
      · rcases List.mem_cons.mp hd with rfl | hd
        · exact ⟨c, by simp, rfl, by show c.size ≤ c.size + e.size; omega⟩
        · obtain ⟨x, hx, h1, h2⟩ := ih d (List.mem_cons_of_mem _ hd)
          exact ⟨x, List.mem_cons_of_mem _ hx, h1, h2⟩
      · rcases List.mem_cons.mp hd with rfl | hd
        · exact ⟨d, by simp, rfl, le_refl _⟩
        · obtain ⟨x, hx, h1, h2⟩ := ih d hd
          exact ⟨x, List.mem_cons_of_mem _ hx, h1, h2⟩

theorem ValidHeaders_mergeRuns (cs : List HCB) :
    ∀ off, ValidHeaders off cs → ValidHeaders off (mergeRuns cs) := by
  induction cs with
  | nil => intro _ _; trivial
  | cons c cs ih =>
    intro off hv
    obtain ⟨h1, h2, h3⟩ := hv
    have ih' := ih (off + c.size) h3
    cases hm : mergeRuns cs with
    | nil => rw [mergeRuns_of_nil c cs hm]; exact ⟨h1, h2, trivial⟩
    | cons e es =>
      rw [hm] at ih'
      rw [mergeRuns_of_cons c e cs es hm]
      split
      · obtain ⟨_, _, h6⟩ := ih'
        refine ⟨h1, h2, ?_⟩
        show ValidHeaders (off + (c.size + e.size)) es
        have e3 : off + (c.size + e.size) = off + c.size + e.size := by omega
        rw [e3]; exact h6
      · exact ⟨h1, h2, ih'⟩

/-- Preservation by `heap_free`: on a heap that satisfies the invariants,
freeing the payload address of one of its chunks returns (given fuel for
one step per chunk) with a heap that satisfies them again and has the same
`heap.size`. -/
theorem heap_free_preserves_inv (m : Mem) (h : Nat) (pre post : List HCB) (c : HCB)
    (fuel : Nat) (hinv : HeapInv m h (pre ++ c :: post))
    (hfuel : (pre ++ c :: post).length < fuel) :
    ∃ m', heap_free fuel m h (h + sizeof_HEAP + sizeSum pre + sizeof_HCB) = some (m', 0) ∧
      HeapInv m' h (mergeRuns (pre ++ setFree c :: post)) ∧
      heap_size m' h = heap_size m h := by
  obtain ⟨hwf, hfit, hval⟩ := hinv
  obtain ⟨m', hrun, _, hchain, hframe⟩ := heap_free_chain m h pre post c fuel hwf hfit hfuel
  have e20 : sizeof_HCB = 20 := rfl
  have e12 : sizeof_HEAP = 12 := rfl
  have hlow : ∀ x, x < h + 8 → m' x = m x := by
    intro x hx
    refine hframe x (by omega) (fun hin => ?_)
    have := InFreeSize_ge h _ sizeof_HEAP x hin
    omega
  have hsize : heap_size m' h = heap_size m h :=
    read32_congr _ _ _ (fun x h1 h2 => hlow x (by omega))
  have haddr : heap_address m' h = heap_address m h :=
    read32_congr _ _ _ (fun x h1 h2 => hlow x (by omega))
  have hsum1 : sizeSum (pre ++ setFree c :: post) = sizeSum (pre ++ c :: post) := by
    rw [sizeSum_append, sizeSum_append]; rfl
  have hmem1 : ∀ d ∈ pre ++ setFree c :: post, sizeof_HCB ≤ d.size ∧
      (d.status = HEAP_STATUS_FREE ∨ d.status = HEAP_STATUS_USED) := by
    intro d hd
    rcases List.mem_append.mp hd with hd | hd
    · exact ⟨hfit d (by simp [hd]), hwf.statuses d (by simp [hd])⟩
    · rcases List.mem_cons.mp hd with rfl | hd
      · exact ⟨hfit c (by simp), Or.inl rfl⟩
      · exact ⟨hfit d (by simp [hd]), hwf.statuses d (by simp [hd])⟩
  have hval1 : ValidHeaders sizeof_HEAP (pre ++ setFree c :: post) := by
    rw [ValidHeaders_append] at hval ⊢
    exact hval
  refine ⟨m', hrun, ⟨⟨hwf.nonnull, by rw [hsize]; exact hwf.inrange,
    by rw [haddr]; exact hwf.address, hchain, ?_, ?_, ?_⟩, ?_, ?_⟩, hsize⟩
  · rw [hsize, sizeSum_mergeRuns, hsum1]; exact hwf.total
  · intro d hd
    obtain ⟨x, hx, _, h2⟩ := mergeRuns_mem _ d hd
    have := (hmem1 x hx).1
    omega
  · intro d hd
    obtain ⟨x, hx, h1, _⟩ := mergeRuns_mem _ d hd
    rw [h1]; exact (hmem1 x hx).2
  · intro d hd
    obtain ⟨x, hx, _, h2⟩ := mergeRuns_mem _ d hd
    have := (hmem1 x hx).1
    omega
  · exact ValidHeaders_mergeRuns _ _ hval1

/-- The invariants hold after a successful `init_heap` on a region that lies
inside the address space. -/
theorem init_heap_inv (m : Mem) (start size : Nat) (h0 : start ≠ 0)
    (hs : ¬ size < HEAP_MIN_SIZE) (hin : start + size < U32) :
    HeapInv (init_heap m start size).1 start
      [⟨HEAP_MAGIC, HEAP_STATUS_FREE, sizeof_HEAP, size - sizeof_HEAP⟩] := by
  have e20 : sizeof_HCB = 20 := rfl
  have e12 : sizeof_HEAP = 12 := rfl
  have hbig : 1024 ≤ size := by simpa [HEAP_MIN_SIZE] using hs
  simp only [U32] at hin
  obtain ⟨_, h2, h3, h4⟩ := init_heap_fields m start size (by simp only [U32]; omega)
    (by simp only [U32]; omega) h0 hs
  refine ⟨⟨h0, by rw [h2]; exact hin, h3, ⟨h4, trivial⟩, ?_, ?_, ?_⟩, ?_, ⟨rfl, rfl, trivial⟩⟩
  · rw [h2]; simp only [sizeSum]; omega
  · intro d hd
    simp only [List.mem_singleton] at hd
    subst hd
    show size - sizeof_HEAP ≠ 0
    omega
  · intro d hd
    simp only [List.mem_singleton] at hd
    subst hd
    exact Or.inl rfl
  · intro d hd
    simp only [List.mem_singleton] at hd
    subst hd
    show sizeof_HCB ≤ size - sizeof_HEAP
    omega

/-! ## Return codes of `heap_free` and `heap_walk` -/

/-- Whatever the memory and the pointer, a call of `heap_free` that returns
has returned 0. -/
theorem heap_free_code (fuel : Nat) (m : Mem) (h p : Nat) (m' : Mem) (r : Nat)
    (hrun : heap_free fuel m h p = some (m', r)) : r = 0 := by
  unfold heap_free at hrun
  simp only at hrun
  split at hrun
  · exact absurd hrun (by simp)
  · simp only [Option.some.injEq, Prod.mk.injEq] at hrun
    exact hrun.2.symm

/-- C11: `heap_free` on pointers that are in error.  On the fresh heap at
4096, `heap_free(h, NULL)` and `heap_free(h, 12345)` (12345 is not the
payload address of a chunk; the only one is 4128) both return 0. -/
theorem heap_free_bad_pointer_returns_0 :
    (heap_free 2 freshMem 4096 0).map Prod.snd = some 0 ∧
    (heap_free 2 freshMem 4096 12345).map Prod.snd = some 0 ∧
    WellFormed freshMem 4096 [freshChunk] ∧ 12345 ≠ 4096 + sizeof_HEAP + sizeof_HCB :=
  ⟨by decide, by decide, freshMem_wellFormed, by decide⟩

theorem heap_walk_loop_bad_magic (m : Mem) (h max_addr : Nat) (c : HCB)
    (hmax : max_addr < U32) (hc : c.magic ≠ HEAP_MAGIC) :
    ∀ (pre : List HCB) (off fuel : Nat), Chain m h off (pre ++ [c]) →
      h + off + sizeSum pre < max_addr → pre.length < fuel →
      heap_walk_loop m h max_addr fuel (h + off) = some 4 := by
  intro pre
  induction pre with
  | nil =>
    intro off fuel hch hlt hfuel
    obtain ⟨k, rfl⟩ : ∃ k, fuel = k + 1 := ⟨fuel - 1, by simp at hfuel; omega⟩
    obtain ⟨h1, _⟩ := hch
    simp only [sizeSum] at hlt
    have hv : verify_node m h (h + off) = 1 := by
      unfold verify_node
      rw [readHCB_magic h1, if_pos hc]
    simp only [heap_walk_loop]
    rw [if_pos (by omega), hv]
    simp
  | cons d pre ih =>
    intro off fuel hch hlt hfuel
    obtain ⟨k, rfl⟩ : ∃ k, fuel = k + 1 := ⟨fuel - 1, by simp at hfuel; omega⟩
    obtain ⟨h1, hrest⟩ := hch
    simp only [sizeSum] at hlt
    simp only [U32] at hmax
    simp only [heap_walk_loop]
    rw [if_pos (by omega)]
    by_cases hv : verify_node m h (h + off) ≠ 0
    · rw [if_pos hv]
    · rw [if_neg hv, readHCB_size h1, uadd_eq _ _ (by simp only [U32]; omega)]
      have e : h + off + d.size = h + (off + d.size) := by omega
      rw [e]
      exact ih (off + d.size) k hrest (by omega) (by simp at hfuel; omega)

/-- C12, as amended: `heap_walk(h)` returns a non-zero code when `h` is
`NULL`, when `heap.size < HEAP_MIN_SIZE` or when `heap.address` differs from
`h`; and on a heap that passes these checks it terminates with the non-zero
code 4 when the walk reaches a header whose magic is not `HEAP_MAGIC`. -/
theorem heap_walk_rejects (m : Mem) (h : Nat) :
    ((h = 0 ∨ heap_size m h < HEAP_MIN_SIZE ∨ heap_address m h ≠ h) →
      ∀ fuel, ∃ r, heap_walk fuel m h = some r ∧ r ≠ 0) ∧
    (∀ (pre : List HCB) (c : HCB), h ≠ 0 → ¬ heap_size m h < HEAP_MIN_SIZE →
      heap_address m h = h → h + heap_size m h < U32 →
      Chain m h sizeof_HEAP (pre ++ [c]) →
      h + sizeof_HEAP + sizeSum pre < h + heap_size m h → c.magic ≠ HEAP_MAGIC →
      ∀ fuel, pre.length < fuel → heap_walk fuel m h = some 4) := by
  constructor
  · intro hbad fuel
    unfold heap_walk
    by_cases h0 : h = 0
    · rw [if_pos h0]; exact ⟨1, rfl, by decide⟩
    rw [if_neg h0]
    by_cases hs : heap_size m h < HEAP_MIN_SIZE
    · rw [if_pos hs]; exact ⟨2, rfl, by decide⟩
    rw [if_neg hs]
    have ha : h ≠ heap_address m h := by
      rcases hbad with hb | hb | hb
      · exact absurd hb h0
      · exact absurd hb hs
      · exact fun e => hb e.symm
    rw [if_pos ha]; exact ⟨3, rfl, by decide⟩
  · intro pre c h0 hs ha hin hch hlt hc fuel hfuel
    have e12 : sizeof_HEAP = 12 := rfl
    unfold heap_walk
    rw [if_neg h0, if_neg hs, if_neg (by rw [ha]; simp), uadd_eq _ _ hin,
      uadd_eq _ _ (by simp only [U32] at hin ⊢; omega)]
    exact heap_walk_loop_bad_magic m h _ c hin hc pre sizeof_HEAP fuel hch hlt hfuel

theorem heap_walk_rejects_witness :
    (∀ fuel, ∃ r, heap_walk fuel zeroMem 0 = some r ∧ r ≠ 0) ∧
    ∀ fuel, ([] : List HCB).length < fuel → heap_walk fuel badMagicMem 4096 = some 4 :=
  ⟨(heap_walk_rejects zeroMem 0).1 (Or.inl rfl),
    (heap_walk_rejects badMagicMem 4096).2 [] ⟨0, HEAP_STATUS_FREE, 12, 1012⟩
      (by decide) (by decide) (by decide) (by decide) ⟨by decide, trivial⟩ (by decide)
      (by decide)⟩

theorem heap_walk_loop_zeroSizeMem :
    ∀ fuel, heap_walk_loop zeroSizeMem 4096 5120 fuel 4108 = none := by
  intro fuel
  induction fuel with
  | zero => rfl
  | succ k ih =>
    have hv : verify_node zeroSizeMem 4096 4108 = 0 := by decide
    have hn : uadd 4108 (hcb_size zeroSizeMem 4108) = 4108 := by decide
    simp only [heap_walk_loop]
    rw [if_pos (by decide), hv, hn]
    simpa using ih

/-- C12, counterexample: the first header of `zeroStatusMem` has status 0 and
`heap_walk` returns 0 on it; the first header of `zeroSizeMem` has size 0 and
`heap_walk` does not terminate on it, whatever the fuel. -/
theorem heap_walk_accepts_zero_status_and_size :
    (hcb_status zeroStatusMem 4108 = 0 ∧ heap_walk 2 zeroStatusMem 4096 = some 0) ∧
    (hcb_size zeroSizeMem 4108 = 0 ∧ ∀ fuel, heap_walk fuel zeroSizeMem 4096 = none) := by
  refine ⟨⟨by decide, by decide⟩, by decide, ?_⟩
  intro fuel
  have h1 : heap_walk fuel zeroSizeMem 4096 = heap_walk_loop zeroSizeMem 4096 5120 fuel 4108 := by
    unfold heap_walk
    rw [if_neg (by decide), if_neg (by decide), if_neg (by decide)]
    have : uadd 4096 (heap_size zeroSizeMem 4096) = 5120 := by decide
    rw [this]
    rfl
  rw [h1]
  exact heap_walk_loop_zeroSizeMem fuel

/-! ## The critical flag -/

/-- C20: while the critical flag is set, `system_yield` (and so `yield`)
returns to its caller and leaves the whole kernel state as it was (when the
flag is 0 it enters the scheduler instead); `task_start_critical` sets the
flag to 1 and `task_end_critical` sets it to 0, whatever the number of calls
of `task_start_critical` before, and neither touches anything else. -/
theorem critical_section_yield (k : Kernel) (code : Nat) :
    (k.task_crit_flag ≠ 0 → system_yield k code = (k, YieldOutcome.returned) ∧
      yield k = (k, YieldOutcome.returned)) ∧
    (k.task_crit_flag = 0 → (system_yield k code).2 = YieldOutcome.entered_scheduler code) ∧
    (task_start_critical k).task_crit_flag = 1 ∧
    (∀ n : Nat, system_yield (Nat.iterate task_start_critical (n + 1) k) code =
      (Nat.iterate task_start_critical (n + 1) k, YieldOutcome.returned)) ∧
    (∀ n : Nat, (task_end_critical (Nat.iterate task_start_critical n k)).task_crit_flag = 0) ∧
    (∀ n : Nat, (system_yield (task_end_critical (Nat.iterate task_start_critical n k)) code).2 =
      YieldOutcome.entered_scheduler code) ∧
    task_start_critical k = { k with task_crit_flag := 1 } ∧
    task_end_critical k = { k with task_crit_flag := 0 } := by
  have hit : ∀ n : Nat, (Nat.iterate task_start_critical (n + 1) k).task_crit_flag = 1 := by
    intro n
    rw [Function.iterate_succ_apply']
    rfl
  refine ⟨?_, ?_, rfl, ?_, fun _ => rfl, ?_, rfl, rfl⟩
  · intro hf
    simp [yield, system_yield, hf]
  · intro hf
    simp [system_yield, hf]
  · intro n
    unfold system_yield
    rw [if_neg (by rw [hit n]; decide)]
  · intro n
    simp [system_yield, task_end_critical]

theorem critical_section_yield_witness :
    system_yield (task_start_critical ⟨zeroMem, 0, fun _ => zeroTCB, 0, 0, 0, 0, 0⟩) 1 =
      (task_start_critical ⟨zeroMem, 0, fun _ => zeroTCB, 0, 0, 0, 0, 0⟩, YieldOutcome.returned) :=
  ((critical_section_yield (task_start_critical ⟨zeroMem, 0, fun _ => zeroTCB, 0, 0, 0, 0, 0⟩)
    1).1 (by decide)).1

/-! ## The task list and the scheduler -/

theorem DSeg_append (tcbs : Nat → TCB) (xs ys : List Nat) (e : Nat) :
    ∀ prev cur, DSeg tcbs prev cur (xs ++ ys) e ↔
      DSeg tcbs prev cur xs (ys.head?.getD e) ∧
        DSeg tcbs (xs.getLast?.getD prev) (ys.head?.getD e) ys e := by
  induction xs with
  | nil =>
    intro prev cur
    cases ys with
    | nil => simp [DSeg]
    | cons y ys =>
      show DSeg tcbs prev cur (y :: ys) e ↔ cur = y ∧ DSeg tcbs prev y (y :: ys) e
      constructor
      · intro h
        have h1 : cur = y := h.1
        subst h1
        exact ⟨rfl, h⟩
      · rintro ⟨h1, h2⟩
        subst h1
        exact h2
  | cons x xs ih =>
    intro prev cur
    have hl : (x :: xs).getLast?.getD prev = xs.getLast?.getD x := by
      rw [List.getLast?_cons]; rfl
    rw [hl]
    show (cur = x ∧ x ≠ 0 ∧ (tcbs x).tprev = prev ∧ DSeg tcbs x (tcbs x).tnext (xs ++ ys) e) ↔
      (cur = x ∧ x ≠ 0 ∧ (tcbs x).tprev = prev ∧
        DSeg tcbs x (tcbs x).tnext xs (ys.head?.getD e)) ∧
      DSeg tcbs (xs.getLast?.getD x) (ys.head?.getD e) ys e
    rw [ih]
    tauto

theorem DSeg_cur (tcbs : Nat → TCB) (prev cur e : Nat) (L : List Nat)
    (h : DSeg tcbs prev cur L e) : cur = L.head?.getD e := by
  cases L with
  | nil => exact h
  | cons p ps => exact h.1

theorem update_priority_le (k : Kernel) (t p : Nat) : update_priority k t p ≤ p := by
  unfold update_priority
  split
  · omega
  · exact le_refl _

theorem scanPriority_le (k : Kernel) (L : List Nat) : ∀ p, scanPriority k L p ≤ p := by
  induction L with
  | nil => intro p; exact le_refl _
  | cons t ts ih =>
    intro p
    exact le_trans (ih _) (update_priority_le k t p)

theorem scanPriority_lower (k : Kernel) (L : List Nat) :
    ∀ p, ∀ t ∈ L, (k.tcbs t).status = 0 → scanPriority k L p ≤ (k.tcbs t).priority := by
  induction L with
  | nil => intro p t ht; exact absurd ht (by simp)
  | cons x xs ih =>
    intro p t ht hs
    rcases List.mem_cons.mp ht with rfl | ht
    · refine le_trans (scanPriority_le k xs _) ?_
      unfold update_priority
      split
      · exact le_refl _
      · rename_i hn
        have : ¬ p > (k.tcbs t).priority := fun h => hn ⟨hs, h⟩
        omega
    · exact ih _ t ht hs

theorem scanPriority_attained (k : Kernel) (L : List Nat) :
    ∀ p, scanPriority k L p = p ∨
      ∃ t ∈ L, (k.tcbs t).status = 0 ∧ (k.tcbs t).priority = scanPriority k L p := by
  induction L with
  | nil => intro p; exact Or.inl rfl
  | cons x xs ih =>
    intro p
    rcases ih (update_priority k x p) with h | ⟨t, ht, h1, h2⟩
    · by_cases hx : (k.tcbs x).status = 0 ∧ p > (k.tcbs x).priority
      · right
        refine ⟨x, by simp, hx.1, ?_⟩
        show (k.tcbs x).priority = scanPriority k xs (update_priority k x p)
        rw [h]
        unfold update_priority
        rw [if_pos hx]
      · left
        show scanPriority k xs (update_priority k x p) = p
        rw [h]
        unfold update_priority
        rw [if_neg hx]
    · exact Or.inr ⟨t, List.mem_cons_of_mem _ ht, h1, h2⟩

/-- The loop of `get_sched_priority` over tasks none of which is killed:
the state is left as it is. -/
theorem get_sched_priority_loop_no_killed (hfuel : Nat) (k : Kernel) :
    ∀ (rest : List Nat) (prev cur fuel acc : Nat), DSeg k.tcbs prev cur rest 0 →
      (∀ t ∈ rest, (k.tcbs t).status ≠ 255) → rest.length < fuel →
      get_sched_priority_loop hfuel fuel k cur acc = some (k, scanPriority k rest acc) := by
  intro rest
  induction rest with
  | nil =>
    intro prev cur fuel acc hseg _ hfuel
    obtain ⟨f, rfl⟩ : ∃ f, fuel = f + 1 := ⟨fuel - 1, by simp at hfuel; omega⟩
    have hc : cur = 0 := hseg
    simp only [get_sched_priority_loop, scanPriority]
    rw [if_pos hc]
  | cons p ps ih =>
    intro prev cur fuel acc hseg hnk hfuel
    obtain ⟨f, rfl⟩ : ∃ f, fuel = f + 1 := ⟨fuel - 1, by simp at hfuel; omega⟩
    obtain ⟨hc, hp0, _, hrest⟩ := hseg
    subst hc
    simp only [get_sched_priority_loop, scanPriority]
    rw [if_neg hp0, if_neg (hnk cur (by simp))]
    exact ih cur _ f _ hrest (fun t ht => hnk t (List.mem_cons_of_mem _ ht))
      (by simp at hfuel; omega)

theorem scheduler_select_found (k : Kernel) (cp : Nat) (t : Nat) :
    ∀ (rest : List Nat) (prev cur e fuel : Nat), DSeg k.tcbs prev cur rest e →
      rest.find? (eligible k cp) = some t → rest.length ≤ fuel →
      scheduler_select fuel k cur cp = some t := by
  intro rest
  induction rest with
  | nil => intro prev cur e fuel _ hf; exact absurd hf (by simp)
  | cons p ps ih =>
    intro prev cur e fuel hseg hf hfuel
    obtain ⟨f, rfl⟩ : ∃ f, fuel = f + 1 := ⟨fuel - 1, by simp at hfuel; omega⟩
    obtain ⟨hc, hp0, _, hrest⟩ := hseg
    subst hc
    simp only [scheduler_select]
    by_cases hp : eligible k cp cur = true
    · rw [List.find?_cons_of_pos _ hp] at hf
      simp only [Option.some.injEq] at hf
      subst hf
      have : ¬ ((k.tcbs cur).priority > cp ∨ (k.tcbs cur).status ≠ 0) := by
        simpa [eligible] using hp
      rw [if_neg this]
    · rw [List.find?_cons_of_neg _ hp] at hf
      have : (k.tcbs cur).priority > cp ∨ (k.tcbs cur).status ≠ 0 := by
        by_contra hn
        exact hp (by simp [eligible, hn])
      rw [if_pos this]
      cases ps with
      | nil => exact absurd hf (by simp)
      | cons q qs =>
        have hq : (k.tcbs cur).tnext = q := hrest.1
        have hq0 : q ≠ 0 := hrest.2.1
        have hn : NEXT_TASK k cur = (k.tcbs cur).tnext := by
          unfold NEXT_TASK
          rw [if_neg (by rw [hq]; exact hq0)]
        rw [hn]
        exact ih cur _ e f hrest hf (by simp at hfuel ⊢; omega)

theorem scheduler_select_wrap (k : Kernel) (cp : Nat) :
    ∀ (rest : List Nat) (prev cur f : Nat), DSeg k.tcbs prev cur rest 0 → rest ≠ [] →
      rest.find? (eligible k cp) = none →
      scheduler_select (rest.length + f) k cur cp = scheduler_select f k k.first cp := by
  intro rest
  induction rest with
  | nil => intro prev cur f _ hne; exact absurd rfl hne
  | cons p ps ih =>
    intro prev cur f hseg _ hf
    obtain ⟨hc, hp0, _, hrest⟩ := hseg
    subst hc
    have hp : ¬ eligible k cp cur = true := by
      intro hp
      rw [List.find?_cons_of_pos _ hp] at hf
      exact absurd hf (by simp)
    rw [List.find?_cons_of_neg _ hp] at hf
    have hcond : (k.tcbs cur).priority > cp ∨ (k.tcbs cur).status ≠ 0 := by
      by_contra hn
      exact hp (by simp [eligible, hn])
    have e1 : (cur :: ps).length + f = (ps.length + f) + 1 := by simp; omega
    rw [e1]
    simp only [scheduler_select]
    rw [if_pos hcond]
    cases ps with
    | nil =>
      have hq : (k.tcbs cur).tnext = 0 := hrest
      have hn : NEXT_TASK k cur = k.first := by
        unfold NEXT_TASK
        rw [if_pos hq]
      rw [hn]
      simp
    | cons q qs =>
      have hq : (k.tcbs cur).tnext = q := hrest.1
      have hq0 : q ≠ 0 := hrest.2.1
      have hn : NEXT_TASK k cur = (k.tcbs cur).tnext := by
        unfold NEXT_TASK
        rw [if_neg (by rw [hq]; exact hq0)]
      rw [hn]
      exact ih cur _ f hrest (by simp) hf

/-- The search loop of `scheduler`, started at the successor of the task
`c`, stops at the first eligible task of the list read cyclically from
there, `c` itself coming last. -/
theorem scheduler_select_cyclic (k : Kernel) (cp : Nat) (pre post : List Nat) (c t : Nat)
    (fuel : Nat) (hseg : DSeg k.tcbs 0 k.first (pre ++ c :: post) 0)
    (hf : (post ++ pre ++ [c]).find? (eligible k cp) = some t)
    (hfuel : (pre ++ c :: post).length ≤ fuel) :
    scheduler_select fuel k (NEXT_TASK k c) cp = some t := by
  have hseg' := hseg
  rw [DSeg_append] at hseg'
  obtain ⟨_, hc, hc0, _, hpost⟩ := hseg'
  have hlen : (pre ++ c :: post).length = pre.length + post.length + 1 := by simp; omega
  cases hfp : post.find? (eligible k cp) with
  | some u =>
    have hu : u = t := by
      rw [List.append_assoc, List.find?_append, hfp] at hf
      simpa using hf
    subst hu
    cases post with
    | nil => exact absurd hfp (by simp)
    | cons q qs =>
      have hn : NEXT_TASK k c = (k.tcbs c).tnext := by
        unfold NEXT_TASK
        rw [if_neg (by rw [hpost.1]; exact hpost.2.1)]
      rw [hn]
      exact scheduler_select_found k cp u _ c _ 0 fuel hpost hfp (by omega)
  | none =>
    have hf2 : (pre ++ c :: post).find? (eligible k cp) = some t := by
      rw [List.append_assoc, List.find?_append, hfp] at hf
      simp only [Option.or, List.find?_append] at hf
      rw [List.find?_append]
      cases hpre : pre.find? (eligible k cp) with
      | some v => rw [hpre] at hf; simpa using hf
      | none =>
        rw [hpre] at hf
        simp only [Option.or] at hf ⊢
        by_cases hcc : eligible k cp c = true
        · rw [List.find?_cons_of_pos _ hcc] at hf ⊢; exact hf
        · rw [List.find?_cons_of_neg _ hcc] at hf; exact absurd hf (by simp)
    cases post with
    | nil =>
      have hq : (k.tcbs c).tnext = 0 := hpost
      have hn : NEXT_TASK k c = k.first := by
        unfold NEXT_TASK
        rw [if_pos hq]
      rw [hn]
      exact scheduler_select_found k cp t _ 0 _ 0 fuel hseg hf2 hfuel
    | cons q qs =>
      have hn : NEXT_TASK k c = (k.tcbs c).tnext := by
        unfold NEXT_TASK
        rw [if_neg (by rw [hpost.1]; exact hpost.2.1)]
      rw [hn]
      obtain ⟨g, rfl⟩ : ∃ g, fuel = (q :: qs).length + g := ⟨fuel - (q :: qs).length, by omega⟩
      rw [scheduler_select_wrap k cp _ c _ g hpost (by simp) hfp]
      have hf3 := hf2
      rw [List.find?_eq_some] at hf3
      obtain ⟨_, as, bs, hab, has⟩ := hf3
      have hfa : (as ++ [t]).find? (eligible k cp) = some t := by
        rw [List.find?_append]
        have : as.find? (eligible k cp) = none := by
          rw [List.find?_eq_none]
          intro x hx; simpa using has x hx
        rw [this]
        simp [List.find?_some hf2]
      have hlt : as.length + 1 + bs.length = pre.length + (q :: qs).length + 1 := by
        have := congrArg List.length hab
        simp at this ⊢; omega
      -- the eligible task is not in `post`, so it stands among `pre ++ [c]`
      have hbs : (q :: qs).length ≤ bs.length := by
        by_contra hlt2
        have hmem : t ∈ q :: qs := by
          have h1 : (pre ++ c :: (q :: qs)) = as ++ t :: bs := hab
          have h2 := congrArg (fun l => l.drop (pre.length + 1)) h1
          simp only at h2
          have h3 : (pre ++ c :: (q :: qs)).drop (pre.length + 1) = q :: qs := by
            rw [show pre ++ c :: (q :: qs) = (pre ++ [c]) ++ (q :: qs) by simp]
            rw [List.drop_append_of_le_length (by simp)]
            simp
          rw [h3] at h2
          have h4 : as.length ≥ pre.length + 1 := by omega
          rw [h2]
          rw [List.drop_append_of_le_length (by omega)] 
          have : t ∈ List.drop (pre.length + 1) as ++ t :: bs := by simp
          exact this
        rw [List.find?_eq_none] at hfp
        exact hfp t hmem (List.find?_some hf2)
      have hseg2 : DSeg k.tcbs 0 k.first (as ++ (t :: bs)) 0 := by rw [← hab]; exact hseg
      rw [DSeg_append] at hseg2
      have hseg3 : DSeg k.tcbs 0 k.first (as ++ [t]) ((bs.head?).getD 0) := by
        rw [DSeg_append]
        refine ⟨by simpa using hseg2.1, ?_⟩
        obtain ⟨h1, h2, h3, h4⟩ := hseg2.2
        simp only [List.head?_cons, Option.getD_some] at h1 h2 h3 h4 ⊢
        exact ⟨rfl, h2, h3, DSeg_cur _ _ _ _ _ h4⟩
      exact scheduler_select_found k cp t _ 0 _ _ g hseg3 hfa (by simp; omega)

theorem scanPriority_congr (k k' : Kernel) (h : k'.tcbs = k.tcbs) (L : List Nat) :
    ∀ p, scanPriority k' L p = scanPriority k L p := by
  induction L with
  | nil => intro p; rfl
  | cons t ts ih =>
    intro p
    simp only [scanPriority, update_priority, h, ih]

theorem eligible_iff (k : Kernel) (cp t : Nat) :
    eligible k cp t = true ↔ (k.tcbs t).status = 0 ∧ (k.tcbs t).priority ≤ cp := by
  unfold eligible
  simp only [decide_eq_true_eq, not_or, not_lt, ne_eq, not_not]
  tauto

/-- With `current_priority` the value that the scan found, and that value
not the sentinel, the eligible tasks are the tasks of status 0 and of
minimal priority value. -/
theorem eligible_iff_minRunnable (k : Kernel) (L : List Nat) (t : Nat)
    (hcp : scanPriority k L 255 ≠ 255) :
    eligible k (scanPriority k L 255) t = true ↔ MinRunnable k L t := by
  rw [eligible_iff]
  constructor
  · rintro ⟨h1, h2⟩
    exact ⟨h1, fun u hu hs => le_trans h2 (scanPriority_lower k L 255 u hu hs)⟩
  · rintro ⟨h1, h2⟩
    refine ⟨h1, ?_⟩
    rcases scanPriority_attained k L 255 with h | ⟨u, hu, hs, hp⟩
    · exact absurd h hcp
    · rw [← hp]; exact h2 u hu hs

/-- One turn of the scheduler on a list without killed tasks: the scan
leaves the state as it is and finds `scanPriority`; the turn returns when
that is the sentinel 255, and dispatches the first eligible task after the
cursor otherwise. -/
theorem scheduler_pass_no_killed (k : Kernel) (L pre post : List Nat) (c fuel hfuel : Nat)
    (hwf : TaskList k L) (hL : L = pre ++ c :: post) (hc : k.current_task = c)
    (hnk : ∀ t ∈ L, (k.tcbs t).status ≠ 255) (hlen : L.length < fuel) :
    (scanPriority k L 255 = 255 →
      scheduler_pass fuel hfuel k = some (k, SchedOutcome.returned)) ∧
    (scanPriority k L 255 ≠ 255 →
      ∃ t, (post ++ pre ++ [c]).find? (eligible k (scanPriority k L 255)) = some t ∧
        scheduler_pass fuel hfuel k =
          some ({ k with current_task := t }, SchedOutcome.dispatched t)) := by
  have hscan : get_sched_priority fuel hfuel k = some (k, scanPriority k L 255) :=
    get_sched_priority_loop_no_killed hfuel k L 0 k.first fuel 255 hwf.seg hnk hlen
  constructor
  · intro hcp
    unfold scheduler_pass
    rw [hscan]
    simp only
    rw [if_pos (by rw [hcp]; rfl)]
  · intro hcp
    have hex : ∃ u ∈ L, eligible k (scanPriority k L 255) u = true := by
      rcases scanPriority_attained k L 255 with h | ⟨u, hu, hs, hp⟩
      · exact absurd h hcp
      · exact ⟨u, hu, (eligible_iff k _ u).mpr ⟨hs, by rw [hp]⟩⟩
    obtain ⟨u, hu, hel⟩ := hex
    have hsome : ((post ++ pre ++ [c]).find? (eligible k (scanPriority k L 255))).isSome := by
      rw [List.find?_isSome]
      refine ⟨u, ?_, hel⟩
      rw [hL] at hu
      simp only [List.mem_append, List.mem_cons, List.mem_singleton, List.not_mem_nil,
        or_false] at hu ⊢
      tauto
    obtain ⟨t, ht⟩ := Option.isSome_iff_exists.mp hsome
    refine ⟨t, ht, ?_⟩
    have hsel := scheduler_select_cyclic k (scanPriority k L 255) pre post c t fuel
      (by rw [← hL]; exact hwf.seg) ht (by rw [← hL]; omega)
    unfold scheduler_pass
    rw [hscan]
    simp only
    rw [if_neg (by intro h; exact hcp h), hc, hsel]

/-- C13: on a well-formed task list without killed task, with the cursor
`c` in the list and a task of status 0 whose priority value is below 255
(255 is the value that tells the scheduler that nothing is runnable), one
turn of the scheduler (given fuel for one step per task) dispatches a task
`t` of the list that has status 0 and the minimum priority value of the
tasks of status 0, and that is the first such task of the list read
cyclically from the successor of the cursor, the cursor itself last. -/
theorem scheduler_dispatches_first_min (k : Kernel) (L pre post : List Nat)
    (c fuel hfuel : Nat) (hwf : TaskList k L) (hL : L = pre ++ c :: post)
    (hc : k.current_task = c) (hnk : ∀ t ∈ L, (k.tcbs t).status ≠ 255)
    (hrun : ∃ u ∈ L, (k.tcbs u).status = 0 ∧ (k.tcbs u).priority < 255)
    (hlen : L.length < fuel) :
    ∃ t X Y, scheduler_pass fuel hfuel k =
        some ({ k with current_task := t }, SchedOutcome.dispatched t) ∧
      t ∈ L ∧ MinRunnable k L t ∧ post ++ pre ++ [c] = X ++ t :: Y ∧
      ∀ x ∈ X, ¬ MinRunnable k L x := by
  have hcp : scanPriority k L 255 ≠ 255 := by
    obtain ⟨u, hu, hs, hp⟩ := hrun
    have := scanPriority_lower k L 255 u hu hs
    omega
  obtain ⟨t, hfind, hpass⟩ :=
    (scheduler_pass_no_killed k L pre post c fuel hfuel hwf hL hc hnk hlen).2 hcp
  have hfind' := hfind
  rw [List.find?_eq_some] at hfind'
  obtain ⟨hel, X, Y, hXY, hX⟩ := hfind'
  refine ⟨t, X, Y, hpass, ?_, (eligible_iff_minRunnable k L t hcp).mp hel, hXY, ?_⟩
  · have : t ∈ post ++ pre ++ [c] := by rw [hXY]; simp
    rw [hL]
    simp only [List.mem_append, List.mem_cons, List.mem_singleton, List.not_mem_nil,
      or_false] at this ⊢
    tauto
  · intro x hx hmin
    have := hX x hx
    rw [(eligible_iff_minRunnable k L x hcp).mpr hmin] at this
    exact absurd this (by simp)

theorem demoKernel_taskList : TaskList demoKernel [100, 200, 300] where
  seg := ⟨rfl, by decide, rfl, rfl, by decide, rfl, rfl, by decide, rfl, rfl⟩
  last_eq := rfl
  nodup := by decide
  numbers := by decide
  cursor := fun _ => by decide

theorem scheduler_dispatches_first_min_witness :
    ∃ t X Y, scheduler_pass 4 0 demoKernel =
        some ({ demoKernel with current_task := t }, SchedOutcome.dispatched t) ∧
      t ∈ [100, 200, 300] ∧ MinRunnable demoKernel [100, 200, 300] t ∧
      [300] ++ [100] ++ [200] = X ++ t :: Y ∧
      ∀ x ∈ X, ¬ MinRunnable demoKernel [100, 200, 300] x :=
  scheduler_dispatches_first_min demoKernel [100, 200, 300] [100] [300] 200 4 0
    demoKernel_taskList rfl rfl (by decide) ⟨200, by decide, by decide, by decide⟩ (by decide)

/-- The list read cyclically from the successor of one of its elements,
that element last: reading on from an element `t` of it gives the rest of
the reading, then its beginning, then `t`. -/
theorem rotation_step (pre post X Y : List Nat) (c t : Nat)
    (h : post ++ pre ++ [c] = X ++ t :: Y) :
    ∃ pre' post', pre ++ c :: post = pre' ++ t :: post' ∧
      post' ++ pre' ++ [t] = Y ++ X ++ [t] := by
  rw [List.append_assoc, List.append_eq_append_iff] at h
  rcases h with ⟨a, h1, h2⟩ | ⟨b, h1, h2⟩
  · -- `X = post ++ a`, `pre ++ [c] = a ++ t :: Y`
    rw [List.append_eq_append_iff] at h2
    rcases h2 with ⟨a2, h3, h4⟩ | ⟨b2, h3, h4⟩
    · -- `a = pre ++ a2`, `[c] = a2 ++ t :: Y`
      have h5 : a2 = [] ∧ t = c ∧ Y = [] := by
        cases a2 with
        | nil => simp at h4; exact ⟨rfl, h4.1.symm, h4.2⟩
        | cons z zs =>
          have := congrArg List.length h4
          simp at this
      obtain ⟨rfl, rfl, rfl⟩ := h5
      refine ⟨pre, post, rfl, ?_⟩
      rw [h1, h3]; simp
    · -- `pre = a ++ b2`, `t :: Y = b2 ++ [c]`
      cases b2 with
      | nil =>
        simp at h4
        obtain ⟨rfl, rfl⟩ := h4
        refine ⟨pre, post, rfl, ?_⟩
        rw [h1, h3]; simp
      | cons z zs =>
        simp at h4
        obtain ⟨rfl, rfl⟩ := h4
        refine ⟨a, zs ++ c :: post, by rw [h3]; simp, ?_⟩
        rw [h1]; simp
  · -- `post = X ++ b`, `t :: Y = b ++ (pre ++ [c])`
    cases b with
    | nil =>
      simp at h2
      simp at h1
      subst h1
      -- `t :: Y = pre ++ [c]`
      cases pre with
      | nil =>
        simp at h2
        obtain ⟨rfl, rfl⟩ := h2
        exact ⟨[], post, rfl, by simp⟩
      | cons z zs =>
        simp at h2
        obtain ⟨rfl, rfl⟩ := h2
        exact ⟨[], zs ++ c :: post, by simp, by simp⟩
    | cons z zs =>
      simp at h2
      obtain ⟨rfl, rfl⟩ := h2
      refine ⟨pre ++ c :: X, zs, by rw [h1]; simp, by simp⟩

theorem TaskList_set_cursor (k : Kernel) (L : List Nat) (t : Nat) (hwf : TaskList k L)
    (ht : t ∈ L) : TaskList { k with current_task := t } L where
  seg := hwf.seg
  last_eq := hwf.last_eq
  nodup := hwf.nodup
  numbers := hwf.numbers
  cursor := fun _ => ht

/-- Consecutive turns of the scheduler on a list without killed tasks
dispatch, in order, the eligible tasks of the list read cyclically from the
successor of the cursor. -/
theorem scheduler_run_take (L : List Nat) (fuel hfuel : Nat) :
    ∀ (n : Nat) (k : Kernel) (pre post : List Nat) (c : Nat), TaskList k L →
      L = pre ++ c :: post → k.current_task = c → (∀ t ∈ L, (k.tcbs t).status ≠ 255) →
      scanPriority k L 255 ≠ 255 → L.length < fuel →
      n ≤ ((post ++ pre ++ [c]).filter (eligible k (scanPriority k L 255))).length →
      ∃ k', scheduler_run fuel hfuel n k =
        some (k', ((post ++ pre ++ [c]).filter (eligible k (scanPriority k L 255))).take n) := by
  intro n
  induction n with
  | zero =>
    intro k pre post c _ _ _ _ _ _ _
    exact ⟨k, by simp [scheduler_run]⟩
  | succ n ih =>
    intro k pre post c hwf hL hc hnk hcp hlen hn
    obtain ⟨t, hfind, hpass⟩ :=
      (scheduler_pass_no_killed k L pre post c fuel hfuel hwf hL hc hnk hlen).2 hcp
    have hfind' := hfind
    rw [List.find?_eq_some] at hfind'
    obtain ⟨hel, X, Y, hXY, hX⟩ := hfind'
    have hfX : X.filter (eligible k (scanPriority k L 255)) = [] := by
      rw [List.filter_eq_nil_iff]
      intro a ha
      simpa using hX a ha
    have hF : (post ++ pre ++ [c]).filter (eligible k (scanPriority k L 255)) =
        t :: Y.filter (eligible k (scanPriority k L 255)) := by
      rw [hXY, List.filter_append, hfX, List.nil_append, List.filter_cons_of_pos hel]
    obtain ⟨pre', post', hL', hrot⟩ := rotation_step pre post X Y c t hXY
    have htL : t ∈ L := by rw [hL, hL']; simp
    have hwf1 := TaskList_set_cursor k L t hwf htL
    have hscan1 : scanPriority { k with current_task := t } L 255 = scanPriority k L 255 :=
      scanPriority_congr k { k with current_task := t } rfl L 255
    have hel1 : eligible { k with current_task := t } (scanPriority k L 255) =
        eligible k (scanPriority k L 255) := rfl
    have hF1 : (post' ++ pre' ++ [t]).filter (eligible k (scanPriority k L 255)) =
        Y.filter (eligible k (scanPriority k L 255)) ++ [t] := by
      rw [hrot, List.filter_append, List.filter_append, hfX, List.append_nil,
        List.filter_cons_of_pos hel, List.filter_nil]
    rw [hF] at hn ⊢
    have hn' : n ≤ (Y.filter (eligible k (scanPriority k L 255))).length := by
      simp at hn; omega
    obtain ⟨k', hrun⟩ := ih { k with current_task := t } pre' post' t hwf1 (hL.trans hL') rfl
      hnk (by rw [hscan1]; exact hcp) hlen
      (by rw [hscan1, hel1, hF1]; simp; omega)
    rw [hscan1, hel1, hF1, List.take_append_of_le_length hn'] at hrun
    refine ⟨k', ?_⟩
    simp only [scheduler_run, hpass, hrun, List.take_succ_cons]

/-- C16: on a well-formed task list without killed task in which some task
of status 0 has a priority value below 255, let `F` be the tasks of status 0
and of minimum priority value, in the order of the list read cyclically
from the successor of the cursor.  Each such task occurs once in `F`, and,
the tasks giving the control back without a change of state, the first `n`
turns of the scheduler dispatch the first `n` tasks of `F`, for every `n` up
to the number `N` of those tasks: `N` consecutive turns dispatch each of
them once, in that order. -/
theorem scheduler_round_robin (k : Kernel) (L pre post : List Nat) (c fuel hfuel : Nat)
    (hwf : TaskList k L) (hL : L = pre ++ c :: post) (hc : k.current_task = c)
    (hnk : ∀ t ∈ L, (k.tcbs t).status ≠ 255)
    (hrun : ∃ u ∈ L, (k.tcbs u).status = 0 ∧ (k.tcbs u).priority < 255)
    (hlen : L.length < fuel) :
    (∀ t, t ∈ (post ++ pre ++ [c]).filter (eligible k (scanPriority k L 255)) ↔
      t ∈ L ∧ MinRunnable k L t) ∧
    ((post ++ pre ++ [c]).filter (eligible k (scanPriority k L 255))).Nodup ∧
    (∀ n, n ≤ ((post ++ pre ++ [c]).filter (eligible k (scanPriority k L 255))).length →
      ∃ k', scheduler_run fuel hfuel n k =
        some (k', ((post ++ pre ++ [c]).filter (eligible k (scanPriority k L 255))).take n)) ∧
    ∃ k', scheduler_run fuel hfuel
        ((post ++ pre ++ [c]).filter (eligible k (scanPriority k L 255))).length k =
      some (k', (post ++ pre ++ [c]).filter (eligible k (scanPriority k L 255))) := by
  have hcp : scanPriority k L 255 ≠ 255 := by
    obtain ⟨u, hu, hs, hp⟩ := hrun
    have := scanPriority_lower k L 255 u hu hs
    omega
  have hperm : List.Perm (post ++ pre ++ [c]) L := by
    rw [hL, List.append_assoc]
    exact List.perm_append_comm.trans (List.Perm.of_eq (by simp))
  have hall := scheduler_run_take L fuel hfuel
  refine ⟨?_, ?_, ?_, ?_⟩
  · intro t
    rw [List.mem_filter, hperm.mem_iff, eligible_iff_minRunnable k L t hcp]
  · exact (hperm.nodup_iff.mpr hwf.nodup).filter _
  · intro n hn
    exact hall n k pre post c hwf hL hc hnk hcp hlen hn
  · have := hall _ k pre post c hwf hL hc hnk hcp hlen (le_refl _)
    rw [List.take_length] at this
    exact this

theorem scheduler_round_robin_witness :
    ∃ k', scheduler_run 4 0
        (([300] ++ [100] ++ [200]).filter
          (eligible demoKernel (scanPriority demoKernel [100, 200, 300] 255))).length
        demoKernel =
      some (k', ([300] ++ [100] ++ [200]).filter
        (eligible demoKernel (scanPriority demoKernel [100, 200, 300] 255))) :=
  (scheduler_round_robin demoKernel [100, 200, 300] [100] [300] 200 4 0
    demoKernel_taskList rfl rfl (by decide) ⟨200, by decide, by decide, by decide⟩
    (by decide)).2.2.2

/-! ## Deleting a task -/

theorem mergeRuns_length_le (cs : List HCB) : (mergeRuns cs).length ≤ cs.length := by
  induction cs with
  | nil => exact le_refl _
  | cons c cs ih =>
    cases hm : mergeRuns cs with
    | nil => rw [mergeRuns_of_nil c cs hm]; simp
    | cons d ds =>
      rw [mergeRuns_of_cons c d cs ds hm]
      rw [hm] at ih
      split
      · simp at ih ⊢; omega
      · simp at ih ⊢; omega

/-- A chunk in use other than the one that is freed is still a chunk in
use, at the same address, after the merging pass. -/
theorem Live_after_free (h : Nat) (pre post : List HCB) (c : HCB) (q : Nat)
    (hq : Live h (pre ++ c :: post) q) (hne : q ≠ h + sizeof_HEAP + sizeSum pre + sizeof_HCB)
    (hfit : HeadersFit (pre ++ c :: post)) :
    Live h (mergeRuns (pre ++ setFree c :: post)) q := by
  obtain ⟨pre2, d, post2, hcs, hd, hqa⟩ := hq
  have hdu : d.status ≠ HEAP_STATUS_FREE := by rw [hd]; decide
  have key : ∃ pre3 post3, pre ++ setFree c :: post = pre3 ++ d :: post3 ∧
      sizeSum pre3 = sizeSum pre2 := by
    rw [List.append_eq_append_iff] at hcs
    rcases hcs with ⟨a, h1, h2⟩ | ⟨b, h1, h2⟩
    · cases a with
      | nil =>
        simp at h1 h2
        exfalso; apply hne; rw [hqa, h1]
      | cons z zs =>
        simp at h2
        obtain ⟨rfl, rfl⟩ := h2
        refine ⟨pre ++ setFree c :: zs, post2, by simp, ?_⟩
        rw [h1, sizeSum_append, sizeSum_append]
        rfl
    · cases b with
      | nil =>
        simp at h1 h2
        exfalso; apply hne; rw [hqa, h1]
      | cons z zs =>
        simp at h2
        obtain ⟨rfl, rfl⟩ := h2
        refine ⟨pre2, zs ++ setFree c :: post, by rw [h1]; simp, rfl⟩
  obtain ⟨pre3, post3, he, hs⟩ := key
  rw [he]
  refine ⟨mergeRuns pre3, d, mergeRuns post3, ?_, hd, ?_⟩
  · rw [mergeRuns_append_of_head pre3 (d :: post3) (by
      intro x hx
      simp at hx
      subst hx
      exact hdu), mergeRuns_cons_used d post3 hdu]
  · rw [sizeSum_mergeRuns, hs, hqa]

/-- Freeing the payload of a chunk in use of a heap that satisfies the
invariants returns, keeps the invariants, does not add chunks, and keeps
every other chunk in use. -/
theorem heap_free_live (m : Mem) (h : Nat) (cs : List HCB) (p fuel : Nat)
    (hinv : HeapInv m h cs) (hp : Live h cs p) (hfuel : cs.length < fuel) :
    ∃ m' cs', heap_free fuel m h p = some (m', 0) ∧ HeapInv m' h cs' ∧
      cs'.length ≤ cs.length ∧ ∀ q, Live h cs q → q ≠ p → Live h cs' q := by
  obtain ⟨pre, c, post, rfl, _, rfl⟩ := hp
  obtain ⟨m', hrun, hinv', _⟩ := heap_free_preserves_inv m h pre post c fuel hinv hfuel
  refine ⟨m', _, hrun, hinv', ?_, ?_⟩
  · refine le_trans (mergeRuns_length_le _) ?_
    simp
  · intro q hq hne
    exact Live_after_free h pre post c q hq hne hinv.2.1

theorem DSeg_ne_zero (tcbs : Nat → TCB) (L : List Nat) :
    ∀ prev cur e, DSeg tcbs prev cur L e → ∀ p ∈ L, p ≠ 0 := by
  induction L with
  | nil => intro _ _ _ _ p hp; exact absurd hp (by simp)
  | cons a as ih =>
    intro prev cur e h p hp
    obtain ⟨_, h0, _, hr⟩ := h
    rcases List.mem_cons.mp hp with rfl | hp
    · exact h0
    · exact ih _ _ _ hr p hp

theorem DSeg_congr (tcbs tcbs' : Nat → TCB) (L : List Nat)
    (hl : ∀ p ∈ L, (tcbs' p).tnext = (tcbs p).tnext ∧ (tcbs' p).tprev = (tcbs p).tprev) :
    ∀ prev cur e, DSeg tcbs prev cur L e → DSeg tcbs' prev cur L e := by
  induction L with
  | nil => intro _ _ _ h; exact h
  | cons a as ih =>
    intro prev cur e h
    obtain ⟨h1, h0, h2, hr⟩ := h
    refine ⟨h1, h0, by rw [(hl a (by simp)).2]; exact h2, ?_⟩
    rw [(hl a (by simp)).1]
    exact ih (fun p hp => hl p (List.mem_cons_of_mem _ hp)) _ _ _ hr

/-- Changing the `tnext` link of the last task of a segment changes the link
the segment ends with. -/
theorem DSeg_change_end (tcbs tcbs' : Nat → TCB) (z e2 : Nat) (L : List Nat) :
    ∀ prev cur e, DSeg tcbs prev cur (L ++ [z]) e → z ∉ L →
      (∀ p ∈ L, (tcbs' p).tnext = (tcbs p).tnext ∧ (tcbs' p).tprev = (tcbs p).tprev) →
      (tcbs' z).tprev = (tcbs z).tprev → (tcbs' z).tnext = e2 →
      DSeg tcbs' prev cur (L ++ [z]) e2 := by
  induction L with
  | nil =>
    intro prev cur e h _ _ hp hn
    obtain ⟨h1, h0, h2, _⟩ := h
    exact ⟨h1, h0, by rw [hp]; exact h2, hn⟩
  | cons a as ih =>
    intro prev cur e h hz hl hp hn
    obtain ⟨h1, h0, h2, hr⟩ := h
    refine ⟨h1, h0, by rw [(hl a (by simp)).2]; exact h2, ?_⟩
    rw [(hl a (by simp)).1]
    exact ih _ _ _ hr (fun hm => hz (List.mem_cons_of_mem _ hm))
      (fun p hp => hl p (List.mem_cons_of_mem _ hp)) hp hn

theorem getLastD_append_cons (xs : List Nat) (y : Nat) (ys : List Nat) :
    (xs ++ y :: ys).getLast?.getD 0 = (y :: ys).getLast?.getD 0 := by
  rw [List.getLast?_append_of_ne_nil _ (by simp)]

theorem getLastD_mem (y : Nat) (ys : List Nat) : (y :: ys).getLast?.getD 0 ∈ y :: ys := by
  rw [List.getLast?_eq_getLast _ (by simp)]
  exact List.getLast_mem _

theorem setTcb_tcbs (k : Kernel) (p : Nat) (f : TCB → TCB) (q : Nat) :
    (setTcb k p f).tcbs q = if q = p then f (k.tcbs p) else k.tcbs q := rfl

theorem setTcb_first (k : Kernel) (p : Nat) (f : TCB → TCB) : (setTcb k p f).first = k.first :=
  rfl

theorem setTcb_last (k : Kernel) (p : Nat) (f : TCB → TCB) : (setTcb k p f).last = k.last :=
  rfl

/-- The chain of links after `task_queue_del` has taken the task `x` out
(the part of the function after the update of `current_task`). -/
theorem task_queue_del_unlink_links (k : Kernel) (pre post : List Nat) (x : Nat)
    (hseg : DSeg k.tcbs 0 k.first (pre ++ x :: post) 0)
    (hlast : k.last = (pre ++ x :: post).getLast?.getD 0)
    (hnd : (pre ++ x :: post).Nodup)
    (hnum : ∀ a ∈ pre ++ x :: post, ∀ b ∈ pre ++ x :: post,
      (k.tcbs a).task_number = (k.tcbs b).task_number → a = b) :
    DSeg (setTcb (setTcb (task_queue_del_unlink k x) x (fun t => { t with tprev := 0 })) x
        (fun t => { t with tnext := 0 })).tcbs 0
      (task_queue_del_unlink k x).first (pre ++ post) 0 ∧
    (task_queue_del_unlink k x).last = (pre ++ post).getLast?.getD 0 := by
  have hne := DSeg_ne_zero _ _ _ _ _ hseg
  have hseg' := hseg
  rw [DSeg_append] at hseg'
  obtain ⟨hpre, _, hx0, hxp, hpost⟩ := hseg'
  simp only [List.head?_cons, Option.getD_some] at hpre hxp
  have hxn : (k.tcbs x).tnext = post.head?.getD 0 := DSeg_cur _ _ _ _ _ hpost
  have hfirst : k.first = pre.head?.getD x := DSeg_cur _ _ _ _ _ hpre
  have hxpre : x ∉ pre := by
    intro hm
    rw [List.nodup_append] at hnd
    exact hnd.2.2 hm (by simp)
  have hxpost : x ∉ post := by
    rw [List.nodup_append] at hnd
    exact (List.nodup_cons.mp hnd.2.1).1
  rcases List.eq_nil_or_concat pre with rfl | ⟨as, w, hcc⟩
  · -- `x` is the first task
    simp only [List.head?_nil, Option.getD_none] at hfirst
    have hc1 : (k.tcbs x).task_number = (k.tcbs k.first).task_number := by rw [hfirst]
    cases post with
    | nil =>
      simp only [List.head?_nil, Option.getD_none] at hxn
      have hxn' : (k.tcbs k.first).tnext = 0 := by rw [hfirst]; exact hxn
      simp [task_queue_del_unlink, hc1, hxn', DSeg]
    | cons y ys =>
      simp only [List.head?_cons, Option.getD_some] at hxn
      have hxn' : (k.tcbs k.first).tnext = y := by rw [hfirst]; exact hxn
      have hy0 : y ≠ 0 := hne y (by simp)
      have hyx : y ≠ x := fun h => hxpost (by rw [← h]; simp)
      obtain ⟨_, _, hyp, hys⟩ := hpost
      have hynd : y ∉ ys := by
        rw [List.nodup_append] at hnd
        exact (List.nodup_cons.mp (List.nodup_cons.mp hnd.2.1).2).1
      simp only [task_queue_del_unlink, hc1, if_true, hxn', if_neg hy0, List.nil_append,
        setTcb_first, setTcb_last]
      refine ⟨⟨rfl, hy0, by simp [setTcb_tcbs, hyx], ?_⟩, ?_⟩
      · have e1 : ((setTcb (setTcb (setTcb { k with first := y } y fun t => { t with tprev := 0 })
            x fun t => { t with tprev := 0 }) x fun t => { t with tnext := 0 }).tcbs y).tnext =
            (k.tcbs y).tnext := by simp [setTcb_tcbs, hyx]
        rw [e1]
        refine DSeg_congr k.tcbs _ ys (fun p hp => ?_) _ _ _ hys
        have hpx : p ≠ x := fun h => hxpost (by rw [← h]; simp [hp])
        have hpy : p ≠ y := fun h => hynd (by rw [← h]; exact hp)
        simp [setTcb_tcbs, hpx, hpy]
      · rw [hlast]; simp [List.getLast?_cons_cons]
  · -- `x` has the predecessor `w`
    rw [List.concat_eq_append] at hcc
    subst hcc
    have hw0 : w ≠ 0 := hne w (by simp)
    have hwx : w ≠ x := fun h => hxpre (by rw [← h]; simp)
    have hwas : w ∉ as := by
      rw [List.nodup_append] at hnd
      have := hnd.1
      rw [List.nodup_append] at this
      intro hm
      exact this.2.2 hm (by simp)
    have hxw : (k.tcbs x).tprev = w := by rw [hxp]; simp
    have hfm : k.first ∈ as ++ [w] := by
      rw [hfirst]
      cases as with
      | nil => simp
      | cons a as2 => simp
    have hfx : k.first ≠ x := fun h => hxpre (by rw [← h]; exact hfm)
    have hc1 : ¬ (k.tcbs x).task_number = (k.tcbs k.first).task_number := by
      intro h
      exact hfx (hnum x (by simp) k.first (List.mem_append_left _ hfm) h).symm
    cases post with
    | nil =>
      have hl : k.last = x := by rw [hlast]; simp
      have hlp : (k.tcbs k.last).tprev = w := by rw [hl]; exact hxw
      simp only [task_queue_del_unlink, if_neg hc1, if_pos hl.symm, hlp, if_neg hw0,
        setTcb_first, setTcb_last, List.append_nil]
      refine ⟨?_, by simp⟩
      refine DSeg_change_end k.tcbs _ w 0 as _ _ _ hpre hwas (fun p hp => ?_) ?_ ?_
      · have hpx : p ≠ x := fun h => hxpre (by rw [← h]; simp [hp])
        have hpw : p ≠ w := fun h => hwas (by rw [← h]; exact hp)
        simp [setTcb_tcbs, hpx, hpw]
      · simp [setTcb_tcbs, hwx]
      · simp [setTcb_tcbs, hwx]
    | cons y ys =>
      simp only [List.head?_cons, Option.getD_some] at hxn
      have hy0 : y ≠ 0 := hne y (by simp)
      have hyx : y ≠ x := fun h => hxpost (by rw [← h]; simp)
      have hxy : x ≠ y := fun h => hyx h.symm
      have hyw : y ≠ w := by
        intro h
        rw [List.nodup_append] at hnd
        exact hnd.2.2 (show w ∈ as ++ [w] by simp) (by rw [← h]; simp)
      have hwy : w ≠ y := fun h => hyw h.symm
      have hyas : y ∉ as := by
        intro hm
        rw [List.nodup_append] at hnd
        exact hnd.2.2 (show y ∈ as ++ [w] by simp [hm]) (by simp)
      obtain ⟨_, _, hyp, hys⟩ := hpost
      have hynd : y ∉ ys := by
        rw [List.nodup_append] at hnd
        exact (List.nodup_cons.mp (List.nodup_cons.mp hnd.2.1).2).1
      have hlm : k.last ∈ y :: ys := by
        rw [hlast]
        rw [show as ++ [w] ++ x :: y :: ys = (as ++ [w] ++ [x]) ++ y :: ys by simp,
          getLastD_append_cons]
        exact getLastD_mem y ys
      have hc2 : ¬ x = k.last := fun h => hxpost (by rw [h]; exact hlm)
      have hax : (setTcb k y fun t => { t with tprev := w }).tcbs x = k.tcbs x := by
        simp [setTcb_tcbs, hxy]
      simp only [task_queue_del_unlink, if_neg hc1, if_neg hc2, hxn, hxw, ne_eq, hy0,
        not_false_eq_true, if_true, hax, hw0, setTcb_first, setTcb_last]
      refine ⟨?_, ?_⟩
      · rw [DSeg_append]
        have e : (as ++ [w]).getLast?.getD 0 = w := by simp
        rw [e]
        simp only [List.head?_cons, Option.getD_some]
        refine ⟨?_, rfl, hy0, by simp [setTcb_tcbs, hyx, hyw], ?_⟩
        · refine DSeg_change_end k.tcbs _ w y as _ _ _ hpre hwas (fun p hp => ?_) ?_ ?_
          · have hpx : p ≠ x := fun h => hxpre (by rw [← h]; simp [hp])
            have hpw : p ≠ w := fun h => hwas (by rw [← h]; exact hp)
            have hpy : p ≠ y := fun h => hyas (by rw [← h]; exact hp)
            simp [setTcb_tcbs, hpx, hpw, hpy]
          · simp [setTcb_tcbs, hwx, hwy]
          · simp [setTcb_tcbs, hwx]
        · have e1 : ((setTcb (setTcb (setTcb (setTcb k y fun t => { t with tprev := w }) w
              fun t => { t with tnext := y }) x fun t => { t with tprev := 0 }) x
              fun t => { t with tnext := 0 }).tcbs y).tnext = (k.tcbs y).tnext := by
            simp [setTcb_tcbs, hyx, hyw]
          rw [e1]
          refine DSeg_congr k.tcbs _ ys (fun p hp => ?_) _ _ _ hys
          have hpx : p ≠ x := fun h => hxpost (by rw [← h]; simp [hp])
          have hpy : p ≠ y := fun h => hynd (by rw [← h]; exact hp)
          have hpw : p ≠ w := by
            intro h
            rw [List.nodup_append] at hnd
            exact hnd.2.2 (show w ∈ as ++ [w] by simp) (by rw [← h]; simp [hp])
          simp [setTcb_tcbs, hpx, hpy, hpw]
      · rw [hlast, show as ++ [w] ++ x :: y :: ys = (as ++ [w] ++ [x]) ++ y :: ys by simp,
          getLastD_append_cons, getLastD_append_cons]

theorem SameTasks_refl (k : Kernel) : SameTasks k k := fun _ => rfl

theorem SameTasks_trans (a b c : Kernel) (h1 : SameTasks a b) (h2 : SameTasks b c) :
    SameTasks a c := fun p => (h2 p).trans (h1 p)

theorem SameTasks_of_tcbs (k k2 : Kernel) (h : k2.tcbs = k.tcbs) : SameTasks k k2 := by
  intro p; rw [h]

theorem SameTasks_setTcb_tnext (k : Kernel) (p v : Nat) :
    SameTasks k (setTcb k p (fun t => { t with tnext := v })) := by
  intro q
  rw [setTcb_tcbs]
  split
  · rename_i h; rw [h]
  · rfl

theorem SameTasks_setTcb_tprev (k : Kernel) (p v : Nat) :
    SameTasks k (setTcb k p (fun t => { t with tprev := v })) := by
  intro q
  rw [setTcb_tcbs]
  split
  · rename_i h; rw [h]
  · rfl

theorem SameTasks_fields (k k2 : Kernel) (h : SameTasks k k2) (p : Nat) :
    (k2.tcbs p).status = (k.tcbs p).status ∧ (k2.tcbs p).priority = (k.tcbs p).priority ∧
    (k2.tcbs p).task_number = (k.tcbs p).task_number ∧ (k2.tcbs p).heap = (k.tcbs p).heap :=
  ⟨by have e := congrArg TCB.status (h p); exact e,
    by have e := congrArg TCB.priority (h p); exact e,
    by have e := congrArg TCB.task_number (h p); exact e,
    by have e := congrArg TCB.heap (h p); exact e⟩

theorem task_queue_del_cursor_fields (k : Kernel) (x : Nat) :
    (task_queue_del_cursor k x).tcbs = k.tcbs ∧ (task_queue_del_cursor k x).first = k.first ∧
    (task_queue_del_cursor k x).last = k.last ∧ (task_queue_del_cursor k x).mem = k.mem ∧
    (task_queue_del_cursor k x).global_heap = k.global_heap := by
  unfold task_queue_del_cursor
  split <;> exact ⟨rfl, rfl, rfl, rfl, rfl⟩

theorem task_queue_del_unlink_same (k : Kernel) (x : Nat) :
    SameTasks k (task_queue_del_unlink k x) ∧ (task_queue_del_unlink k x).mem = k.mem ∧
    (task_queue_del_unlink k x).global_heap = k.global_heap ∧
    (task_queue_del_unlink k x).current_task = k.current_task := by
  unfold task_queue_del_unlink
  split
  · simp only
    split
    · exact ⟨SameTasks_refl _, rfl, rfl, rfl⟩
    · exact ⟨SameTasks_setTcb_tprev _ _ _, rfl, rfl, rfl⟩
  · split
    · simp only
      split
      · exact ⟨SameTasks_refl _, rfl, rfl, rfl⟩
      · exact ⟨SameTasks_setTcb_tnext _ _ _, rfl, rfl, rfl⟩
    · simp only
      split
      · split
        · exact ⟨SameTasks_trans _ _ _ (SameTasks_setTcb_tprev _ _ _)
            (SameTasks_setTcb_tnext _ _ _), rfl, rfl, rfl⟩
        · exact ⟨SameTasks_setTcb_tprev _ _ _, rfl, rfl, rfl⟩
      · split
        · exact ⟨SameTasks_setTcb_tnext _ _ _, rfl, rfl, rfl⟩
        · exact ⟨SameTasks_refl _, rfl, rfl, rfl⟩

/-- What `task_queue_del` leaves alone: the memory, and every field of
every task control block but the links. -/
theorem task_queue_del_same (k : Kernel) (x : Nat) :
    SameTasks k (task_queue_del k x).1 ∧ (task_queue_del k x).1.mem = k.mem ∧
    (task_queue_del k x).1.global_heap = k.global_heap ∧
    ((task_queue_del k x).1.tcbs x).tnext = 0 ∧
    (task_queue_del k x).1.current_task = (task_queue_del_cursor k x).current_task := by
  obtain ⟨c1, _, _, c4, c5⟩ := task_queue_del_cursor_fields k x
  obtain ⟨u1, u2, u3, u4⟩ := task_queue_del_unlink_same (task_queue_del_cursor k x) x
  refine ⟨?_, ?_, ?_, ?_, ?_⟩
  · refine SameTasks_trans _ _ _ (SameTasks_of_tcbs _ _ c1) ?_
    refine SameTasks_trans _ _ _ u1 ?_
    exact SameTasks_trans _ _ _ (SameTasks_setTcb_tprev _ _ _) (SameTasks_setTcb_tnext _ _ _)
  · show (task_queue_del_unlink (task_queue_del_cursor k x) x).mem = k.mem
    rw [u2, c4]
  · show (task_queue_del_unlink (task_queue_del_cursor k x) x).global_heap = k.global_heap
    rw [u3, c5]
  · simp [task_queue_del, setTcb_tcbs]
  · exact u4

/-- The function `task_queue_del` on a well-formed task list: the task is
taken out, the others stay linked in their order, and `current_task` is
again a task of the list. -/
theorem task_queue_del_taskList (k : Kernel) (pre post : List Nat) (x : Nat)
    (hwf : TaskList k (pre ++ x :: post)) :
    TaskList (task_queue_del k x).1 (pre ++ post) := by
  obtain ⟨c1, c2, c3, _, _⟩ := task_queue_del_cursor_fields k x
  obtain ⟨hsame, _, _, _, hcur⟩ := task_queue_del_same k x
  have hl := task_queue_del_unlink_links (task_queue_del_cursor k x) pre post x
    (by rw [c1, c2]; exact hwf.seg) (by rw [c3]; exact hwf.last_eq) hwf.nodup
    (by rw [c1]; exact hwf.numbers)
  have hsub : ∀ a, a ∈ pre ++ post → a ∈ pre ++ x :: post := by
    intro a ha
    simp only [List.mem_append, List.mem_cons] at ha ⊢
    tauto
  have hnd := hwf.nodup
  have hxpre : x ∉ pre := by
    intro hm
    rw [List.nodup_append] at hnd
    exact hnd.2.2 hm (by simp)
  have hxpost : x ∉ post := by
    rw [List.nodup_append] at hnd
    exact (List.nodup_cons.mp hnd.2.1).1
  refine ⟨hl.1, hl.2, ?_, ?_, ?_⟩
  · rw [List.nodup_append] at hnd ⊢
    exact ⟨hnd.1, (List.nodup_cons.mp hnd.2.1).2,
      fun a h1 h2 => hnd.2.2 h1 (List.mem_cons_of_mem _ h2)⟩
  · intro a ha b hb hab
    rw [(SameTasks_fields _ _ hsame a).2.2.1, (SameTasks_fields _ _ hsame b).2.2.1] at hab
    exact hwf.numbers a (hsub a ha) b (hsub b hb) hab
  · intro hne
    rw [hcur]
    have hcm := hwf.cursor (by simp)
    have hseg' := hwf.seg
    rw [DSeg_append] at hseg'
    obtain ⟨hpre, _, _, _, hpost⟩ := hseg'
    simp only [List.head?_cons, Option.getD_some] at hpre
    have hxn : (k.tcbs x).tnext = post.head?.getD 0 := DSeg_cur _ _ _ _ _ hpost
    have hfirst : k.first = pre.head?.getD x := DSeg_cur _ _ _ _ _ hpre
    unfold task_queue_del_cursor
    split
    · rename_i hc
      have hcx : k.current_task = x :=
        (hwf.numbers x (by simp) k.current_task hcm hc).symm
      show NEXT_TASK k k.current_task ∈ pre ++ post
      rw [hcx]
      unfold NEXT_TASK
      cases post with
      | nil =>
        simp only [List.head?_nil, Option.getD_none] at hxn
        rw [if_pos hxn, hfirst]
        cases pre with
        | nil => exact absurd rfl hne
        | cons a as => simp
      | cons y ys =>
        simp only [List.head?_cons, Option.getD_some] at hxn
        have hy0 : y ≠ 0 := DSeg_ne_zero _ _ _ _ _ hwf.seg y (by simp)
        rw [if_neg (by rw [hxn]; exact hy0), hxn]
        simp
    · rename_i hc
      have hcx : k.current_task ≠ x := fun h => hc (by rw [h])
      simp only [List.mem_append, List.mem_cons] at hcm ⊢
      tauto

theorem DSeg_tnext (tcbs : Nat → TCB) (A B : List Nat) (y prev cur e : Nat)
    (h : DSeg tcbs prev cur (A ++ y :: B) e) : (tcbs y).tnext = B.head?.getD e := by
  rw [DSeg_append] at h
  exact DSeg_cur _ _ _ _ _ h.2.2.2.2

theorem TaskList_of_fields (k k2 : Kernel) (L : List Nat) (h : TaskList k L)
    (h1 : k2.tcbs = k.tcbs) (h2 : k2.first = k.first) (h3 : k2.last = k.last)
    (h4 : k2.current_task = k.current_task) : TaskList k2 L :=
  ⟨by rw [h1, h2]; exact h.seg, by rw [h3]; exact h.last_eq, h.nodup,
    by rw [h1]; exact h.numbers, by rw [h4]; exact h.cursor⟩

/-- The function `delete_task` on a task of a well-formed list whose tasks
own their memory: it returns the cyclic successor of the task, the task is
out of the list, its two blocks are freed, the other tasks keep theirs. -/
theorem delete_task_spec (hfuel : Nat) (k : Kernel) (pre post : List Nat) (x : Nat)
    (hwf : TaskList k (pre ++ x :: post)) (hown : HeapOwns hfuel k (pre ++ x :: post)) :
    ∃ k2, delete_task hfuel k x = some (k2, (post ++ pre ++ [x]).head?.getD 0) ∧
      (post ++ pre ++ [x]).head?.getD 0 ≠ 0 ∧ TaskList k2 (pre ++ post) ∧
      HeapOwns hfuel k2 (pre ++ post) ∧ SameTasks k k2 ∧ (k2.tcbs x).tnext = 0 := by
  have hne := DSeg_ne_zero _ _ _ _ _ hwf.seg
  have hxn : (k.tcbs x).tnext = post.head?.getD 0 := DSeg_tnext _ _ _ _ _ _ _ hwf.seg
  have hfirst : k.first = (pre ++ [x]).head?.getD 0 := by
    have := DSeg_cur _ _ _ _ _ hwf.seg
    rw [this]
    cases pre <;> rfl
  have hnext : NEXT_TASK k x = (post ++ pre ++ [x]).head?.getD 0 := by
    unfold NEXT_TASK
    cases post with
    | nil =>
      simp only [List.head?_nil, Option.getD_none] at hxn
      rw [if_pos hxn, hfirst]
      rfl
    | cons y ys =>
      simp only [List.head?_cons, Option.getD_some] at hxn
      rw [if_neg (by rw [hxn]; exact hne y (by simp)), hxn]
      rfl
  have hn0 : (post ++ pre ++ [x]).head?.getD 0 ≠ 0 := by
    cases post with
    | nil =>
      cases pre with
      | nil => exact hne x (by simp)
      | cons a as => exact hne a (by simp)
    | cons y ys => exact hne y (by simp)
  obtain ⟨hsame, hmem, hgh, htn, _⟩ := task_queue_del_same k x
  have hlist := task_queue_del_taskList k pre post x hwf
  obtain ⟨cs, hinv, hlen, hlive, hdis⟩ := hown
  have hxm : x ∈ pre ++ x :: post := by simp
  have hheap : ((task_queue_del k x).1.tcbs x).heap = (k.tcbs x).heap :=
    (SameTasks_fields _ _ hsame x).2.2.2
  obtain ⟨m1, cs1, hrun1, hinv1, hlen1, hkeep1⟩ :=
    heap_free_live k.mem k.global_heap cs (k.tcbs x).heap hfuel hinv (hlive x hxm).2 hlen
  have hx1 : Live k.global_heap cs1 x :=
    hkeep1 x (hlive x hxm).1 (fun h => (hdis x hxm x hxm).1 h.symm)
  obtain ⟨m2, cs2, hrun2, hinv2, hlen2, hkeep2⟩ :=
    heap_free_live m1 k.global_heap cs1 x hfuel hinv1 hx1 (by omega)
  have hsub : ∀ a, a ∈ pre ++ post → a ∈ pre ++ x :: post ∧ a ≠ x := by
    intro a ha
    have hnd := hwf.nodup
    rw [List.nodup_append] at hnd
    have hxpost : x ∉ post := (List.nodup_cons.mp hnd.2.1).1
    have hxpre : x ∉ pre := fun hm => hnd.2.2 hm (by simp)
    constructor
    · simp only [List.mem_append, List.mem_cons] at ha ⊢
      tauto
    · rintro rfl
      simp only [List.mem_append] at ha
      tauto
  refine ⟨{ (task_queue_del k x).1 with mem := m2 }, ?_, hn0, ?_, ?_, ?_, htn⟩
  · unfold delete_task
    simp only
    rw [hnext, if_neg hn0]
    unfold free_task_resources global_free
    simp only [hheap, hmem, hgh, hrun1, hrun2]
  · exact TaskList_of_fields _ _ _ hlist rfl rfl rfl rfl
  · refine ⟨cs2, ?_, by omega, ?_, ?_⟩
    · show HeapInv m2 (task_queue_del k x).1.global_heap cs2
      rw [hgh]; exact hinv2
    · intro t ht
      obtain ⟨htm, htx⟩ := hsub t ht
      show Live (task_queue_del k x).1.global_heap cs2 t ∧
        Live (task_queue_del k x).1.global_heap cs2 ((task_queue_del k x).1.tcbs t).heap
      rw [hgh, (SameTasks_fields _ _ hsame t).2.2.2]
      refine ⟨hkeep2 t (hkeep1 t (hlive t htm).1 ?_) htx, hkeep2 _ (hkeep1 _ (hlive t htm).2 ?_) ?_⟩
      · exact fun h => (hdis x hxm t htm).1 h.symm
      · exact (hdis t htm x hxm).2 htx
      · exact (hdis t htm x hxm).1
    · intro t ht u hu
      obtain ⟨htm, _⟩ := hsub t ht
      obtain ⟨hum, _⟩ := hsub u hu
      show ((task_queue_del k x).1.tcbs t).heap ≠ u ∧
        (t ≠ u → ((task_queue_del k x).1.tcbs t).heap ≠ ((task_queue_del k x).1.tcbs u).heap)
      rw [(SameTasks_fields _ _ hsame t).2.2.2, (SameTasks_fields _ _ hsame u).2.2.2]
      exact hdis t htm u hum
  · exact SameTasks_trans _ _ _ hsame (SameTasks_of_tcbs _ _ rfl)

theorem update_priority_same (k k2 : Kernel) (h : SameTasks k k2) (t p : Nat) :
    update_priority k2 t p = update_priority k t p := by
  unfold update_priority
  rw [(SameTasks_fields _ _ h t).1, (SameTasks_fields _ _ h t).2.1]

theorem update_priority_cases (k : Kernel) (t p : Nat) :
    (update_priority k t p = p ∧ ((k.tcbs t).status = 0 → p ≤ (k.tcbs t).priority)) ∨
    (update_priority k t p = (k.tcbs t).priority ∧ (k.tcbs t).status = 0) := by
  unfold update_priority
  by_cases h : (k.tcbs t).status = 0 ∧ p > (k.tcbs t).priority
  · rw [if_pos h]; exact Or.inr ⟨rfl, h.1⟩
  · rw [if_neg h]
    refine Or.inl ⟨rfl, fun hs => ?_⟩
    have : ¬ p > (k.tcbs t).priority := fun hp => h ⟨hs, hp⟩
    omega

/-- The loop of `get_sched_priority` from any point of the scan: `done` are
the tasks already passed, `rest` the tasks from the cursor on, `acc` the
running priority.  The loop returns; the tasks left are a sublist of the
tasks before, with every task that is not killed; the value returned is at
most the priority of every task of status 0, and it is `acc` or the
priority of such a task. -/
theorem get_sched_priority_loop_scan (hfuel : Nat) :
    ∀ (fuel : Nat) (k : Kernel) (done rest : List Nat) (acc : Nat),
      TaskList k (done ++ rest) → HeapOwns hfuel k (done ++ rest) →
      (∀ t ∈ done, (k.tcbs t).status = 0 → acc ≤ (k.tcbs t).priority) →
      (done ++ rest).length * (done ++ rest).length + rest.length < fuel →
      ∃ k2 L2 p, get_sched_priority_loop hfuel fuel k (rest.head?.getD 0) acc = some (k2, p) ∧
        TaskList k2 L2 ∧ HeapOwns hfuel k2 L2 ∧ SameTasks k k2 ∧ L2.Sublist (done ++ rest) ∧
        (∀ t ∈ done ++ rest, (k.tcbs t).status ≠ 255 → t ∈ L2) ∧ p ≤ acc ∧
        (∀ t ∈ L2, (k.tcbs t).status = 0 → p ≤ (k.tcbs t).priority) ∧
        (p = acc ∨ ∃ t ∈ L2, (k.tcbs t).status = 0 ∧ (k.tcbs t).priority = p) := by
  intro fuel
  induction fuel with
  | zero => intro k done rest acc _ _ _ hf; exact absurd hf (by omega)
  | succ f ih =>
    intro k done rest acc hwf hown hacc hf
    cases rest with
    | nil =>
      refine ⟨k, done, acc, ?_, by simpa using hwf, by simpa using hown, SameTasks_refl k,
        by simp, ?_, le_refl _, ?_, Or.inl rfl⟩
      · simp [get_sched_priority_loop]
      · intro t ht _; simpa using ht
      · exact hacc
    | cons x rest1 =>
      have hx0 : x ≠ 0 := DSeg_ne_zero _ _ _ _ _ hwf.seg x (by simp)
      have hxn : (k.tcbs x).tnext = rest1.head?.getD 0 := DSeg_tnext _ _ _ _ _ _ _ hwf.seg
      simp only [List.head?_cons, Option.getD_some, get_sched_priority_loop]
      rw [if_neg hx0]
      by_cases hk : (k.tcbs x).status = 255
      · -- the task at the cursor is killed
        rw [if_pos hk]
        obtain ⟨k1, hdel, hn0, hwf1, hown1, hsame1, htn1⟩ :=
          delete_task_spec hfuel k done rest1 x hwf hown
        rw [hdel]
        simp only
        rw [if_neg hn0]
        have hst : ∀ p, (k1.tcbs p).status = (k.tcbs p).status :=
          fun p => (SameTasks_fields _ _ hsame1 p).1
        have hpr : ∀ p, (k1.tcbs p).priority = (k.tcbs p).priority :=
          fun p => (SameTasks_fields _ _ hsame1 p).2.1
        have hlen : (done ++ x :: rest1).length = (done ++ rest1).length + 1 := by
          simp; omega
        -- the tasks of the new list: `done2` up to the returned task, `rest2` after it
        have hsplit : ∃ done2 rest2, done2 ++ rest2 = done ++ rest1 ∧
            (k1.tcbs ((rest1 ++ done ++ [x]).head?.getD 0)).tnext = rest2.head?.getD 0 ∧
            (∀ t ∈ done2, (k1.tcbs t).status = 0 →
              update_priority k1 ((rest1 ++ done ++ [x]).head?.getD 0) acc ≤
                (k1.tcbs t).priority) ∧
            (done ++ rest1).length * (done ++ rest1).length + rest2.length < f ∧
            (update_priority k1 ((rest1 ++ done ++ [x]).head?.getD 0) acc = acc ∨
              ∃ t ∈ done ++ rest1, (k.tcbs t).status = 0 ∧ (k.tcbs t).priority =
                update_priority k1 ((rest1 ++ done ++ [x]).head?.getD 0) acc) := by
          have hupd : ∀ y, y ∈ done ++ rest1 →
              (update_priority k1 y acc = acc ∨
              ∃ t ∈ done ++ rest1, (k.tcbs t).status = 0 ∧ (k.tcbs t).priority =
                update_priority k1 y acc) := by
            intro y hy
            rcases update_priority_cases k1 y acc with ⟨h1, _⟩ | ⟨h1, h2⟩
            · exact Or.inl h1
            · exact Or.inr ⟨y, hy, by rw [← hst]; exact h2, by rw [h1, hpr]⟩
          have hdone : ∀ y, ∀ t ∈ done, (k1.tcbs t).status = 0 →
              update_priority k1 y acc ≤ (k1.tcbs t).priority := by
            intro y t ht hs
            rw [hst] at hs
            rw [hpr]
            exact le_trans (update_priority_le k1 y acc) (hacc t ht hs)
          have hself : ∀ y, (k1.tcbs y).status = 0 →
              update_priority k1 y acc ≤ (k1.tcbs y).priority := by
            intro y hs
            rcases update_priority_cases k1 y acc with ⟨h1, h2⟩ | ⟨h1, _⟩
            · rw [h1]; exact h2 hs
            · rw [h1]
          cases rest1 with
          | cons y r2 =>
            refine ⟨done ++ [y], r2, by simp, ?_, ?_, ?_, hupd y (by simp)⟩
            · exact DSeg_tnext _ _ _ _ _ _ _ hwf1.seg
            · intro t ht hs
              simp only [List.mem_append, List.mem_singleton] at ht
              rcases ht with ht | rfl
              · exact hdone _ t ht hs
              · exact hself _ hs
            · simp only [List.length_append, List.length_cons] at hf hlen ⊢
              have e : (done.length + (r2.length + 1 + 1)) * (done.length + (r2.length + 1 + 1)) =
                  (done.length + (r2.length + 1)) * (done.length + (r2.length + 1)) +
                    2 * (done.length + (r2.length + 1)) + 1 := by ring
              rw [e] at hf
              omega
          | nil =>
            cases done with
            | cons d0 ds =>
              refine ⟨[d0], ds, by simp, ?_, ?_, ?_, hupd d0 (by simp)⟩
              · have h := hwf1.seg
                simp only [List.append_nil] at h
                exact DSeg_tnext _ [] ds d0 _ _ _ h
              · intro t ht hs
                simp only [List.mem_singleton] at ht
                subst ht
                exact hself _ hs
              · simp only [List.length_append, List.length_cons, List.length_nil] at hf hlen ⊢
                have e : (ds.length + 1 + (0 + 1)) * (ds.length + 1 + (0 + 1)) =
                    (ds.length + 1 + 0) * (ds.length + 1 + 0) +
                      2 * (ds.length + 1 + 0) + 1 := by ring
                rw [e] at hf
                omega
            | nil =>
              refine ⟨[], [], rfl, htn1, by simp, ?_, Or.inl ?_⟩
              · simp at hf ⊢; omega
              · show update_priority k1 x acc = acc
                unfold update_priority
                rw [if_neg (by rw [hst, hk]; simp)]
        obtain ⟨done2, rest2, hL, hcur, hacc2, hfuel2, hupd2⟩ := hsplit
        rw [hcur]
        obtain ⟨k2, L2, p, hrun, hwf2, hown2, hsame2, hsub2, hkept2, hle2, hlow2, hatt2⟩ :=
          ih k1 done2 rest2 _ (by rw [hL]; exact hwf1) (by rw [hL]; exact hown1) hacc2
            (by rw [hL]; exact hfuel2)
        rw [hL] at hsub2 hkept2
        have hsubL : (done ++ rest1).Sublist (done ++ x :: rest1) :=
          List.Sublist.append_left (List.sublist_cons_self x rest1) done
        refine ⟨k2, L2, p, hrun, hwf2, hown2, SameTasks_trans _ _ _ hsame1 hsame2,
          hsub2.trans hsubL, ?_, le_trans hle2 (update_priority_le _ _ _), ?_, ?_⟩
        · intro t ht hs
          have htx : t ≠ x := by rintro rfl; exact hs hk
          refine hkept2 t ?_ (by rw [hst]; exact hs)
          simp only [List.mem_append, List.mem_cons] at ht ⊢
          tauto
        · intro t ht hs
          have := hlow2 t ht (by rw [hst]; exact hs)
          rw [hpr] at this
          exact this
        · rcases hatt2 with h | ⟨t, ht, hs, hp⟩
          · rcases hupd2 with h2 | ⟨t, ht, hs, hp⟩
            · left; rw [h, h2]
            · right
              refine ⟨t, hkept2 t ht (by rw [hst, hs]; decide), hs, by rw [h, hp]⟩
          · exact Or.inr ⟨t, ht, by rw [← hst]; exact hs, by rw [← hpr]; exact hp⟩
      · -- the task at the cursor stays
        rw [if_neg hk, hxn]
        obtain ⟨k2, L2, p, hrun, hwf2, hown2, hsame2, hsub2, hkept2, hle2, hlow2, hatt2⟩ :=
          ih k (done ++ [x]) rest1 (update_priority k x acc) (by simpa using hwf)
            (by simpa using hown)
            (by
              intro t ht hs
              simp only [List.mem_append, List.mem_singleton] at ht
              rcases ht with ht | rfl
              · exact le_trans (update_priority_le k x acc) (hacc t ht hs)
              · rcases update_priority_cases k t acc with ⟨h1, h2⟩ | ⟨h1, _⟩
                · rw [h1]; exact h2 hs
                · rw [h1])
            (by simp at hf ⊢; omega)
        rw [List.append_assoc] at hsub2 hkept2
        simp only [List.singleton_append] at hsub2 hkept2
        refine ⟨k2, L2, p, hrun, hwf2, hown2, hsame2, hsub2, hkept2,
          le_trans hle2 (update_priority_le _ _ _), hlow2, ?_⟩
        rcases hatt2 with h | h
        · rcases update_priority_cases k x acc with ⟨h1, _⟩ | ⟨h1, h2⟩
          · left; rw [h, h1]
          · right
            exact ⟨x, hkept2 x (by simp) hk, h2, by rw [h, h1]⟩
        · exact Or.inr h

/-! ## The scan of `get_sched_priority` -/

/-- C14: on a well-formed task list whose tasks own their memory in the
global heap and have priorities of at most 255 (the field is a `UCHAR`),
`get_sched_priority` returns (given enough fuel); the tasks that remain are
a well-formed list, a sublist of the list before; if a task of status 0
remains, the value returned is the priority of one of them and is at most
the priority of each of them, and if none remains the value is 255. -/
theorem get_sched_priority_min (k : Kernel) (L : List Nat) (fuel hfuel : Nat)
    (hwf : TaskList k L) (hown : HeapOwns hfuel k L)
    (hprio : ∀ t ∈ L, (k.tcbs t).priority ≤ 255)
    (hlen : L.length * L.length + L.length < fuel) :
    ∃ k2 L2 p, get_sched_priority fuel hfuel k = some (k2, p) ∧ TaskList k2 L2 ∧
      L2.Sublist L ∧
      ((∃ t ∈ L2, (k2.tcbs t).status = 0) →
        (∃ t ∈ L2, (k2.tcbs t).status = 0 ∧ (k2.tcbs t).priority = p) ∧
        ∀ u ∈ L2, (k2.tcbs u).status = 0 → p ≤ (k2.tcbs u).priority) ∧
      ((¬ ∃ t ∈ L2, (k2.tcbs t).status = 0) → p = 255) := by
  have hfirst : k.first = L.head?.getD 0 := DSeg_cur _ _ _ _ _ hwf.seg
  obtain ⟨k2, L2, p, hrun, hwf2, _, hsame, hsub, _, hle, hlow, hatt⟩ :=
    get_sched_priority_loop_scan hfuel fuel k [] L 255 hwf hown (by simp) hlen
  have hst : ∀ q, (k2.tcbs q).status = (k.tcbs q).status :=
    fun q => (SameTasks_fields _ _ hsame q).1
  have hpr : ∀ q, (k2.tcbs q).priority = (k.tcbs q).priority :=
    fun q => (SameTasks_fields _ _ hsame q).2.1
  simp only [List.nil_append] at hsub
  refine ⟨k2, L2, p, ?_, hwf2, hsub, ?_, ?_⟩
  · unfold get_sched_priority
    rw [hfirst]
    exact hrun
  · rintro ⟨t, ht, hs⟩
    simp only [hst, hpr] at hs ⊢
    refine ⟨?_, hlow⟩
    rcases hatt with h | h
    · refine ⟨t, ht, hs, ?_⟩
      have h1 := hlow t ht hs
      have h2 := hprio t (hsub.subset ht)
      omega
    · exact h
  · intro hno
    rcases hatt with h | ⟨t, ht, hs, _⟩
    · exact h
    · exact absurd ⟨t, ht, by rw [hst]; exact hs⟩ hno

theorem reapKernel_taskList : TaskList reapKernel [4128, 5288, 6448] where
  seg := ⟨rfl, by decide, rfl, rfl, by decide, rfl, rfl, by decide, rfl, rfl⟩
  last_eq := rfl
  nodup := by decide
  numbers := by decide
  cursor := fun _ => by decide

theorem reapMem_inv : HeapInv reapMem 4096 reapChunks :=
  ⟨⟨by decide, by decide, by decide,
    ⟨by decide, by decide, by decide, by decide, by decide, by decide, by decide, trivial⟩,
    by decide, by decide, by decide⟩, by decide,
    ⟨rfl, rfl, rfl, rfl, rfl, rfl, rfl, rfl, rfl, rfl, rfl, rfl, rfl, rfl, trivial⟩⟩

theorem reapKernel_heapOwns : HeapOwns 8 reapKernel [4128, 5288, 6448] := by
  refine ⟨reapChunks, reapMem_inv, by decide, ?_, by decide⟩
  intro t ht
  simp only [List.mem_cons, List.mem_singleton, List.not_mem_nil, or_false] at ht
  rcases ht with rfl | rfl | rfl
  · exact ⟨⟨[], _, _, rfl, rfl, rfl⟩, ⟨List.take 1 reapChunks, _, _, rfl, rfl, rfl⟩⟩
  · exact ⟨⟨List.take 2 reapChunks, _, _, rfl, rfl, rfl⟩,
      ⟨List.take 3 reapChunks, _, _, rfl, rfl, rfl⟩⟩
  · exact ⟨⟨List.take 4 reapChunks, _, _, rfl, rfl, rfl⟩,
      ⟨List.take 5 reapChunks, _, _, rfl, rfl, rfl⟩⟩

theorem get_sched_priority_min_witness :
    ∃ k2 L2 p, get_sched_priority 13 8 reapKernel = some (k2, p) ∧ TaskList k2 L2 ∧
      L2.Sublist [4128, 5288, 6448] ∧
      ((∃ t ∈ L2, (k2.tcbs t).status = 0) →
        (∃ t ∈ L2, (k2.tcbs t).status = 0 ∧ (k2.tcbs t).priority = p) ∧
        ∀ u ∈ L2, (k2.tcbs u).status = 0 → p ≤ (k2.tcbs u).priority) ∧
      ((¬ ∃ t ∈ L2, (k2.tcbs t).status = 0) → p = 255) :=
  get_sched_priority_min reapKernel [4128, 5288, 6448] 13 8 reapKernel_taskList
    reapKernel_heapOwns (by decide) (by decide)

/-- C15 (the input on which it fails): in `reapKernel` the first two tasks
of the list are killed and adjacent.  One call of `get_sched_priority`
deletes the first and goes on with the task after its successor, so the
second killed task is still in the list afterwards: the list is then the
tasks at 5288 and 6448, and the task at 5288 has status `TASK_KILLED`. -/
theorem get_sched_priority_keeps_adjacent_killed :
    TaskList reapKernel [4128, 5288, 6448] ∧ HeapOwns 8 reapKernel [4128, 5288, 6448] ∧
    (reapKernel.tcbs 4128).status = 255 ∧ (reapKernel.tcbs 5288).status = 255 ∧
    ∃ k2, get_sched_priority 13 8 reapKernel = some (k2, 10) ∧
      TaskList k2 [5288, 6448] ∧ (k2.tcbs 5288).status = 255 := by
  refine ⟨reapKernel_taskList, reapKernel_heapOwns, rfl, rfl, ?_⟩
  have hev : (get_sched_priority 13 8 reapKernel).map (fun r =>
      [r.2, r.1.first, r.1.last, r.1.current_task, (r.1.tcbs 5288).status.toNat,
        (r.1.tcbs 5288).tprev, (r.1.tcbs 5288).tnext, (r.1.tcbs 6448).tprev,
        (r.1.tcbs 6448).tnext, (r.1.tcbs 5288).task_number, (r.1.tcbs 6448).task_number]) =
      some [10, 5288, 6448, 6448, 255, 0, 6448, 5288, 0, 1, 2] := by decide
  have hev2 : (get_sched_priority 13 8 reapKernel).map (fun r => (r.1.tcbs 5288).status) =
      some 255 := by decide
  cases h : get_sched_priority 13 8 reapKernel with
  | none => rw [h] at hev; exact absurd hev (by simp)
  | some r =>
    obtain ⟨k2, p⟩ := r
    rw [h] at hev hev2
    simp only [Option.map_some', Option.some.injEq, List.cons.injEq, and_true] at hev hev2
    obtain ⟨h1, h2, h3, h4, _, h6, h7, h8, h9, h10, h11⟩ := hev
    have h5 := hev2
    subst h1
    refine ⟨k2, rfl, ⟨?_, ?_, by decide, ?_, ?_⟩, h5⟩
    · exact ⟨h2, by decide, h6, by rw [h7]; exact ⟨rfl, by decide, h8, h9⟩⟩
    · rw [h3]; rfl
    · intro a ha b hb hab
      simp only [List.mem_cons, List.mem_singleton, List.not_mem_nil, or_false] at ha hb
      rcases ha with rfl | rfl <;> rcases hb with rfl | rfl
      · rfl
      · rw [h10, h11] at hab; exact absurd hab (by decide)
      · rw [h10, h11] at hab; exact absurd hab (by decide)
      · rfl
    · intro _; rw [h4]; decide

/-! ## When the scheduler returns -/

/-- C17 (amended): on a well-formed task list whose tasks own their memory
in the global heap, one turn of the scheduler ends (given enough fuel); the
scan changes no status and no priority; the turn returns without
dispatching exactly when, among the tasks left by the scan, none has status
0 and a priority value below 255; when there is such a task it dispatches a
task of status 0 and of priority below 255 of the list, which becomes
`current_task`.  A task of priority value 255 is never dispatched: whatever
task the turn dispatches is a task of the list with status 0 and a priority
value below 255, and when every task of status 0 has priority 255 the turn
returns. -/
theorem scheduler_returns_iff_none_below_255 (k : Kernel) (L : List Nat) (fuel hfuel : Nat)
    (hwf : TaskList k L) (hown : HeapOwns hfuel k L)
    (hlen : L.length * L.length + L.length < fuel) :
    ∃ k2 L2 out, scheduler_pass fuel hfuel k = some (k2, out) ∧ TaskList k2 L2 ∧
      L2.Sublist L ∧
      (out = SchedOutcome.returned ↔
        ¬ ∃ t ∈ L2, (k2.tcbs t).status = 0 ∧ (k2.tcbs t).priority < 255) ∧
      ((∃ t ∈ L2, (k2.tcbs t).status = 0 ∧ (k2.tcbs t).priority < 255) →
        ∃ t ∈ L2, out = SchedOutcome.dispatched t ∧ (k2.tcbs t).status = 0 ∧
          k2.current_task = t) ∧
      (∀ q, (k2.tcbs q).status = (k.tcbs q).status ∧
        (k2.tcbs q).priority = (k.tcbs q).priority) ∧
      (∀ t, out = SchedOutcome.dispatched t →
        t ∈ L2 ∧ (k2.tcbs t).status = 0 ∧ (k2.tcbs t).priority < 255 ∧ k2.current_task = t) ∧
      ((∀ t ∈ L2, (k2.tcbs t).status = 0 → (k2.tcbs t).priority = 255) →
        out = SchedOutcome.returned) := by
  have hfirst : k.first = L.head?.getD 0 := DSeg_cur _ _ _ _ _ hwf.seg
  obtain ⟨k1, L2, p, hrun, hwf1, _, hsame, hsub, _, hle, hlow, hatt⟩ :=
    get_sched_priority_loop_scan hfuel fuel k [] L 255 hwf hown (by simp) hlen
  have hst : ∀ q, (k1.tcbs q).status = (k.tcbs q).status :=
    fun q => (SameTasks_fields _ _ hsame q).1
  have hpr : ∀ q, (k1.tcbs q).priority = (k.tcbs q).priority :=
    fun q => (SameTasks_fields _ _ hsame q).2.1
  simp only [List.nil_append] at hsub
  have hscan : get_sched_priority fuel hfuel k = some (k1, p) := by
    unfold get_sched_priority
    rw [hfirst]
    exact hrun
  by_cases hp : p = 255
  · have hnone : ¬ ∃ t ∈ L2, (k1.tcbs t).status = 0 ∧ (k1.tcbs t).priority < 255 := by
      rintro ⟨t, ht, hs, hlt⟩
      rw [hst] at hs
      rw [hpr] at hlt
      have := hlow t ht hs
      omega
    refine ⟨k1, L2, SchedOutcome.returned, ?_, hwf1, hsub, ?_, ?_,
      fun q => ⟨hst q, hpr q⟩, fun t h => absurd h (by simp), fun _ => rfl⟩
    · unfold scheduler_pass
      rw [hscan]
      simp only
      rw [if_pos (by rw [hp]; rfl)]
    · exact ⟨fun _ => hnone, fun _ => rfl⟩
    · intro h; exact absurd h hnone
  · have hex : ∃ t0 ∈ L2, (k.tcbs t0).status = 0 ∧ (k.tcbs t0).priority = p := by
      rcases hatt with h | h
      · exact absurd h hp
      · exact h
    obtain ⟨t0, ht0, hs0, hp0⟩ := hex
    have hne : L2 ≠ [] := List.ne_nil_of_mem ht0
    obtain ⟨pre, post, hL2⟩ := List.append_of_mem (hwf1.cursor hne)
    have hel : eligible k1 p t0 = true :=
      (eligible_iff k1 p t0).mpr ⟨by rw [hst]; exact hs0, by rw [hpr, hp0]⟩
    have hsome : ((post ++ pre ++ [k1.current_task]).find? (eligible k1 p)).isSome := by
      rw [List.find?_isSome]
      refine ⟨t0, ?_, hel⟩
      rw [hL2] at ht0
      simp only [List.mem_append, List.mem_cons, List.mem_singleton, List.not_mem_nil,
        or_false] at ht0 ⊢
      tauto
    obtain ⟨t, ht⟩ := Option.isSome_iff_exists.mp hsome
    have hlen2 : L2.length ≤ L.length := hsub.length_le
    have hsel := scheduler_select_cyclic k1 p pre post k1.current_task t fuel
      (by rw [← hL2]; exact hwf1.seg) ht (by rw [← hL2]; omega)
    have htel : eligible k1 p t = true := List.find?_some ht
    have htm : t ∈ L2 := by
      have := List.mem_of_find?_eq_some ht
      rw [hL2]
      simp only [List.mem_append, List.mem_cons, List.mem_singleton, List.not_mem_nil,
        or_false] at this ⊢
      tauto
    have hts : (k1.tcbs t).status = 0 := ((eligible_iff k1 p t).mp htel).1
    have htp : (k1.tcbs t).priority < 255 := by
      have := ((eligible_iff k1 p t).mp htel).2
      omega
    have hx0 : ∃ u ∈ L2, (k1.tcbs u).status = 0 ∧ (k1.tcbs u).priority < 255 :=
      ⟨t, htm, hts, htp⟩
    refine ⟨{ k1 with current_task := t }, L2, SchedOutcome.dispatched t, ?_,
      TaskList_set_cursor k1 L2 t hwf1 htm, hsub, ?_, ?_, fun q => ⟨hst q, hpr q⟩, ?_, ?_⟩
    · unfold scheduler_pass
      rw [hscan]
      simp only
      rw [if_neg (by intro h; exact hp h), hsel]
    · constructor
      · intro h; exact absurd h (by simp)
      · intro h
        exfalso
        apply h
        refine ⟨t0, ht0, by show (k1.tcbs t0).status = 0; rw [hst]; exact hs0, ?_⟩
        show (k1.tcbs t0).priority < 255
        rw [hpr, hp0]
        omega
    · intro _
      exact ⟨t, htm, rfl, hts, rfl⟩
    · intro u hu
      have e : t = u := by
        simp only [SchedOutcome.dispatched.injEq] at hu
        exact hu
      subst e
      exact ⟨htm, hts, htp, rfl⟩
    · intro hall
      exfalso
      have := hall t htm hts
      have h2 : (k1.tcbs t).priority < 255 := htp
      have h3 : (k1.tcbs t).priority = 255 := this
      omega

theorem scheduler_returns_iff_none_below_255_witness :
    ∃ k2 L2 out, scheduler_pass 13 8 reapKernel = some (k2, out) ∧ TaskList k2 L2 ∧
      L2.Sublist [4128, 5288, 6448] ∧
      (out = SchedOutcome.returned ↔
        ¬ ∃ t ∈ L2, (k2.tcbs t).status = 0 ∧ (k2.tcbs t).priority < 255) ∧
      ((∃ t ∈ L2, (k2.tcbs t).status = 0 ∧ (k2.tcbs t).priority < 255) →
        ∃ t ∈ L2, out = SchedOutcome.dispatched t ∧ (k2.tcbs t).status = 0 ∧
          k2.current_task = t) ∧
      (∀ q, (k2.tcbs q).status = (reapKernel.tcbs q).status ∧
        (k2.tcbs q).priority = (reapKernel.tcbs q).priority) ∧
      (∀ t, out = SchedOutcome.dispatched t →
        t ∈ L2 ∧ (k2.tcbs t).status = 0 ∧ (k2.tcbs t).priority < 255 ∧ k2.current_task = t) ∧
      ((∀ t ∈ L2, (k2.tcbs t).status = 0 → (k2.tcbs t).priority = 255) →
        out = SchedOutcome.returned) :=
  scheduler_returns_iff_none_below_255 reapKernel [4128, 5288, 6448] 13 8 reapKernel_taskList
    reapKernel_heapOwns (by decide)

theorem lowestKernel_taskList : TaskList lowestKernel [100] where
  seg := ⟨rfl, by decide, rfl, rfl⟩
  last_eq := rfl
  nodup := by decide
  numbers := by decide
  cursor := fun _ => by decide

/-- C17 (counterexample): the only task of `lowestKernel` has status 0 and
priority 255, a value in 0..255, and no task is killed; one turn of the
scheduler returns without dispatching it, and leaves the state as it
was. -/
theorem scheduler_returns_with_runnable_task :
    TaskList lowestKernel [100] ∧ (lowestKernel.tcbs 100).status = 0 ∧
    (lowestKernel.tcbs 100).priority = 255 ∧
    scheduler_pass 2 1 lowestKernel = some (lowestKernel, SchedOutcome.returned) :=
  ⟨lowestKernel_taskList, rfl, rfl,
    (scheduler_pass_no_killed lowestKernel [100] [] [] 100 2 1 lowestKernel_taskList rfl rfl
      (by decide) (by decide)).1 (by decide)⟩

/-! ## Creating a task -/

theorem heap_alloc_loop_mono (m : Mem) (max_addr size : Nat) :
    ∀ (fuel hcb : Nat) (r : Option Nat), heap_alloc_loop m max_addr size fuel hcb = some r →
      ∀ j, heap_alloc_loop m max_addr size (fuel + j) hcb = some r := by
  intro fuel
  induction fuel with
  | zero => intro hcb r h; exact absurd h (by simp [heap_alloc_loop])
  | succ f ih =>
    intro hcb r h j
    have e : f + 1 + j = (f + j) + 1 := by omega
    rw [e]
    simp only [heap_alloc_loop] at h ⊢
    split
    · rename_i h1
      rw [if_pos h1] at h
      split
      · rename_i h2; rw [if_pos h2] at h; exact h
      · rename_i h2
        rw [if_neg h2] at h
        split
        · rename_i h3; rw [if_pos h3] at h; exact h
        · rename_i h3; rw [if_neg h3] at h; exact ih _ _ h j
    · rename_i h1; rw [if_neg h1] at h; exact h

/-- More fuel does not change the result of `heap_alloc`. -/
theorem heap_alloc_mono (m : Mem) (h size fuel : Nat) (r : Mem × Nat)
    (hr : heap_alloc fuel m h size = some r) (j : Nat) :
    heap_alloc (fuel + j) m h size = some r := by
  unfold heap_alloc at hr ⊢
  split
  · rename_i h1; rw [if_pos h1] at hr; exact hr
  · rename_i h1
    rw [if_neg h1] at hr
    split
    · rename_i h2; rw [if_pos h2] at hr; exact hr
    · rename_i h2
      rw [if_neg h2] at hr
      simp only at hr ⊢
      cases hl : heap_alloc_loop m (uadd h (heap_size m h)) size fuel (uadd h sizeof_HEAP) with
      | none => rw [hl] at hr; exact absurd hr (by simp)
      | some v =>
        rw [hl] at hr
        rw [heap_alloc_loop_mono _ _ _ _ _ _ hl j]
        exact hr

theorem heap_alloc_take_zero (m : Mem) (hcb n i : Nat) (hi : i < n) :
    (heap_alloc_take m hcb n).1 ((heap_alloc_take m hcb n).2 + i) = 0 := by
  simp only [heap_alloc_take]
  exact clear_memory_zero _ _ _ _ (by omega) (by omega)

/-- A call of `heap_alloc` that returns a non-null pointer, on a heap that
satisfies the invariants and for a request that does not wrap around: the
pointer is the payload of the first chunk that fits, which is split. -/
theorem heap_alloc_success (m : Mem) (h : Nat) (cs : List HCB) (n fuel : Nat) (m2 : Mem)
    (p : Nat) (hinv : HeapInv m h cs) (hn : n + sizeof_HCB + HEAP_MIN_NODE_SIZE < U32)
    (hr : heap_alloc fuel m h n = some (m2, p)) (hp : p ≠ 0) :
    ∃ pre c post, cs = pre ++ c :: post ∧ (∀ d ∈ pre, ¬ Fits n d) ∧ Fits n c ∧
      p = h + sizeof_HEAP + sizeSum pre + sizeof_HCB ∧
      m2 = (heap_alloc_take m (h + sizeof_HEAP + sizeSum pre) n).1 ∧
      HeapInv m2 h (pre ++ splitChunk n c ++ post) ∧ ∀ i, i < n → m2 (p + i) = 0 := by
  have e24 : HEAP_MIN_NODE_SIZE = 24 := rfl
  have hbig := heap_alloc_mono m h n fuel _ hr (cs.length + 1)
  rcases heap_alloc_search m h cs n (fuel + (cs.length + 1)) hinv.1 (by omega) (by omega) with
    ⟨pre, c, post, hcs, hpre, hc, hrun⟩ | ⟨_, hrun⟩
  · rw [hrun] at hbig
    simp only [Option.some.injEq] at hbig
    subst hcs
    have hch := heap_alloc_take_chain m h pre post c n hinv.1 hinv.2.1 hc hn
    have hi := heap_alloc_take_inv m h pre post c n hinv hc hn
    have h1 : m2 = (heap_alloc_take m (h + sizeof_HEAP + sizeSum pre) n).1 := by
      rw [hbig]
    have h2 : p = (heap_alloc_take m (h + sizeof_HEAP + sizeSum pre) n).2 := by
      rw [hbig]
    refine ⟨pre, c, post, rfl, hpre, hc, by rw [h2]; exact hch.1, h1, by rw [h1]; exact hi.1, ?_⟩
    intro i hi2
    rw [h1, h2]
    exact heap_alloc_take_zero _ _ _ _ hi2
  · rw [hrun] at hbig
    simp only [Option.some.injEq, Prod.mk.injEq] at hbig
    exact absurd hbig.2.symm hp

/-- The payload of a FREE chunk is not the payload of a chunk in use. -/
theorem Live_ne_free (h : Nat) (pre post : List HCB) (c : HCB) (q : Nat)
    (hsz : ∀ d ∈ pre ++ c :: post, d.size ≠ 0) (hc : c.status = HEAP_STATUS_FREE)
    (hq : Live h (pre ++ c :: post) q) : q ≠ h + sizeof_HEAP + sizeSum pre + sizeof_HCB := by
  obtain ⟨pre2, d, post2, hcs, hd, hqa⟩ := hq
  intro he
  rw [hqa] at he
  have hs : sizeSum pre2 = sizeSum pre := by omega
  rw [List.append_eq_append_iff] at hcs
  rcases hcs with ⟨a, h1, h2⟩ | ⟨b, h1, h2⟩
  · cases a with
    | nil =>
      simp at h2
      rw [← h2.1, hc] at hd
      exact absurd hd (by decide)
    | cons z zs =>
      simp at h2
      obtain ⟨rfl, rfl⟩ := h2
      rw [h1, sizeSum_append] at hs
      have := hsz c (by simp)
      simp only [sizeSum] at hs
      omega
  · cases b with
    | nil =>
      simp at h2
      rw [h2.1, hc] at hd
      exact absurd hd (by decide)
    | cons z zs =>
      simp at h2
      obtain ⟨rfl, rfl⟩ := h2
      rw [h1, sizeSum_append] at hs
      have := hsz d (by rw [h1]; simp)
      simp only [sizeSum] at hs
      omega

theorem fill_bytes_frame (m : Mem) (p v n x : Nat) (h : x < p ∨ p + n ≤ x) :
    fill_bytes m p v n x = m x := by
  induction n with
  | zero => rfl
  | succ j ih =>
    simp only [fill_bytes]
    rw [write8_frame _ _ _ _ (by omega)]
    exact ih (by omega)

theorem fill_bytes_inside (m : Mem) (p v n x : Nat) (h1 : p ≤ x) (h2 : x < p + n) :
    fill_bytes m p v n x = v % 256 := by
  induction n with
  | zero => omega
  | succ j ih =>
    simp only [fill_bytes]
    by_cases hx : x = p + j
    · rw [hx, write8_same]
    · rw [write8_frame _ _ _ _ hx]
      exact ih (by omega)

theorem read32_zero (m : Mem) (a : Nat) (h : ∀ i, i < 4 → m (a + i) = 0) : read32 m a = 0 := by
  have h0 := h 0 (by omega)
  have h1 := h 1 (by omega)
  have h2 := h 2 (by omega)
  have h3 := h 3 (by omega)
  simp only [Nat.add_zero] at h0
  simp [read32, read8, h0, h1, h2, h3]

theorem task_create_error_null (hfuel : Nat) (k : Kernel) (tcb heap_tmp : Nat)
    (r : Kernel × Nat) (h : task_create_error hfuel k tcb heap_tmp = some r) : r.2 = 0 := by
  unfold task_create_error at h
  split at h
  · exact absurd h (by simp)
  · split at h
    · exact absurd h (by simp)
    · simp only [Option.some.injEq] at h
      rw [← h]

/-- The kernel state in which `task_create` calls `task_queue_add` when
every step has succeeded. -/
theorem task_create_inv (hfuel saved : Nat) (k : Kernel) (entry arg stksize hsize prio : Nat)
    (k2 : Kernel) (p : Nat)
    (hrun : task_create hfuel saved k entry arg stksize hsize prio = some (k2, p))
    (hp : p ≠ 0) :
    ∃ m1 m3 heap_tmp m5 stack m6 eq,
      heap_alloc hfuel k.mem k.global_heap sizeof_TCB = some (m1, p) ∧
      heap_alloc hfuel m1 k.global_heap hsize = some (m3, heap_tmp) ∧ heap_tmp ≠ 0 ∧
      (init_heap m3 heap_tmp hsize).2 ≠ 0 ∧
      heap_alloc hfuel (init_heap m3 heap_tmp hsize).1 (init_heap m3 heap_tmp hsize).2 stksize =
        some (m5, stack) ∧ stack ≠ 0 ∧
      heap_alloc hfuel m5 (init_heap m3 heap_tmp hsize).2 sizeof_EVENT_QUEUE = some (m6, eq) ∧
      eq ≠ 0 ∧
      k2 = task_queue_add
        { k with
          mem := fill_bytes m6 stack TASK_STACK_MAGIC stksize
          tcbs := fun q =>
            if q = p then
              ⟨k.task_number, stack, stksize, (init_heap m3 heap_tmp hsize).2, 0, prio, 0, 0,
                entry, arg, eq, 0, 0⟩
            else k.tcbs q
          task_number := uadd k.task_number 1 } p := by
  unfold task_create at hrun
  cases h1 : heap_alloc hfuel k.mem k.global_heap sizeof_TCB with
  | none => simp [global_alloc, h1] at hrun
  | some r1 =>
    obtain ⟨m1, tcb⟩ := r1
    simp only [global_alloc, h1] at hrun
    by_cases ht : tcb = 0
    · rw [if_pos ht] at hrun
      exact absurd (task_create_error_null _ _ _ _ _ hrun) hp
    · rw [if_neg ht] at hrun
      simp only [setTcb] at hrun
      cases h2 : heap_alloc hfuel m1 k.global_heap hsize with
      | none => simp [h2] at hrun
      | some r2 =>
        obtain ⟨m3, heap_tmp⟩ := r2
        simp only [h2] at hrun
        by_cases hh : heap_tmp = 0
        · rw [if_pos hh] at hrun
          exact absurd (task_create_error_null _ _ _ _ _ hrun) hp
        · rw [if_neg hh] at hrun
          unfold task_create_heap at hrun
          simp only [setTcb, if_true] at hrun
          by_cases hi : (init_heap m3 heap_tmp hsize).2 = 0
          · rw [if_pos hi] at hrun
            exact absurd (task_create_error_null _ _ _ _ _ hrun) hp
          · rw [if_neg hi] at hrun
            simp only [tcb_alloc, if_true] at hrun
            cases h3 : heap_alloc hfuel (init_heap m3 heap_tmp hsize).1
                (init_heap m3 heap_tmp hsize).2 stksize with
            | none => simp [h3] at hrun
            | some r3 =>
              obtain ⟨m5, stack⟩ := r3
              simp only [h3] at hrun
              by_cases hs : stack = 0
              · rw [if_pos hs] at hrun
                exact absurd (task_create_error_null _ _ _ _ _ hrun) hp
              · rw [if_neg hs] at hrun
                simp only [if_true] at hrun
                cases h4 : heap_alloc hfuel m5 (init_heap m3 heap_tmp hsize).2
                    sizeof_EVENT_QUEUE with
                | none => simp [h4] at hrun
                | some r4 =>
                  obtain ⟨m6, eq⟩ := r4
                  simp only [h4] at hrun
                  by_cases he : eq = 0
                  · rw [if_pos he] at hrun
                    exact absurd (task_create_error_null _ _ _ _ _ hrun) hp
                  · rw [if_neg he] at hrun
                    unfold task_create_finish at hrun
                    simp only [setup_stack_frame] at hrun
                    by_cases hsv : saved = 0
                    · subst hsv
                      simp only [ne_eq, not_true_eq_false, if_false, setTcb, if_true,
                        Option.some.injEq, Prod.mk.injEq] at hrun
                      obtain ⟨hk, hpp⟩ := hrun
                      subst hpp
                      refine ⟨m1, m3, heap_tmp, m5, stack, m6, eq, rfl, h2, hh, hi, h3, hs, h4,
                        he, ?_⟩
                      rw [← hk]
                      congr 1
                      simp only [Kernel.mk.injEq, true_and, and_true]
                      funext q
                      by_cases hq : q = tcb
                      · simp only [hq, if_true]; rfl
                      · simp only [hq, if_false]
                    · simp only [ne_eq, hsv, not_false_eq_true, if_true] at hrun
                      exact absurd (task_create_error_null _ _ _ _ _ hrun) hp

theorem task_queue_add_same (k : Kernel) (t : Nat) :
    SameTasks k (task_queue_add k t) ∧ (task_queue_add k t).mem = k.mem ∧
    (task_queue_add k t).task_number = k.task_number := by
  unfold task_queue_add
  split
  · refine ⟨?_, rfl, rfl⟩
    refine SameTasks_trans _ _ _ (SameTasks_of_tcbs k _ rfl) ?_
    exact SameTasks_trans _ _ _ (SameTasks_setTcb_tnext _ t 0) (SameTasks_setTcb_tprev _ t 0)
  · refine ⟨?_, rfl, rfl⟩
    refine SameTasks_trans k (setTcb k k.last (fun x => { x with tnext := t })) _
      (SameTasks_setTcb_tnext k k.last t) ?_
    refine SameTasks_trans _ (setTcb (setTcb k k.last (fun x => { x with tnext := t })) t
      (fun x => { x with tprev := k.last })) _ (SameTasks_setTcb_tprev _ t k.last) ?_
    exact SameTasks_trans _ _ _ (SameTasks_setTcb_tnext _ t 0) (SameTasks_of_tcbs _ _ rfl)

/-- The function `task_queue_add` on a well-formed chain of links: the task
is appended at the tail; `current_task` is left alone unless the list was
empty. -/
theorem task_queue_add_links (k : Kernel) (L : List Nat) (t : Nat)
    (hseg : DSeg k.tcbs 0 k.first L 0) (hlast : k.last = L.getLast?.getD 0)
    (hnd : L.Nodup) (ht : t ∉ L) (ht0 : t ≠ 0) :
    DSeg (task_queue_add k t).tcbs 0 (task_queue_add k t).first (L ++ [t]) 0 ∧
    (task_queue_add k t).last = t ∧
    (task_queue_add k t).current_task = (if L = [] then t else k.current_task) := by
  have hne := DSeg_ne_zero _ _ _ _ _ hseg
  rcases List.eq_nil_or_concat L with rfl | ⟨as, w, hcc⟩
  · have hl : k.last = 0 := hlast
    simp only [task_queue_add, if_pos hl, List.nil_append, if_true]
    exact ⟨⟨rfl, ht0, by simp [setTcb_tcbs], by simp [setTcb_tcbs, DSeg]⟩, rfl, rfl⟩
  · rw [List.concat_eq_append] at hcc
    subst hcc
    have hw0 : w ≠ 0 := hne w (by simp)
    have hl : k.last = w := by rw [hlast]; simp
    have hwt : w ≠ t := fun h => ht (by rw [← h]; simp)
    have htw : t ≠ w := fun h => hwt h.symm
    have hnil : ¬ (as ++ [w] = []) := by simp
    simp only [task_queue_add, if_neg (show ¬ k.last = 0 by rw [hl]; exact hw0), if_neg hnil,
      setTcb_first, setTcb_last]
    refine ⟨?_, trivial, rfl⟩
    rw [DSeg_append]
    have e : (as ++ [w]).getLast?.getD 0 = w := by simp
    rw [e]
    simp only [List.head?_cons, Option.getD_some]
    refine ⟨?_, rfl, ht0, by simp [setTcb_tcbs, hl], by simp [setTcb_tcbs, DSeg]⟩
    have hwas : w ∉ as := by
      rw [List.nodup_append] at hnd
      exact fun hm => hnd.2.2 hm (by simp)
    rw [hl]
    refine DSeg_change_end k.tcbs _ w t as _ _ _ hseg hwas (fun p hp => ?_) ?_ ?_
    · have hpw : p ≠ w := fun h => hwas (by rw [← h]; exact hp)
      have hpt : p ≠ t := fun h => ht (by rw [← h]; simp [hp])
      simp [setTcb_tcbs, hpw, hpt]
    · simp [setTcb_tcbs, hwt]
    · simp [setTcb_tcbs, hwt]

theorem init_heap_nonnull (m : Mem) (s n : Nat) (h : (init_heap m s n).2 ≠ 0) :
    s ≠ 0 ∧ ¬ n < HEAP_MIN_SIZE ∧ (init_heap m s n).2 = s := by
  unfold init_heap at h ⊢
  by_cases h1 : s = 0
  · rw [if_pos h1] at h; exact absurd rfl h
  · rw [if_neg h1] at h ⊢
    by_cases h2 : n < HEAP_MIN_SIZE
    · rw [if_pos h2] at h; exact absurd rfl h
    · rw [if_neg h2]
      exact ⟨h1, h2, rfl⟩

theorem splitChunk_head (n : Nat) (c : HCB) (hc : n + sizeof_HCB ≤ c.size) :
    ∃ u rest, splitChunk n c = u :: rest ∧ u.status = HEAP_STATUS_USED ∧
      n + sizeof_HCB ≤ u.size := by
  unfold splitChunk
  split
  · exact ⟨_, _, rfl, rfl, le_refl _⟩
  · exact ⟨_, _, rfl, rfl, hc⟩

/-- C18: a call of `task_create` that returns a non-null pointer `t` (so
that every allocation has succeeded), in a state with a well-formed task
list `L` whose tasks own their memory in the global heap, for sizes that do
not wrap around.  The new task has status 0, flags 0, the priority, stack
size, entry and argument given, and the old value of the counter as its
number; the counter is incremented (as a `UINT`); the three words of its
event queue are zero; `t` is the address of no old task, the list is the
old list with `t` appended at the tail, no other field of an old task has
changed, and `current_task` is unchanged unless the list was empty, when it
is `t`.  If no old task has the number of the counter, the new list is
well formed. -/
theorem task_create_appends_runnable_task (hfuel n saved : Nat) (k : Kernel) (L : List Nat)
    (entry arg stksize hsize prio : Nat) (r : Kernel × Nat)
    (hwf : TaskList k L) (hown : HeapOwns n k L)
    (hs : stksize + sizeof_HCB + HEAP_MIN_NODE_SIZE < U32)
    (hh : hsize + sizeof_HCB + HEAP_MIN_NODE_SIZE < U32)
    (hrun : task_create hfuel saved k entry arg stksize hsize prio = some r)
    (hp : r.2 ≠ 0) :
    (r.1.tcbs r.2).status = 0 ∧ (r.1.tcbs r.2).flags = 0 ∧ (r.1.tcbs r.2).priority = prio ∧
    (r.1.tcbs r.2).ssize = stksize ∧ (r.1.tcbs r.2).entry = entry ∧
    (r.1.tcbs r.2).arg = arg ∧ (r.1.tcbs r.2).task_number = k.task_number ∧
    r.1.task_number = uadd k.task_number 1 ∧
    read32 r.1.mem (r.1.tcbs r.2).event_queue = 0 ∧
    read32 r.1.mem ((r.1.tcbs r.2).event_queue + 4) = 0 ∧
    read32 r.1.mem ((r.1.tcbs r.2).event_queue + 8) = 0 ∧
    r.2 ∉ L ∧ DSeg r.1.tcbs 0 r.1.first (L ++ [r.2]) 0 ∧ r.1.last = r.2 ∧
    (∀ q, q ≠ r.2 → { r.1.tcbs q with tnext := 0, tprev := 0 } =
      { k.tcbs q with tnext := 0, tprev := 0 }) ∧
    r.1.current_task = (if L = [] then r.2 else k.current_task) ∧
    ((∀ q ∈ L, (k.tcbs q).task_number ≠ k.task_number) → TaskList r.1 (L ++ [r.2])) := by
  obtain ⟨k2, t⟩ := r
  simp only at hp ⊢
  have e20 : sizeof_HCB = 20 := rfl
  have e24 : HEAP_MIN_NODE_SIZE = 24 := rfl
  have e12 : sizeof_HEAP = 12 := rfl
  have e96 : sizeof_TCB = 96 := rfl
  have eeq : sizeof_EVENT_QUEUE = 12 := rfl
  obtain ⟨m1, m3, heap_tmp, m5, stack, m6, eq, h1, h2, hh0, hi, h3, hs0, h4, he0, hk⟩ :=
    task_create_inv hfuel saved k entry arg stksize hsize prio k2 t hrun hp
  obtain ⟨cs, hinv, _, hlive, _⟩ := hown
  -- the block of the task control block
  obtain ⟨pre, c, post, hcs, _, hc, ht, _, hinv1, _⟩ :=
    heap_alloc_success k.mem k.global_heap cs sizeof_TCB hfuel m1 t hinv
      (by simp only [U32]; omega) h1 hp
  have htL : t ∉ L := by
    intro hm
    have hl := (hlive t hm).1
    rw [hcs] at hl
    exact Live_ne_free k.global_heap pre post c t (by rw [← hcs]; exact hinv.1.sizes) hc.1 hl ht
  -- the block of the task heap
  obtain ⟨pre2, c2, post2, hcs2, _, hc2, hht, _, hinv3, _⟩ :=
    heap_alloc_success m1 k.global_heap _ hsize hfuel m3 heap_tmp hinv1 hh h2 hh0
  have hin : heap_tmp + hsize < U32 := by
    have htot := hinv1.1.total
    have hrange := hinv1.1.inrange
    rw [hcs2, sizeSum_append] at htot
    have := hc2.2
    simp only [sizeSum] at htot
    omega
  obtain ⟨_, hmin, hheap⟩ := init_heap_nonnull m3 heap_tmp hsize hi
  have hinvT := init_heap_inv m3 heap_tmp hsize hh0 hmin hin
  rw [hheap] at h3 h4 hk
  -- the stack
  obtain ⟨pre3, c3, post3, hcs3, _, hc3, hst, _, hinv5, _⟩ :=
    heap_alloc_success _ heap_tmp _ stksize hfuel m5 stack hinvT hs h3 hs0
  have hpre3 : pre3 = [] ∧ post3 = [] := by
    cases pre3 with
    | nil => simp at hcs3; exact ⟨rfl, hcs3.2⟩
    | cons a as =>
      have := congrArg List.length hcs3
      simp at this
  obtain ⟨hp3, hq3⟩ := hpre3
  subst hp3
  subst hq3
  simp only [List.nil_append, List.append_nil, sizeSum, Nat.add_zero] at hst hinv5
  -- the event queue
  obtain ⟨pre4, c4, post4, hcs4, _, hc4, heq, _, _, hzero⟩ :=
    heap_alloc_success m5 heap_tmp _ sizeof_EVENT_QUEUE hfuel m6 eq hinv5
      (by simp only [U32]; omega) h4 he0
  obtain ⟨u, rest, hu, hus, husz⟩ := splitChunk_head stksize c3 hc3.2
  have hpre4 : stksize + sizeof_HCB ≤ sizeSum pre4 := by
    rw [hu] at hcs4
    cases pre4 with
    | nil =>
      simp at hcs4
      have := hc4.1
      rw [← hcs4.1, hus] at this
      exact absurd this (by decide)
    | cons a as =>
      simp at hcs4
      rw [← hcs4.1]
      simp only [sizeSum]
      omega
  have hmem : k2.mem = fill_bytes m6 stack TASK_STACK_MAGIC stksize := by
    rw [hk, (task_queue_add_same _ _).2.1]
  have hz : ∀ i, i < 12 → k2.mem (eq + i) = 0 := by
    intro i hi2
    rw [hmem, fill_bytes_frame _ _ _ _ _ (by omega)]
    exact hzero i (by omega)
  obtain ⟨hsame, _, hnum⟩ := task_queue_add_same
    { k with
      mem := fill_bytes m6 stack TASK_STACK_MAGIC stksize
      tcbs := fun q =>
        if q = t then
          ⟨k.task_number, stack, stksize, heap_tmp, 0, prio, 0, 0, entry, arg, eq, 0, 0⟩
        else k.tcbs q
      task_number := uadd k.task_number 1 } t
  rw [← hk] at hsame hnum
  have hdata := hsame t
  simp only [if_true] at hdata
  have hlinks := task_queue_add_links
    { k with
      mem := fill_bytes m6 stack TASK_STACK_MAGIC stksize
      tcbs := fun q =>
        if q = t then
          ⟨k.task_number, stack, stksize, heap_tmp, 0, prio, 0, 0, entry, arg, eq, 0, 0⟩
        else k.tcbs q
      task_number := uadd k.task_number 1 } L t
    (DSeg_congr k.tcbs _ L (fun p hp2 => by
      have : p ≠ t := fun h => htL (by rw [← h]; exact hp2)
      simp only [this, if_false]; exact ⟨trivial, trivial⟩) _ _ _ hwf.seg)
    hwf.last_eq hwf.nodup htL hp
  rw [← hk] at hlinks
  have hqe : (k2.tcbs t).event_queue = eq := by
    have e := congrArg TCB.event_queue hdata; exact e
  have hother : ∀ q, q ≠ t → { k2.tcbs q with tnext := 0, tprev := 0 } =
      { k.tcbs q with tnext := 0, tprev := 0 } := by
    intro q hq
    have := hsame q
    simp only [hq, if_false] at this
    exact this
  refine ⟨by have e := congrArg TCB.status hdata; exact e,
    by have e := congrArg TCB.flags hdata; exact e,
    by have e := congrArg TCB.priority hdata; exact e,
    by have e := congrArg TCB.ssize hdata; exact e,
    by have e := congrArg TCB.entry hdata; exact e,
    by have e := congrArg TCB.arg hdata; exact e,
    by have e := congrArg TCB.task_number hdata; exact e,
    hnum, ?_, ?_, ?_, htL, hlinks.1, hlinks.2.1, hother, hlinks.2.2, ?_⟩
  · rw [hqe]
    exact read32_zero _ _ (fun i hi2 => hz i (by omega))
  · rw [hqe]
    exact read32_zero _ _ (fun i hi2 => by rw [Nat.add_assoc]; exact hz (4 + i) (by omega))
  · rw [hqe]
    exact read32_zero _ _ (fun i hi2 => by rw [Nat.add_assoc]; exact hz (8 + i) (by omega))
  · intro hfresh
    have hnumq : ∀ q, q ≠ t → (k2.tcbs q).task_number = (k.tcbs q).task_number := by
      intro q hq
      have e := congrArg TCB.task_number (hother q hq); exact e
    have hnumt : (k2.tcbs t).task_number = k.task_number := by
      have e := congrArg TCB.task_number hdata; exact e
    refine ⟨hlinks.1, by rw [hlinks.2.1]; simp, ?_, ?_, ?_⟩
    · rw [List.nodup_append]
      refine ⟨hwf.nodup, by simp, ?_⟩
      intro a ha hb
      simp only [List.mem_singleton] at hb
      exact htL (by rw [← hb]; exact ha)
    · intro a ha b hb hab
      simp only [List.mem_append, List.mem_singleton] at ha hb
      rcases ha with ha | rfl <;> rcases hb with hb | rfl
      · have hat : a ≠ t := fun h => htL (by rw [← h]; exact ha)
        have hbt : b ≠ t := fun h => htL (by rw [← h]; exact hb)
        rw [hnumq a hat, hnumq b hbt] at hab
        exact hwf.numbers a ha b hb hab
      · have hat : a ≠ b := fun h => htL (by rw [← h]; exact ha)
        rw [hnumq a hat, hnumt] at hab
        exact absurd hab (hfresh a ha)
      · have hbt : b ≠ a := fun h => htL (by rw [← h]; exact hb)
        rw [hnumq b hbt, hnumt] at hab
        exact absurd hab.symm (hfresh b hb)
      · rfl
    · intro _
      rw [hlinks.2.2]
      split
      · simp
      · rename_i hne
        exact List.mem_append_left _ (hwf.cursor hne)

theorem task_create_appends_runnable_task_witness :
    ∃ r, task_create 16 0 reapKernel 7 8 64 1024 20 = some r ∧ r.2 = 7608 ∧
      (r.1.tcbs r.2).status = 0 ∧ (r.1.tcbs r.2).priority = 20 ∧
      (r.1.tcbs r.2).task_number = 3 ∧ r.1.task_number = uadd 3 1 ∧
      read32 r.1.mem (r.1.tcbs r.2).event_queue = 0 ∧
      DSeg r.1.tcbs 0 r.1.first ([4128, 5288, 6448] ++ [r.2]) 0 ∧ r.1.last = r.2 ∧
      r.1.current_task = 6448 := by
  have hv : (task_create 16 0 reapKernel 7 8 64 1024 20).map Prod.snd = some 7608 := by
    decide!
  cases h : task_create 16 0 reapKernel 7 8 64 1024 20 with
  | none => rw [h] at hv; exact absurd hv (by simp)
  | some r =>
    rw [h] at hv
    simp only [Option.map_some', Option.some.injEq] at hv
    have hp : r.2 ≠ 0 := by rw [hv]; decide
    have hmain := task_create_appends_runnable_task 16 8 0 reapKernel [4128, 5288, 6448]
      7 8 64 1024 20 r reapKernel_taskList reapKernel_heapOwns (by decide) (by decide) h hp
    exact ⟨r, rfl, hv, hmain.1, hmain.2.2.1, hmain.2.2.2.2.2.2.1, hmain.2.2.2.2.2.2.2.1,
      hmain.2.2.2.2.2.2.2.2.1, hmain.2.2.2.2.2.2.2.2.2.2.2.2.1,
      hmain.2.2.2.2.2.2.2.2.2.2.2.2.2.1, hmain.2.2.2.2.2.2.2.2.2.2.2.2.2.2.2.1⟩

/-! ## A task heap size that wraps around -/

theorem heap_alloc_det (m : Mem) (h size f1 f2 : Nat) (r1 r2 : Mem × Nat)
    (h1 : heap_alloc f1 m h size = some r1) (h2 : heap_alloc f2 m h size = some r2) :
    r1 = r2 := by
  have e1 := heap_alloc_mono m h size f1 r1 h1 f2
  have e2 := heap_alloc_mono m h size f2 r2 h2 f1
  rw [Nat.add_comm] at e2
  rw [e1] at e2
  exact Option.some.inj e2

theorem init_heap_frame_below (m : Mem) (start size x : Nat) (hx : x < start) :
    (init_heap m start size).1 x = m x := by
  unfold init_heap
  split
  · rfl
  · split
    · rfl
    · have e12 : sizeof_HEAP = 12 := rfl
      simp only
      rw [set_status_frame _ _ _ _ (by omega), set_magic_frame _ _ _ _ (by omega),
        set_start_frame _ _ _ _ (by omega), set_size_frame _ _ _ _ (by omega)]
      unfold set_heap_address set_heap_size
      rw [write32_frame _ _ _ _ (by omega), write32_frame _ _ _ _ (by omega)]

theorem bootTcbMem_alloc :
    heap_alloc 1 bootKernel.mem 4096 sizeof_TCB = some (bootTcbMem, 4128) := rfl

theorem wrapMem_alloc :
    heap_alloc 2 bootTcbMem 4096 hugeRequest = some (wrapMem, 4244) := rfl

/-- Below the block at 4244 the memory `wrapHeapMem` is the memory after the
split of the chunk at 4224. -/
theorem wrapHeapMem_below (x : Nat) (hx : x < 4244) :
    wrapHeapMem x = heap_alloc_split bootTcbMem 4224 hugeRequest x := by
  unfold wrapHeapMem
  rw [init_heap_frame_below _ _ _ _ hx]
  unfold wrapMem heap_alloc_take
  simp only
  exact clear_memory_frame _ _ _ _ (Or.inl (by
    have : HEAP_HCB_TO_PTR 4224 = 4244 := by decide
    omega))

theorem wrapHeapMem_headers :
    heap_size wrapHeapMem 4096 = 8192 ∧ hcb_size wrapHeapMem 4108 = 116 ∧
    hcb_status wrapHeapMem 4224 = HEAP_STATUS_FREE ∧ hcb_size wrapHeapMem 4224 = 0 := by
  refine ⟨?_, ?_, ?_, ?_⟩
  · rw [show heap_size wrapHeapMem 4096 =
        heap_size (heap_alloc_split bootTcbMem 4224 hugeRequest) 4096 from
      read32_congr _ _ _ (fun x _ h2 => wrapHeapMem_below x (by omega))]
    decide
  · rw [hcb_size_congr (heap_alloc_split bootTcbMem 4224 hugeRequest) wrapHeapMem 4108
      (fun x _ h2 => wrapHeapMem_below x (by omega))]
    decide
  · rw [hcb_status_congr (heap_alloc_split bootTcbMem 4224 hugeRequest) wrapHeapMem 4224
      (wrapHeapMem_below _ (by decide))]
    decide
  · rw [hcb_size_congr (heap_alloc_split bootTcbMem 4224 hugeRequest) wrapHeapMem 4224
      (fun x _ h2 => wrapHeapMem_below x (by omega))]
    decide

/-- The merging loop of `heap_free` with the cursor on a FREE chunk of size
0, after a FREE chunk: the cursor never moves, so the loop uses up any
fuel. -/
theorem heap_free_loop_stuck (max_addr hcb fhcb : Nat) (hlt : hcb < max_addr)
    (hU : hcb < U32) (hd : fhcb + 16 ≤ hcb) :
    ∀ (fuel : Nat) (m : Mem), hcb_status m hcb = HEAP_STATUS_FREE → hcb_size m hcb = 0 →
      heap_free_loop max_addr fuel m hcb fhcb 1 = none := by
  intro fuel
  induction fuel with
  | zero => intro m _ _; rfl
  | succ f ih =>
    intro m hs hz
    simp only [heap_free_loop]
    rw [if_pos hlt, if_pos hs, if_pos (by decide)]
    have hz2 : hcb_size (set_size m fhcb (uadd (hcb_size m fhcb) (hcb_size m hcb))) hcb = 0 := by
      rw [hcb_size_congr m _ hcb (fun x h1 h2 => set_size_frame _ _ _ _ (by omega))]
      exact hz
    have hs2 : hcb_status (set_size m fhcb (uadd (hcb_size m fhcb) (hcb_size m hcb))) hcb =
        HEAP_STATUS_FREE := by
      rw [hcb_status_congr m _ hcb (set_size_frame _ _ _ _ (by omega))]
      exact hs
    rw [hz2]
    have e : uadd hcb 0 = hcb := by
      unfold uadd
      simp only [Nat.add_zero]
      exact Nat.mod_eq_of_lt hU
    rw [e]
    exact ih _ hs2 hz2

/-- In `wrapHeapMem` the call `global_free(4128)` never returns. -/
theorem wrapHeapMem_free_diverges (hfuel : Nat) : heap_free hfuel wrapHeapMem 4096 4128 = none := by
  obtain ⟨h1, h2, h3, h4⟩ := wrapHeapMem_headers
  have hptr : HEAP_PTR_TO_HCB 4128 = 4108 := by decide
  have hsz : heap_size (set_status wrapHeapMem 4108 HEAP_STATUS_FREE) 4096 = 8192 := by
    rw [show heap_size (set_status wrapHeapMem 4108 HEAP_STATUS_FREE) 4096 =
        heap_size wrapHeapMem 4096 from
      read32_congr _ _ _ (fun x _ h2 => set_status_frame _ _ _ _ (by omega))]
    exact h1
  have hmax : uadd 4096 8192 = 12288 := by decide
  have hfirst : uadd 4096 sizeof_HEAP = 4108 := by decide
  unfold heap_free
  simp only [hptr, hsz, hmax, hfirst]
  have hloop : heap_free_loop 12288 hfuel (set_status wrapHeapMem 4108 HEAP_STATUS_FREE)
      4108 0 0 = none := by
    cases hfuel with
    | zero => rfl
    | succ f =>
      simp only [heap_free_loop]
      have hst : hcb_status (set_status wrapHeapMem 4108 HEAP_STATUS_FREE) 4108 =
          HEAP_STATUS_FREE := by
        unfold hcb_status set_status
        rw [read8_write8_same]
        decide
      have hsize : hcb_size (set_status wrapHeapMem 4108 HEAP_STATUS_FREE) 4108 = 116 := by
        rw [hcb_size_congr wrapHeapMem _ 4108 (fun x _ _ => set_status_frame _ _ _ _ (by omega))]
        exact h2
      rw [if_pos (by decide), if_pos hst, if_neg (by decide), hsize]
      have e : uadd 4108 116 = 4224 := by decide
      rw [e]
      refine heap_free_loop_stuck 12288 4224 4108 (by decide) (by simp only [U32]; omega)
        (by decide) f _ ?_ ?_
      · rw [hcb_status_congr wrapHeapMem _ 4224 (set_status_frame _ _ _ _ (by omega))]
        exact h3
      · rw [hcb_size_congr wrapHeapMem _ 4224 (fun x _ _ => set_status_frame _ _ _ _ (by omega))]
        exact h4
  rw [hloop]

/-- In the heap that `init_heap(4244, 0xFFFFFFEC)` sets up, the end address
`h + h->size` wraps around to 4224, below the first chunk, so the
allocation of the stack returns `NULL`. -/
theorem wrapHeapMem_stack_alloc : heap_alloc 1 wrapHeapMem 4244 64 = some (wrapHeapMem, 0) := by
  obtain ⟨_, h2, h3, _⟩ := init_heap_fields wrapMem 4244 hugeRequest (by decide) (by decide)
    (by decide) (by decide)
  have h2w : heap_size wrapHeapMem 4244 = hugeRequest := h2
  have h3w : heap_address wrapHeapMem 4244 = 4244 := h3
  unfold heap_alloc
  rw [if_neg (by decide), h3w, if_neg (by decide), h2w]
  have e1 : uadd 4244 hugeRequest = 4224 := by decide
  have e2 : uadd 4244 sizeof_HEAP = 4256 := by decide
  simp only [e1, e2, heap_alloc_loop]
  rw [if_neg (by decide)]
  simp

/-- C19 (the input on which it fails): `task_create(entry, arg, 64,
0xFFFFFFEC, 10)` in the state after `init_global_heap`, where the task list
is empty and the global heap has one FREE chunk.  The request for the task
heap wraps around in `heap_alloc`, which hands out the block at 4244 and
leaves a FREE chunk of size 0 at 4224; `init_heap` accepts the block; the
allocation of the stack fails; the error path calls `global_free(tcb)`,
whose merging loop stays on the chunk of size 0.  So the call does not
return `NULL`: it returns nothing, whatever the fuel. -/
theorem task_create_wrapped_heap_size_diverges :
    init_heap zeroMem 4096 8192 = (bootKernel.mem, 4096) ∧
    TaskList bootKernel [] ∧
    HeapInv bootKernel.mem 4096 [⟨HEAP_MAGIC, HEAP_STATUS_FREE, 12, 8180⟩] ∧
    heap_alloc 1 bootKernel.mem 4096 sizeof_TCB = some (bootTcbMem, 4128) ∧
    heap_alloc 2 bootTcbMem 4096 hugeRequest = some (wrapMem, 4244) ∧
    init_heap wrapMem 4244 hugeRequest = (wrapHeapMem, 4244) ∧
    heap_alloc 1 wrapHeapMem 4244 64 = some (wrapHeapMem, 0) ∧
    (∀ hfuel, heap_free hfuel wrapHeapMem 4096 4128 = none) ∧
    ∀ hfuel, task_create hfuel 0 bootKernel 7 8 64 hugeRequest 10 = none := by
  have hinit : init_heap wrapMem 4244 hugeRequest = (wrapHeapMem, 4244) := by
    have := (init_heap_fields wrapMem 4244 hugeRequest (by decide) (by decide) (by decide)
      (by decide)).1
    exact Prod.ext rfl this
  refine ⟨rfl, ⟨rfl, rfl, by decide, by decide, fun h => absurd rfl h⟩,
    init_heap_inv zeroMem 4096 8192 (by decide) (by decide) (by decide),
    bootTcbMem_alloc, wrapMem_alloc, hinit, wrapHeapMem_stack_alloc,
    wrapHeapMem_free_diverges, ?_⟩
  intro hfuel
  unfold task_create
  cases h1 : heap_alloc hfuel bootKernel.mem bootKernel.global_heap sizeof_TCB with
  | none => simp [global_alloc, h1]
  | some r1 =>
    have e1 := heap_alloc_det _ _ _ _ _ _ _ h1 bootTcbMem_alloc
    subst e1
    simp only [global_alloc, h1]
    rw [if_neg (by decide)]
    simp only [setTcb]
    cases h2 : heap_alloc hfuel bootTcbMem bootKernel.global_heap hugeRequest with
    | none => simp [h2]
    | some r2 =>
      have e2 := heap_alloc_det _ _ _ _ _ _ _ h2 wrapMem_alloc
      subst e2
      simp only [h2]
      rw [if_neg (by decide)]
      unfold task_create_heap
      simp only [setTcb, hinit, if_true]
      rw [if_neg (by decide)]
      simp only [tcb_alloc, if_true]
      cases h3 : heap_alloc hfuel wrapHeapMem 4244 64 with
      | none => simp [h3]
      | some r3 =>
        have e3 := heap_alloc_det _ _ _ _ _ _ _ h3 wrapHeapMem_stack_alloc
        subst e3
        simp only [h3, if_true]
        unfold task_create_error
        rw [if_pos (by decide)]
        unfold global_free
        simp only
        rw [show bootKernel.global_heap = 4096 from rfl, wrapHeapMem_free_diverges hfuel]

/-! ## Status arithmetic and the stack check -/

theorem DECR_STATUS_eq (s : Int) (h1 : -2147483648 < s) (h2 : s ≤ 2147483647) :
    DECR_STATUS s = s - 1 := by
  unfold DECR_STATUS toInt32
  have e : (s - 1 + 2147483648) % 4294967296 = s - 1 + 2147483648 :=
    Int.emod_eq_of_lt (by omega) (by omega)
  rw [e]
  split
  · omega
  · omega

theorem INCR_STATUS_eq (s : Int) (h1 : -2147483648 ≤ s) (h2 : s < 2147483647) :
    INCR_STATUS s = s + 1 := by
  unfold INCR_STATUS toInt32
  have e : (s + 1 + 2147483648) % 4294967296 = s + 1 + 2147483648 :=
    Int.emod_eq_of_lt (by omega) (by omega)
  rw [e]
  split
  · omega
  · omega

theorem sys_check_stack_loop_count (m : Mem) (stack ssize k : Nat)
    (hk : read8 m (stack + k) ≠ TASK_STACK_MAGIC) (hks : k ≤ ssize) :
    ∀ (fuel i : Nat), i ≤ k → (∀ j, i ≤ j → j < k → read8 m (stack + j) = TASK_STACK_MAGIC) →
      k - i < fuel → sys_check_stack_loop m stack ssize fuel i = some (some k) := by
  intro fuel
  induction fuel with
  | zero => intro i _ _ hf; exact absurd hf (by omega)
  | succ f ih =>
    intro i hik hfill hf
    simp only [sys_check_stack_loop]
    by_cases hi : i = k
    · subst hi
      rw [if_neg hk]
    · rw [if_pos (hfill i (le_refl _) (by omega)), if_neg (by omega)]
      exact ih (i + 1) (by omega) (fun j h1 h2 => hfill j (by omega) h2) (by omega)

/-- C30: `sys_check_stack` for a stack of less than `2^31` bytes (the result
and the counter are `int`s).  If the first `k` bytes of the stack are the
sentinel `0x5A` and byte `k` is not, with `1 ≤ k < ssize`, it returns
`ssize - k` (given fuel for `k + 1` turns of the loop); if byte 0 is not the
sentinel it returns -2; with a `NULL` argument it returns -1 when there is no
current task and otherwise does what it does for the current task; and right
after `setup_stack_frame` every byte of the stack is `0x5A`. -/
theorem sys_check_stack_spec (fuel : Nat) (K : Kernel) (t : Nat) :
    (∀ k, t ≠ 0 → (K.tcbs t).ssize < 2147483648 →
      (∀ j, j < k → read8 K.mem ((K.tcbs t).stack + j) = TASK_STACK_MAGIC) →
      read8 K.mem ((K.tcbs t).stack + k) ≠ TASK_STACK_MAGIC → 1 ≤ k → k < (K.tcbs t).ssize →
      k < fuel → sys_check_stack fuel K t = some (((K.tcbs t).ssize : Int) - (k : Int))) ∧
    (t ≠ 0 → read8 K.mem (K.tcbs t).stack ≠ TASK_STACK_MAGIC →
      sys_check_stack fuel K t = some (-2)) ∧
    (sys_check_stack fuel K 0 =
      if K.current_task = 0 then some (-1) else sys_check_stack fuel K K.current_task) ∧
    (∀ saved j, j < (K.tcbs t).ssize →
      read8 (setup_stack_frame saved K t).1.mem
        (((setup_stack_frame saved K t).1.tcbs t).stack + j) = TASK_STACK_MAGIC) := by
  refine ⟨?_, ?_, ?_, ?_⟩
  · intro k ht hs hfill hk h1 h2 hf
    have h0 : read8 K.mem (K.tcbs t).stack = TASK_STACK_MAGIC := by
      have := hfill 0 (by omega)
      simpa using this
    have hloop := sys_check_stack_loop_count K.mem (K.tcbs t).stack (K.tcbs t).ssize k hk
      (by omega) fuel 0 (by omega) (fun j _ hj => hfill j hj) (by omega)
    unfold sys_check_stack
    simp only [if_neg ht, get_current_task_tcb, h0, ne_eq, not_true_eq_false, if_false, hloop]
    have e1 : usub (K.tcbs t).ssize k = (K.tcbs t).ssize - k := by
      unfold usub
      simp only [U32]
      omega
    rw [e1]
    unfold toInt32
    have e2 : (((K.tcbs t).ssize - k : Nat) : Int) = ((K.tcbs t).ssize : Int) - (k : Int) := by
      omega
    rw [e2]
    have e3 : (((K.tcbs t).ssize : Int) - (k : Int) + 2147483648) % 4294967296 =
        ((K.tcbs t).ssize : Int) - (k : Int) + 2147483648 :=
      Int.emod_eq_of_lt (by omega) (by omega)
    rw [e3]
    congr 1
    omega
  · intro ht h0
    unfold sys_check_stack
    simp only [if_neg ht]
    rw [if_pos h0]
  · unfold sys_check_stack
    simp only [if_true, get_current_task_tcb]
    by_cases hc : K.current_task = 0
    · rw [if_pos hc, if_pos hc]
    · rw [if_neg hc, if_neg hc]
      simp only [if_neg hc]
  · intro saved j hj
    have hm : (setup_stack_frame saved K t).1.mem =
        fill_bytes K.mem (K.tcbs t).stack TASK_STACK_MAGIC (K.tcbs t).ssize := by
      unfold setup_stack_frame
      split <;> rfl
    have ht : (setup_stack_frame saved K t).1.tcbs = K.tcbs := by
      unfold setup_stack_frame
      split <;> rfl
    rw [hm, ht]
    unfold read8
    rw [fill_bytes_inside _ _ _ _ _ (by omega) (by omega)]
    rfl

theorem sys_check_stack_spec_witness :
    sys_check_stack 4 stackKernel 100 = some (((stackKernel.tcbs 100).ssize : Int) - (3 : Int)) :=
  (sys_check_stack_spec 4 stackKernel 100).1 3 (by decide) (by decide) (by decide) (by decide)
    (by decide) (by decide) (by decide)

/-- C29 (the input on which it fails): for the status 0, `DECR_STATUS` gives
-1, not 0 (for the status 1 it gives 0, and `INCR_STATUS` stays at the
largest `int` in wrap-around arithmetic, where C leaves the overflow
undefined).  In a run: the task at 5288 blocks in `wait_event` (status 1,
flag set), the task at 6448 sets its status back to `TASK_RUNABLE` with
`task_set_status` and sends it an event; when the event task delivers the
event, the status of the task at 5288 goes from 0 to -1. -/
theorem DECR_STATUS_goes_below_zero :
    DECR_STATUS 0 = -1 ∧ DECR_STATUS 1 = 0 ∧ INCR_STATUS 2147483647 = 2147483647 ∧
    unblockedKernel.map (fun k => ((k.tcbs 5288).status, (k.tcbs 5288).flags)) = some (0, 1) ∧
    (unblockedKernel.bind (event_task_loop 4128 3)).map
      (fun k => ((k.tcbs 5288).status, (k.tcbs 5288).flags)) = some (-1, 0) := by
  refine ⟨by decide, by decide, by decide, by decide!, by decide!⟩

/-! ## Event queues -/

theorem nodup_length_le (l : List Nat) (B : Nat) (hnd : l.Nodup) (hb : ∀ x ∈ l, x < B) :
    l.length ≤ B := by
  have hsub : l ⊆ List.range B := fun x hx => List.mem_range.mpr (hb x hx)
  have := (List.subperm_of_subset hnd hsub).length_le
  simpa using this

theorem apart_nodup (l : List Nat) (h : l.Pairwise (fun a b => Apart a 20 b 20)) :
    (l.map (fun e => e / 20)).Nodup := by
  induction l with
  | nil => simp
  | cons a l ih =>
    rw [List.pairwise_cons] at h
    rw [List.map_cons, List.nodup_cons]
    refine ⟨?_, ih h.2⟩
    intro hm
    rw [List.mem_map] at hm
    obtain ⟨b, hb, hab⟩ := hm
    have := h.1 b hb
    unfold Apart at this
    omega

/-- Events that do not overlap inside the address space are fewer than
`2^32 - 1`. -/
theorem EvSep_length (eq : Nat) (evs : List Nat) (h : EvSep eq evs) : evs.length + 1 < U32 := by
  have h1 := nodup_length_le _ 214748365 (apart_nodup evs h.1) (by
    intro x hx
    rw [List.mem_map] at hx
    obtain ⟨e, he, hxe⟩ := hx
    have := (h.2 e he).2.1
    simp only [U32] at this
    omega)
  simp only [List.length_map] at h1
  simp only [U32]
  omega

theorem eq_fields_set_num (m : Mem) (eq v : Nat) :
    eq_num_events (set_eq_num_events m eq v) eq = v % U32 ∧
    eq_first (set_eq_num_events m eq v) eq = eq_first m eq ∧
    eq_last (set_eq_num_events m eq v) eq = eq_last m eq := by
  unfold eq_num_events eq_first eq_last set_eq_num_events
  exact ⟨read32_write32_same _ _ _, read32_write32_frame _ _ _ _ (by omega),
    read32_write32_frame _ _ _ _ (by omega)⟩

theorem eq_fields_set_first (m : Mem) (eq v : Nat) :
    eq_num_events (set_eq_first m eq v) eq = eq_num_events m eq ∧
    eq_first (set_eq_first m eq v) eq = v % U32 ∧
    eq_last (set_eq_first m eq v) eq = eq_last m eq := by
  unfold eq_num_events eq_first eq_last set_eq_first
  exact ⟨read32_write32_frame _ _ _ _ (by omega), read32_write32_same _ _ _,
    read32_write32_frame _ _ _ _ (by omega)⟩

theorem eq_fields_set_last (m : Mem) (eq v : Nat) :
    eq_num_events (set_eq_last m eq v) eq = eq_num_events m eq ∧
    eq_first (set_eq_last m eq v) eq = eq_first m eq ∧
    eq_last (set_eq_last m eq v) eq = v % U32 := by
  unfold eq_num_events eq_first eq_last set_eq_last
  exact ⟨read32_write32_frame _ _ _ _ (by omega), read32_write32_frame _ _ _ _ (by omega),
    read32_write32_same _ _ _⟩

/-- A store into one of the words of a queue does not change the fields of
an event that does not overlap the queue. -/
theorem event_fields_set_eq (m : Mem) (eq off v x : Nat) (hoff : off + 4 ≤ 12)
    (hx : Apart x 20 eq 12) :
    ∀ d, d + 4 ≤ 20 → read32 (write32 m (eq + off) v) (x + d) = read32 m (x + d) := by
  intro d hd
  unfold Apart at hx
  exact read32_write32_frame _ _ _ _ (by omega)

theorem eq_fields_set_next (m : Mem) (eq e v : Nat) (he : Apart e 20 eq 12) :
    eq_num_events (set_event_next m e v) eq = eq_num_events m eq ∧
    eq_first (set_event_next m e v) eq = eq_first m eq ∧
    eq_last (set_event_next m e v) eq = eq_last m eq := by
  unfold eq_num_events eq_first eq_last set_event_next Apart at *
  exact ⟨read32_write32_frame _ _ _ _ (by omega), read32_write32_frame _ _ _ _ (by omega),
    read32_write32_frame _ _ _ _ (by omega)⟩

theorem event_next_set_next_same (m : Mem) (e v : Nat) :
    event_next (set_event_next m e v) e = v % U32 := by
  unfold event_next set_event_next
  exact read32_write32_same _ _ _

theorem event_next_set_next_apart (m : Mem) (e v x : Nat) (h : Apart x 20 e 20) :
    event_next (set_event_next m e v) x = event_next m x := by
  unfold event_next set_event_next Apart at *
  exact read32_write32_frame _ _ _ _ (by omega)

theorem event_next_set_eq (m : Mem) (eq x v : Nat) (h : Apart x 20 eq 12) :
    event_next (set_eq_num_events m eq v) x = event_next m x ∧
    event_next (set_eq_first m eq v) x = event_next m x ∧
    event_next (set_eq_last m eq v) x = event_next m x := by
  unfold event_next set_eq_num_events set_eq_first set_eq_last Apart at *
  exact ⟨read32_write32_frame _ _ _ _ (by omega), read32_write32_frame _ _ _ _ (by omega),
    read32_write32_frame _ _ _ _ (by omega)⟩

theorem EvSeg_congr (m m2 : Mem) (evs : List Nat)
    (h : ∀ p ∈ evs, event_next m2 p = event_next m p) :
    ∀ cur e, EvSeg m cur evs e → EvSeg m2 cur evs e := by
  induction evs with
  | nil => intro _ _ hs; exact hs
  | cons a as ih =>
    intro cur e hs
    obtain ⟨h1, h2, h3⟩ := hs
    refine ⟨h1, h2, ?_⟩
    rw [h a (by simp)]
    exact ih (fun p hp => h p (List.mem_cons_of_mem _ hp)) _ _ h3

theorem EvSeg_snoc (m : Mem) (w e : Nat) (xs : List Nat) :
    ∀ cur, EvSeg m cur (xs ++ [w]) e ↔ EvSeg m cur xs w ∧ w ≠ 0 ∧ event_next m w = e := by
  induction xs with
  | nil =>
    intro cur
    show (cur = w ∧ w ≠ 0 ∧ event_next m w = e) ↔ (cur = w ∧ w ≠ 0 ∧ event_next m w = e)
    exact Iff.rfl
  | cons a as ih =>
    intro cur
    show (cur = a ∧ a ≠ 0 ∧ EvSeg m (event_next m a) (as ++ [w]) e) ↔
      (cur = a ∧ a ≠ 0 ∧ EvSeg m (event_next m a) as w) ∧ w ≠ 0 ∧ event_next m w = e
    rw [ih]
    tauto

theorem EvSeg_cur (m : Mem) (cur e : Nat) (evs : List Nat) (h : EvSeg m cur evs e) :
    cur = evs.head?.getD e := by
  cases evs with
  | nil => exact h
  | cons p ps => exact h.1

/-- What `enqueue_event` leaves alone: every byte outside the queue, the
`next` field of the old last event and the `next` field of the new event. -/
theorem enqueue_event_frame (m : Mem) (eq e a : Nat) (h1 : a < eq ∨ eq + 12 ≤ a)
    (h2 : a < eq_last m eq + 16 ∨ eq_last m eq + 20 ≤ a) (h3 : a < e + 16 ∨ e + 20 ≤ a) :
    enqueue_event m eq e a = m a := by
  unfold enqueue_event
  simp only
  unfold set_eq_num_events
  rw [write32_frame _ _ _ _ (by omega)]
  split
  · unfold set_eq_first set_eq_last
    rw [write32_frame _ _ _ _ (by omega), write32_frame _ _ _ _ (by omega)]
  · unfold set_event_next set_eq_last
    rw [write32_frame _ _ _ _ (by omega), write32_frame _ _ _ _ (by omega),
      write32_frame _ _ _ _ (by omega)]

/-- What `dequeue_event` leaves alone: every byte outside the queue. -/
theorem dequeue_event_frame (m : Mem) (eq a : Nat) (h1 : a < eq ∨ eq + 12 ≤ a) :
    (dequeue_event m eq).1 a = m a := by
  unfold dequeue_event
  split
  · rfl
  · simp only
    unfold set_eq_num_events
    rw [write32_frame _ _ _ _ (by omega)]
    split
    · unfold set_eq_last set_eq_first
      rw [write32_frame _ _ _ _ (by omega), write32_frame _ _ _ _ (by omega)]
    · unfold set_eq_first
      rw [write32_frame _ _ _ _ (by omega)]

theorem dequeue_event_empty (m : Mem) (eq : Nat) (h : eq_first m eq = 0) :
    dequeue_event m eq = (m, 0) := by
  unfold dequeue_event
  rw [if_pos h]

theorem EvSep_mem (eq : Nat) (evs : List Nat) (h : EvSep eq evs) (e : Nat) (he : e ∈ evs) :
    e ≠ 0 ∧ e + 20 ≤ U32 ∧ Apart e 20 eq 12 := h.2 e he

theorem EvSep_sublist (eq : Nat) (xs ys : List Nat) (h : EvSep eq ys) (hs : xs.Sublist ys) :
    EvSep eq xs :=
  ⟨h.1.sublist hs, fun e he => h.2 e (hs.subset he)⟩

theorem Apart_symm (a b : Nat) (h : Apart a 20 b 20) : Apart b 20 a 20 := by
  unfold Apart at *; omega

/-- The fields of the queue after `enqueue_event`. -/
theorem enqueue_event_empty (m : Mem) (eq e : Nat) (h : eq_last m eq = 0) :
    enqueue_event m eq e =
      set_eq_num_events (set_eq_first (set_eq_last m eq e) eq e) eq
        (uadd (eq_num_events (set_eq_first (set_eq_last m eq e) eq e) eq) 1) := by
  unfold enqueue_event
  simp only [if_pos h]

theorem enqueue_event_nonempty (m : Mem) (eq e : Nat) (h : eq_last m eq ≠ 0) :
    enqueue_event m eq e =
      set_eq_num_events
        (set_event_next (set_eq_last (set_event_next m (eq_last m eq) e) eq e) e 0) eq
        (uadd (eq_num_events
          (set_event_next (set_eq_last (set_event_next m (eq_last m eq) e) eq e) e 0) eq) 1) := by
  unfold enqueue_event
  simp only [if_neg h]

/-- The queue after `enqueue_event` holds the new event behind the old
ones. -/
theorem enqueue_event_sound (m : Mem) (eq e : Nat) (q : List Nat) (hq : EvQueue m eq q)
    (hsep : EvSep eq (q ++ [e])) (hn : q = [] → event_next m e = 0) :
    EvQueue (enqueue_event m eq e) eq (q ++ [e]) := by
  have hlen := EvSep_length _ _ hsep
  have hE := hsep.2 e (by simp)
  have he32 : e % U32 = e := Nat.mod_eq_of_lt (by omega)
  rcases List.eq_nil_or_concat q with hnil | ⟨as, w, hcc⟩
  · subst hnil
    have hl : eq_last m eq = 0 := hq.last
    have hnum : eq_num_events m eq = 0 := hq.num
    rw [enqueue_event_empty _ _ _ hl]
    refine ⟨?_, ?_, ?_⟩
    · rw [(eq_fields_set_num _ _ _).1, (eq_fields_set_first _ _ _).1,
        (eq_fields_set_last _ _ _).1, hnum]
      rfl
    · rw [(eq_fields_set_num _ _ _).2.1, (eq_fields_set_first _ _ _).2.1, he32]
      refine ⟨rfl, hE.1, ?_⟩
      rw [(event_next_set_eq _ _ _ _ hE.2.2).1, (event_next_set_eq _ _ _ _ hE.2.2).2.1,
        (event_next_set_eq _ _ _ _ hE.2.2).2.2, hn rfl]
      rfl
    · rw [(eq_fields_set_num _ _ _).2.2, (eq_fields_set_first _ _ _).2.2,
        (eq_fields_set_last _ _ _).2.2, he32]
      rfl
  · rw [List.concat_eq_append] at hcc
    subst hcc
    have hW := hsep.2 w (by simp)
    have hl : eq_last m eq = w := by
      rw [hq.last, getLastD_append_cons]; rfl
    have hwe : Apart w 20 e 20 := by
      have := hsep.1
      rw [List.append_assoc, List.pairwise_append] at this
      exact (List.pairwise_cons.mp this.2.1).1 e (by simp)
    have hseg := (EvSeg_snoc m w 0 as _).mp hq.seg
    rw [enqueue_event_nonempty _ _ _ (by rw [hl]; exact hW.1), hl]
    refine ⟨?_, ?_, ?_⟩
    · rw [(eq_fields_set_num _ _ _).1, (eq_fields_set_next _ _ _ _ hE.2.2).1,
        (eq_fields_set_last _ _ _).1, (eq_fields_set_next _ _ _ _ hW.2.2).1, hq.num]
      unfold uadd
      simp only [List.length_append, List.length_singleton] at hlen ⊢
      rw [Nat.mod_mod, Nat.mod_eq_of_lt (by omega)]
    · rw [(eq_fields_set_num _ _ _).2.1, (eq_fields_set_next _ _ _ _ hE.2.2).2.1,
        (eq_fields_set_last _ _ _).2.1, (eq_fields_set_next _ _ _ _ hW.2.2).2.1]
      rw [EvSeg_snoc, EvSeg_snoc]
      refine ⟨⟨?_, hW.1, ?_⟩, hE.1, ?_⟩
      · refine EvSeg_congr m _ as ?_ _ _ hseg.1
        intro p hp
        have hP := hsep.2 p (by simp [hp])
        have hpw : Apart p 20 w 20 := by
          have := hsep.1
          rw [List.append_assoc, List.pairwise_append] at this
          exact this.2.2 p hp w (by simp)
        have hpe : Apart p 20 e 20 := by
          have := hsep.1
          rw [List.append_assoc, List.pairwise_append] at this
          exact this.2.2 p hp e (by simp)
        rw [(event_next_set_eq _ _ _ _ hP.2.2).1, event_next_set_next_apart _ _ _ _ hpe,
          (event_next_set_eq _ _ _ _ hP.2.2).2.2, event_next_set_next_apart _ _ _ _ hpw]
      · rw [(event_next_set_eq _ _ _ _ hW.2.2).1, event_next_set_next_apart _ _ _ _ hwe,
          (event_next_set_eq _ _ _ _ hW.2.2).2.2, event_next_set_next_same, he32]
      · rw [(event_next_set_eq _ _ _ _ hE.2.2).1, event_next_set_next_same]
        rfl
    · rw [(eq_fields_set_num _ _ _).2.2, (eq_fields_set_next _ _ _ _ hE.2.2).2.2,
        (eq_fields_set_last _ _ _).2.2, he32, getLastD_append_cons]
      rfl

/-- On a queue that holds `e :: rest`, `dequeue_event` returns `e` and
leaves `rest`. -/
theorem dequeue_event_sound (m : Mem) (eq e : Nat) (rest : List Nat)
    (hq : EvQueue m eq (e :: rest)) (hsep : EvSep eq (e :: rest)) :
    (dequeue_event m eq).2 = e ∧ EvQueue (dequeue_event m eq).1 eq rest := by
  have hlen := EvSep_length _ _ hsep
  have hseg := hq.seg
  obtain ⟨hf, he0, hrest⟩ := hseg
  have hfn : eq_first m eq ≠ 0 := by rw [hf]; exact he0
  have hn32 : event_next m e % U32 = event_next m e :=
    Nat.mod_eq_of_lt (read32_lt _ _)
  have hcongr : ∀ m2 : Mem, (∀ p ∈ rest, event_next m2 p = event_next m p) →
      EvSeg m2 (event_next m e) rest 0 := fun m2 h => EvSeg_congr m m2 rest h _ _ hrest
  have hnum : usub (eq_num_events m eq) 1 % U32 = rest.length := by
    rw [hq.num]
    unfold usub
    simp only [List.length_cons] at hlen ⊢
    simp only [U32] at hlen ⊢
    omega
  unfold dequeue_event
  rw [if_neg hfn]
  simp only
  rw [(eq_fields_set_first _ _ _).2.1, hf, hn32]
  refine ⟨rfl, ?_⟩
  cases rest with
  | nil =>
    have hz : event_next m e = 0 := hrest
    rw [if_pos hz]
    refine ⟨?_, ?_, ?_⟩
    · rw [(eq_fields_set_num _ _ _).1, (eq_fields_set_last _ _ _).1,
        (eq_fields_set_first _ _ _).1]
      exact hnum
    · rw [(eq_fields_set_num _ _ _).2.1, (eq_fields_set_last _ _ _).2.1,
        (eq_fields_set_first _ _ _).2.1, hn32]
      exact hz
    · rw [(eq_fields_set_num _ _ _).2.2, (eq_fields_set_last _ _ _).2.2]
      rfl
  | cons r rs =>
    have hr : event_next m e = r := hrest.1
    have hnz : event_next m e ≠ 0 := by rw [hr]; exact hrest.2.1
    rw [if_neg hnz]
    refine ⟨?_, ?_, ?_⟩
    · rw [(eq_fields_set_num _ _ _).1, (eq_fields_set_first _ _ _).1]
      exact hnum
    · rw [(eq_fields_set_num _ _ _).2.1, (eq_fields_set_first _ _ _).2.1, hn32]
      refine hcongr _ ?_
      intro p hp
      have hP := hsep.2 p (List.mem_cons_of_mem _ hp)
      rw [(event_next_set_eq _ _ _ _ hP.2.2).1, (event_next_set_eq _ _ _ _ hP.2.2).2.1]
    · rw [(eq_fields_set_num _ _ _).2.2, (eq_fields_set_first _ _ _).2.2, hq.last]
      exact getLastD_append_cons [e] r rs

/-- The `next` field of an event that is neither the new event nor the old
last one is not changed by `enqueue_event`. -/
theorem event_next_enqueue (m : Mem) (eq e x : Nat) (hx : Apart x 20 eq 12)
    (hxe : Apart x 20 e 20) (hxl : eq_last m eq ≠ 0 → Apart x 20 (eq_last m eq) 20) :
    event_next (enqueue_event m eq e) x = event_next m x := by
  by_cases hl : eq_last m eq = 0
  · rw [enqueue_event_empty _ _ _ hl, (event_next_set_eq _ _ _ _ hx).1,
      (event_next_set_eq _ _ _ _ hx).2.1, (event_next_set_eq _ _ _ _ hx).2.2]
  · rw [enqueue_event_nonempty _ _ _ hl, (event_next_set_eq _ _ _ _ hx).1,
      event_next_set_next_apart _ _ _ _ hxe, (event_next_set_eq _ _ _ _ hx).2.2,
      event_next_set_next_apart _ _ _ _ (hxl hl)]

theorem event_next_dequeue (m : Mem) (eq x : Nat) (hx : Apart x 20 eq 12) :
    event_next (dequeue_event m eq).1 x = event_next m x := by
  unfold event_next
  refine read32_congr _ _ _ ?_
  intro a h1 h2
  unfold Apart at hx
  exact dequeue_event_frame m eq a (by omega)

/-- The implementation follows the first-in first-out queue, from any sound
queue. -/
theorem runQueue_fifo (eq : Nat) (ops : List QOp) :
    ∀ (m : Mem) (q : List Nat), EvQueue m eq q → EvSep eq (q ++ enqueued ops) →
      (∀ e ∈ enqueued ops, event_next m e = 0) →
      (runQueue eq m ops).2 = (fifo q ops).2 ∧
        EvQueue (runQueue eq m ops).1 eq (fifo q ops).1 := by
  induction ops with
  | nil => intro m q hq _ _; cases q <;> exact ⟨rfl, hq⟩
  | cons op ops ih =>
    intro m q hq hsep hnext
    cases op with
    | enq e =>
      have hsep2 : EvSep eq ((q ++ [e]) ++ enqueued ops) := by
        rw [List.append_assoc]; exact hsep
      have hs1 : EvSep eq (q ++ [e]) :=
        EvSep_sublist _ _ _ hsep2 (List.sublist_append_left _ _)
      have hq2 := enqueue_event_sound m eq e q hq hs1
        (fun _ => hnext e (List.mem_cons_self _ _))
      have hgoal : (∀ x ∈ enqueued ops, event_next (enqueue_event m eq e) x = 0) →
          (runQueue eq m (QOp.enq e :: ops)).2 = (fifo q (QOp.enq e :: ops)).2 ∧
          EvQueue (runQueue eq m (QOp.enq e :: ops)).1 eq (fifo q (QOp.enq e :: ops)).1 := by
        intro hx
        have := ih _ _ hq2 hsep2 hx
        cases q <;> exact this
      refine hgoal ?_
      intro x hx
      have hX := hsep2.2 x (List.mem_append_right _ hx)
      have hpw := hsep2.1
      rw [List.pairwise_append] at hpw
      rw [event_next_enqueue m eq e x hX.2.2
        (Apart_symm _ _ (hpw.2.2 e (by simp) x hx)) ?_]
      · exact hnext x (List.mem_cons_of_mem _ hx)
      · intro hl
        rw [hq.last] at hl ⊢
        cases q with
        | nil => exact absurd rfl hl
        | cons y ys =>
          exact Apart_symm _ _ (hpw.2.2 _ (List.mem_append_left _ (getLastD_mem y ys)) x hx)
    | deq =>
      cases q with
      | nil =>
        have hf : eq_first m eq = 0 := hq.seg
        have hd := dequeue_event_empty m eq hf
        have := ih m [] (by exact hq) hsep hnext
        show ((dequeue_event m eq).2 :: (runQueue eq (dequeue_event m eq).1 ops).2 =
          0 :: (fifo [] ops).2) ∧ EvQueue (runQueue eq (dequeue_event m eq).1 ops).1 eq
            (fifo [] ops).1
        rw [hd]
        exact ⟨by rw [this.1], this.2⟩
      | cons y ys =>
        have hs1 : EvSep eq (y :: ys) :=
          EvSep_sublist _ _ _ hsep (List.sublist_append_left _ _)
        have hd := dequeue_event_sound m eq y ys hq hs1
        have hsep2 : EvSep eq (ys ++ enqueued ops) :=
          EvSep_sublist _ _ _ hsep (List.sublist_cons_self _ _)
        have := ih (dequeue_event m eq).1 ys hd.2 hsep2 (by
          intro x hx
          rw [event_next_dequeue _ _ _ (hsep2.2 x (List.mem_append_right _ hx)).2.2]
          exact hnext x hx)
        show ((dequeue_event m eq).2 :: (runQueue eq (dequeue_event m eq).1 ops).2 =
          y :: (fifo ys ops).2) ∧ EvQueue (runQueue eq (dequeue_event m eq).1 ops).1 eq
            (fifo ys ops).1
        rw [hd.1]
        exact ⟨by rw [this.1], this.2⟩

/-- In the first-in first-out queue the events handed out, followed by the
events still queued, are the events that came in, in the same order. -/
theorem fifo_order (ops : List QOp) :
    ∀ q : List Nat, (∀ e ∈ q ++ enqueued ops, e ≠ 0) →
      (fifo q ops).2.filter (fun x => decide (x ≠ 0)) ++ (fifo q ops).1 = q ++ enqueued ops := by
  induction ops with
  | nil => intro q _; simp [fifo, enqueued]
  | cons op ops ih =>
    intro q hnz
    cases op with
    | enq e =>
      have := ih (q ++ [e]) (by simpa [enqueued] using hnz)
      simpa [fifo, enqueued] using this
    | deq =>
      cases q with
      | nil =>
        have := ih [] (by simpa [enqueued] using hnz)
        simpa [fifo, enqueued] using this
      | cons y ys =>
        have hy : y ≠ 0 := hnz y (by simp)
        have := ih ys (fun e he => hnz e (by
          simp only [enqueued, List.cons_append, List.mem_cons]; exact Or.inr he))
        simp only [fifo, enqueued, List.cons_append]
        rw [List.filter_cons_of_pos (by simpa using hy), List.cons_append, this]

/-- C21: on an empty queue (counter 0, `first` and `last` NULL), for every
sequence of calls of `enqueue_event` and `dequeue_event` in which the events
enqueued are distinct objects (not NULL, not overlapping each other nor the
queue) whose `next` field is NULL: the pointers returned by the dequeues are
those of the first-in first-out queue (NULL from an empty queue); the
non-NULL results, in order, followed by the events still queued, are the
events enqueued, in order, so the k-th successful dequeue returns the k-th
event enqueued; the queue in memory stays sound, and `num_events` plus the
number of successful dequeues is the number of enqueues; and a
`dequeue_event` on any queue whose `first` is NULL returns NULL and leaves
the memory as it is. -/
theorem event_queue_fifo (m : Mem) (eq : Nat) (ops : List QOp) (h0 : EvQueue m eq [])
    (hsep : EvSep eq (enqueued ops)) (hnext : ∀ e ∈ enqueued ops, event_next m e = 0) :
    (runQueue eq m ops).2 = (fifo [] ops).2 ∧
    EvQueue (runQueue eq m ops).1 eq (fifo [] ops).1 ∧
    (runQueue eq m ops).2.filter (fun x => decide (x ≠ 0)) ++ (fifo [] ops).1 = enqueued ops ∧
    eq_num_events (runQueue eq m ops).1 eq +
      ((runQueue eq m ops).2.filter (fun x => decide (x ≠ 0))).length = (enqueued ops).length ∧
    ∀ m2 : Mem, eq_first m2 eq = 0 → dequeue_event m2 eq = (m2, 0) := by
  have h := runQueue_fifo eq ops m [] h0 (by simpa using hsep) hnext
  have ho := fifo_order ops [] (fun e he => (hsep.2 e (by simpa using he)).1)
  rw [List.nil_append] at ho
  refine ⟨h.1, h.2, ?_, ?_, fun m2 hf => dequeue_event_empty m2 eq hf⟩
  · rw [h.1]; exact ho
  · rw [h.2.num, h.1, ← ho, List.length_append]
    omega

theorem event_queue_fifo_witness :
    (runQueue 100 zeroMem queueOps).2 = [200, 300, 0] ∧
    EvQueue (runQueue 100 zeroMem queueOps).1 100 [] ∧
    eq_num_events (runQueue 100 zeroMem queueOps).1 100 + 2 = 2 := by
  have h := event_queue_fifo zeroMem 100 queueOps
    ⟨by decide, by show eq_first zeroMem 100 = 0; decide, by decide⟩
    ⟨by decide, by decide⟩ (by decide)
  exact ⟨h.1, h.2.1, by rw [h.2.1.num]; rfl⟩

/-! ## Memory in use and the heap manager -/

theorem InUsedAt_ge (h : Nat) :
    ∀ (cs : List HCB) (off a len : Nat), InUsedAt h off cs a len → h + off + sizeof_HCB ≤ a := by
  intro cs
  induction cs with
  | nil => intro off a len hin; exact absurd hin (fun x => x)
  | cons c cs ih =>
    intro off a len hin
    rcases hin with ⟨_, h1, _⟩ | hin
    · exact h1
    · have := ih (off + c.size) a len hin
      omega

theorem InPayloadAt_ge (h : Nat) :
    ∀ (cs : List HCB) (off a len : Nat), InPayloadAt h off cs a len →
      h + off + sizeof_HCB ≤ a := by
  intro cs
  induction cs with
  | nil => intro off a len hin; exact absurd hin (fun x => x)
  | cons c cs ih =>
    intro off a len hin
    rcases hin with ⟨h1, _⟩ | hin
    · exact h1
    · have := ih (off + c.size) a len hin
      omega

theorem InUsedAt_le (h : Nat) :
    ∀ (cs : List HCB) (off a len : Nat), InUsedAt h off cs a len →
      a + len ≤ h + off + sizeSum cs := by
  intro cs
  induction cs with
  | nil => intro off a len hin; exact absurd hin (fun x => x)
  | cons c cs ih =>
    intro off a len hin
    rcases hin with ⟨_, _, h1⟩ | hin
    · simp only [sizeSum]; omega
    · have := ih (off + c.size) a len hin
      simp only [sizeSum]; omega

theorem InUsedAt_payload (h : Nat) :
    ∀ (cs : List HCB) (off a len : Nat), InUsedAt h off cs a len →
      InPayloadAt h off cs a len := by
  intro cs
  induction cs with
  | nil => intro off a len hin; exact absurd hin (fun x => x)
  | cons c cs ih =>
    intro off a len hin
    rcases hin with ⟨_, h1, h2⟩ | hin
    · exact Or.inl ⟨h1, h2⟩
    · exact Or.inr (ih _ _ _ hin)

theorem InUsedAt_sub (h : Nat) :
    ∀ (cs : List HCB) (off a len b l2 : Nat), InUsedAt h off cs a len → a ≤ b →
      b + l2 ≤ a + len → InUsedAt h off cs b l2 := by
  intro cs
  induction cs with
  | nil => intro off a len b l2 hin; exact absurd hin (fun x => x)
  | cons c cs ih =>
    intro off a len b l2 hin h1 h2
    rcases hin with ⟨h3, h4, h5⟩ | hin
    · exact Or.inl ⟨h3, by omega, by omega⟩
    · exact Or.inr (ih _ _ _ _ _ hin h1 h2)

/-- Memory in use does not overlap a FREE chunk. -/
theorem InUsedAt_apart_free (h : Nat) (c : HCB) (post : List HCB) (a len : Nat)
    (hc : c.status = HEAP_STATUS_FREE) :
    ∀ (pre : List HCB) (off : Nat), InUsedAt h off (pre ++ c :: post) a len →
      a + len ≤ h + off + sizeSum pre ∨ h + off + sizeSum pre + c.size ≤ a := by
  intro pre
  induction pre with
  | nil =>
    intro off hin
    rcases hin with ⟨h1, _, _⟩ | hin
    · rw [hc] at h1; exact absurd h1 (by decide)
    · have := InUsedAt_ge h _ _ _ _ hin
      simp only [sizeSum]
      right; omega
  | cons p ps ih =>
    intro off hin
    rcases hin with ⟨_, _, h1⟩ | hin
    · left; simp only [sizeSum]; omega
    · have := ih (off + p.size) hin
      simp only [sizeSum]
      omega

/-- The payload of a chunk holds no header of the list: not the size field
of a FREE chunk. -/
theorem InPayloadAt_not_free_size (h : Nat) (a len x : Nat) (h1 : a ≤ x) (h2 : x < a + len) :
    ∀ (cs : List HCB) (off : Nat), HeadersFit cs → InPayloadAt h off cs a len →
      ¬ InFreeSize h off cs x := by
  have e20 : sizeof_HCB = 20 := rfl
  intro cs
  induction cs with
  | nil => intro off _ hin; exact absurd hin (fun x => x)
  | cons c cs ih =>
    intro off hfit hin hfree
    have hc : sizeof_HCB ≤ c.size := hfit c (by simp)
    have hfit2 : HeadersFit cs := fun d hd => hfit d (List.mem_cons_of_mem _ hd)
    rcases hin with ⟨h3, h4⟩ | hin
    · rcases hfree with ⟨_, h5, h6⟩ | hfree
      · omega
      · have := InFreeSize_ge h _ _ _ hfree
        omega
    · have hge := InPayloadAt_ge h _ _ _ _ hin
      rcases hfree with ⟨_, h5, h6⟩ | hfree
      · omega
      · exact ih _ hfit2 hin hfree

/-- The payload of a chunk holds no header of the list: not the header of
the chunk behind `pre`. -/
theorem InPayloadAt_not_header (h : Nat) (c : HCB) (post : List HCB) (a len : Nat) :
    ∀ (pre : List HCB) (off : Nat), HeadersFit (pre ++ c :: post) →
      InPayloadAt h off (pre ++ c :: post) a len →
      a + len ≤ h + off + sizeSum pre ∨ h + off + sizeSum pre + sizeof_HCB ≤ a := by
  have e20 : sizeof_HCB = 20 := rfl
  intro pre
  induction pre with
  | nil =>
    intro off hfit hin
    have hc : sizeof_HCB ≤ c.size := hfit c (by simp)
    rcases hin with ⟨h1, _⟩ | hin
    · right; simp only [sizeSum]; omega
    · have := InPayloadAt_ge h _ _ _ _ hin
      simp only [sizeSum]
      right; omega
  | cons p ps ih =>
    intro off hfit hin
    have hfit2 : HeadersFit (ps ++ c :: post) := fun d hd => hfit d (List.mem_cons_of_mem _ hd)
    rcases hin with ⟨_, h1⟩ | hin
    · left; simp only [sizeSum]; omega
    · have := ih (off + p.size) hfit2 hin
      simp only [sizeSum]
      omega

theorem InPayloadAt_setFree (h : Nat) (c : HCB) (post : List HCB) (a len : Nat) :
    ∀ (pre : List HCB) (off : Nat), InPayloadAt h off (pre ++ c :: post) a len →
      InPayloadAt h off (pre ++ setFree c :: post) a len := by
  intro pre
  induction pre with
  | nil => intro off hin; exact hin
  | cons p ps ih =>
    intro off hin
    rcases hin with hin | hin
    · exact Or.inl hin
    · exact Or.inr (ih _ hin)

theorem HeadersFit_setFree (pre post : List HCB) (c : HCB)
    (h : HeadersFit (pre ++ c :: post)) : HeadersFit (pre ++ setFree c :: post) := by
  intro d hd
  simp only [List.mem_append, List.mem_cons] at hd
  rcases hd with hd | rfl | hd
  · exact h d (by simp [hd])
  · exact h c (by simp)
  · exact h d (by simp [hd])

/-- The frame of `heap_alloc`: a successful call changes no byte of the
memory in use. -/
theorem heap_alloc_take_frame_used (m : Mem) (h : Nat) (pre post : List HCB) (c : HCB)
    (n : Nat) (hwf : WellFormed m h (pre ++ c :: post)) (hfit : HeadersFit (pre ++ c :: post))
    (hc : Fits n c) (hn : n + sizeof_HCB + HEAP_MIN_NODE_SIZE < U32) (a len x : Nat)
    (hu : InUsed h (pre ++ c :: post) a len) (h1 : a ≤ x) (h2 : x < a + len) :
    (heap_alloc_take m (h + sizeof_HEAP + sizeSum pre) n).1 x = m x := by
  have := InUsedAt_apart_free h c post a len hc.1 pre sizeof_HEAP hu
  exact (heap_alloc_take_chain m h pre post c n hwf hfit hc hn).2.2 x (by omega)

/-- The frame of `heap_free`: freeing the payload of a chunk changes no byte
of the payload of any chunk. -/
theorem heap_free_frame_used (m : Mem) (h : Nat) (pre post : List HCB) (c : HCB) (fuel : Nat)
    (hwf : WellFormed m h (pre ++ c :: post)) (hfit : HeadersFit (pre ++ c :: post))
    (hfuel : (pre ++ c :: post).length < fuel) :
    ∃ m2, heap_free fuel m h (h + sizeof_HEAP + sizeSum pre + sizeof_HCB) = some (m2, 0) ∧
      ∀ a len x, InPayloadAt h sizeof_HEAP (pre ++ c :: post) a len → a ≤ x → x < a + len →
        m2 x = m x := by
  have e20 : sizeof_HCB = 20 := rfl
  obtain ⟨m2, hrun, _, _, hframe⟩ := heap_free_chain m h pre post c fuel hwf hfit hfuel
  refine ⟨m2, hrun, ?_⟩
  intro a len x hu h1 h2
  refine hframe x ?_ ?_
  · have := InPayloadAt_not_header h c post a len pre sizeof_HEAP hfit hu
    omega
  · exact InPayloadAt_not_free_size h a len x h1 h2 _ _ (HeadersFit_setFree _ _ _ hfit)
      (InPayloadAt_setFree h c post a len pre _ hu)

/-! ## The functions `generate_event` and `check_event` -/

/-- A queue is the same queue in a memory that agrees on its three words
and on the `next` fields of its events. -/
theorem EvQueue_congr (m m2 : Mem) (eq : Nat) (evs : List Nat) (hq : EvQueue m eq evs)
    (h1 : ∀ x, eq ≤ x → x < eq + 12 → m2 x = m x)
    (h2 : ∀ e ∈ evs, ∀ x, e + 16 ≤ x → x < e + 20 → m2 x = m x) :
    EvQueue m2 eq evs ∧ eq_num_events m2 eq = eq_num_events m eq ∧
      eq_first m2 eq = eq_first m eq ∧ eq_last m2 eq = eq_last m eq := by
  have e1 : eq_num_events m2 eq = eq_num_events m eq :=
    read32_congr _ _ _ (fun x a b => h1 x (by omega) (by omega))
  have e2 : eq_first m2 eq = eq_first m eq :=
    read32_congr _ _ _ (fun x a b => h1 x (by omega) (by omega))
  have e3 : eq_last m2 eq = eq_last m eq :=
    read32_congr _ _ _ (fun x a b => h1 x (by omega) (by omega))
  refine ⟨⟨by rw [e1]; exact hq.num, ?_, by rw [e3]; exact hq.last⟩, e1, e2, e3⟩
  rw [e2]
  refine EvSeg_congr m m2 evs ?_ _ _ hq.seg
  intro p hp
  exact read32_congr _ _ _ (fun x a b => h2 p hp x (by omega) (by omega))

/-- The five stores of `generate_event` into the new event. -/
theorem event_stores (m : Mem) (e a b c d : Nat) :
    let m5 := write32 (write32 (write32 (write32 (write32 m e a) (e + 4) b) (e + 12) c)
      (e + 8) d) (e + 16) 0
    event_type m5 e = a % U32 ∧ event_subtype m5 e = b % U32 ∧ event_sender m5 e = d % U32 ∧
      event_destination m5 e = c % U32 ∧ event_next m5 e = 0 ∧
      ∀ x, x < e ∨ e + 20 ≤ x → m5 x = m x := by
  intro m5
  refine ⟨?_, ?_, ?_, ?_, ?_, ?_⟩
  · show read32 m5 e = _
    rw [read32_write32_frame _ _ _ _ (by omega), read32_write32_frame _ _ _ _ (by omega),
      read32_write32_frame _ _ _ _ (by omega), read32_write32_frame _ _ _ _ (by omega),
      read32_write32_same]
  · show read32 m5 (e + 4) = _
    rw [read32_write32_frame _ _ _ _ (by omega), read32_write32_frame _ _ _ _ (by omega),
      read32_write32_frame _ _ _ _ (by omega), read32_write32_same]
  · show read32 m5 (e + 8) = _
    rw [read32_write32_frame _ _ _ _ (by omega), read32_write32_same]
  · show read32 m5 (e + 12) = _
    rw [read32_write32_frame _ _ _ _ (by omega), read32_write32_frame _ _ _ _ (by omega),
      read32_write32_same]
  · show read32 m5 (e + 16) = _
    rw [read32_write32_same]
    rfl
  · intro x hx
    show write32 _ _ _ x = _
    rw [write32_frame _ _ _ _ (by omega), write32_frame _ _ _ _ (by omega),
      write32_frame _ _ _ _ (by omega), write32_frame _ _ _ _ (by omega),
      write32_frame _ _ _ _ (by omega)]

/-- The run of `allocate_event` on a global heap that satisfies the
invariants: the first chunk that fits is taken, or `NULL` is returned and
nothing is changed. -/
theorem allocate_event_search (hfuel : Nat) (k : Kernel) (cs : List HCB)
    (hinv : HeapInv k.mem k.global_heap cs) (hf : cs.length < hfuel) :
    (∃ pre c post, cs = pre ++ c :: post ∧ Fits sizeof_EVENT c ∧
        allocate_event hfuel k =
          some ({ k with mem := (heap_alloc_take k.mem
              (k.global_heap + sizeof_HEAP + sizeSum pre) sizeof_EVENT).1 },
            k.global_heap + sizeof_HEAP + sizeSum pre + sizeof_HCB)) ∨
    ((∀ c ∈ cs, ¬ Fits sizeof_EVENT c) ∧ allocate_event hfuel k = some (k, 0)) := by
  rcases heap_alloc_search k.mem k.global_heap cs sizeof_EVENT hfuel hinv.1 (by decide) hf with
    ⟨pre, c, post, hcs, _, hc, hrun⟩ | ⟨hno, hrun⟩
  · left
    subst hcs
    refine ⟨pre, c, post, rfl, hc, ?_⟩
    have hp := (heap_alloc_take_chain k.mem k.global_heap pre post c sizeof_EVENT hinv.1
      hinv.2.1 hc (by decide)).1
    unfold allocate_event global_alloc
    rw [hrun]
    simp only
    rw [hp]
  · right
    refine ⟨hno, ?_⟩
    unfold allocate_event global_alloc
    rw [hrun]

/-- The state in which `generate_event` calls `yield()` when the event was
allocated at `e` in the state `k1`. -/
theorem generate_event_of_alloc (hfuel : Nat) (k : Kernel) (et tcb type subtype : Nat)
    (k1 : Kernel) (e : Nat) (hrun : allocate_event hfuel k = some (k1, e)) (he : e ≠ 0) :
    generate_event hfuel k et tcb type subtype =
      some (setTcb
        { k1 with
          mem := enqueue_event
            (write32 (write32 (write32 (write32 (write32 k1.mem e type) (e + 4) subtype)
              (e + 12) (if tcb = 0 then get_current_task_tcb k else tcb))
              (e + 8) (get_current_task_tcb k1)) (e + 16) 0)
            (k1.tcbs et).event_queue e }
        et (fun t => { t with status := TASK_RUNABLE }), TASK_SUCCESS) := by
  unfold generate_event
  rw [hrun]
  simp only [if_neg he]

theorem generate_event_of_alloc_null (hfuel : Nat) (k : Kernel) (et tcb type subtype : Nat)
    (k1 : Kernel) (hrun : allocate_event hfuel k = some (k1, 0)) :
    generate_event hfuel k et tcb type subtype = some (k1, TASK_ERROR) := by
  unfold generate_event
  rw [hrun]
  simp only [if_pos]

/-- C25: on a global heap that satisfies the invariants of the heap manager
(with enough fuel for its chunks) `generate_event` returns; the code is
`TASK_ERROR` exactly when `allocate_event` returned `NULL`, which is when no
chunk of the heap is FREE with room for an event, and `TASK_SUCCESS`
otherwise; when it is `TASK_ERROR` the whole state (memory, hence every
event queue, and every `TCB`) is the state before the call. -/
theorem generate_event_error_iff_alloc_fails (hfuel : Nat) (k : Kernel)
    (et tcb type subtype : Nat) (cs : List HCB) (hinv : HeapInv k.mem k.global_heap cs)
    (hf : cs.length < hfuel) :
    ∃ k1 e k2 r, allocate_event hfuel k = some (k1, e) ∧
      generate_event hfuel k et tcb type subtype = some (k2, r) ∧
      (r = TASK_ERROR ↔ e = 0) ∧ (e = 0 ↔ ∀ c ∈ cs, ¬ Fits sizeof_EVENT c) ∧
      (r ≠ TASK_ERROR → r = TASK_SUCCESS) ∧ (r = TASK_ERROR → k2 = k) := by
  have e20 : sizeof_HCB = 20 := rfl
  rcases allocate_event_search hfuel k cs hinv hf with
    ⟨pre, c, post, hcs, hc, hrun⟩ | ⟨hno, hrun⟩
  · have hne : k.global_heap + sizeof_HEAP + sizeSum pre + sizeof_HCB ≠ 0 := by omega
    refine ⟨_, _, _, TASK_SUCCESS, hrun, generate_event_of_alloc hfuel k et tcb type subtype
      _ _ hrun hne, ?_, ?_, fun _ => rfl, ?_⟩
    · exact ⟨fun h => absurd h (by decide), fun h => absurd h hne⟩
    · refine ⟨fun h => absurd h hne, fun h => ?_⟩
      exact absurd hc (h c (by rw [hcs]; simp))
    · intro h; exact absurd h (by decide)
  · refine ⟨k, 0, k, TASK_ERROR, hrun, generate_event_of_alloc_null hfuel k et tcb type
      subtype k hrun, ?_, ?_, fun h => absurd rfl h, fun _ => rfl⟩
    · exact ⟨fun _ => rfl, fun _ => rfl⟩
    · exact ⟨fun _ => hno, fun _ => rfl⟩

theorem fullMem_inv : HeapInv fullMem 4096 fullChunks :=
  ⟨⟨by decide, by decide, by decide, ⟨by decide, trivial⟩, by decide, by decide, by decide⟩,
    by decide, ⟨rfl, rfl, trivial⟩⟩

theorem generate_event_error_iff_alloc_fails_witness :
    ∃ k1 e k2 r, allocate_event 2 fullKernel = some (k1, e) ∧
      generate_event 2 fullKernel 4128 0 1 100 = some (k2, r) ∧
      (r = TASK_ERROR ↔ e = 0) ∧ (e = 0 ↔ ∀ c ∈ fullChunks, ¬ Fits sizeof_EVENT c) ∧
      (r ≠ TASK_ERROR → r = TASK_SUCCESS) ∧ (r = TASK_ERROR → k2 = fullKernel) :=
  generate_event_error_iff_alloc_fails 2 fullKernel 4128 0 1 100 fullChunks fullMem_inv
    (by decide)

/-- C24: on a global heap that satisfies the invariants of the heap manager
and has a FREE chunk with room for an event (the allocation succeeds), with
the inbox of the broker `et` a sound queue of the events `evs` that lies,
with its events, in memory in use: `generate_event(tcb, type, subtype)`
returns `TASK_SUCCESS`; the inbox of the broker then holds `evs` followed by
one new event `e`, whose fields are the given type and subtype (as 32-bit
values), sender = the current task, destination = `tcb` (the current task
when `tcb` is NULL) and next = NULL; the status of the broker is 0 and no
other field of any `TCB` has changed (so the status and flags of a
destination other than the broker are those before the call); no byte of
memory in use has changed outside the queue structure of the broker and the
`next` field of its last event, so that any other sound queue in memory in
use, which overlaps neither the inbox of the broker nor its events, is the
same queue afterwards. -/
theorem generate_event_appends (hfuel : Nat) (k : Kernel) (et tcb type subtype : Nat)
    (cs : List HCB) (evs : List Nat) (hinv : HeapInv k.mem k.global_heap cs)
    (hf : cs.length < hfuel) (hfits : ∃ c ∈ cs, Fits sizeof_EVENT c)
    (hq : EvQueue k.mem (k.tcbs et).event_queue evs)
    (hsep : EvSep (k.tcbs et).event_queue evs)
    (hQ : InUsed k.global_heap cs (k.tcbs et).event_queue 12)
    (hE : ∀ x ∈ evs, InUsed k.global_heap cs x 20) :
    ∃ k2 e, generate_event hfuel k et tcb type subtype = some (k2, TASK_SUCCESS) ∧ e ≠ 0 ∧
      EvQueue k2.mem (k.tcbs et).event_queue (evs ++ [e]) ∧
      event_type k2.mem e = type % U32 ∧ event_subtype k2.mem e = subtype % U32 ∧
      event_sender k2.mem e = k.current_task % U32 ∧
      event_destination k2.mem e = (if tcb = 0 then k.current_task else tcb) % U32 ∧
      event_next k2.mem e = 0 ∧
      (k2.tcbs et).status = 0 ∧
      (∀ t, k2.tcbs t = if t = et then { k.tcbs et with status := 0 } else k.tcbs t) ∧
      (∀ a len x, InUsed k.global_heap cs a len → a ≤ x → x < a + len →
        (x < (k.tcbs et).event_queue ∨ (k.tcbs et).event_queue + 12 ≤ x) →
        (eq_last k.mem (k.tcbs et).event_queue = 0 ∨
          x < eq_last k.mem (k.tcbs et).event_queue + 16 ∨
          eq_last k.mem (k.tcbs et).event_queue + 20 ≤ x) →
        k2.mem x = k.mem x) ∧
      (∀ qd evd, EvQueue k.mem qd evd → InUsed k.global_heap cs qd 12 →
        (∀ x ∈ evd, InUsed k.global_heap cs x 20) →
        Apart qd 12 (k.tcbs et).event_queue 12 →
        (∀ x ∈ evd, Apart x 20 (k.tcbs et).event_queue 12) →
        (∀ w ∈ evs, Apart w 20 qd 12 ∧ ∀ x ∈ evd, Apart x 20 w 20) →
        EvQueue k2.mem qd evd ∧ eq_num_events k2.mem qd = eq_num_events k.mem qd) := by
  have e20 : sizeof_HCB = 20 := rfl
  have e12 : sizeof_HEAP = 12 := rfl
  have e32 : sizeof_EVENT = 32 := rfl
  rcases allocate_event_search hfuel k cs hinv hf with
    ⟨pre, c, post, hcs, hc, hrun⟩ | ⟨hno, _⟩
  swap
  · obtain ⟨c, hc1, hc2⟩ := hfits
    exact absurd hc2 (hno c hc1)
  subst hcs
  obtain ⟨hwf, hfit, _⟩ := hinv
  have hin := hwf.inrange
  have htot := hwf.total
  have hsum : sizeSum (pre ++ c :: post) = sizeSum pre + (c.size + sizeSum post) := by
    rw [sizeSum_append]; rfl
  have hcsz := hc.2
  simp only [U32] at hin
  have hne : k.global_heap + sizeof_HEAP + sizeSum pre + sizeof_HCB ≠ 0 := by omega
  have hgen := generate_event_of_alloc hfuel k et tcb type subtype _ _ hrun hne
  -- the memory after the allocation and after the stores into the event
  have hap : ∀ a len, InUsed k.global_heap (pre ++ c :: post) a len →
      a + len ≤ k.global_heap + sizeof_HEAP + sizeSum pre ∨
        k.global_heap + sizeof_HEAP + sizeSum pre + c.size ≤ a :=
    fun a len hu => InUsedAt_apart_free _ c post a len hc.1 pre sizeof_HEAP hu
  have hlow : ∀ a len, InUsed k.global_heap (pre ++ c :: post) a len → 32 ≤ a := by
    intro a len hu
    have := InUsedAt_ge _ _ _ _ _ hu
    omega
  have hfr1 := heap_alloc_take_frame_used k.mem k.global_heap pre post c sizeof_EVENT hwf hfit
    hc (by decide)
  obtain ⟨t1, t2, t3, t4, t5, hfr5⟩ := event_stores
    (heap_alloc_take k.mem (k.global_heap + sizeof_HEAP + sizeSum pre) sizeof_EVENT).1
    (k.global_heap + sizeof_HEAP + sizeSum pre + sizeof_HCB) type subtype
    (if tcb = 0 then get_current_task_tcb k else tcb) k.current_task
  have hfr : ∀ a len x, InUsed k.global_heap (pre ++ c :: post) a len → a ≤ x → x < a + len →
      (write32 (write32 (write32 (write32 (write32
        (heap_alloc_take k.mem (k.global_heap + sizeof_HEAP + sizeSum pre) sizeof_EVENT).1
        (k.global_heap + sizeof_HEAP + sizeSum pre + sizeof_HCB) type)
        (k.global_heap + sizeof_HEAP + sizeSum pre + sizeof_HCB + 4) subtype)
        (k.global_heap + sizeof_HEAP + sizeSum pre + sizeof_HCB + 12)
        (if tcb = 0 then get_current_task_tcb k else tcb))
        (k.global_heap + sizeof_HEAP + sizeSum pre + sizeof_HCB + 8) k.current_task)
        (k.global_heap + sizeof_HEAP + sizeSum pre + sizeof_HCB + 16) 0) x = k.mem x := by
    intro a len x hu h1 h2
    have := hap a len hu
    rw [hfr5 x (by omega)]
    exact hfr1 a len x hu h1 h2
  have hq5 := EvQueue_congr k.mem _ _ evs hq
    (fun x h1 h2 => hfr _ 12 x hQ h1 h2)
    (fun w hw x h1 h2 => hfr _ 20 x (hE w hw) (by omega) (by omega))
  have hapE : ∀ w ∈ evs,
      Apart w 20 (k.global_heap + sizeof_HEAP + sizeSum pre + sizeof_HCB) 20 := by
    intro w hw
    have := hap w 20 (hE w hw)
    unfold Apart; omega
  have hapQ : Apart (k.global_heap + sizeof_HEAP + sizeSum pre + sizeof_HCB) 20
      (k.tcbs et).event_queue 12 := by
    have := hap _ 12 hQ
    unfold Apart; omega
  have hsepe : EvSep (k.tcbs et).event_queue
      (evs ++ [k.global_heap + sizeof_HEAP + sizeSum pre + sizeof_HCB]) := by
    refine ⟨?_, ?_⟩
    · rw [List.pairwise_append]
      refine ⟨hsep.1, List.pairwise_singleton _ _, ?_⟩
      intro a ha b hb
      rw [List.mem_singleton] at hb
      subst hb
      exact hapE a ha
    · intro x hx
      rw [List.mem_append, List.mem_singleton] at hx
      rcases hx with hx | rfl
      · exact hsep.2 x hx
      · exact ⟨hne, by simp only [U32]; omega, hapQ⟩
  have hq6 := enqueue_event_sound _ (k.tcbs et).event_queue
    (k.global_heap + sizeof_HEAP + sizeSum pre + sizeof_HCB) evs hq5.1 hsepe (fun _ => t5)
  -- what `enqueue_event` leaves alone
  have hlast : eq_last k.mem (k.tcbs et).event_queue = 0 ∨
      eq_last k.mem (k.tcbs et).event_queue ∈ evs := by
    rw [hq.last]
    cases evs with
    | nil => left; rfl
    | cons y ys => right; exact getLastD_mem y ys
  have hfields : ∀ x, k.global_heap + sizeof_HEAP + sizeSum pre + sizeof_HCB ≤ x →
      x < k.global_heap + sizeof_HEAP + sizeSum pre + sizeof_HCB + 16 →
      enqueue_event (write32 (write32 (write32 (write32 (write32
        (heap_alloc_take k.mem (k.global_heap + sizeof_HEAP + sizeSum pre) sizeof_EVENT).1
        (k.global_heap + sizeof_HEAP + sizeSum pre + sizeof_HCB) type)
        (k.global_heap + sizeof_HEAP + sizeSum pre + sizeof_HCB + 4) subtype)
        (k.global_heap + sizeof_HEAP + sizeSum pre + sizeof_HCB + 12)
        (if tcb = 0 then get_current_task_tcb k else tcb))
        (k.global_heap + sizeof_HEAP + sizeSum pre + sizeof_HCB + 8) k.current_task)
        (k.global_heap + sizeof_HEAP + sizeSum pre + sizeof_HCB + 16) 0)
        (k.tcbs et).event_queue (k.global_heap + sizeof_HEAP + sizeSum pre + sizeof_HCB) x =
      (write32 (write32 (write32 (write32 (write32
        (heap_alloc_take k.mem (k.global_heap + sizeof_HEAP + sizeSum pre) sizeof_EVENT).1
        (k.global_heap + sizeof_HEAP + sizeSum pre + sizeof_HCB) type)
        (k.global_heap + sizeof_HEAP + sizeSum pre + sizeof_HCB + 4) subtype)
        (k.global_heap + sizeof_HEAP + sizeSum pre + sizeof_HCB + 12)
        (if tcb = 0 then get_current_task_tcb k else tcb))
        (k.global_heap + sizeof_HEAP + sizeSum pre + sizeof_HCB + 8) k.current_task)
        (k.global_heap + sizeof_HEAP + sizeSum pre + sizeof_HCB + 16) 0) x := by
    intro x h1 h2
    refine enqueue_event_frame _ _ _ x ?_ ?_ (by omega)
    · unfold Apart at hapQ; omega
    · rw [hq5.2.2.2]
      rcases hlast with h0 | hm
      · rw [h0]; omega
      · have := hapE _ hm
        unfold Apart at this; omega
  have hframe : ∀ a len x, InUsed k.global_heap (pre ++ c :: post) a len → a ≤ x →
      x < a + len →
      (x < (k.tcbs et).event_queue ∨ (k.tcbs et).event_queue + 12 ≤ x) →
      (eq_last k.mem (k.tcbs et).event_queue = 0 ∨
        x < eq_last k.mem (k.tcbs et).event_queue + 16 ∨
        eq_last k.mem (k.tcbs et).event_queue + 20 ≤ x) →
      enqueue_event (write32 (write32 (write32 (write32 (write32
        (heap_alloc_take k.mem (k.global_heap + sizeof_HEAP + sizeSum pre) sizeof_EVENT).1
        (k.global_heap + sizeof_HEAP + sizeSum pre + sizeof_HCB) type)
        (k.global_heap + sizeof_HEAP + sizeSum pre + sizeof_HCB + 4) subtype)
        (k.global_heap + sizeof_HEAP + sizeSum pre + sizeof_HCB + 12)
        (if tcb = 0 then get_current_task_tcb k else tcb))
        (k.global_heap + sizeof_HEAP + sizeSum pre + sizeof_HCB + 8) k.current_task)
        (k.global_heap + sizeof_HEAP + sizeSum pre + sizeof_HCB + 16) 0)
        (k.tcbs et).event_queue (k.global_heap + sizeof_HEAP + sizeSum pre + sizeof_HCB) x =
      k.mem x := by
    intro a len x hu h1 h2 h3 h4
    have hA := hap a len hu
    have hL := hlow a len hu
    rw [enqueue_event_frame _ _ _ x h3 ?_ (by omega)]
    · exact hfr a len x hu h1 h2
    · rw [hq5.2.2.2]
      rcases h4 with h0 | h4
      · rw [h0]; omega
      · exact h4
  refine ⟨_, k.global_heap + sizeof_HEAP + sizeSum pre + sizeof_HCB, hgen, hne, hq6, ?_, ?_, ?_,
    ?_, ?_, ?_, ?_, hframe, ?_⟩
  · refine Eq.trans ?_ t1
    exact read32_congr _ _ _ (fun x h1 h2 => hfields x (by omega) (by omega))
  · refine Eq.trans ?_ t2
    exact read32_congr _ _ _ (fun x h1 h2 => hfields x (by omega) (by omega))
  · refine Eq.trans ?_ t3
    exact read32_congr _ _ _ (fun x h1 h2 => hfields x (by omega) (by omega))
  · refine Eq.trans ?_ t4
    exact read32_congr _ _ _ (fun x h1 h2 => hfields x (by omega) (by omega))
  · exact ((EvSeg_snoc _ _ 0 evs _).mp hq6.seg).2.2
  · show (if et = et then _ else _ : TCB).status = 0
    rw [if_pos rfl]
    rfl
  · intro t
    show (if t = et then _ else _ : TCB) = _
    by_cases ht : t = et
    · rw [if_pos ht, if_pos ht]; rfl
    · rw [if_neg ht, if_neg ht]
  · intro qd evd hqd hUq hUe hA1 hA2 hA3
    have := EvQueue_congr k.mem _ qd evd hqd
      (fun x h1 h2 => hframe qd 12 x hUq h1 h2 (by unfold Apart at hA1; omega) (by
        rcases hlast with h0 | hm
        · exact Or.inl h0
        · have := (hA3 _ hm).1
          unfold Apart at this
          right; omega))
      (fun w hw x h1 h2 => hframe w 20 x (hUe w hw) (by omega) (by omega)
        (by have := hA2 w hw; unfold Apart at this; omega) (by
        rcases hlast with h0 | hm
        · exact Or.inl h0
        · have := (hA3 _ hm).2 w hw
          unfold Apart at this
          right; omega))
    exact ⟨this.1, this.2.1⟩

theorem generate_event_appends_witness :
    ∃ k2 e, generate_event 8 eventKernel 4128 5288 1 100 = some (k2, TASK_SUCCESS) ∧ e ≠ 0 ∧
      EvQueue k2.mem 4360 [e] ∧ event_type k2.mem e = 1 ∧ event_subtype k2.mem e = 100 ∧
      event_sender k2.mem e = 6448 ∧ event_destination k2.mem e = 5288 ∧
      event_next k2.mem e = 0 ∧ (k2.tcbs 4128).status = 0 ∧
      k2.tcbs 5288 = eventKernel.tcbs 5288 := by
  obtain ⟨k2, e, h1, h2, h3, h4, h5, h6, h7, h8, h9, h10, _, _⟩ :=
    generate_event_appends 8 eventKernel 4128 5288 1 100 reapChunks [] reapMem_inv
      (by decide) (by decide)
      ⟨by decide, by show eq_first reapMem 4360 = 0; decide, by decide⟩
      ⟨List.Pairwise.nil, fun _ h => absurd h (List.not_mem_nil _)⟩ (by decide)
      (fun _ h => absurd h (List.not_mem_nil _))
  exact ⟨k2, e, h1, h2, h3, h4, h5, h6, h7, h8, h9, h10 5288⟩

/-- A chunk chain is the same chain in a memory that differs only inside the
payload of one chunk. -/
theorem Chain_congr_payload (m m2 : Mem) (h a len : Nat)
    (hd : ∀ x, x < a ∨ a + len ≤ x → m2 x = m x) :
    ∀ (cs : List HCB) (off : Nat), HeadersFit cs → InPayloadAt h off cs a len →
      Chain m h off cs → Chain m2 h off cs := by
  have e20 : sizeof_HCB = 20 := rfl
  intro cs
  induction cs with
  | nil => intro _ _ _ _; trivial
  | cons c cs ih =>
    intro off hfit hin hch
    have hc : sizeof_HCB ≤ c.size := hfit c (by simp)
    have hfit2 : HeadersFit cs := fun d hd => hfit d (List.mem_cons_of_mem _ hd)
    obtain ⟨h1, h2⟩ := hch
    rcases hin with ⟨h3, h4⟩ | hin
    · refine ⟨?_, ?_⟩
      · rw [← h1]
        exact readHCB_congr _ _ _ (fun x a1 a2 => hd x (by omega))
      · refine Chain_congr m m2 h cs _ (fun d hd => ?_) (fun x a1 a2 => hd x (by omega)) h2
        have := hfit2 d hd
        omega
    · have hge := InPayloadAt_ge h _ _ _ _ hin
      refine ⟨?_, ih _ hfit2 hin h2⟩
      rw [← h1]
      exact readHCB_congr _ _ _ (fun x a1 a2 => hd x (by omega))

/-- The invariants of a heap hold in a memory that differs only inside the
payload of one chunk. -/
theorem HeapInv_congr_payload (m m2 : Mem) (h a len : Nat) (cs : List HCB)
    (hd : ∀ x, x < a ∨ a + len ≤ x → m2 x = m x) (hin : InPayloadAt h sizeof_HEAP cs a len)
    (hinv : HeapInv m h cs) : HeapInv m2 h cs := by
  have e20 : sizeof_HCB = 20 := rfl
  have e12 : sizeof_HEAP = 12 := rfl
  obtain ⟨hwf, hfit, hval⟩ := hinv
  have hge := InPayloadAt_ge h _ _ _ _ hin
  have hs : heap_size m2 h = heap_size m h :=
    read32_congr _ _ _ (fun x a1 a2 => hd x (by omega))
  have ha : heap_address m2 h = heap_address m h :=
    read32_congr _ _ _ (fun x a1 a2 => hd x (by omega))
  refine ⟨⟨hwf.nonnull, by rw [hs]; exact hwf.inrange, by rw [ha]; exact hwf.address,
    Chain_congr_payload m m2 h a len hd cs _ hfit hin hwf.chain, by rw [hs]; exact hwf.total,
    hwf.sizes, hwf.statuses⟩, hfit, hval⟩

/-- The value of `check_event` on an inbox whose counter is not 0, from the
result of `free_event`. -/
theorem check_event_of_free (hfuel : Nat) (k : Kernel) (sty : Nat) (k2 : Kernel) (r : Nat)
    (hn : eq_num_events k.mem (k.tcbs k.current_task).event_queue ≠ 0)
    (hfree : free_event hfuel
      { k with mem := (dequeue_event k.mem (k.tcbs k.current_task).event_queue).1 }
      (dequeue_event k.mem (k.tcbs k.current_task).event_queue).2 = some (k2, r)) :
    check_event hfuel k sty =
      some (k2,
        event_sender (dequeue_event k.mem (k.tcbs k.current_task).event_queue).1
          (dequeue_event k.mem (k.tcbs k.current_task).event_queue).2,
        event_type (dequeue_event k.mem (k.tcbs k.current_task).event_queue).1
          (dequeue_event k.mem (k.tcbs k.current_task).event_queue).2,
        event_subtype (dequeue_event k.mem (k.tcbs k.current_task).event_queue).1
          (dequeue_event k.mem (k.tcbs k.current_task).event_queue).2) := by
  unfold check_event get_current_task_tcb
  simp only [if_neg hn]
  rw [hfree]

/-- Taking the oldest event out of a sound inbox in memory in use and
freeing it: the call of `free_event` returns, the inbox holds the other
events, and the fields read from the event are those it had. -/
theorem dequeue_and_free (hfuel : Nat) (k : Kernel) (q : Nat) (cs : List HCB) (e : Nat)
    (rest : List Nat) (hinv : HeapInv k.mem k.global_heap cs) (hf : cs.length < hfuel)
    (hq : EvQueue k.mem q (e :: rest)) (hsep : EvSep q (e :: rest))
    (hL : Live k.global_heap cs e) (hQ : InUsed k.global_heap cs q 12)
    (hE : ∀ x ∈ rest, InUsed k.global_heap cs x 20) :
    (dequeue_event k.mem q).2 = e ∧
    event_sender (dequeue_event k.mem q).1 e = event_sender k.mem e ∧
    event_type (dequeue_event k.mem q).1 e = event_type k.mem e ∧
    event_subtype (dequeue_event k.mem q).1 e = event_subtype k.mem e ∧
    ∃ m2, free_event hfuel { k with mem := (dequeue_event k.mem q).1 } e =
        some ({ k with mem := m2 }, 0) ∧
      EvQueue m2 q rest ∧ eq_num_events m2 q + 1 = eq_num_events k.mem q := by
  have e20 : sizeof_HCB = 20 := rfl
  have e12 : sizeof_HEAP = 12 := rfl
  have hd := dequeue_event_sound k.mem q e rest hq hsep
  have hEa := (hsep.2 e (by simp)).2.2
  have hfld : ∀ x, e ≤ x → x < e + 20 → (dequeue_event k.mem q).1 x = k.mem x := by
    intro x h1 h2
    unfold Apart at hEa
    exact dequeue_event_frame k.mem q x (by omega)
  have hinv2 : HeapInv (dequeue_event k.mem q).1 k.global_heap cs :=
    HeapInv_congr_payload k.mem _ k.global_heap q 12 cs
      (fun x hx => dequeue_event_frame k.mem q x hx) (InUsedAt_payload _ _ _ _ _ hQ) hinv
  obtain ⟨pre, c, post, hcs, _, hea⟩ := hL
  subst hcs
  obtain ⟨m2, hrun, hframe⟩ := heap_free_frame_used (dequeue_event k.mem q).1 k.global_heap
    pre post c hfuel hinv2.1 hinv2.2.1 hf
  have hq2 := EvQueue_congr (dequeue_event k.mem q).1 m2 q rest hd.2
    (fun x h1 h2 => hframe q 12 x (InUsedAt_payload _ _ _ _ _ hQ) h1 h2)
    (fun w hw x h1 h2 => hframe w 20 x (InUsedAt_payload _ _ _ _ _ (hE w hw)) (by omega)
      (by omega))
  refine ⟨hd.1, ?_, ?_, ?_, m2, ?_, hq2.1, ?_⟩
  · exact read32_congr _ _ _ (fun x h1 h2 => hfld x (by omega) (by omega))
  · exact read32_congr _ _ _ (fun x h1 h2 => hfld x (by omega) (by omega))
  · exact read32_congr _ _ _ (fun x h1 h2 => hfld x (by omega) (by omega))
  · unfold free_event global_free
    show (match heap_free hfuel (dequeue_event k.mem q).1 k.global_heap e with
      | none => none
      | some (m, r) => some ({ k with mem := m }, r)) = _
    rw [hea, hrun]
  · rw [hq2.2.1, hd.2.num, hq.num]
    rfl

/-- C26: `check_event` called by the current task.  If the counter of its
inbox is 0, the call returns NULL with `*type` = 0, and `*subtype` and the
whole state (memory, every `TCB`) are as before.  If the inbox is a sound
queue of the events `e :: rest`, which lies with its events in memory in use
of a global heap that satisfies the invariants of the heap manager, `e`
being an allocated chunk of it: the call returns the sender of `e` with
`*type` and `*subtype` the type and subtype of `e`; the inbox then holds
exactly `rest`, its counter is one less, and no `TCB` has changed. -/
theorem check_event_spec (hfuel : Nat) (k : Kernel) (sty : Nat) :
    (eq_num_events k.mem (k.tcbs k.current_task).event_queue = 0 →
      check_event hfuel k sty = some (k, 0, 0, sty)) ∧
    ∀ (cs : List HCB) (e : Nat) (rest : List Nat), HeapInv k.mem k.global_heap cs →
      cs.length < hfuel → EvQueue k.mem (k.tcbs k.current_task).event_queue (e :: rest) →
      EvSep (k.tcbs k.current_task).event_queue (e :: rest) → Live k.global_heap cs e →
      InUsed k.global_heap cs (k.tcbs k.current_task).event_queue 12 →
      (∀ x ∈ rest, InUsed k.global_heap cs x 20) →
      ∃ k2, check_event hfuel k sty =
          some (k2, event_sender k.mem e, event_type k.mem e, event_subtype k.mem e) ∧
        EvQueue k2.mem (k.tcbs k.current_task).event_queue rest ∧
        eq_num_events k2.mem (k.tcbs k.current_task).event_queue + 1 =
          eq_num_events k.mem (k.tcbs k.current_task).event_queue ∧
        k2.tcbs = k.tcbs := by
  refine ⟨?_, ?_⟩
  · intro h0
    unfold check_event get_current_task_tcb
    simp only [if_pos h0]
  · intro cs e rest hinv hf hq hsep hL hQ hE
    obtain ⟨h1, h2, h3, h4, m2, h5, h6, h7⟩ :=
      dequeue_and_free hfuel k _ cs e rest hinv hf hq hsep hL hQ hE
    have hn : eq_num_events k.mem (k.tcbs k.current_task).event_queue ≠ 0 := by
      rw [hq.num]; simp
    rw [← h1] at h5
    have := check_event_of_free hfuel k sty _ 0 hn h5
    rw [h1, h2, h3, h4] at this
    exact ⟨_, this, h6, h7, rfl⟩

theorem inboxMem_inv : HeapInv inboxMem 4096 inboxChunks :=
  ⟨⟨by decide, by decide, by decide,
    ⟨by decide, by decide, by decide, by decide, by decide, by decide, by decide, by decide,
      trivial⟩,
    by decide, by decide, by decide⟩, by decide,
    ⟨rfl, rfl, rfl, rfl, rfl, rfl, rfl, rfl, rfl, rfl, rfl, rfl, rfl, rfl, rfl, rfl, trivial⟩⟩

theorem inboxMem_queue : EvQueue inboxMem 5520 [7608] :=
  ⟨by decide, ⟨by decide, by decide, by show event_next inboxMem 7608 = 0; decide⟩, by decide⟩

theorem check_event_spec_witness :
    ∃ k2, check_event 9 inboxKernel 0 = some (k2, 6448, 1, 100) ∧
      EvQueue k2.mem 5520 [] ∧ eq_num_events k2.mem 5520 + 1 = 1 ∧
      k2.tcbs = inboxKernel.tcbs := by
  obtain ⟨k2, h1, h2, h3, h4⟩ := (check_event_spec 9 inboxKernel 0).2 inboxChunks 7608 []
    inboxMem_inv (by decide) inboxMem_queue (by unfold EvSep; decide)
    ⟨List.take 6 inboxChunks, _, _, rfl, rfl, rfl⟩ (by decide)
    (fun _ h => absurd h (List.not_mem_nil _))
  have e1 : event_sender inboxKernel.mem 7608 = 6448 := by decide
  have e2 : event_type inboxKernel.mem 7608 = 1 := by decide
  have e3 : event_subtype inboxKernel.mem 7608 = 100 := by decide
  have e4 : eq_num_events inboxKernel.mem 5520 = 1 := by decide
  rw [e1, e2, e3] at h1
  exact ⟨k2, h1, h2, h3.trans e4, h4⟩

/-! ## The broker -/

theorem TESTFLAG_CLEARFLAG (f : Nat) :
    TESTFLAG (CLEARFLAG f WAIT_FOR_EVENT) WAIT_FOR_EVENT = 0 := by
  unfold TESTFLAG CLEARFLAG WAIT_FOR_EVENT
  have e : (0xFFFFFFFF ^^^ 0x01 : Nat) = 4294967294 := by decide
  rw [e, Nat.and_one_is_mod, Nat.mod_mod_of_dvd _ (by decide : 2 ∣ 256)]
  have h := Nat.testBit_and f 4294967294 0
  have h2 : Nat.testBit 4294967294 0 = false := by decide
  rw [h2, Bool.and_false, Nat.testBit_zero] at h
  have := of_decide_eq_false h
  omega

theorem TESTFLAG_SETFLAG (f : Nat) :
    TESTFLAG (SETFLAG f WAIT_FOR_EVENT) WAIT_FOR_EVENT ≠ 0 := by
  unfold TESTFLAG SETFLAG WAIT_FOR_EVENT
  rw [Nat.and_one_is_mod, Nat.mod_mod_of_dvd _ (by decide : 2 ∣ 256)]
  have h := Nat.testBit_or f 1 0
  have h2 : Nat.testBit 1 0 = true := by decide
  rw [h2, Bool.or_true, Nat.testBit_zero] at h
  have := of_decide_eq_true h
  omega

/-- What `enqueue_event` leaves alone, the `next` field of the old last
event being written only when there is one. -/
theorem enqueue_event_frame2 (m : Mem) (eq e a : Nat) (h1 : a < eq ∨ eq + 12 ≤ a)
    (h2 : eq_last m eq ≠ 0 → a < eq_last m eq + 16 ∨ eq_last m eq + 20 ≤ a)
    (h3 : eq_last m eq ≠ 0 → a < e + 16 ∨ e + 20 ≤ a) :
    enqueue_event m eq e a = m a := by
  by_cases hl0 : eq_last m eq = 0
  · rw [enqueue_event_empty _ _ _ hl0]
    unfold set_eq_num_events set_eq_first set_eq_last
    rw [write32_frame _ _ _ _ (by omega), write32_frame _ _ _ _ (by omega),
      write32_frame _ _ _ _ (by omega)]
  · have := h2 hl0
    have := h3 hl0
    rw [enqueue_event_nonempty _ _ _ hl0]
    unfold set_eq_num_events set_event_next set_eq_last
    rw [write32_frame _ _ _ _ (by omega), write32_frame _ _ _ _ (by omega),
      write32_frame _ _ _ _ (by omega), write32_frame _ _ _ _ (by omega)]

/-- After `enqueue_event` the field `last` of the queue is the new event. -/
theorem eq_last_enqueue (m : Mem) (eq e : Nat) (he : e < U32) (hA : Apart e 20 eq 12) :
    eq_last (enqueue_event m eq e) eq = e := by
  by_cases h0 : eq_last m eq = 0
  · rw [enqueue_event_empty _ _ _ h0, (eq_fields_set_num _ _ _).2.2,
      (eq_fields_set_first _ _ _).2.2, (eq_fields_set_last _ _ _).2.2, Nat.mod_eq_of_lt he]
  · rw [enqueue_event_nonempty _ _ _ h0, (eq_fields_set_num _ _ _).2.2,
      (eq_fields_set_next _ _ _ _ hA).2.2, (eq_fields_set_last _ _ _).2.2,
      Nat.mod_eq_of_lt he]

/-- The queue after `enqueue_event` on a sound queue, whatever the `next`
field of the new event was: the counter and `last` are right and the chain
from `first` runs through the old events and the new one; it ends with NULL
when the queue was not empty or the `next` field was NULL. -/
theorem enqueue_event_weak (m : Mem) (eq e : Nat) (q : List Nat) (hq : EvQueue m eq q)
    (hsep : EvSep eq (q ++ [e])) :
    eq_num_events (enqueue_event m eq e) eq = q.length + 1 ∧
    eq_last (enqueue_event m eq e) eq = e ∧
    EvSeg (enqueue_event m eq e) (eq_first (enqueue_event m eq e) eq) (q ++ [e])
      (event_next (enqueue_event m eq e) e) ∧
    (q ≠ [] ∨ event_next m e = 0 → EvQueue (enqueue_event m eq e) eq (q ++ [e])) := by
  have hE := hsep.2 e (by simp)
  have he32 : e % U32 = e := Nat.mod_eq_of_lt (by omega)
  have hsound : (q ≠ [] ∨ event_next m e = 0) → EvQueue (enqueue_event m eq e) eq (q ++ [e]) := by
    intro h
    refine enqueue_event_sound m eq e q hq hsep ?_
    intro hnil
    rcases h with h | h
    · exact absurd hnil h
    · exact h
  cases q with
  | nil =>
    have hl : eq_last m eq = 0 := hq.last
    have hnum : eq_num_events m eq = 0 := hq.num
    refine ⟨?_, ?_, ?_, hsound⟩
    · rw [enqueue_event_empty _ _ _ hl, (eq_fields_set_num _ _ _).1,
        (eq_fields_set_first _ _ _).1, (eq_fields_set_last _ _ _).1, hnum]
      rfl
    · rw [enqueue_event_empty _ _ _ hl, (eq_fields_set_num _ _ _).2.2,
        (eq_fields_set_first _ _ _).2.2, (eq_fields_set_last _ _ _).2.2, he32]
    · refine ⟨?_, hE.1, rfl⟩
      rw [enqueue_event_empty _ _ _ hl, (eq_fields_set_num _ _ _).2.1,
        (eq_fields_set_first _ _ _).2.1, he32]
  | cons y ys =>
    have hs := hsound (Or.inl (by simp))
    refine ⟨?_, ?_, ?_, hsound⟩
    · rw [hs.num]; simp
    · rw [hs.last, getLastD_append_cons]; rfl
    · have h0 := ((EvSeg_snoc _ e 0 (y :: ys) _).mp hs.seg).2.2
      rw [h0]
      exact hs.seg

/-- The `TCB`s after a delivery. -/
theorem event_task_deliver_tcbs (k : Kernel) (event t : Nat) :
    (event_task_deliver k event).tcbs t =
      if t = event_destination k.mem event ∧
          TESTFLAG (k.tcbs (event_destination k.mem event)).flags WAIT_FOR_EVENT ≠ 0 then
        woken (k.tcbs t)
      else k.tcbs t := by
  unfold event_task_deliver
  by_cases hf : TESTFLAG (k.tcbs (event_destination k.mem event)).flags WAIT_FOR_EVENT ≠ 0
  · by_cases ht : t = event_destination k.mem event
    · subst ht
      simp only [if_pos hf, setTcb, woken, if_true, ne_eq, not_false_eq_true, and_self, hf]
    · simp only [if_pos hf, setTcb, if_neg ht, false_and, if_false]
      rw [if_neg (fun h => ht h.1)]
  · simp only [if_neg hf, and_false, if_false]
    rw [if_neg (fun h => hf h.2)]

/-- The memory after a delivery. -/
theorem event_task_deliver_mem (k : Kernel) (event : Nat) :
    (event_task_deliver k event).mem =
      enqueue_event k.mem (destBox k event) event := by
  unfold event_task_deliver destBox
  by_cases hf : TESTFLAG (k.tcbs (event_destination k.mem event)).flags WAIT_FOR_EVENT ≠ 0
  · simp only [if_pos hf, setTcb, if_true]
  · simp only [if_neg hf]

theorem event_task_deliver_queue (k : Kernel) (event t : Nat) :
    ((event_task_deliver k event).tcbs t).event_queue = (k.tcbs t).event_queue := by
  rw [event_task_deliver_tcbs]
  split
  · rfl
  · rfl

/-- One turn of the loop of the broker on an inbox that holds `e :: rest`:
`dequeue_event` returns `e`, and after the delivery of `e` the inbox holds
`rest`, whose events still have their destinations. -/
theorem drain_step (k : Kernel) (et e : Nat) (rest : List Nat)
    (hinv : DrainInv k (k.tcbs et).event_queue (e :: rest)) :
    (dequeue_event k.mem (k.tcbs et).event_queue).2 = e ∧ e ≠ 0 ∧
    event_destination (dequeue_event k.mem (k.tcbs et).event_queue).1 e =
      event_destination k.mem e ∧
    DrainInv
      (event_task_deliver { k with mem := (dequeue_event k.mem (k.tcbs et).event_queue).1 } e)
      (k.tcbs et).event_queue rest ∧
    ∀ x ∈ rest, event_destination
      (event_task_deliver
        { k with mem := (dequeue_event k.mem (k.tcbs et).event_queue).1 } e).mem x =
      event_destination k.mem x := by
  have hd := dequeue_event_sound k.mem _ e rest hinv.queue hinv.sep
  have hfr1 : ∀ x, x < (k.tcbs et).event_queue ∨ (k.tcbs et).event_queue + 12 ≤ x →
      (dequeue_event k.mem (k.tcbs et).event_queue).1 x = k.mem x :=
    fun x hx => dequeue_event_frame k.mem _ x hx
  have hEe := hinv.sep.2 e (by simp)
  have he32 : e < U32 := by have := hEe.2.1; omega
  have hpw := List.pairwise_cons.mp hinv.sep.1
  have hBe := hinv.boxes e (by simp)
  have hLe := hinv.lasts e (by simp)
  have hdest : event_destination (dequeue_event k.mem (k.tcbs et).event_queue).1 e =
      event_destination k.mem e := by
    have := hEe.2.2
    unfold Apart at this
    exact read32_congr _ _ _ (fun x h1 h2 => hfr1 x (by omega))
  have hbox1 : destBox { k with mem := (dequeue_event k.mem (k.tcbs et).event_queue).1 } e =
      destBox k e := by
    show (k.tcbs (event_destination (dequeue_event k.mem (k.tcbs et).event_queue).1 e)).event_queue
      = _
    rw [hdest]; rfl
  have hl1 : eq_last (dequeue_event k.mem (k.tcbs et).event_queue).1 (destBox k e) =
      eq_last k.mem (destBox k e) := by
    have := hBe.1
    unfold Apart at this
    exact read32_congr _ _ _ (fun x h1 h2 => hfr1 x (by omega))
  have hmem := event_task_deliver_mem
    { k with mem := (dequeue_event k.mem (k.tcbs et).event_queue).1 } e
  rw [hbox1] at hmem
  -- what the delivery leaves alone
  have hfr2 : ∀ x, (x < destBox k e ∨ destBox k e + 12 ≤ x) →
      (eq_last k.mem (destBox k e) ≠ 0 →
        x < eq_last k.mem (destBox k e) + 16 ∨ eq_last k.mem (destBox k e) + 20 ≤ x) →
      (eq_last k.mem (destBox k e) ≠ 0 → x < e + 16 ∨ e + 20 ≤ x) →
      (event_task_deliver
        { k with mem := (dequeue_event k.mem (k.tcbs et).event_queue).1 } e).mem x =
      (dequeue_event k.mem (k.tcbs et).event_queue).1 x := by
    intro x h1 h2 h3
    rw [hmem]
    exact enqueue_event_frame2 _ _ _ x h1 (by rw [hl1]; exact h2) (by rw [hl1]; exact h3)
  -- the bytes of the other events
  have hev : ∀ y ∈ rest, ∀ x, y ≤ x → x < y + 20 →
      (event_task_deliver
        { k with mem := (dequeue_event k.mem (k.tcbs et).event_queue).1 } e).mem x =
        (dequeue_event k.mem (k.tcbs et).event_queue).1 x ∧
      (dequeue_event k.mem (k.tcbs et).event_queue).1 x = k.mem x := by
    intro y hy x h1 h2
    have a1 := (hinv.sep.2 y (List.mem_cons_of_mem _ hy)).2.2
    have a2 := (hBe.2 y (List.mem_cons_of_mem _ hy)).1
    have a3 := hpw.1 y hy
    unfold Apart at a1 a2 a3
    refine ⟨hfr2 x (by omega) ?_ (fun _ => by omega), hfr1 x (by omega)⟩
    intro hl
    have a4 := ((hLe hl).2 y (List.mem_cons_of_mem _ hy)).1
    unfold Apart at a4
    omega
  have hdests : ∀ y ∈ rest, event_destination
      (event_task_deliver
        { k with mem := (dequeue_event k.mem (k.tcbs et).event_queue).1 } e).mem y =
      event_destination k.mem y := by
    intro y hy
    refine (read32_congr _ _ _ (fun x h1 h2 => (hev y hy x (by omega) (by omega)).1)).trans ?_
    exact read32_congr _ _ _ (fun x h1 h2 => (hev y hy x (by omega) (by omega)).2)
  have hboxes : ∀ y ∈ rest, destBox (event_task_deliver
      { k with mem := (dequeue_event k.mem (k.tcbs et).event_queue).1 } e) y = destBox k y := by
    intro y hy
    unfold destBox
    rw [event_task_deliver_queue, hdests y hy]
  -- the words of an inbox
  have hQ : ∀ q, Apart q 12 (k.tcbs et).event_queue 12 → Apart q 12 (destBox k e) 12 →
      (eq_last k.mem (destBox k e) ≠ 0 → Apart (eq_last k.mem (destBox k e)) 20 q 12) →
      Apart e 20 q 12 →
      eq_last (event_task_deliver
        { k with mem := (dequeue_event k.mem (k.tcbs et).event_queue).1 } e).mem q =
        eq_last k.mem q := by
    intro q a1 a2 a3 a4
    unfold Apart at a1 a2 a4
    refine (read32_congr _ _ _ (fun x h1 h2 => hfr2 x (by omega) ?_ (fun _ => by omega))).trans
      (read32_congr _ _ _ (fun x h1 h2 => hfr1 x (by omega)))
    intro hl
    have := a3 hl
    unfold Apart at this
    omega
  refine ⟨hd.1, hEe.1, hdest, ⟨?_, ?_, ?_, ?_⟩, hdests⟩
  · -- the inbox of the broker
    refine (EvQueue_congr _ _ _ rest hd.2 ?_ ?_).1
    · intro x h1 h2
      have a1 := hBe.1
      have a2 := hEe.2.2
      unfold Apart at a1 a2
      refine hfr2 x (by omega) ?_ (fun _ => by omega)
      intro hl
      have a3 := (hLe hl).1
      unfold Apart at a3
      omega
    · intro y hy x h1 h2
      exact (hev y hy x (by omega) (by omega)).1
  · exact EvSep_sublist _ _ _ hinv.sep (List.sublist_cons_self _ _)
  · intro x hx
    have hBx := hinv.boxes x (List.mem_cons_of_mem _ hx)
    rw [hboxes x hx]
    refine ⟨hBx.1, ?_⟩
    intro y hy
    rw [hboxes y hy]
    exact hBx.2 y (List.mem_cons_of_mem _ hy)
  · intro x hx
    have hBx := hinv.boxes x (List.mem_cons_of_mem _ hx)
    rw [hboxes x hx]
    rcases (hBe.2 x (List.mem_cons_of_mem _ hx)).2 with heq | hap
    · -- the inbox that has just received `e`
      rw [heq, hmem, eq_last_enqueue _ _ _ he32 (hBe.2 e (by simp)).1]
      intro _
      refine ⟨hEe.2.2, ?_⟩
      intro y hy
      rw [hboxes y hy]
      exact ⟨Apart_symm _ _ (hpw.1 y hy),
        ((hinv.boxes y (List.mem_cons_of_mem _ hy)).2 e (by simp)).1⟩
    · rw [hQ (destBox k x) hBx.1 hap
        (fun hl => ((hLe hl).2 x (List.mem_cons_of_mem _ hx)).2) (hBx.2 e (by simp)).1]
      intro hl
      have hLx := hinv.lasts x (List.mem_cons_of_mem _ hx) hl
      refine ⟨hLx.1, ?_⟩
      intro y hy
      rw [hboxes y hy]
      exact hLx.2 y (List.mem_cons_of_mem _ hy)

/-- The inner loop of the broker on a sound inbox: with more fuel than
events it returns, the inbox is then empty, and a task is woken (status
through `DECR_STATUS` once, `WAIT_FOR_EVENT` cleared) exactly when it was
waiting and is the destination of one of the events; no other field of a
`TCB` changes. -/
theorem event_task_loop_drains (et : Nat) :
    ∀ (evs : List Nat) (k : Kernel) (fuel : Nat),
      DrainInv k (k.tcbs et).event_queue evs → evs.length < fuel →
      ∃ k2, event_task_loop et fuel k = some k2 ∧
        EvQueue k2.mem (k.tcbs et).event_queue [] ∧
        ∀ t, k2.tcbs t =
          if t ∈ evs.map (event_destination k.mem) ∧
              TESTFLAG (k.tcbs t).flags WAIT_FOR_EVENT ≠ 0 then woken (k.tcbs t)
          else k.tcbs t := by
  intro evs
  induction evs with
  | nil =>
    intro k fuel hinv hf
    cases fuel with
    | zero => exact absurd hf (by simp)
    | succ f =>
      have h0 : eq_first k.mem (k.tcbs et).event_queue = 0 := hinv.queue.seg
      have hd := dequeue_event_empty k.mem _ h0
      refine ⟨k, ?_, hinv.queue, ?_⟩
      · unfold event_task_loop
        simp only [hd, ne_eq, not_true_eq_false, if_false]
      · intro t
        simp
  | cons e rest ih =>
    intro k fuel hinv hf
    cases fuel with
    | zero => exact absurd hf (by simp)
    | succ f =>
      obtain ⟨h1, h2, h3, h4, h5⟩ := drain_step k et e rest hinv
      have hq : ((event_task_deliver
          { k with mem := (dequeue_event k.mem (k.tcbs et).event_queue).1 } e).tcbs
          et).event_queue = (k.tcbs et).event_queue := event_task_deliver_queue _ _ _
      have h4b : DrainInv
          (event_task_deliver
            { k with mem := (dequeue_event k.mem (k.tcbs et).event_queue).1 } e)
          ((event_task_deliver
            { k with mem := (dequeue_event k.mem (k.tcbs et).event_queue).1 } e).tcbs
            et).event_queue rest := by
        rw [hq]; exact h4
      obtain ⟨k2, hrun, hemp, htcb⟩ := ih _ f h4b (by simpa using hf)
      rw [hq] at hemp
      refine ⟨k2, ?_, hemp, ?_⟩
      · have hne : (dequeue_event k.mem (k.tcbs et).event_queue).2 ≠ 0 := by rw [h1]; exact h2
        unfold event_task_loop
        simp only [if_pos hne]
        rw [h1]
        exact hrun
      · intro t
        have hstep := event_task_deliver_tcbs
          { k with mem := (dequeue_event k.mem (k.tcbs et).event_queue).1 } e t
        rw [h3] at hstep
        have hstep2 : (event_task_deliver
            { k with mem := (dequeue_event k.mem (k.tcbs et).event_queue).1 } e).tcbs t =
            if t = event_destination k.mem e ∧
              TESTFLAG (k.tcbs (event_destination k.mem e)).flags WAIT_FOR_EVENT ≠ 0 then
              woken (k.tcbs t) else k.tcbs t := hstep
        have hmap : List.map (event_destination (event_task_deliver
            { k with mem := (dequeue_event k.mem (k.tcbs et).event_queue).1 } e).mem) rest =
            List.map (event_destination k.mem) rest :=
          List.map_congr_left h5
        rw [htcb t, hmap, hstep2]
        by_cases hc : t = event_destination k.mem e ∧
            TESTFLAG (k.tcbs (event_destination k.mem e)).flags WAIT_FOR_EVENT ≠ 0
        · have hw : TESTFLAG (woken (k.tcbs t)).flags WAIT_FOR_EVENT = 0 :=
            TESTFLAG_CLEARFLAG _
          have hk : TESTFLAG (k.tcbs t).flags WAIT_FOR_EVENT ≠ 0 := by rw [hc.1]; exact hc.2
          rw [if_pos hc, if_neg (fun h => h.2 hw), if_pos ⟨by simp [hc.1], hk⟩]
        · rw [if_neg hc]
          by_cases hm : t ∈ List.map (event_destination k.mem) rest ∧
              TESTFLAG (k.tcbs t).flags WAIT_FOR_EVENT ≠ 0
          · rw [if_pos hm, if_pos ⟨by simp [hm.1], hm.2⟩]
          · rw [if_neg hm, if_neg]
            intro h
            rw [List.map_cons, List.mem_cons] at h
            rcases h.1 with h6 | h6
            · exact hc ⟨h6, by rw [← h6]; exact h.2⟩
            · exact hm ⟨h6, h.2⟩

/-- C23: the delivery of one event by the broker (`d` is its destination).
If `d` has `WAIT_FOR_EVENT` set, its status becomes `DECR_STATUS(d)`, which
is the status minus one for every `int` above `INT_MIN`, and the flag is
cleared; if the flag is not set, no `TCB` changes; the `TCB` of every other
task is unchanged.  In both cases the memory afterwards is that of
`enqueue_event` on the inbox of `d`: on a sound inbox holding `evd`, the
event being a distinct object, the counter is one more, `last` is the event
and the chain from `first` runs through `evd` and then the event (it ends
with NULL when `evd` is not empty or the `next` field of the event was NULL).
For a whole drain of a sound inbox of the broker: the loop returns with
enough fuel, and every task that was waiting and is the destination of one
or more of the events has had its status through `DECR_STATUS` once, and no
other status has changed. -/
theorem broker_delivery (k : Kernel) (event : Nat) :
    (TESTFLAG (k.tcbs (event_destination k.mem event)).flags WAIT_FOR_EVENT ≠ 0 →
      ((event_task_deliver k event).tcbs (event_destination k.mem event)).status =
        DECR_STATUS (k.tcbs (event_destination k.mem event)).status ∧
      (-2147483648 < (k.tcbs (event_destination k.mem event)).status →
        (k.tcbs (event_destination k.mem event)).status ≤ 2147483647 →
        ((event_task_deliver k event).tcbs (event_destination k.mem event)).status =
          (k.tcbs (event_destination k.mem event)).status - 1) ∧
      ((event_task_deliver k event).tcbs (event_destination k.mem event)).flags =
        CLEARFLAG (k.tcbs (event_destination k.mem event)).flags WAIT_FOR_EVENT ∧
      TESTFLAG ((event_task_deliver k event).tcbs (event_destination k.mem event)).flags
        WAIT_FOR_EVENT = 0) ∧
    (TESTFLAG (k.tcbs (event_destination k.mem event)).flags WAIT_FOR_EVENT = 0 →
      (event_task_deliver k event).tcbs = k.tcbs) ∧
    (∀ t, t ≠ event_destination k.mem event → (event_task_deliver k event).tcbs t = k.tcbs t) ∧
    (event_task_deliver k event).mem = enqueue_event k.mem (destBox k event) event ∧
    (∀ evd, EvQueue k.mem (destBox k event) evd → EvSep (destBox k event) (evd ++ [event]) →
      eq_num_events (event_task_deliver k event).mem (destBox k event) = evd.length + 1 ∧
      eq_last (event_task_deliver k event).mem (destBox k event) = event ∧
      EvSeg (event_task_deliver k event).mem
        (eq_first (event_task_deliver k event).mem (destBox k event)) (evd ++ [event])
        (event_next (event_task_deliver k event).mem event) ∧
      (evd ≠ [] ∨ event_next k.mem event = 0 →
        EvQueue (event_task_deliver k event).mem (destBox k event) (evd ++ [event]))) ∧
    (∀ (et : Nat) (evs : List Nat) (fuel : Nat),
      DrainInv k (k.tcbs et).event_queue evs → evs.length < fuel →
      ∃ k2, event_task_loop et fuel k = some k2 ∧
        ∀ t, (t ∈ evs.map (event_destination k.mem) ∧
              TESTFLAG (k.tcbs t).flags WAIT_FOR_EVENT ≠ 0 →
            (k2.tcbs t).status = DECR_STATUS (k.tcbs t).status ∧
            (k2.tcbs t).flags = CLEARFLAG (k.tcbs t).flags WAIT_FOR_EVENT) ∧
          (¬ (t ∈ evs.map (event_destination k.mem) ∧
              TESTFLAG (k.tcbs t).flags WAIT_FOR_EVENT ≠ 0) → k2.tcbs t = k.tcbs t)) := by
  have hmem := event_task_deliver_mem k event
  refine ⟨?_, ?_, ?_, hmem, ?_, ?_⟩
  · intro hf
    have h := event_task_deliver_tcbs k event (event_destination k.mem event)
    rw [if_pos ⟨rfl, hf⟩] at h
    rw [h]
    exact ⟨rfl, fun h1 h2 => DECR_STATUS_eq _ h1 h2, rfl, TESTFLAG_CLEARFLAG _⟩
  · intro hf
    funext t
    rw [event_task_deliver_tcbs, if_neg (fun h => h.2 hf)]
  · intro t ht
    rw [event_task_deliver_tcbs, if_neg (fun h => ht h.1)]
  · intro evd hq hsep
    rw [hmem]
    exact enqueue_event_weak k.mem _ event evd hq hsep
  · intro et evs fuel hinv hf
    obtain ⟨k2, hrun, _, htcb⟩ := event_task_loop_drains et evs k fuel hinv hf
    refine ⟨k2, hrun, fun t => ⟨?_, ?_⟩⟩
    · intro hc
      rw [htcb t, if_pos hc]
      exact ⟨rfl, rfl⟩
    · intro hc
      rw [htcb t, if_neg hc]

theorem drainKernel_inv : DrainInv drainKernel 4360 [7608, 7660] :=
  ⟨⟨by decide, ⟨by decide, by decide, by decide, by decide,
      by show event_next drainMem 7660 = 0; decide⟩, by decide⟩,
    by unfold EvSep; decide, by decide, by decide⟩

theorem broker_delivery_witness :
    ∃ k2, event_task_loop 4128 3 drainKernel = some k2 ∧
      (drainKernel.tcbs 5288).status = 1 ∧ (k2.tcbs 5288).status = 0 ∧
      (k2.tcbs 5288).flags = 0 := by
  obtain ⟨k2, h1, h2⟩ := (broker_delivery drainKernel 0).2.2.2.2.2 4128 [7608, 7660] 3
    drainKernel_inv (by decide)
  have h3 := (h2 5288).1 (by decide)
  exact ⟨k2, h1, by decide, h3.1.trans (by decide), h3.2.trans (by decide)⟩

/-! ## The steps of the kernel and the status of a task -/

theorem SameSF_refl (k : Kernel) (t : Nat) : SameSF k k t := ⟨rfl, rfl⟩

theorem SameSF_trans (a b c : Kernel) (t : Nat) (h1 : SameSF a b t) (h2 : SameSF b c t) :
    SameSF a c t := ⟨h2.1.trans h1.1, h2.2.trans h1.2⟩

theorem SameSF_of_tcbs (k k2 : Kernel) (h : k2.tcbs = k.tcbs) (t : Nat) : SameSF k k2 t := by
  unfold SameSF; rw [h]; exact ⟨rfl, rfl⟩

theorem SameSF_of_sameTasks (k k2 : Kernel) (h : SameTasks k k2) (t : Nat) : SameSF k k2 t :=
  ⟨by have e := congrArg TCB.status (h t); exact e,
    by have e := congrArg TCB.flags (h t); exact e⟩

theorem global_free_tcbs (hfuel : Nat) (k : Kernel) (p : Nat) (r : Kernel × Nat)
    (h : global_free hfuel k p = some r) : r.1.tcbs = k.tcbs := by
  unfold global_free at h
  split at h
  · exact absurd h (by simp)
  · simp only [Option.some.injEq] at h
    rw [← h]

theorem global_alloc_tcbs (hfuel : Nat) (k : Kernel) (n : Nat) (r : Kernel × Nat)
    (h : global_alloc hfuel k n = some r) : r.1.tcbs = k.tcbs := by
  unfold global_alloc at h
  split at h
  · exact absurd h (by simp)
  · simp only [Option.some.injEq] at h
    rw [← h]

theorem tcb_alloc_tcbs (hfuel : Nat) (k : Kernel) (tcb n : Nat) (r : Kernel × Nat)
    (h : tcb_alloc hfuel k tcb n = some r) : r.1.tcbs = k.tcbs := by
  unfold tcb_alloc at h
  split at h
  · exact absurd h (by simp)
  · simp only [Option.some.injEq] at h
    rw [← h]

theorem task_create_error_tcbs (hfuel : Nat) (k : Kernel) (tcb heap_tmp : Nat)
    (r : Kernel × Nat) (h : task_create_error hfuel k tcb heap_tmp = some r) :
    r.1.tcbs = k.tcbs := by
  unfold task_create_error at h
  split at h
  · exact absurd h (by simp)
  · rename_i k1 x1 h1
    split at h
    · exact absurd h (by simp)
    · rename_i k2 x2 h2
      simp only [Option.some.injEq] at h
      rw [← h]
      have e1 : k1.tcbs = k.tcbs := by
        by_cases ht : tcb ≠ 0
        · rw [if_pos ht] at h1
          exact global_free_tcbs _ _ _ _ h1
        · rw [if_neg ht] at h1
          simp only [Option.some.injEq, Prod.mk.injEq] at h1
          rw [← h1.1]
      have e2 : k2.tcbs = k1.tcbs := by
        by_cases ht : heap_tmp ≠ 0
        · rw [if_pos ht] at h2
          exact global_free_tcbs _ _ _ _ h2
        · rw [if_neg ht] at h2
          simp only [Option.some.injEq, Prod.mk.injEq] at h2
          rw [← h2.1]
      show k2.tcbs = k.tcbs
      rw [e2, e1]

/-! ## Delivery into an empty inbox -/

theorem twoMem_inv : HeapInv twoMem 4096 twoChunks :=
  ⟨⟨by decide, by decide, by decide, ⟨by decide, by decide, by decide, by decide, trivial⟩,
    by decide, by decide, by decide⟩, by decide, ⟨rfl, rfl, rfl, rfl, rfl, rfl, rfl, rfl, trivial⟩⟩

theorem twoMem_queue : EvQueue twoMem 4360 [7608, 7660] :=
  ⟨by decide, ⟨by decide, by decide, by decide, by decide,
    by show event_next twoMem 7660 = 0; decide⟩, by decide⟩

/-- C22 (the input on which it fails): in `twoKernel` the global heap
satisfies the invariants of the heap manager, the inbox of the broker is a
sound queue of two events, the first for the task at 5288 and the second for
the task at 6448, and the inboxes of both tasks are empty.  The broker
drains its inbox: the first event is delivered into the empty inbox at 5520
with its `next` field still pointing to the second event.  The task at 5288
calls `check_event` and observes the first event (sender 6448, type 1,
subtype 100); its inbox then has `num_events` 0, but `first` is the second
event, which is in the inbox at 6680 of the other task, and `last` is the
freed event.  A third event (type 3, subtype 300) is generated for the task
at 5288 and delivered by the next drain.  The next `check_event` of the task
at 5288 then observes sender 6448, type 2, subtype 200: the event that was
addressed to the task at 6448, and not the event of type 3. -/
theorem check_event_observes_foreign_event :
    HeapInv twoKernel.mem twoKernel.global_heap twoChunks ∧
    EvQueue twoKernel.mem 4360 [7608, 7660] ∧
    event_destination twoKernel.mem 7608 = 5288 ∧
    event_destination twoKernel.mem 7660 = 6448 ∧
    EvQueue twoKernel.mem 5520 [] ∧ EvQueue twoKernel.mem 6680 [] ∧
    staleDrain.map (fun k =>
      [eq_num_events k.mem 4360, eq_num_events k.mem 5520, eq_first k.mem 5520,
        eq_last k.mem 5520, event_next k.mem 7608, eq_num_events k.mem 6680,
        eq_first k.mem 6680]) = some [0, 1, 7608, 7608, 7660, 1, 7660] ∧
    staleCheck.map (fun r =>
      [r.2.1, r.2.2.1, r.2.2.2, eq_num_events r.1.mem 5520, eq_first r.1.mem 5520,
        eq_last r.1.mem 5520, eq_first r.1.mem 6680]) =
      some [6448, 1, 100, 0, 7660, 7608, 7660] ∧
    staleGenerate.map (fun r =>
      [r.2, eq_num_events r.1.mem 4360, eq_first r.1.mem 4360,
        event_type r.1.mem (eq_first r.1.mem 4360),
        event_subtype r.1.mem (eq_first r.1.mem 4360),
        event_destination r.1.mem (eq_first r.1.mem 4360)]) =
      some [TASK_SUCCESS, 1, 7608, 3, 300, 5288] ∧
    staleDrain2.map (fun k =>
      [eq_num_events k.mem 4360, eq_num_events k.mem 5520, eq_first k.mem 5520,
        eq_last k.mem 5520]) = some [0, 1, 7660, 7608] ∧
    staleCheck2.map (fun r => [r.2.1, r.2.2.1, r.2.2.2]) = some [6448, 2, 200] :=
  ⟨twoMem_inv, twoMem_queue, by decide, by decide,
    ⟨by decide, by show eq_first twoMem 5520 = 0; decide, by decide⟩,
    ⟨by decide, by show eq_first twoMem 6680 = 0; decide, by decide⟩,
    by decide!, by decide!, by decide!, by decide!, by decide!⟩

theorem FreshAt_tcbs (k0 k k2 : Kernel) (tcb : Nat) (h : k2.tcbs = k.tcbs)
    (hf : FreshAt k0 k tcb) : FreshAt k0 k2 tcb := by
  unfold FreshAt SameSF at *
  rw [h]
  exact hf

theorem FreshAt_setTcb (k0 k : Kernel) (tcb : Nat) (f : TCB → TCB)
    (hf : ∀ x : TCB, x.status = 0 → x.flags = 0 → (f x).status = 0 ∧ (f x).flags = 0)
    (h : FreshAt k0 k tcb) : FreshAt k0 (setTcb k tcb f) tcb := by
  obtain ⟨h1, h2, h3⟩ := h
  refine ⟨?_, ?_, ?_⟩
  · intro t ht
    have := h1 t ht
    unfold SameSF at *
    show (if t = tcb then _ else _ : TCB).status = _ ∧ (if t = tcb then _ else _ : TCB).flags = _
    rw [if_neg ht]
    exact this
  · show (if tcb = tcb then _ else _ : TCB).status = 0
    rw [if_pos rfl]
    exact (hf _ h2 h3).1
  · show (if tcb = tcb then _ else _ : TCB).flags = 0
    rw [if_pos rfl]
    exact (hf _ h2 h3).2

theorem FreshAt_sameTasks (k0 k k2 : Kernel) (tcb : Nat) (h : SameTasks k k2)
    (hf : FreshAt k0 k tcb) : FreshAt k0 k2 tcb := by
  obtain ⟨h1, h2, h3⟩ := hf
  refine ⟨fun t ht => SameSF_trans _ _ _ _ (h1 t ht) (SameSF_of_sameTasks _ _ h t), ?_, ?_⟩
  · rw [(SameSF_of_sameTasks _ _ h tcb).1]; exact h2
  · rw [(SameSF_of_sameTasks _ _ h tcb).2]; exact h3

theorem task_create_finish_fresh (hfuel saved : Nat) (k0 k : Kernel) (tcb heap_tmp : Nat)
    (entry arg stksize prio : Nat) (r : Kernel × Nat)
    (hrun : task_create_finish hfuel saved k tcb heap_tmp entry arg stksize prio = some r)
    (hf : FreshAt k0 k tcb) : FreshAt k0 r.1 tcb := by
  unfold task_create_finish at hrun
  simp only [setup_stack_frame] at hrun
  have h1 := FreshAt_setTcb k0 k tcb (fun t => { t with ssize := stksize })
    (fun x a b => ⟨a, b⟩) hf
  by_cases hsv : saved = 0
  · subst hsv
    simp only [ne_eq, not_true_eq_false, if_false, Option.some.injEq] at hrun
    rw [← hrun]
    refine FreshAt_sameTasks _ _ _ _ (task_queue_add_same _ _).1 ?_
    refine FreshAt_tcbs _ _ _ _ rfl ?_
    refine FreshAt_setTcb _ _ _ (fun t => { t with task_number := _ }) (fun x a b => ⟨a, b⟩) ?_
    refine FreshAt_setTcb _ _ _ (fun t => { t with priority := _ }) (fun x a b => ⟨a, b⟩) ?_
    refine FreshAt_setTcb _ _ _ (fun t => { t with flags := 0 }) (fun x a _ => ⟨a, rfl⟩) ?_
    refine FreshAt_setTcb _ _ _ (fun t => { t with status := TASK_RUNABLE })
      (fun x _ b => ⟨rfl, b⟩) ?_
    refine FreshAt_setTcb _ _ _ (fun t => { t with tprev := 0 }) (fun x a b => ⟨a, b⟩) ?_
    refine FreshAt_setTcb _ _ _ (fun t => { t with tnext := 0 }) (fun x a b => ⟨a, b⟩) ?_
    refine FreshAt_setTcb _ _ _ (fun t => { t with arg := _ }) (fun x a b => ⟨a, b⟩) ?_
    refine FreshAt_setTcb _ _ _ (fun t => { t with entry := _ }) (fun x a b => ⟨a, b⟩) ?_
    exact FreshAt_tcbs _ _ _ _ rfl h1
  · simp only [ne_eq, hsv, not_false_eq_true, if_true] at hrun
    exact FreshAt_tcbs _ _ _ _ (task_create_error_tcbs _ _ _ _ _ hrun)
      (FreshAt_tcbs _ _ _ _ rfl h1)

theorem task_create_heap_fresh (hfuel saved : Nat) (k0 k : Kernel) (tcb heap_tmp : Nat)
    (entry arg stksize hsize prio : Nat) (r : Kernel × Nat)
    (hrun : task_create_heap hfuel saved k tcb heap_tmp entry arg stksize hsize prio = some r)
    (hf : FreshAt k0 k tcb) : FreshAt k0 r.1 tcb := by
  unfold task_create_heap at hrun
  simp only at hrun
  have h1 : FreshAt k0 (setTcb { k with mem := (init_heap k.mem heap_tmp hsize).1 } tcb
      (fun t => { t with heap := (init_heap k.mem heap_tmp hsize).2 })) tcb :=
    FreshAt_setTcb _ _ _ _ (fun x a b => ⟨a, b⟩) (FreshAt_tcbs _ _ _ _ rfl hf)
  split at hrun
  · exact FreshAt_tcbs _ _ _ _ (task_create_error_tcbs _ _ _ _ _ hrun) h1
  · split at hrun
    · exact absurd hrun (by simp)
    · rename_i k2 stack h2
      have h3 : FreshAt k0 (setTcb k2 tcb (fun t => { t with stack := stack })) tcb :=
        FreshAt_setTcb _ _ _ _ (fun x a b => ⟨a, b⟩)
          (FreshAt_tcbs _ _ _ _ (tcb_alloc_tcbs _ _ _ _ _ h2) h1)
      split at hrun
      · exact FreshAt_tcbs _ _ _ _ (task_create_error_tcbs _ _ _ _ _ hrun) h3
      · split at hrun
        · exact absurd hrun (by simp)
        · rename_i k4 eq h4
          have h5 : FreshAt k0 (setTcb k4 tcb (fun t => { t with event_queue := eq })) tcb :=
            FreshAt_setTcb _ _ _ _ (fun x a b => ⟨a, b⟩)
              (FreshAt_tcbs _ _ _ _ (tcb_alloc_tcbs _ _ _ _ _ h4) h3)
          split at hrun
          · exact FreshAt_tcbs _ _ _ _ (task_create_error_tcbs _ _ _ _ _ hrun) h5
          · exact task_create_finish_fresh _ _ _ _ _ _ _ _ _ _ _ hrun h5

/-- What `task_create` does to the status and the flags of the tasks: when
`global_alloc` returns NULL for the `TCB` nothing changes; otherwise the task
at the block returned has status 0 and no flag, and the others are as
before. -/
theorem task_create_effect (hfuel saved : Nat) (k : Kernel)
    (entry arg stksize hsize prio : Nat) (r : Kernel × Nat)
    (hrun : task_create hfuel saved k entry arg stksize hsize prio = some r) :
    ∃ k1 tcb, global_alloc hfuel k sizeof_TCB = some (k1, tcb) ∧
      ((tcb = 0 ∧ r.1.tcbs = k.tcbs) ∨ (tcb ≠ 0 ∧ FreshAt k r.1 tcb)) := by
  unfold task_create at hrun
  split at hrun
  · exact absurd hrun (by simp)
  · rename_i k1 tcb h1
    refine ⟨k1, tcb, h1, ?_⟩
    have e1 := global_alloc_tcbs _ _ _ _ h1
    by_cases ht : tcb = 0
    · left
      rw [if_pos ht] at hrun
      exact ⟨ht, (task_create_error_tcbs _ _ _ _ _ hrun).trans e1⟩
    · right
      rw [if_neg ht] at hrun
      refine ⟨ht, ?_⟩
      have h2 : FreshAt k (setTcb k1 tcb (fun _ => zeroTCB)) tcb := by
        refine ⟨?_, ?_, ?_⟩
        · intro t hne
          unfold SameSF
          show (if t = tcb then _ else _ : TCB).status = _ ∧
            (if t = tcb then _ else _ : TCB).flags = _
          rw [if_neg hne]
          have : k1.tcbs = k.tcbs := e1
          rw [this]
          exact ⟨rfl, rfl⟩
        · show (if tcb = tcb then _ else _ : TCB).status = 0
          rw [if_pos rfl]; rfl
        · show (if tcb = tcb then _ else _ : TCB).flags = 0
          rw [if_pos rfl]; rfl
      simp only at hrun
      split at hrun
      · exact absurd hrun (by simp)
      · rename_i k3 heap_tmp h3
        have h4 := FreshAt_tcbs _ _ _ _ (global_alloc_tcbs _ _ _ _ h3) h2
        split at hrun
        · exact FreshAt_tcbs _ _ _ _ (task_create_error_tcbs _ _ _ _ _ hrun) h4
        · exact task_create_heap_fresh _ _ _ _ _ _ _ _ _ _ _ _ hrun h4

theorem free_task_resources_tcbs (hfuel : Nat) (k : Kernel) (tcb : Nat) (k2 : Kernel)
    (h : free_task_resources hfuel k tcb = some k2) : k2.tcbs = k.tcbs := by
  unfold free_task_resources at h
  split at h
  · exact absurd h (by simp)
  · rename_i k1 x1 h1
    split at h
    · exact absurd h (by simp)
    · rename_i k3 x3 h3
      simp only [Option.some.injEq] at h
      rw [← h]
      exact (global_free_tcbs _ _ _ _ h3).trans (global_free_tcbs _ _ _ _ h1)

theorem delete_task_sameSF (hfuel : Nat) (k : Kernel) (tcb : Nat) (r : Kernel × Nat)
    (h : delete_task hfuel k tcb = some r) (t : Nat) : SameSF k r.1 t := by
  unfold delete_task at h
  simp only at h
  split at h
  · simp only [Option.some.injEq] at h
    rw [← h]
    exact SameSF_refl _ _
  · split at h
    · exact absurd h (by simp)
    · rename_i k2 h2
      simp only [Option.some.injEq] at h
      rw [← h]
      exact SameSF_trans _ _ _ _ (SameSF_of_sameTasks _ _ (task_queue_del_same k tcb).1 t)
        (SameSF_of_tcbs _ _ (free_task_resources_tcbs _ _ _ _ h2) t)

theorem get_sched_priority_loop_sameSF (hfuel : Nat) :
    ∀ (fuel : Nat) (k : Kernel) (tcb p : Nat) (r : Kernel × Nat),
      get_sched_priority_loop hfuel fuel k tcb p = some r → ∀ t, SameSF k r.1 t := by
  intro fuel
  induction fuel with
  | zero => intro k tcb p r h; exact absurd h (by simp [get_sched_priority_loop])
  | succ f ih =>
    intro k tcb p r h t
    unfold get_sched_priority_loop at h
    split at h
    · simp only [Option.some.injEq] at h
      rw [← h]; exact SameSF_refl _ _
    · split at h
      · split at h
        · exact absurd h (by simp)
        · rename_i k1 tcb1 h1
          have hd := delete_task_sameSF hfuel k tcb (k1, tcb1) h1 t
          split at h
          · simp only [Option.some.injEq] at h
            rw [← h]; exact hd
          · exact SameSF_trans _ _ _ _ hd (ih _ _ _ _ h t)
      · exact ih _ _ _ _ h t

/-- The search loop of `scheduler` returns only a task whose status is 0. -/
theorem scheduler_select_status (k : Kernel) (cp : Nat) :
    ∀ (fuel cur t : Nat), scheduler_select fuel k cur cp = some t → (k.tcbs t).status = 0 := by
  intro fuel
  induction fuel with
  | zero => intro cur t h; exact absurd h (by simp [scheduler_select])
  | succ f ih =>
    intro cur t h
    unfold scheduler_select at h
    split at h
    · exact ih _ _ h
    · rename_i hc
      simp only [Option.some.injEq] at h
      subst h
      by_contra hs
      exact hc (Or.inr hs)

/-- A turn of the scheduler changes neither the status nor the flags of a
task, and dispatches only a task whose status is 0. -/
theorem scheduler_pass_effect (fuel hfuel : Nat) (k : Kernel) (r : Kernel × SchedOutcome)
    (h : scheduler_pass fuel hfuel k = some r) :
    (∀ t, SameSF k r.1 t) ∧ ∀ t, r.2 = SchedOutcome.dispatched t → (k.tcbs t).status = 0 := by
  unfold scheduler_pass at h
  split at h
  · exact absurd h (by simp)
  · rename_i k1 cp h1
    have hs := get_sched_priority_loop_sameSF hfuel fuel k k.first 0xFF (k1, cp) h1
    split at h
    · simp only [Option.some.injEq] at h
      rw [← h]
      exact ⟨hs, fun t ht => absurd ht (by simp)⟩
    · split at h
      · exact absurd h (by simp)
      · rename_i tcb h2
        simp only [Option.some.injEq] at h
        rw [← h]
        refine ⟨fun t => SameSF_trans _ _ _ _ (hs t) (SameSF_of_tcbs _ _ rfl t), ?_⟩
        intro t ht
        simp only [SchedOutcome.dispatched.injEq] at ht
        subst ht
        rw [← (hs tcb).1]
        exact scheduler_select_status k1 cp _ _ _ h2

theorem allocate_event_tcbs (hfuel : Nat) (k : Kernel) (r : Kernel × Nat)
    (h : allocate_event hfuel k = some r) :
    r.1.tcbs = k.tcbs ∧ r.1.current_task = k.current_task := by
  unfold allocate_event global_alloc at h
  split at h
  · exact absurd h (by simp)
  · simp only [Option.some.injEq] at h
    rw [← h]
    exact ⟨rfl, rfl⟩

/-- What `generate_event` does to the `TCB`s: at most the status of the
broker is set to 0. -/
theorem generate_event_effect (hfuel : Nat) (k : Kernel) (et tcb type subtype : Nat)
    (r : Kernel × Nat) (h : generate_event hfuel k et tcb type subtype = some r) (t : Nat) :
    r.1.tcbs t = k.tcbs t ∨ (t = et ∧ r.1.tcbs t = { k.tcbs et with status := 0 }) := by
  unfold generate_event at h
  simp only at h
  split at h
  · exact absurd h (by simp)
  · rename_i k1 event h1
    have e1 := (allocate_event_tcbs _ _ _ h1).1
    have e1b : k1.tcbs = k.tcbs := e1
    split at h
    · simp only [Option.some.injEq] at h
      rw [← h]
      left
      rw [e1b]
    · simp only [Option.some.injEq] at h
      rw [← h]
      by_cases ht : t = et
      · right
        refine ⟨ht, ?_⟩
        subst ht
        show (if t = t then _ else _ : TCB) = _
        rw [if_pos rfl]
        show ({ k1.tcbs t with status := TASK_RUNABLE } : TCB) = _
        rw [e1b]
        rfl
      · left
        show (if t = et then _ else _ : TCB) = _
        rw [if_neg ht]
        show k1.tcbs t = _
        rw [e1b]

theorem free_event_tcbs (hfuel : Nat) (k : Kernel) (e : Nat) (r : Kernel × Nat)
    (h : free_event hfuel k e = some r) : r.1.tcbs = k.tcbs :=
  global_free_tcbs hfuel k e r h

theorem check_event_tcbs (hfuel : Nat) (k : Kernel) (sty : Nat) (r : Kernel × Nat × Nat × Nat)
    (h : check_event hfuel k sty = some r) : r.1.tcbs = k.tcbs := by
  unfold check_event at h
  simp only at h
  split at h
  · simp only [Option.some.injEq] at h
    rw [← h]
  · split at h
    · exact absurd h (by simp)
    · rename_i k2 x h2
      simp only [Option.some.injEq] at h
      rw [← h]
      exact free_event_tcbs _ _ _ _ h2

/-- The `TCB`s after the blocking step of `wait_event`. -/
theorem wait_event_block_tcbs (k : Kernel) (t : Nat) :
    (wait_event_block k).tcbs t =
      if t = k.current_task then
        { k.tcbs t with status := INCR_STATUS (k.tcbs t).status,
                        flags := SETFLAG (k.tcbs t).flags WAIT_FOR_EVENT }
      else k.tcbs t := by
  unfold wait_event_block get_current_task_tcb
  by_cases ht : t = k.current_task
  · subst ht
    simp only [setTcb, if_true]
  · simp only [setTcb, if_neg ht]

/-- An induction principle for `wait_event`: a property of the state that
is kept by the blocking step (taken when the counter of the inbox is 0) and
does not depend on the memory holds in the state the call ends in. -/
theorem wait_event_ind (P : Kernel → Prop) (hfuel : Nat)
    (hblock : ∀ k, P k → eq_num_events k.mem (k.tcbs k.current_task).event_queue = 0 →
      P (wait_event_block k))
    (hmem : ∀ k k2, P k → k2.tcbs = k.tcbs → k2.current_task = k.current_task → P k2) :
    ∀ (fuel : Nat) (k : Kernel) (o : WaitOutcome), wait_event hfuel fuel k = some o → P k →
      P (waitState o) := by
  intro fuel
  induction fuel with
  | zero => intro k o h; exact absurd h (by simp [wait_event])
  | succ f ih =>
    intro k o h hP
    unfold wait_event at h
    simp only [get_current_task_tcb] at h
    split at h
    · rename_i h0
      have hb := hblock k hP h0
      split at h
      · simp only [Option.some.injEq] at h
        rw [← h]
        exact hb
      · exact ih _ _ h hb
    · split at h
      · exact absurd h (by simp)
      · rename_i k2 x h2
        simp only [Option.some.injEq] at h
        rw [← h]
        refine hmem _ _ hP (free_event_tcbs _ _ _ _ h2) ?_
        unfold free_event global_free at h2
        split at h2
        · exact absurd h2 (by simp)
        · simp only [Option.some.injEq, Prod.mk.injEq] at h2
          rw [← h2.1]
          rfl

theorem event_task_step_tcbs (et : Nat) (k k2 : Kernel) (h : event_task_step et k = some k2) :
    ∃ e m, k2 = event_task_deliver { k with mem := m } e := by
  unfold event_task_step at h
  simp only at h
  split at h
  · simp only [Option.some.injEq] at h
    exact ⟨_, _, h.symm⟩
  · exact absurd h (by simp)

theorem event_task_suspend_tcbs (et : Nat) (k k2 : Kernel)
    (h : event_task_suspend et k = some k2) (t : Nat) :
    k2.tcbs t = if t = et then { k.tcbs et with status := TASK_SUSPENDED } else k.tcbs t := by
  unfold event_task_suspend at h
  simp only at h
  split at h
  · exact absurd h (by simp)
  · simp only [Option.some.injEq] at h
    rw [← h]
    by_cases ht : t = et
    · subst ht
      simp only [setTcb, if_true]
    · simp only [setTcb, if_neg ht]

/-- One turn of the outer loop of the broker is a sequence of deliveries
followed by the suspension. -/
theorem event_task_loop_succ (et fuel : Nat) (k : Kernel) :
    event_task_loop et (fuel + 1) k =
      match event_task_step et k with
      | some k1 => event_task_loop et fuel k1
      | none => some { k with mem := (dequeue_event k.mem (k.tcbs et).event_queue).1 } := by
  unfold event_task_step
  simp only
  by_cases h : (dequeue_event k.mem (k.tcbs et).event_queue).2 ≠ 0
  · rw [event_task_loop]
    simp only [if_pos h]
  · rw [event_task_loop]
    simp only [if_neg h]

theorem INCR_STATUS_pos (s : Int) (h1 : 0 ≤ s) (h2 : s < 2147483647) :
    0 < INCR_STATUS s ∧ INCR_STATUS s ≤ 2147483647 := by
  rw [INCR_STATUS_eq s (by omega) h2]
  omega

/-- In a critical section `yield()` returns at once, so `wait_event` on an
empty inbox goes round its loop for ever. -/
theorem wait_event_spin (hfuel : Nat) :
    ∀ (fuel : Nat) (k : Kernel), k.task_crit_flag ≠ 0 →
      eq_num_events k.mem (k.tcbs k.current_task).event_queue = 0 →
      wait_event hfuel fuel k = none := by
  intro fuel
  induction fuel with
  | zero => intro k _ _; rfl
  | succ f ih =>
    intro k hc h0
    unfold wait_event
    simp only [get_current_task_tcb]
    rw [if_pos h0]
    have hy : (yield (wait_event_block k)).2 = YieldOutcome.returned := by
      unfold yield system_yield
      have e : (wait_event_block k).task_crit_flag = k.task_crit_flag := rfl
      rw [e, if_neg hc]
    simp only [hy]
    refine ih _ hc ?_
    have c1 : (wait_event_block k).mem = k.mem := rfl
    have c2 : (wait_event_block k).current_task = k.current_task := rfl
    rw [c1, c2, wait_event_block_tcbs, if_pos rfl]
    exact h0

/-- What a call of `wait_event` that yields or returns has done: on an empty
inbox, the body of its loop once; otherwise what `check_event` does. -/
theorem wait_event_some (hfuel : Nat) (fuel : Nat) (k : Kernel) (o : WaitOutcome)
    (h : wait_event hfuel fuel k = some o) :
    (eq_num_events k.mem (k.tcbs k.current_task).event_queue = 0 ∧
      o = WaitOutcome.blocked (wait_event_block k)) ∨
    (eq_num_events k.mem (k.tcbs k.current_task).event_queue ≠ 0 ∧
      ∃ r, free_event hfuel
          { k with mem := (dequeue_event k.mem (k.tcbs k.current_task).event_queue).1 }
          (dequeue_event k.mem (k.tcbs k.current_task).event_queue).2 = some r ∧
        waitState o = r.1) := by
  cases fuel with
  | zero => exact absurd h (by simp [wait_event])
  | succ f =>
    unfold wait_event at h
    simp only [get_current_task_tcb] at h
    by_cases h0 : eq_num_events k.mem (k.tcbs k.current_task).event_queue = 0
    · rw [if_pos h0] at h
      left
      refine ⟨h0, ?_⟩
      by_cases hc : k.task_crit_flag = 0
      · have hy : (yield (wait_event_block k)).2 = YieldOutcome.entered_scheduler 1 := by
          unfold yield system_yield
          have e : (wait_event_block k).task_crit_flag = k.task_crit_flag := rfl
          rw [e, if_pos hc]
        simp only [hy, Option.some.injEq] at h
        exact h.symm
      · have hy : (yield (wait_event_block k)).2 = YieldOutcome.returned := by
          unfold yield system_yield
          have e : (wait_event_block k).task_crit_flag = k.task_crit_flag := rfl
          rw [e, if_neg hc]
        simp only [hy] at h
        have hs := wait_event_spin hfuel f (wait_event_block k) hc (by
          have c1 : (wait_event_block k).mem = k.mem := rfl
          have c2 : (wait_event_block k).current_task = k.current_task := rfl
          rw [c1, c2, wait_event_block_tcbs, if_pos rfl]
          exact h0)
        rw [hs] at h
        exact absurd h (by simp)
    · rw [if_neg h0] at h
      right
      refine ⟨h0, ?_⟩
      split at h
      · exact absurd h (by simp)
      · rename_i k2 x hfree
        simp only [Option.some.injEq] at h
        exact ⟨(k2, x), hfree, by rw [← h]; rfl⟩

theorem WaitInv_of_sameSF (k k2 : Kernel) (h : ∀ t, SameSF k k2 t) (hi : WaitInv k) :
    WaitInv k2 := by
  intro t
  rw [(h t).1, (h t).2]
  exact hi t

theorem flag_of_sameSF (k k2 : Kernel) (et : Nat) (h : SameSF k k2 et)
    (hb : TESTFLAG (k.tcbs et).flags WAIT_FOR_EVENT = 0) :
    TESTFLAG (k2.tcbs et).flags WAIT_FOR_EVENT = 0 := by
  rw [h.2]; exact hb

theorem WaitInv_deliver (k : Kernel) (e : Nat) (hi : WaitInv k) :
    WaitInv (event_task_deliver k e) := by
  intro t
  rw [event_task_deliver_tcbs]
  split
  · rename_i hc
    have h := hi t
    have hpos : 0 < (k.tcbs t).status := by
      apply h.2.2
      rw [hc.1]; exact hc.2
    refine ⟨?_, ?_, ?_⟩
    · show 0 ≤ DECR_STATUS (k.tcbs t).status
      rw [DECR_STATUS_eq _ (by omega) h.2.1]; omega
    · show DECR_STATUS (k.tcbs t).status ≤ 2147483647
      rw [DECR_STATUS_eq _ (by omega) h.2.1]; omega
    · intro hf
      exact absurd (TESTFLAG_CLEARFLAG _) hf
  · exact hi t

theorem flag_deliver (k : Kernel) (e et : Nat)
    (hb : TESTFLAG (k.tcbs et).flags WAIT_FOR_EVENT = 0) :
    TESTFLAG ((event_task_deliver k e).tcbs et).flags WAIT_FOR_EVENT = 0 := by
  rw [event_task_deliver_tcbs]
  split
  · exact TESTFLAG_CLEARFLAG _
  · exact hb

/-- The status and flags after `task_kill`. -/
theorem task_kill_sf (k : Kernel) (tcb t : Nat) :
    ((task_kill k tcb).1.tcbs t).flags = (k.tcbs t).flags ∧
    (((task_kill k tcb).1.tcbs t).status = (k.tcbs t).status ∨
      (t = callTarget k tcb ∧ ((task_kill k tcb).1.tcbs t).status = 255)) := by
  have e : task_kill k tcb =
      if callTarget k tcb = 0 then (k, some TASK_ERROR)
      else (setTcb k (callTarget k tcb) (fun x => { x with status := TASK_KILLED }), none) := rfl
  by_cases h0 : callTarget k tcb = 0
  · rw [e, if_pos h0]
    exact ⟨rfl, Or.inl rfl⟩
  · rw [e, if_neg h0]
    by_cases ht : t = callTarget k tcb
    · subst ht
      simp [setTcb]
      exact Or.inr rfl
    · simp [setTcb, ht]

/-- The status and flags after `task_set_status`. -/
theorem task_set_status_sf (k : Kernel) (tcb : Nat) (status : Int) (t : Nat) :
    ((task_set_status k tcb status).1.tcbs t).flags = (k.tcbs t).flags ∧
    (((task_set_status k tcb status).1.tcbs t).status = (k.tcbs t).status ∨
      (t = callTarget k tcb ∧ ((task_set_status k tcb status).1.tcbs t).status = status)) := by
  have e : task_set_status k tcb status =
      if callTarget k tcb = 0 then (k, some TASK_ERROR)
      else (setTcb k (callTarget k tcb) (fun x => { x with status := status }), none) := rfl
  by_cases h0 : callTarget k tcb = 0
  · rw [e, if_pos h0]
    exact ⟨rfl, Or.inl rfl⟩
  · rw [e, if_neg h0]
    by_cases ht : t = callTarget k tcb
    · subst ht
      simp [setTcb]
    · simp [setTcb, ht]

/-- The status and flags after `task_set_priority`. -/
theorem task_set_priority_sf (k : Kernel) (tcb prio t : Nat) :
    SameSF k (task_set_priority k tcb prio) t := by
  have e : task_set_priority k tcb prio =
      if callTarget k tcb = 0 then k
      else setTcb k (callTarget k tcb) (fun x => { x with priority := prio }) := rfl
  unfold SameSF
  by_cases h0 : callTarget k tcb = 0
  · rw [e, if_pos h0]
    exact ⟨rfl, rfl⟩
  · rw [e, if_neg h0]
    by_cases ht : t = callTarget k tcb
    · subst ht
      simp [setTcb]
    · simp [setTcb, ht]

/-- The status and flags after `generate_event`. -/
theorem generate_event_sf (hfuel : Nat) (k : Kernel) (et tcb type subtype : Nat)
    (r : Kernel × Nat) (h : generate_event hfuel k et tcb type subtype = some r) (t : Nat) :
    (r.1.tcbs t).flags = (k.tcbs t).flags ∧
    ((r.1.tcbs t).status = (k.tcbs t).status ∨ (t = et ∧ (r.1.tcbs t).status = 0)) := by
  rcases generate_event_effect _ _ _ _ _ _ _ h t with h1 | ⟨h1, h2⟩
  · rw [h1]; exact ⟨rfl, Or.inl rfl⟩
  · rw [h2, h1]; exact ⟨rfl, Or.inr ⟨rfl, rfl⟩⟩

/-- The status and flags after the suspension of the broker. -/
theorem event_task_suspend_sf (et : Nat) (k k2 : Kernel)
    (h : event_task_suspend et k = some k2) (t : Nat) :
    (k2.tcbs t).flags = (k.tcbs t).flags ∧
    ((k2.tcbs t).status = (k.tcbs t).status ∨ (t = et ∧ (k2.tcbs t).status = 1)) := by
  rw [event_task_suspend_tcbs et k k2 h t]
  by_cases ht : t = et
  · rw [if_pos ht, ht]; exact ⟨rfl, Or.inr ⟨rfl, rfl⟩⟩
  · rw [if_neg ht]; exact ⟨rfl, Or.inl rfl⟩

/-- The invariant is kept when the flags are kept and every status is kept,
or set to a positive `int`, or set to 0 for a task without `WAIT_FOR_EVENT`. -/
theorem WaitInv_update (k k2 : Kernel) (hi : WaitInv k)
    (h : ∀ t, (k2.tcbs t).flags = (k.tcbs t).flags ∧
      ((k2.tcbs t).status = (k.tcbs t).status ∨
        (0 < (k2.tcbs t).status ∧ (k2.tcbs t).status ≤ 2147483647) ∨
        ((k2.tcbs t).status = 0 ∧ TESTFLAG (k.tcbs t).flags WAIT_FOR_EVENT = 0))) :
    WaitInv k2 ∧ ∀ et, TESTFLAG (k.tcbs et).flags WAIT_FOR_EVENT = 0 →
      TESTFLAG (k2.tcbs et).flags WAIT_FOR_EVENT = 0 := by
  refine ⟨?_, fun et hb => by rw [(h et).1]; exact hb⟩
  intro t
  have hf := (h t).1
  have ht := hi t
  rw [hf]
  rcases (h t).2 with h1 | h1 | h1
  · rw [h1]; exact ht
  · exact ⟨by omega, h1.2, fun _ => h1.1⟩
  · refine ⟨by omega, by omega, fun hne => absurd h1.2 hne⟩

/-- Every allowed step keeps the invariant, and keeps the broker without
`WAIT_FOR_EVENT`. -/
theorem callResult_waitInv (et : Nat) (k k2 : Kernel) (c : Call) (hok : Allowed et k c)
    (hrun : callResult et k c = some k2) (hi : WaitInv k)
    (hb : TESTFLAG (k.tcbs et).flags WAIT_FOR_EVENT = 0) :
    WaitInv k2 ∧ TESTFLAG (k2.tcbs et).flags WAIT_FOR_EVENT = 0 := by
  cases c with
  | create hfuel saved entry arg stksize hsize prio =>
    simp only [callResult, Option.map_eq_some'] at hrun
    obtain ⟨r, hr, rfl⟩ := hrun
    obtain ⟨k1, tcb, _, h | h⟩ := task_create_effect _ _ _ _ _ _ _ _ _ hr
    · exact ⟨WaitInv_of_sameSF _ _ (SameSF_of_tcbs _ _ h.2) hi,
        flag_of_sameSF _ _ _ (SameSF_of_tcbs _ _ h.2 et) hb⟩
    · obtain ⟨_, h1, h2, h3⟩ := h
      refine ⟨?_, ?_⟩
      · intro t
        by_cases ht : t = tcb
        · subst ht
          rw [h2, h3]
          exact ⟨le_refl _, by decide, fun hf => absurd rfl hf⟩
        · rw [(h1 t ht).1, (h1 t ht).2]
          exact hi t
      · by_cases ht : et = tcb
        · subst ht
          rw [h3]; rfl
        · exact flag_of_sameSF _ _ _ (h1 et ht) hb
  | kill tcb =>
    simp only [callResult, Option.some.injEq] at hrun
    subst hrun
    have := WaitInv_update k (task_kill k tcb).1 hi (fun t => by
      refine ⟨(task_kill_sf k tcb t).1, ?_⟩
      rcases (task_kill_sf k tcb t).2 with h | h
      · exact Or.inl h
      · right; left
        rw [h.2]
        exact ⟨by decide, by decide⟩)
    exact ⟨this.1, this.2 et hb⟩
  | set_status tcb status =>
    simp only [callResult, Option.some.injEq] at hrun
    subst hrun
    obtain ⟨a1, a2, a3⟩ := hok
    have := WaitInv_update k (task_set_status k tcb status).1 hi (fun t => by
      refine ⟨(task_set_status_sf k tcb status t).1, ?_⟩
      rcases (task_set_status_sf k tcb status t).2 with h | h
      · exact Or.inl h
      · right
        rw [h.2, h.1]
        by_cases hs : status = 0
        · right
          refine ⟨hs, ?_⟩
          by_contra hne
          have := a3 hne
          omega
        · left
          exact ⟨by omega, a2⟩)
    exact ⟨this.1, this.2 et hb⟩
  | set_priority tcb prio =>
    simp only [callResult, Option.some.injEq] at hrun
    subst hrun
    exact ⟨WaitInv_of_sameSF _ _ (task_set_priority_sf k tcb prio) hi,
      flag_of_sameSF _ _ _ (task_set_priority_sf k tcb prio et) hb⟩
  | generate hfuel tcb type subtype =>
    simp only [callResult, Option.map_eq_some'] at hrun
    obtain ⟨r, hr, rfl⟩ := hrun
    have := WaitInv_update k r.1 hi (fun t => by
      refine ⟨(generate_event_sf _ _ _ _ _ _ _ hr t).1, ?_⟩
      rcases (generate_event_sf _ _ _ _ _ _ _ hr t).2 with h | h
      · exact Or.inl h
      · right; right
        refine ⟨h.2, ?_⟩
        rw [h.1]; exact hb)
    exact ⟨this.1, this.2 et hb⟩
  | check hfuel sty =>
    simp only [callResult, Option.map_eq_some'] at hrun
    obtain ⟨r, hr, rfl⟩ := hrun
    have h := check_event_tcbs _ _ _ _ hr
    exact ⟨WaitInv_of_sameSF _ _ (SameSF_of_tcbs _ _ h) hi,
      flag_of_sameSF _ _ _ (SameSF_of_tcbs _ _ h et) hb⟩
  | wait hfuel fuel =>
    simp only [callResult, Option.map_eq_some'] at hrun
    obtain ⟨o, ho, rfl⟩ := hrun
    obtain ⟨hne, hmax⟩ := hok
    rcases wait_event_some hfuel fuel k o ho with ⟨_, rfl⟩ | ⟨_, r, hr, he⟩
    · show WaitInv (wait_event_block k) ∧
        TESTFLAG ((wait_event_block k).tcbs et).flags WAIT_FOR_EVENT = 0
      refine ⟨?_, ?_⟩
      · intro t
        rw [wait_event_block_tcbs]
        split
        · rename_i ht
          have h := hi t
          rw [ht] at h
          have hp := INCR_STATUS_pos _ h.1 hmax
          rw [ht]
          exact ⟨by show 0 ≤ INCR_STATUS _; omega, hp.2, fun _ => hp.1⟩
        · exact hi t
      · rw [wait_event_block_tcbs, if_neg (fun h => hne h.symm)]
        exact hb
    · rw [he]
      have e0 := free_event_tcbs hfuel
        { k with mem := (dequeue_event k.mem (k.tcbs k.current_task).event_queue).1 }
        (dequeue_event k.mem (k.tcbs k.current_task).event_queue).2 r hr
      have e1 : r.1.tcbs = k.tcbs := e0
      refine ⟨WaitInv_of_sameSF _ _ (SameSF_of_tcbs _ _ e1) hi, ?_⟩
      have e2 : r.1.tcbs et = k.tcbs et := congrFun e1 et
      rw [e2]
      exact hb
  | deliver =>
    obtain ⟨e, m, rfl⟩ := event_task_step_tcbs et k k2 hrun
    exact ⟨WaitInv_deliver _ e hi, flag_deliver _ e et hb⟩
  | suspend =>
    have := WaitInv_update k k2 hi (fun t => by
      refine ⟨(event_task_suspend_sf et k k2 hrun t).1, ?_⟩
      rcases (event_task_suspend_sf et k k2 hrun t).2 with h | h
      · exact Or.inl h
      · right; left
        rw [h.2]
        exact ⟨by decide, by decide⟩)
    exact ⟨this.1, this.2 et hb⟩
  | sched fuel hfuel =>
    simp only [callResult, Option.map_eq_some'] at hrun
    obtain ⟨r, hr, rfl⟩ := hrun
    have h := (scheduler_pass_effect _ _ _ _ hr).1
    exact ⟨WaitInv_of_sameSF _ _ h hi, flag_of_sameSF _ _ _ (h et) hb⟩

/-- A call of `wait_event` that ends blocked has set `WAIT_FOR_EVENT` for
the caller, and the counter of the inbox of the caller is 0. -/
theorem wait_event_blocked (hfuel : Nat) :
    ∀ (fuel : Nat) (k k1 : Kernel), wait_event hfuel fuel k = some (WaitOutcome.blocked k1) →
      k1.mem = k.mem ∧ k1.current_task = k.current_task ∧
      (k1.tcbs k.current_task).event_queue = (k.tcbs k.current_task).event_queue ∧
      TESTFLAG (k1.tcbs k.current_task).flags WAIT_FOR_EVENT ≠ 0 ∧
      eq_num_events k.mem (k.tcbs k.current_task).event_queue = 0 := by
  intro fuel
  induction fuel with
  | zero => intro k k1 h; exact absurd h (by simp [wait_event])
  | succ f ih =>
    intro k k1 h
    unfold wait_event at h
    simp only [get_current_task_tcb] at h
    split at h
    · rename_i h0
      have hq : ((wait_event_block k).tcbs k.current_task).event_queue =
          (k.tcbs k.current_task).event_queue := by
        rw [wait_event_block_tcbs, if_pos rfl]
      split at h
      · simp only [Option.some.injEq, WaitOutcome.blocked.injEq] at h
        subst h
        refine ⟨rfl, rfl, hq, ?_, h0⟩
        rw [wait_event_block_tcbs, if_pos rfl]
        exact TESTFLAG_SETFLAG _
      · obtain ⟨a1, a2, a3, a4, _⟩ := ih _ _ h
        have c1 : (wait_event_block k).mem = k.mem := rfl
        have c2 : (wait_event_block k).current_task = k.current_task := rfl
        rw [c2] at a3 a4
        exact ⟨a1.trans c1, a2.trans c2, a3.trans hq, a4, h0⟩
    · split at h
      · exact absurd h (by simp)
      · simp at h

theorem eventKernel_waitInv : WaitInv (running eventKernel 5288) := by
  intro t
  show 0 ≤ (eventKernel.tcbs t).status ∧ (eventKernel.tcbs t).status ≤ 2147483647 ∧
    (TESTFLAG (eventKernel.tcbs t).flags WAIT_FOR_EVENT ≠ 0 → 0 < (eventKernel.tcbs t).status)
  unfold eventKernel
  simp only
  split
  · decide
  · split
    · decide
    · split
      · decide
      · decide

theorem ReachBy_waitInv (et : Nat) (k k2 : Kernel) (hreach : ReachBy (Allowed et) et k k2)
    (hi : WaitInv k) (hb : TESTFLAG (k.tcbs et).flags WAIT_FOR_EVENT = 0) :
    WaitInv k2 ∧ TESTFLAG (k2.tcbs et).flags WAIT_FOR_EVENT = 0 := by
  induction hreach with
  | refl => exact ⟨hi, hb⟩
  | step k1 k3 c _ hok hrun ih => exact callResult_waitInv et k1 k3 c hok hrun ih.1 ih.2

/-- C28 (counterexample): in `eventKernel`, where every status is 0 or 1 and
no flag is set, the task at 5288 calls `wait_event` on its empty inbox, the
scheduler dispatches the task at 6448, and that task calls
`task_set_status(5288, TASK_RUNABLE)`.  The state reached has
`WAIT_FOR_EVENT` set for the task at 5288 although its status is 0: the task
is runnable and no longer blocked. -/
theorem wait_flag_set_while_runnable :
    WaitInv (running eventKernel 5288) ∧
    ∃ k, flagRun = some k ∧ ReachBy AnyCall 4128 (running eventKernel 5288) k ∧
      k.current_task = 6448 ∧ TESTFLAG (k.tcbs 5288).flags WAIT_FOR_EVENT ≠ 0 ∧
      (k.tcbs 5288).status = 0 := by
  refine ⟨eventKernel_waitInv, ?_⟩
  have hev : flagRun.map (fun k => (k.current_task, TESTFLAG (k.tcbs 5288).flags WAIT_FOR_EVENT,
      decide ((k.tcbs 5288).status = 0))) = some (6448, 1, true) := by decide
  rw [Option.map_eq_some'] at hev
  obtain ⟨k, hk, hv⟩ := hev
  simp only [Prod.mk.injEq, decide_eq_true_eq] at hv
  refine ⟨k, hk, ?_, hv.1, by rw [hv.2.1]; decide, hv.2.2⟩
  unfold flagRun at hk
  rw [Option.bind_eq_some] at hk
  obtain ⟨k2, h2, h3⟩ := hk
  rw [Option.bind_eq_some] at h2
  obtain ⟨k1, h1, h2⟩ := h2
  exact ReachBy.step _ _ _ _ (ReachBy.step _ _ _ _ (ReachBy.step _ _ _ _ (ReachBy.refl _)
    trivial h1) trivial h2) trivial h3

theorem Waiting_of_sameSF (k k2 : Kernel) (a : Nat) (h : SameSF k k2 a) (hw : Waiting k a) :
    Waiting k2 a := by
  unfold Waiting
  rw [h.1, h.2]
  exact hw

/-- A quiet step keeps the task at `a` blocked. -/
theorem callResult_waiting (et a : Nat) (hA : a ≠ et) (k k2 : Kernel) (c : Call)
    (hok : Quiet et a k c) (hrun : callResult et k c = some k2) (hw : Waiting k a) :
    Waiting k2 a := by
  cases c with
  | create hfuel saved entry arg stksize hsize prio =>
    simp only [callResult, Option.map_eq_some'] at hrun
    obtain ⟨r, hr, rfl⟩ := hrun
    obtain ⟨k1, tcb, ha, h | h⟩ := task_create_effect _ _ _ _ _ _ _ _ _ hr
    · exact Waiting_of_sameSF _ _ _ (SameSF_of_tcbs _ _ h.2 a) hw
    · have hne : tcb ≠ a := hok k1 tcb ha
      exact Waiting_of_sameSF _ _ _ (h.2.1 a (fun e => hne e.symm)) hw
  | kill tcb =>
    simp only [callResult, Option.some.injEq] at hrun
    subst hrun
    have h := task_kill_sf k tcb a
    have hne : callTarget k tcb ≠ a := hok
    rcases h.2 with h1 | h1
    · exact Waiting_of_sameSF _ _ _ ⟨h1, h.1⟩ hw
    · exact absurd h1.1.symm hne
  | set_status tcb status =>
    simp only [callResult, Option.some.injEq] at hrun
    subst hrun
    have h := task_set_status_sf k tcb status a
    have hne : callTarget k tcb ≠ a := hok
    rcases h.2 with h1 | h1
    · exact Waiting_of_sameSF _ _ _ ⟨h1, h.1⟩ hw
    · exact absurd h1.1.symm hne
  | set_priority tcb prio =>
    simp only [callResult, Option.some.injEq] at hrun
    subst hrun
    exact Waiting_of_sameSF _ _ _ (task_set_priority_sf k tcb prio a) hw
  | generate hfuel tcb type subtype =>
    simp only [callResult, Option.map_eq_some'] at hrun
    obtain ⟨r, hr, rfl⟩ := hrun
    have h := generate_event_sf _ _ _ _ _ _ _ hr a
    rcases h.2 with h1 | h1
    · exact Waiting_of_sameSF _ _ _ ⟨h1, h.1⟩ hw
    · exact absurd h1.1 hA
  | check hfuel sty =>
    simp only [callResult, Option.map_eq_some'] at hrun
    obtain ⟨r, hr, rfl⟩ := hrun
    exact Waiting_of_sameSF _ _ _ (SameSF_of_tcbs _ _ (check_event_tcbs _ _ _ _ hr) a) hw
  | wait hfuel fuel =>
    simp only [callResult, Option.map_eq_some'] at hrun
    obtain ⟨o, ho, rfl⟩ := hrun
    have hne : k.current_task ≠ a := hok
    have := wait_event_ind (fun x => Waiting x a ∧ x.current_task ≠ a) hfuel ?_ ?_ fuel k o ho
      ⟨hw, hne⟩
    · exact this.1
    · intro x hx _
      refine ⟨?_, hx.2⟩
      unfold Waiting
      rw [wait_event_block_tcbs, if_neg (fun h => hx.2 h.symm)]
      exact hx.1
    · intro x x2 hx e1 e2
      refine ⟨?_, by rw [e2]; exact hx.2⟩
      unfold Waiting
      rw [e1]
      exact hx.1
  | deliver =>
    have hne : event_destination (dequeue_event k.mem (k.tcbs et).event_queue).1
      (dequeue_event k.mem (k.tcbs et).event_queue).2 ≠ a := hok
    simp only [callResult, event_task_step] at hrun
    split at hrun
    · simp only [Option.some.injEq] at hrun
      subst hrun
      unfold Waiting
      rw [event_task_deliver_tcbs, if_neg (fun h => hne h.1.symm)]
      exact hw
    · exact absurd hrun (by simp)
  | suspend =>
    have h := event_task_suspend_sf et k k2 hrun a
    rcases h.2 with h1 | h1
    · exact Waiting_of_sameSF _ _ _ ⟨h1, h.1⟩ hw
    · exact absurd h1.1 hA
  | sched fuel hfuel =>
    simp only [callResult, Option.map_eq_some'] at hrun
    obtain ⟨r, hr, rfl⟩ := hrun
    exact Waiting_of_sameSF _ _ _ ((scheduler_pass_effect _ _ _ _ hr).1 a) hw

theorem ReachBy_waiting (et a : Nat) (hA : a ≠ et) (k k2 : Kernel)
    (hreach : ReachBy (Quiet et a) et k k2) (hw : Waiting k a) : Waiting k2 a := by
  induction hreach with
  | refl => exact hw
  | step k1 k3 c _ hok hrun ih => exact callResult_waiting et a hA k1 k3 c hok hrun ih

/-- A call of `wait_event` that returns an event found the counter of the
inbox of the caller different from 0. -/
theorem wait_event_received (hfuel : Nat) :
    ∀ (fuel : Nat) (k k2 : Kernel) (s t u : Nat),
      wait_event hfuel fuel k = some (WaitOutcome.received k2 s t u) →
      eq_num_events k.mem (k.tcbs k.current_task).event_queue ≠ 0 := by
  intro fuel
  induction fuel with
  | zero => intro k k2 s t u h; exact absurd h (by simp [wait_event])
  | succ f ih =>
    intro k k2 s t u h
    unfold wait_event at h
    simp only [get_current_task_tcb] at h
    split at h
    · rename_i h0
      split at h
      · simp at h
      · have := ih _ _ _ _ _ h
        have hq : ((wait_event_block k).tcbs k.current_task).event_queue =
            (k.tcbs k.current_task).event_queue := by
          rw [wait_event_block_tcbs, if_pos rfl]
        have c1 : (wait_event_block k).mem = k.mem := rfl
        have c2 : (wait_event_block k).current_task = k.current_task := rfl
        rw [c1, c2, hq] at this
        exact absurd h0 this
    · rename_i h0
      exact h0

/-- The allocator of a sound global heap does not hand out a chunk in
use. -/
theorem global_alloc_ne_live (hfuel : Nat) (k : Kernel) (cs : List HCB) (a n : Nat)
    (hinv : HeapInv k.mem k.global_heap cs) (hL : Live k.global_heap cs a)
    (hn : n + sizeof_HCB + HEAP_MIN_NODE_SIZE < U32) (k1 : Kernel) (p : Nat)
    (h : global_alloc hfuel k n = some (k1, p)) : p ≠ a := by
  have e20 : sizeof_HCB = 20 := rfl
  unfold global_alloc at h
  split at h
  · exact absurd h (by simp)
  · rename_i m q hq
    simp only [Option.some.injEq, Prod.mk.injEq] at h
    obtain ⟨_, rfl⟩ := h
    by_cases h0 : q = 0
    · obtain ⟨pre, c, post, _, _, ha⟩ := hL
      omega
    · obtain ⟨pre, c, post, hcs, _, hc, hp, _⟩ :=
        heap_alloc_success k.mem k.global_heap cs n hfuel m q hinv hn hq h0
      subst hcs
      rw [hp]
      exact (Live_ne_free _ pre post c a hinv.1.sizes hc.1 hL).symm

/-- C27: for a task at `a` other than the broker `et`.  (1) When `a` is
running with status 0, its inbox counter is 0 and no critical section is
open, `wait_event` executes the blocking step and gives up the processor:
status 1, `WAIT_FOR_EVENT` set.  (2) From a state in which `a` is so blocked,
after any sequence of steps that contains no `task_kill` or
`task_set_status` on `a`, no delivery of an event addressed to `a`, no call
of `wait_event` by `a` and no `task_create` that is handed the `TCB` of `a`
(which a sound global heap in which that `TCB` is allocated never does),
`a` is still blocked, and neither the search loop of the scheduler nor a
turn of the scheduler selects `a`.  (3) The delivery of an event addressed
to `a` in such a state brings its status to 0 and clears the flag; when the
inbox of `a` is a sound queue and the event a distinct object, the inbox is
not empty afterwards (`num_events` and `first` are not 0).  (4) A call of
`wait_event` that returns an event has found `num_events` of the inbox
different from 0, so it dequeues only from a non-empty inbox. -/
theorem blocked_until_delivery (et a : Nat) (hA : a ≠ et) :
    (∀ (k : Kernel) (hfuel fuel : Nat), k.current_task = a → (k.tcbs a).status = 0 →
      eq_num_events k.mem (k.tcbs a).event_queue = 0 → k.task_crit_flag = 0 →
      wait_event hfuel (fuel + 1) k = some (WaitOutcome.blocked (wait_event_block k)) ∧
      Waiting (wait_event_block k) a) ∧
    (∀ k k2 : Kernel, Waiting k a → ReachBy (Quiet et a) et k k2 →
      Waiting k2 a ∧
      (∀ fuel cur cp, scheduler_select fuel k2 cur cp ≠ some a) ∧
      (∀ fuel hfuel r, scheduler_pass fuel hfuel k2 = some r →
        r.2 ≠ SchedOutcome.dispatched a)) ∧
    (∀ (k : Kernel) (hfuel : Nat) (cs : List HCB), HeapInv k.mem k.global_heap cs →
      Live k.global_heap cs a →
      ∀ k1 tcb, global_alloc hfuel k sizeof_TCB = some (k1, tcb) → tcb ≠ a) ∧
    (∀ (k : Kernel) (e : Nat), Waiting k a → event_destination k.mem e = a →
      ((event_task_deliver k e).tcbs a).status = 0 ∧
      TESTFLAG ((event_task_deliver k e).tcbs a).flags WAIT_FOR_EVENT = 0 ∧
      ∀ evd, EvQueue k.mem (k.tcbs a).event_queue evd →
        EvSep (k.tcbs a).event_queue (evd ++ [e]) →
        eq_num_events (event_task_deliver k e).mem (k.tcbs a).event_queue ≠ 0 ∧
        eq_first (event_task_deliver k e).mem (k.tcbs a).event_queue ≠ 0) ∧
    (∀ (hfuel fuel : Nat) (k k2 : Kernel) (s t u : Nat),
      wait_event hfuel fuel k = some (WaitOutcome.received k2 s t u) →
      eq_num_events k.mem (k.tcbs k.current_task).event_queue ≠ 0) := by
  refine ⟨?_, ?_, ?_, ?_, ?_⟩
  · intro k hfuel fuel hc hs h0 hcrit
    subst hc
    refine ⟨?_, ?_, ?_⟩
    · rw [wait_event]
      simp only [get_current_task_tcb, if_pos h0]
      have hy : (yield (wait_event_block k)).2 = YieldOutcome.entered_scheduler 1 := by
        unfold yield system_yield
        have : (wait_event_block k).task_crit_flag = 0 := hcrit
        rw [if_pos this]
      rw [hy]
    · rw [wait_event_block_tcbs, if_pos rfl]
      show INCR_STATUS (k.tcbs k.current_task).status = 1
      rw [hs]
      decide
    · rw [wait_event_block_tcbs, if_pos rfl]
      exact TESTFLAG_SETFLAG _
  · intro k k2 hw hreach
    have hw2 := ReachBy_waiting et a hA k k2 hreach hw
    refine ⟨hw2, ?_, ?_⟩
    · intro fuel cur cp hsel
      have := scheduler_select_status k2 cp fuel cur a hsel
      rw [hw2.1] at this
      exact absurd this (by decide)
    · intro fuel hfuel r hr hd
      have := (scheduler_pass_effect fuel hfuel k2 r hr).2 a hd
      rw [hw2.1] at this
      exact absurd this (by decide)
  · intro k hfuel cs hinv hL k1 tcb h
    exact global_alloc_ne_live hfuel k cs a sizeof_TCB hinv hL (by decide) k1 tcb h
  · intro k e hw hd
    have ht := event_task_deliver_tcbs k e a
    rw [hd, if_pos ⟨rfl, hw.2⟩] at ht
    refine ⟨?_, ?_, ?_⟩
    · rw [ht]
      show DECR_STATUS (k.tcbs a).status = 0
      rw [hw.1]
      decide
    · rw [ht]
      exact TESTFLAG_CLEARFLAG _
    · intro evd hq hsep
      have hm := event_task_deliver_mem k e
      have hb : destBox k e = (k.tcbs a).event_queue := by
        unfold destBox; rw [hd]
      rw [hb] at hm
      rw [hm]
      obtain ⟨h1, _, h3, _⟩ := enqueue_event_weak k.mem _ e evd hq hsep
      refine ⟨by rw [h1]; omega, ?_⟩
      have hc := EvSeg_cur _ _ _ _ h3
      rw [hc]
      cases evd with
      | nil => exact (hsep.2 e (by simp)).1
      | cons y ys => exact (hsep.2 y (by simp)).1
  · intro hfuel fuel k k2 s t u h
    exact wait_event_received hfuel fuel k k2 s t u h

theorem blocked_until_delivery_witness :
    wait_event 5 1 (running eventKernel 5288) =
      some (WaitOutcome.blocked (wait_event_block (running eventKernel 5288))) ∧
    Waiting (wait_event_block (running eventKernel 5288)) 5288 :=
  (blocked_until_delivery 4128 5288 (by decide)).1 (running eventKernel 5288) 5 0 rfl
    (by decide) (by decide) (by decide)

/-! ## Queues that are not sound, a drain that does not end, a read past the stack -/

/-- C35 (the input on which it fails): in `twoMem` the inbox at 4360 of the
broker is a sound queue of two events and the inbox at 5520 is a sound empty
queue.  The broker takes the first event, at 7608, from its inbox and
enqueues it into the inbox at 5520, as the loop of `event_task` does.
`enqueue_event` leaves the `next` field of the event as it is (it points to
the second event, at 7660), so afterwards `num_events` is 1 and `last` is the
event, but two events are reachable from `first` and the inbox is a sound
queue of no list of events.  After the next `dequeue_event` on that inbox
`num_events` is 0 while `first` and `last` are not NULL. -/
theorem enqueue_event_keeps_stale_next :
    EvQueue twoMem 4360 [7608, 7660] ∧ EvQueue twoMem 5520 [] ∧
    (dequeue_event twoMem 4360).2 = 7608 ∧ event_next takenMem 7608 = 7660 ∧
    eq_num_events staleMem 5520 = 1 ∧ eq_first staleMem 5520 = 7608 ∧
    eq_last staleMem 5520 = 7608 ∧ event_next staleMem 7608 = 7660 ∧
    event_next staleMem 7660 = 0 ∧ (∀ evs, ¬ EvQueue staleMem 5520 evs) ∧
    (dequeue_event staleMem 5520).2 = 7608 ∧
    eq_num_events (dequeue_event staleMem 5520).1 5520 = 0 ∧
    eq_first (dequeue_event staleMem 5520).1 5520 = 7660 ∧
    eq_last (dequeue_event staleMem 5520).1 5520 = 7608 := by
  refine ⟨twoMem_queue, ⟨by decide, by show eq_first twoMem 5520 = 0; decide, by decide⟩,
    by decide, by decide, by decide, by decide, by decide, by decide, by decide, ?_,
    by decide, by decide, by decide, by decide⟩
  intro evs hq
  have hn : eq_num_events staleMem 5520 = 1 := by decide
  have hf : eq_first staleMem 5520 = 7608 := by decide
  have hx : event_next staleMem 7608 = 7660 := by decide
  have hlen := hq.num
  rw [hn] at hlen
  cases evs with
  | nil => simp at hlen
  | cons y ys =>
    cases ys with
    | cons z zs => simp at hlen
    | nil =>
      obtain ⟨h1, _, h3⟩ := hq.seg
      rw [hf] at h1
      subst h1
      have h4 : event_next staleMem 7608 = 0 := h3
      rw [hx] at h4
      exact absurd h4 (by decide)

/-- An event that is alone in the inbox of the broker and addressed to the
broker is taken out and put back in by every turn of the loop. -/
theorem event_task_loop_self (et e : Nat) :
    ∀ (fuel : Nat) (k : Kernel), EvQueue k.mem (k.tcbs et).event_queue [e] →
      EvSep (k.tcbs et).event_queue [e] → event_destination k.mem e = et →
      event_task_loop et fuel k = none := by
  intro fuel
  induction fuel with
  | zero => intro k _ _ _; rfl
  | succ f ih =>
    intro k hq hsep hd
    have hdq := dequeue_event_sound k.mem _ e [] hq hsep
    have hE := hsep.2 e (by simp)
    have hfr : ∀ x, e ≤ x → x < e + 20 →
        (dequeue_event k.mem (k.tcbs et).event_queue).1 x = k.mem x := by
      intro x h1 h2
      have := hE.2.2
      unfold Apart at this
      exact dequeue_event_frame _ _ x (by omega)
    have hd1 : event_destination (dequeue_event k.mem (k.tcbs et).event_queue).1 e = et :=
      (read32_congr _ _ _ (fun x h1 h2 => hfr x (by omega) (by omega))).trans hd
    have hn1 : event_next (dequeue_event k.mem (k.tcbs et).event_queue).1 e = 0 := by
      rw [event_next_dequeue _ _ _ hE.2.2]
      exact hq.seg.2.2
    have hbox : destBox { k with mem := (dequeue_event k.mem (k.tcbs et).event_queue).1 } e =
        (k.tcbs et).event_queue := by
      show (k.tcbs (event_destination (dequeue_event k.mem (k.tcbs et).event_queue).1
        e)).event_queue = _
      rw [hd1]
    have hmem := event_task_deliver_mem
      { k with mem := (dequeue_event k.mem (k.tcbs et).event_queue).1 } e
    rw [hbox] at hmem
    have hq2 := enqueue_event_sound _ (k.tcbs et).event_queue e [] hdq.2 hsep (fun _ => hn1)
    have hqe : ((event_task_deliver
        { k with mem := (dequeue_event k.mem (k.tcbs et).event_queue).1 } e).tcbs
        et).event_queue = (k.tcbs et).event_queue := event_task_deliver_queue _ _ _
    have hd2 : event_destination (event_task_deliver
        { k with mem := (dequeue_event k.mem (k.tcbs et).event_queue).1 } e).mem e = et := by
      rw [hmem]
      refine (read32_congr _ _ _ (fun x h1 h2 => ?_)).trans hd1
      have := hE.2.2
      unfold Apart at this
      refine enqueue_event_frame2 _ _ _ x (by omega) (fun hl => ?_) (fun hl => ?_)
      · exact absurd hdq.2.last hl
      · exact absurd hdq.2.last hl
    have hne : (dequeue_event k.mem (k.tcbs et).event_queue).2 ≠ 0 := by
      rw [hdq.1]; exact hE.1
    rw [event_task_loop]
    simp only [if_pos hne]
    rw [hdq.1]
    refine ih _ ?_ ?_ hd2
    · rw [hqe, hmem]; exact hq2
    · rw [hqe]; exact hsep

/-- C36 (counterexample): in `selfKernel` the inbox of the broker is a sound
queue of one event, whose destination is the broker itself.  The inner loop
of `event_task` does not end: it returns with no amount of fuel, and so does
a whole turn of the broker. -/
theorem drain_of_self_addressed_event_diverges :
    EvQueue selfKernel.mem 4360 [7608] ∧ event_destination selfKernel.mem 7608 = 4128 ∧
    (selfKernel.tcbs 4128).event_queue = 4360 ∧
    ∀ fuel, event_task_loop 4128 fuel selfKernel = none ∧
      event_task_turn 4128 fuel selfKernel = none := by
  have hq : EvQueue selfKernel.mem 4360 [7608] :=
    ⟨by decide, ⟨by decide, by decide, by show event_next selfMem 7608 = 0; decide⟩, by decide⟩
  refine ⟨hq, by decide, rfl, ?_⟩
  intro fuel
  have h := event_task_loop_self 4128 7608 fuel selfKernel hq (by unfold EvSep; decide)
    (by decide)
  refine ⟨h, ?_⟩
  unfold event_task_turn
  rw [h]

/-- C36 (amended): when the inbox of the broker is a sound queue of the
events `evs`, none of them addressed to the broker, the events and the
inboxes of their destinations being separate objects (`DrainInv`), a turn of
the broker with more fuel than events returns; the inbox of the broker is
then empty (`num_events` 0, `first` and `last` NULL) and the status of the
broker is `TASK_SUSPENDED`. -/
theorem broker_turn_terminates (et : Nat) (k : Kernel) (evs : List Nat) (fuel : Nat)
    (hinv : DrainInv k (k.tcbs et).event_queue evs) (hf : evs.length < fuel) :
    (∀ x ∈ evs, event_destination k.mem x ≠ et) ∧
    ∃ k2, event_task_turn et fuel k = some k2 ∧
      eq_num_events k2.mem (k.tcbs et).event_queue = 0 ∧
      eq_first k2.mem (k.tcbs et).event_queue = 0 ∧
      eq_last k2.mem (k.tcbs et).event_queue = 0 ∧
      (k2.tcbs et).status = TASK_SUSPENDED := by
  refine ⟨?_, ?_⟩
  · intro x hx hd
    have := (hinv.boxes x hx).1
    unfold destBox at this
    rw [hd] at this
    unfold Apart at this
    omega
  · obtain ⟨k1, hrun, hq, _⟩ := event_task_loop_drains et evs k fuel hinv hf
    have ht : event_task_turn et fuel k =
        some (setTcb k1 et (fun t => { t with status := TASK_SUSPENDED })) := by
      unfold event_task_turn; rw [hrun]
    refine ⟨_, ht, hq.num, hq.seg, hq.last, ?_⟩
    show (if et = et then _ else _ : TCB).status = TASK_SUSPENDED
    rw [if_pos rfl]

theorem broker_turn_terminates_witness :
    ∃ k2, event_task_turn 4128 3 drainKernel = some k2 ∧ eq_num_events k2.mem 4360 = 0 ∧
      eq_first k2.mem 4360 = 0 ∧ eq_last k2.mem 4360 = 0 ∧
      (k2.tcbs 4128).status = TASK_SUSPENDED :=
  (broker_turn_terminates 4128 drainKernel [7608, 7660] 3 drainKernel_inv (by decide)).2

/-- C39 (the input on which it fails): a stack of 8 bytes at 1000, all of
them `TASK_STACK_MAGIC`.  The value that `sys_check_stack` returns depends on
the two bytes behind the stack, at indices 8 and 9: 0 when byte 8 is not the
sentinel, -1 when byte 8 is the sentinel and byte 9 is not, -3 when both
are.  The function therefore inspects the bytes at indices `ssize` and
`ssize + 1`. -/
theorem sys_check_stack_reads_past_stack :
    (∀ b8 b9 j, j < 8 →
      read8 (freshStackKernel b8 b9).mem (((freshStackKernel b8 b9).tcbs 100).stack + j) =
        TASK_STACK_MAGIC) ∧
    ((freshStackKernel 0 0).tcbs 100).ssize = 8 ∧
    sys_check_stack 12 (freshStackKernel 0 0) 100 = some 0 ∧
    sys_check_stack 12 (freshStackKernel TASK_STACK_MAGIC 0) 100 = some (-1) ∧
    sys_check_stack 12 (freshStackKernel TASK_STACK_MAGIC TASK_STACK_MAGIC) 100 =
      some (-3) := by
  refine ⟨?_, rfl, by decide, by decide, by decide⟩
  intro b8 b9 j hj
  show read8 (write8 (write8 (fill_bytes zeroMem 1000 TASK_STACK_MAGIC 8) 1008 b8) 1009 b9)
    (1000 + j) = TASK_STACK_MAGIC
  unfold read8
  rw [write8_frame _ _ _ _ (by omega), write8_frame _ _ _ _ (by omega)]
  have := fill_bytes_inside zeroMem 1000 TASK_STACK_MAGIC 8 (1000 + j) (by omega) (by omega)
  rw [this]
  decide

/-! ## The function `copy_memory` -/

/-- The bytes stored by `write32`. -/
theorem write32_bytes (m : Mem) (a v : Nat) :
    write32 m a v a = v % 256 ∧ write32 m a v (a + 1) = v / 256 % 256 ∧
    write32 m a v (a + 2) = v / 65536 % 256 ∧ write32 m a v (a + 3) = v / 16777216 % 256 := by
  unfold write32
  refine ⟨?_, ?_, ?_, ?_⟩
  · rw [write8_frame _ _ _ _ (by omega), write8_frame _ _ _ _ (by omega),
      write8_frame _ _ _ _ (by omega), write8_same]
  · rw [write8_frame _ _ _ _ (by omega), write8_frame _ _ _ _ (by omega), write8_same]
  · rw [write8_frame _ _ _ _ (by omega), write8_same]
  · rw [write8_same]

/-- A word copied by `write32` of `read32`: byte `i` of the destination is
byte `i` of the source. -/
theorem write32_read32_byte (m : Mem) (d s i : Nat) (hi : i < 4) :
    write32 m d (read32 m s) (d + i) = read8 m (s + i) := by
  have h0 := read8_lt m s
  have h1 := read8_lt m (s + 1)
  have h2 := read8_lt m (s + 2)
  have h3 := read8_lt m (s + 3)
  obtain ⟨b0, b1, b2, b3⟩ := write32_bytes m d (read32 m s)
  have hcases : i = 0 ∨ i = 1 ∨ i = 2 ∨ i = 3 := by omega
  rcases hcases with rfl | rfl | rfl | rfl
  · rw [Nat.add_zero, Nat.add_zero, b0]; unfold read32; omega
  · rw [b1]; unfold read32; omega
  · rw [b2]; unfold read32; omega
  · rw [b3]; unfold read32; omega

theorem copy_words_frame (m : Mem) (d s k x : Nat) (h : x < d ∨ d + 4 * k ≤ x) :
    copy_words m d s k x = m x := by
  induction k with
  | zero => rfl
  | succ k ih =>
    simp only [copy_words]
    rw [write32_frame _ _ _ _ (by omega), ih (by omega)]

theorem copy_bytes_frame (m : Mem) (d s k x : Nat) (h : x < d ∨ d + k ≤ x) :
    copy_bytes m d s k x = m x := by
  induction k with
  | zero => rfl
  | succ k ih =>
    simp only [copy_bytes]
    rw [write8_frame _ _ _ _ (by omega), ih (by omega)]

theorem plain_copy_frame (m : Mem) (d s k x : Nat) (h : x < d ∨ d + k ≤ x) :
    plain_copy m d s k x = m x := by
  induction k with
  | zero => rfl
  | succ k ih =>
    simp only [plain_copy]
    rw [write8_frame _ _ _ _ (by omega), ih (by omega)]

/-- The words copied by the first loop, when the buffers do not overlap. -/
theorem copy_words_inside (m : Mem) (d s k : Nat) (hap : d + 4 * k ≤ s ∨ s + 4 * k ≤ d)
    (x : Nat) (hx : x < 4 * k) : copy_words m d s k (d + x) = read8 m (s + x) := by
  induction k with
  | zero => omega
  | succ k ih =>
    simp only [copy_words]
    by_cases h : x < 4 * k
    · rw [write32_frame _ _ _ _ (by omega)]
      exact ih (by omega) h
    · have e : d + x = d + 4 * k + (x - 4 * k) := by omega
      have e2 : s + x = s + 4 * k + (x - 4 * k) := by omega
      rw [e, write32_read32_byte _ _ _ _ (by omega), e2]
      unfold read8
      rw [copy_words_frame _ _ _ _ _ (by omega)]

/-- The bytes copied by the second loop, when the buffers do not overlap. -/
theorem copy_bytes_inside (m : Mem) (d s k : Nat) (hap : d + k ≤ s ∨ s + k ≤ d)
    (x : Nat) (hx : x < k) : copy_bytes m d s k (d + x) = read8 m (s + x) := by
  induction k with
  | zero => omega
  | succ k ih =>
    simp only [copy_bytes]
    by_cases h : x < k
    · rw [write8_frame _ _ _ _ (by omega)]
      exact ih (by omega) h
    · have e : x = k := by omega
      subst e
      rw [write8_same]
      unfold read8
      rw [copy_bytes_frame _ _ _ _ _ (by omega), Nat.mod_mod]

theorem plain_copy_inside (m : Mem) (d s k : Nat) (hap : d + k ≤ s ∨ s + k ≤ d)
    (x : Nat) (hx : x < k) : plain_copy m d s k (d + x) = read8 m (s + x) := by
  induction k with
  | zero => omega
  | succ k ih =>
    simp only [plain_copy]
    by_cases h : x < k
    · rw [write8_frame _ _ _ _ (by omega)]
      exact ih (by omega) h
    · have e : x = k := by omega
      subst e
      rw [write8_same]
      unfold read8
      rw [plain_copy_frame _ _ _ _ _ (by omega), Nat.mod_mod]

/-- C31: for buffers of `n` bytes at `dest` and `src` that do not overlap,
`copy_memory(dest, src, n)` leaves in byte `i` of `dest`, for every `i < n`,
the value that byte `i` of `src` had, and changes no byte outside
`dest[0..n)`: `src` and the bytes of `dest` from index `n` on are unchanged.
The memory it produces is, byte for byte, the memory that a plain copy of
`n` bytes, one byte at a time, produces.  (Addresses are natural numbers:
the buffers lie inside the address space.) -/
theorem copy_memory_spec (m : Mem) (dest src n : Nat)
    (hap : dest + n ≤ src ∨ src + n ≤ dest) :
    (∀ i, i < n → read8 (copy_memory m dest src n) (dest + i) = read8 m (src + i)) ∧
    (∀ x, x < dest ∨ dest + n ≤ x → copy_memory m dest src n x = m x) ∧
    (∀ i, i < n → read8 (copy_memory m dest src n) (src + i) = read8 m (src + i)) ∧
    (∀ x, copy_memory m dest src n x = plain_copy m dest src n x) := by
  have hin : ∀ i, i < n → copy_memory m dest src n (dest + i) = read8 m (src + i) := by
    intro i hi
    unfold copy_memory
    by_cases h : i < 4 * (n / 4)
    · rw [copy_bytes_frame _ _ _ _ _ (by omega)]
      exact copy_words_inside m dest src (n / 4) (by omega) i h
    · have e : dest + i = dest + 4 * (n / 4) + (i - 4 * (n / 4)) := by omega
      have e2 : src + i = src + 4 * (n / 4) + (i - 4 * (n / 4)) := by omega
      rw [e, copy_bytes_inside _ _ _ _ (by omega) _ (by omega), e2]
      unfold read8
      rw [copy_words_frame _ _ _ _ _ (by omega)]
  have hout : ∀ x, x < dest ∨ dest + n ≤ x → copy_memory m dest src n x = m x := by
    intro x hx
    unfold copy_memory
    rw [copy_bytes_frame _ _ _ _ _ (by omega), copy_words_frame _ _ _ _ _ (by omega)]
  refine ⟨?_, hout, ?_, ?_⟩
  · intro i hi
    unfold read8
    rw [hin i hi]
    exact Nat.mod_eq_of_lt (read8_lt _ _)
  · intro i hi
    unfold read8
    rw [hout _ (by omega)]
  · intro x
    by_cases hx : x < dest ∨ dest + n ≤ x
    · rw [hout x hx, plain_copy_frame _ _ _ _ _ hx]
    · have e : x = dest + (x - dest) := by omega
      rw [e, hin _ (by omega), plain_copy_inside _ _ _ _ hap _ (by omega)]

theorem copy_memory_spec_witness :
    (100 + 7 ≤ 7608 ∨ 7608 + 7 ≤ 100) ∧
    ((∀ i, i < 7 → read8 (copy_memory twoMem 100 7608 7) (100 + i) = read8 twoMem (7608 + i)) ∧
      (∀ x, x < 100 ∨ 100 + 7 ≤ x → copy_memory twoMem 100 7608 7 x = twoMem x) ∧
      (∀ i, i < 7 → read8 (copy_memory twoMem 100 7608 7) (7608 + i) = read8 twoMem (7608 + i)) ∧
      (∀ x, copy_memory twoMem 100 7608 7 x = plain_copy twoMem 100 7608 7 x)) :=
  ⟨by decide, copy_memory_spec twoMem 100 7608 7 (by decide)⟩

/-! ## Allocation followed by release -/

theorem NoAdjacentFree_tail (c : HCB) (cs : List HCB) (h : NoAdjacentFree (c :: cs)) :
    NoAdjacentFree cs := by
  cases cs with
  | nil => trivial
  | cons d ds => exact h.2

theorem NoAdjacentFree_append_right (pre ys : List HCB) (h : NoAdjacentFree (pre ++ ys)) :
    NoAdjacentFree ys := by
  induction pre with
  | nil => exact h
  | cons p ps ih => exact ih (NoAdjacentFree_tail _ _ h)

/-- The merging pass changes nothing in a list without adjacent FREE
chunks. -/
theorem mergeRuns_noAdjacent (cs : List HCB) (h : NoAdjacentFree cs) : mergeRuns cs = cs := by
  induction cs with
  | nil => rfl
  | cons c cs ih =>
    have ht := ih (NoAdjacentFree_tail _ _ h)
    cases cs with
    | nil => rfl
    | cons d ds =>
      rw [mergeRuns_of_cons c d (d :: ds) ds ht, if_neg h.1]

/-- The merging pass behind a prefix that stays as it is. -/
theorem mergeRuns_prefix (xs ys : List HCB) (hm : mergeRuns xs = ys) (hne : ys ≠ []) :
    ∀ pre : List HCB, NoAdjacentFree (pre ++ ys) → mergeRuns (pre ++ xs) = pre ++ ys := by
  intro pre
  induction pre with
  | nil => intro _; exact hm
  | cons p ps ih =>
    intro h
    have ht := ih (NoAdjacentFree_tail _ _ h)
    cases hl : ps ++ ys with
    | nil =>
      cases ps with
      | nil => exact absurd hl hne
      | cons _ _ => simp at hl
    | cons d ds =>
      rw [hl] at ht
      have h2 : NoAdjacentFree (p :: d :: ds) := by
        have : p :: ps ++ ys = p :: d :: ds := by rw [List.cons_append, hl]
        rw [← this]; exact h
      show mergeRuns (p :: (ps ++ xs)) = p :: (ps ++ ys)
      rw [mergeRuns_of_cons p d (ps ++ xs) ds ht, if_neg h2.1, hl]

/-- The chunks of `splitChunk`, the first one set FREE again, merge back
into the chunk that was split. -/
theorem mergeRuns_splitChunk (n : Nat) (c : HCB) (pre post : List HCB)
    (hna : NoAdjacentFree (pre ++ c :: post)) (hc : Fits n c) :
    ∃ u rest, splitChunk n c = u :: rest ∧
      mergeRuns (pre ++ setFree u :: (rest ++ post)) = pre ++ c :: post := by
  have hcz : c = ⟨c.magic, HEAP_STATUS_FREE, c.start, c.size⟩ := by
    cases c with
    | mk mg st sa sz =>
      have : st = HEAP_STATUS_FREE := hc.1
      subst this; rfl
  have hpost : NoAdjacentFree (c :: post) := NoAdjacentFree_append_right pre _ hna
  have hmp : mergeRuns post = post := mergeRuns_noAdjacent post (NoAdjacentFree_tail _ _ hpost)
  unfold splitChunk
  by_cases hs : c.size > n + sizeof_HCB + HEAP_MIN_NODE_SIZE
  · rw [if_pos hs]
    refine ⟨_, _, rfl, ?_⟩
    refine mergeRuns_prefix _ _ ?_ (by simp) pre hna
    show mergeRuns (setFree ⟨c.magic, HEAP_STATUS_USED, c.start, n + sizeof_HCB⟩ ::
      ⟨HEAP_MAGIC, HEAP_STATUS_FREE, uadd (uadd c.start n) sizeof_HCB,
        c.size - (n + sizeof_HCB)⟩ :: post) = c :: post
    rw [mergeRuns_absorb _ _ _ rfl rfl]
    have e : n + sizeof_HCB + (c.size - (n + sizeof_HCB)) = c.size := by
      have := hc.2
      omega
    have e2 : ({ setFree ⟨c.magic, HEAP_STATUS_USED, c.start, n + sizeof_HCB⟩ with
        size := (setFree ⟨c.magic, HEAP_STATUS_USED, c.start, n + sizeof_HCB⟩).size +
          (⟨HEAP_MAGIC, HEAP_STATUS_FREE, uadd (uadd c.start n) sizeof_HCB,
            c.size - (n + sizeof_HCB)⟩ : HCB).size } : HCB) = c := by
      rw [hcz]
      show (⟨c.magic, HEAP_STATUS_FREE, c.start, n + sizeof_HCB + (c.size - (n + sizeof_HCB))⟩ :
        HCB) = _
      rw [e]
    rw [e2]
    exact mergeRuns_noAdjacent _ hpost
  · rw [if_neg hs]
    refine ⟨_, _, rfl, ?_⟩
    have e2 : setFree ⟨c.magic, HEAP_STATUS_USED, c.start, c.size⟩ = c := by
      rw [hcz]; rfl
    rw [e2, List.nil_append]
    exact mergeRuns_noAdjacent _ hna

/-- C34: on a heap that satisfies the invariants of the heap manager and has
no two adjacent FREE chunks, if `heap_alloc(h, n)` returns a pointer `p` that
is not NULL, then `heap_free(h, p)` right afterwards returns, and the chunk
chain of the heap is then the chain `cs` it was before the allocation, chunk
for chunk (magic, status, start and size), the heap satisfying the
invariants again. -/
theorem heap_free_undoes_alloc (m : Mem) (h : Nat) (cs : List HCB) (n fuel : Nat) (m2 : Mem)
    (p : Nat) (hinv : HeapInv m h cs) (hna : NoAdjacentFree cs)
    (hn : n + sizeof_HCB + HEAP_MIN_NODE_SIZE < U32) (hfuel : cs.length + 1 < fuel)
    (hr : heap_alloc fuel m h n = some (m2, p)) (hp : p ≠ 0) :
    ∃ m3, heap_free fuel m2 h p = some (m3, 0) ∧ Chain m3 h sizeof_HEAP cs ∧
      HeapInv m3 h cs := by
  obtain ⟨pre, c, post, hcs, _, hc, hpa, _, hinv2, _⟩ :=
    heap_alloc_success m h cs n fuel m2 p hinv hn hr hp
  subst hcs
  obtain ⟨u, rest, hsp, hmerge⟩ := mergeRuns_splitChunk n c pre post hna hc
  have hl : pre ++ splitChunk n c ++ post = pre ++ u :: (rest ++ post) := by
    rw [hsp]; simp
  rw [hl] at hinv2
  have hlen : (pre ++ u :: (rest ++ post)).length < fuel := by
    have h1 : (splitChunk n c).length ≤ 2 := by
      unfold splitChunk; split <;> simp
    rw [hsp] at h1
    simp only [List.length_append, List.length_cons] at hfuel h1 ⊢
    omega
  obtain ⟨m3, hrun, hinv3, _⟩ := heap_free_preserves_inv m2 h pre (rest ++ post) u fuel hinv2 hlen
  rw [hmerge] at hinv3
  rw [← hpa] at hrun
  exact ⟨m3, hrun, hinv3.1.chain, hinv3⟩

theorem freshMem_inv : HeapInv freshMem 4096 [freshChunk] :=
  init_heap_inv zeroMem 4096 1024 (by decide) (by decide) (by decide)

theorem heap_free_undoes_alloc_witness :
    ∃ m3, heap_free 3 (heap_alloc_take freshMem 4108 16).1 4096
        (heap_alloc_take freshMem 4108 16).2 = some (m3, 0) ∧
      Chain m3 4096 sizeof_HEAP [freshChunk] ∧ HeapInv m3 4096 [freshChunk] :=
  heap_free_undoes_alloc freshMem 4096 [freshChunk] 16 3 _ _ freshMem_inv trivial
    (by decide) (by decide) rfl (by decide)

/-- After the merging pass a FREE chunk is part of a FREE chunk that is at
least as large and starts at the same offset or before. -/
theorem mergeRuns_keeps_free (f : HCB) (tl : List HCB) (hf : f.status = HEAP_STATUS_FREE) :
    ∀ pre : List HCB, ∃ pre2 d post2, mergeRuns (pre ++ f :: tl) = pre2 ++ d :: post2 ∧
      d.status = HEAP_STATUS_FREE ∧ f.size ≤ d.size ∧ sizeSum pre2 ≤ sizeSum pre := by
  intro pre
  induction pre with
  | nil =>
    cases hm : mergeRuns tl with
    | nil =>
      refine ⟨[], f, [], ?_, hf, le_refl _, le_refl _⟩
      rw [List.nil_append, mergeRuns_of_nil f tl hm]; rfl
    | cons d0 ds =>
      rw [List.nil_append, mergeRuns_of_cons f d0 tl ds hm]
      by_cases hc : f.status = HEAP_STATUS_FREE ∧ d0.status = HEAP_STATUS_FREE
      · rw [if_pos hc]
        exact ⟨[], _, ds, rfl, hf, Nat.le_add_right _ _, le_refl _⟩
      · rw [if_neg hc]
        exact ⟨[], f, d0 :: ds, rfl, hf, le_refl _, le_refl _⟩
  | cons p ps ih =>
    obtain ⟨pre2, d, post2, hm, hd, hsz, hsum⟩ := ih
    cases pre2 with
    | nil =>
      rw [List.nil_append] at hm
      rw [List.cons_append, mergeRuns_of_cons p d _ post2 hm]
      by_cases hc : p.status = HEAP_STATUS_FREE ∧ d.status = HEAP_STATUS_FREE
      · rw [if_pos hc]
        refine ⟨[], _, post2, rfl, hc.1, ?_, Nat.zero_le _⟩
        show f.size ≤ p.size + d.size
        omega
      · rw [if_neg hc]
        refine ⟨[p], d, post2, rfl, hd, hsz, ?_⟩
        simp only [sizeSum] at hsum ⊢
        omega
    | cons e es =>
      rw [List.cons_append] at hm
      rw [List.cons_append, mergeRuns_of_cons p e _ (es ++ d :: post2) hm]
      by_cases hc : p.status = HEAP_STATUS_FREE ∧ e.status = HEAP_STATUS_FREE
      · rw [if_pos hc]
        refine ⟨{ p with size := p.size + e.size } :: es, d, post2, rfl, hd, hsz, ?_⟩
        simp only [sizeSum] at hsum ⊢
        omega
      · rw [if_neg hc]
        refine ⟨p :: e :: es, d, post2, rfl, hd, hsz, ?_⟩
        simp only [sizeSum] at hsum ⊢
        omega

/-- The first chunk that fits is not behind a chunk that fits. -/
theorem first_fit_le (n : Nat) (pre post pre2 post2 : List HCB) (c1 d1 : HCB)
    (h : pre ++ c1 :: post = pre2 ++ d1 :: post2) (hno : ∀ x ∈ pre, ¬ Fits n x)
    (hfit : Fits n d1) : sizeSum pre ≤ sizeSum pre2 := by
  rw [List.append_eq_append_iff] at h
  rcases h with ⟨a, h1, _⟩ | ⟨b, h1, h2⟩
  · rw [h1, sizeSum_append]; omega
  · cases b with
    | nil =>
      rw [List.append_nil] at h1
      rw [h1]
    | cons z zs =>
      simp only [List.cons_append, List.cons.injEq] at h2
      have : d1 ∈ pre := by rw [h1, ← h2.1]; simp
      exact absurd hfit (hno d1 this)

/-- C32: on a heap that satisfies the invariants of the heap manager, if
`heap_alloc(h, n)` returns a pointer `p` that is not NULL and `p` is then
freed with `heap_free(h, p)`, the call of `heap_alloc(h, n)` that follows
returns a pointer that is not NULL and not higher than `p`; and in the
stress scenario (allocations of 16, 400, 16, 400 bytes on a fresh heap,
release of the two blocks of 16 bytes) the next `heap_alloc(h, 16)` returns
the address of the first block of 16 bytes. -/
theorem heap_alloc_reuses_freed (m : Mem) (h : Nat) (cs : List HCB) (n fuel : Nat) (m2 : Mem)
    (p : Nat) (hinv : HeapInv m h cs) (hn : n + sizeof_HCB + HEAP_MIN_NODE_SIZE < U32)
    (hfuel : cs.length + 1 < fuel) (hr : heap_alloc fuel m h n = some (m2, p)) (hp : p ≠ 0) :
    (∃ m3 m4 q, heap_free fuel m2 h p = some (m3, 0) ∧
      heap_alloc fuel m3 h n = some (m4, q) ∧ q ≠ 0 ∧ q ≤ p) ∧
    stressRun.map (fun r => r.2) = some [4128, 4164, 4584, 4620, 0, 0, 4128] := by
  refine ⟨?_, by decide!⟩
  have e20 : sizeof_HCB = 20 := rfl
  have e24 : HEAP_MIN_NODE_SIZE = 24 := rfl
  obtain ⟨pre, c, post, hcs, _, hc, hpa, _, hinv2, _⟩ :=
    heap_alloc_success m h cs n fuel m2 p hinv hn hr hp
  subst hcs
  have hsplit : ∃ u rest, splitChunk n c = u :: rest ∧ n + sizeof_HCB ≤ u.size := by
    unfold splitChunk
    split
    · exact ⟨_, _, rfl, le_refl _⟩
    · exact ⟨_, _, rfl, hc.2⟩
  obtain ⟨u, rest, hsp, husz⟩ := hsplit
  have hl : pre ++ splitChunk n c ++ post = pre ++ u :: (rest ++ post) := by
    rw [hsp]; simp
  rw [hl] at hinv2
  have hlen : (pre ++ u :: (rest ++ post)).length < fuel := by
    have h1 : (splitChunk n c).length ≤ 2 := by
      unfold splitChunk; split <;> simp
    rw [hsp] at h1
    simp only [List.length_append, List.length_cons] at hfuel h1 ⊢
    omega
  obtain ⟨m3, hrun, hinv3, _⟩ :=
    heap_free_preserves_inv m2 h pre (rest ++ post) u fuel hinv2 hlen
  rw [← hpa] at hrun
  obtain ⟨pre2, d, post2, hm, hd, hdsz, hsum⟩ :=
    mergeRuns_keeps_free (setFree u) (rest ++ post) rfl pre
  have hdfit : Fits n d := ⟨hd, le_trans husz hdsz⟩
  have hlen3 : (mergeRuns (pre ++ setFree u :: (rest ++ post))).length < fuel := by
    have := mergeRuns_length_le (pre ++ setFree u :: (rest ++ post))
    simp only [List.length_append, List.length_cons] at this hlen ⊢
    omega
  rcases heap_alloc_search m3 h _ n fuel hinv3.1 (by omega) hlen3 with
    ⟨pre3, c3, post3, hcs3, hno3, hc3, hrun3⟩ | ⟨hno, _⟩
  · have hle := first_fit_le n pre3 post3 pre2 post2 c3 d
      (by rw [← hcs3, hm]) hno3 hdfit
    rw [hcs3] at hinv3
    have hq := (heap_alloc_take_chain m3 h pre3 post3 c3 n hinv3.1 hinv3.2.1 hc3 hn).1
    have hq2 : HEAP_HCB_TO_PTR (h + sizeof_HEAP + sizeSum pre3) =
        h + sizeof_HEAP + sizeSum pre3 + sizeof_HCB := hq
    refine ⟨m3, _, _, hrun, hrun3, ?_, ?_⟩
    · show HEAP_HCB_TO_PTR (h + sizeof_HEAP + sizeSum pre3) ≠ 0
      rw [hq2]; omega
    · show HEAP_HCB_TO_PTR (h + sizeof_HEAP + sizeSum pre3) ≤ p
      rw [hq2, hpa]; omega
  · exact absurd hdfit (hno d (by rw [hm]; simp))

theorem heap_alloc_reuses_freed_witness :
    ∃ m3 m4 q, heap_free 3 (heap_alloc_take freshMem 4108 16).1 4096
        (heap_alloc_take freshMem 4108 16).2 = some (m3, 0) ∧
      heap_alloc 3 m3 4096 16 = some (m4, q) ∧ q ≠ 0 ∧
      q ≤ (heap_alloc_take freshMem 4108 16).2 :=
  (heap_alloc_reuses_freed freshMem 4096 [freshChunk] 16 3 _ _ freshMem_inv (by decide)
    (by decide) rfl (by decide)).1

/-! ## Taking a task out of the list -/

/-- The links of the task after `task_queue_del`, and the code returned. -/
theorem task_queue_del_links (k : Kernel) (x : Nat) :
    ((task_queue_del k x).1.tcbs x).tnext = 0 ∧ ((task_queue_del k x).1.tcbs x).tprev = 0 ∧
    (task_queue_del k x).2 = (if (task_queue_del k x).1.first = 0 then 1 else 0) := by
  unfold task_queue_del
  simp [setTcb]

/-- The cyclic successor of a task of a well-formed list. -/
theorem NEXT_TASK_cyclic (k : Kernel) (pre post : List Nat) (x : Nat)
    (hwf : TaskList k (pre ++ x :: post)) :
    NEXT_TASK k x = (post ++ pre ++ [x]).head?.getD 0 := by
  have hne := DSeg_ne_zero _ _ _ _ _ hwf.seg
  have hxn : (k.tcbs x).tnext = post.head?.getD 0 := DSeg_tnext _ _ _ _ _ _ _ hwf.seg
  have hfirst : k.first = (pre ++ [x]).head?.getD 0 := by
    have := DSeg_cur _ _ _ _ _ hwf.seg
    rw [this]
    cases pre <;> rfl
  unfold NEXT_TASK
  cases post with
  | nil =>
    have hxn0 : (k.tcbs x).tnext = 0 := hxn
    rw [if_pos hxn0, hfirst]
    simp
  | cons y ys =>
    have hy : y ≠ 0 := hne y (by simp)
    have : (k.tcbs x).tnext = y := hxn
    rw [if_neg (by rw [this]; exact hy), this]
    rfl

/-- C33: `task_queue_del(t)` on a well-formed task list (doubly linked,
distinct tasks with distinct task numbers, the cursor `current_task` one of
them) that holds `t` and at least one other task: afterwards the cursor is
not `t` and is a task of the remaining list; if `t` was the cursor, the
cursor is the successor of `t`, the head of the list when `t` was the tail;
if `t` was not the cursor, the cursor is unchanged. -/
theorem task_queue_del_cursor_spec (k : Kernel) (pre post : List Nat) (x : Nat)
    (hwf : TaskList k (pre ++ x :: post)) (hne : pre ++ post ≠ []) :
    (task_queue_del k x).1.current_task ≠ x ∧
    (task_queue_del k x).1.current_task ∈ pre ++ post ∧
    (k.current_task = x →
      (task_queue_del k x).1.current_task = NEXT_TASK k x ∧
      (task_queue_del k x).1.current_task = (post ++ pre).head?.getD 0) ∧
    (k.current_task ≠ x → (task_queue_del k x).1.current_task = k.current_task) := by
  have hwf2 := task_queue_del_taskList k pre post x hwf
  have hmem := hwf2.cursor hne
  have hx : x ∉ pre ++ post := by
    have := hwf.nodup
    rw [List.nodup_append] at this
    intro h
    rcases List.mem_append.mp h with h | h
    · exact this.2.2 h (by simp)
    · exact (List.nodup_cons.mp this.2.1).1 h
  have hcur := (task_queue_del_same k x).2.2.2.2
  have hc : k.current_task ∈ pre ++ x :: post := hwf.cursor (by simp)
  refine ⟨fun h => hx (h ▸ hmem), hmem, ?_, ?_⟩
  · intro he
    have h1 : (task_queue_del k x).1.current_task = NEXT_TASK k x := by
      rw [hcur]
      unfold task_queue_del_cursor
      rw [if_pos (by rw [he]), he]
    refine ⟨h1, ?_⟩
    rw [h1, NEXT_TASK_cyclic k pre post x hwf]
    cases hpp : post ++ pre with
    | nil =>
      have : pre ++ post = [] := by
        have h2 := congrArg List.length hpp
        simp only [List.length_append, List.length_nil] at h2
        exact List.eq_nil_of_length_eq_zero (by simp only [List.length_append]; omega)
      exact absurd this hne
    | cons y ys => rfl
  · intro he
    rw [hcur]
    unfold task_queue_del_cursor
    rw [if_neg]
    intro hnum
    exact he (hwf.numbers x (by simp) k.current_task hc hnum).symm

theorem task_queue_del_cursor_spec_witness :
    (task_queue_del reapKernel 6448).1.current_task ≠ 6448 ∧
    (task_queue_del reapKernel 6448).1.current_task ∈ [4128, 5288] ++ [] ∧
    (reapKernel.current_task = 6448 →
      (task_queue_del reapKernel 6448).1.current_task = NEXT_TASK reapKernel 6448 ∧
      (task_queue_del reapKernel 6448).1.current_task = ([] ++ [4128, 5288]).head?.getD 0) ∧
    (reapKernel.current_task ≠ 6448 →
      (task_queue_del reapKernel 6448).1.current_task = reapKernel.current_task) :=
  task_queue_del_cursor_spec reapKernel [4128, 5288] [] 6448 reapKernel_taskList (by decide)

/-- The numbers of the tasks after a successful `task_create`. -/
theorem task_create_numbers (hfuel saved : Nat) (k : Kernel)
    (entry arg stksize hsize prio : Nat) (k2 : Kernel) (p : Nat)
    (hrun : task_create hfuel saved k entry arg stksize hsize prio = some (k2, p))
    (hp : p ≠ 0) :
    k2.task_number = uadd k.task_number 1 ∧
    ∀ q, (k2.tcbs q).task_number = if q = p then k.task_number else (k.tcbs q).task_number := by
  obtain ⟨m1, m3, heap_tmp, m5, stack, m6, eq, _, _, _, _, _, _, _, _, hk⟩ :=
    task_create_inv hfuel saved k entry arg stksize hsize prio k2 p hrun hp
  rw [hk]
  obtain ⟨hsame, _, hnum⟩ := task_queue_add_same
    { k with
      mem := fill_bytes m6 stack TASK_STACK_MAGIC stksize
      tcbs := fun q =>
        if q = p then
          ⟨k.task_number, stack, stksize, (init_heap m3 heap_tmp hsize).2, 0, prio, 0, 0,
            entry, arg, eq, 0, 0⟩
        else k.tcbs q
      task_number := uadd k.task_number 1 } p
  refine ⟨hnum, ?_⟩
  intro q
  rw [(SameTasks_fields _ _ hsame q).2.2.1]
  show (if q = p then _ else _ : TCB).task_number = _
  split <;> rfl

/-- C40: `task_queue_del(t)` on a well-formed task list (doubly linked from
`first`, whose `tprev` is NULL, to `last`, whose `tnext` is NULL, the tasks
distinct and with distinct task numbers) that holds `t`: the list
afterwards is well formed and is the list before with `t` taken out, the
others in their order; `t->tnext` and `t->tprev` are NULL; the value
returned is 1 when the list is then empty and 0 otherwise.  And a call of
`task_create` that succeeds, in a state where the numbers of the tasks of a
list are distinct and below the counter, the counter being below `2^32 - 1`,
leaves the numbers of these tasks and of the new task distinct, and below
the counter. -/
theorem task_queue_del_spec (k : Kernel) :
    (∀ (pre post : List Nat) (x : Nat), TaskList k (pre ++ x :: post) →
      TaskList (task_queue_del k x).1 (pre ++ post) ∧
      ((task_queue_del k x).1.tcbs x).tnext = 0 ∧
      ((task_queue_del k x).1.tcbs x).tprev = 0 ∧
      (task_queue_del k x).2 = (if pre ++ post = [] then 1 else 0)) ∧
    (∀ (L : List Nat) (hfuel saved entry arg stksize hsize prio : Nat) (k2 : Kernel) (p : Nat),
      (∀ a ∈ L, ∀ b ∈ L, (k.tcbs a).task_number = (k.tcbs b).task_number → a = b) →
      NumbersBelow k L → k.task_number + 1 < U32 →
      task_create hfuel saved k entry arg stksize hsize prio = some (k2, p) → p ≠ 0 →
      (∀ a ∈ L ++ [p], ∀ b ∈ L ++ [p],
        (k2.tcbs a).task_number = (k2.tcbs b).task_number → a = b) ∧
      NumbersBelow k2 (L ++ [p])) := by
  refine ⟨?_, ?_⟩
  · intro pre post x hwf
    have hwf2 := task_queue_del_taskList k pre post x hwf
    obtain ⟨h1, h2, h3⟩ := task_queue_del_links k x
    refine ⟨hwf2, h1, h2, ?_⟩
    rw [h3]
    have hf := DSeg_cur _ _ _ _ _ hwf2.seg
    have hnz := DSeg_ne_zero _ _ _ _ _ hwf2.seg
    cases hl : pre ++ post with
    | nil =>
      rw [hl] at hf
      have hf0 : (task_queue_del k x).1.first = 0 := hf
      rw [if_pos hf0, if_pos rfl]
    | cons y ys =>
      rw [hl] at hf hnz
      have : (task_queue_del k x).1.first = y := hf
      rw [if_neg (by rw [this]; exact hnz y (by simp)), if_neg (by simp)]
  · intro L hfuel saved entry arg stksize hsize prio k2 p hinj hbelow hcount hrun hp
    obtain ⟨hc, hn⟩ := task_create_numbers hfuel saved k entry arg stksize hsize prio k2 p hrun hp
    have hc2 : k2.task_number = k.task_number + 1 := by
      rw [hc]; unfold uadd; exact Nat.mod_eq_of_lt hcount
    refine ⟨?_, ?_⟩
    · intro a ha b hb hab
      rw [hn a, hn b] at hab
      by_cases h1 : a = p
      · by_cases h2 : b = p
        · rw [h1, h2]
        · rw [if_pos h1, if_neg h2] at hab
          have hbL : b ∈ L := by
            rcases List.mem_append.mp hb with h | h
            · exact h
            · exact absurd (List.mem_singleton.mp h) h2
          have := hbelow b hbL
          omega
      · have haL : a ∈ L := by
          rcases List.mem_append.mp ha with h | h
          · exact h
          · exact absurd (List.mem_singleton.mp h) h1
        by_cases h2 : b = p
        · rw [if_neg h1, if_pos h2] at hab
          have := hbelow a haL
          omega
        · have hbL : b ∈ L := by
            rcases List.mem_append.mp hb with h | h
            · exact h
            · exact absurd (List.mem_singleton.mp h) h2
          rw [if_neg h1, if_neg h2] at hab
          exact hinj a haL b hbL hab
    · intro t ht
      rw [hn t, hc2]
      by_cases h1 : t = p
      · rw [if_pos h1]; omega
      · rw [if_neg h1]
        have htL : t ∈ L := by
          rcases List.mem_append.mp ht with h | h
          · exact h
          · exact absurd (List.mem_singleton.mp h) h1
        have := hbelow t htL
        omega

theorem task_queue_del_spec_witness :
    (TaskList (task_queue_del reapKernel 5288).1 ([4128] ++ [6448]) ∧
      ((task_queue_del reapKernel 5288).1.tcbs 5288).tnext = 0 ∧
      ((task_queue_del reapKernel 5288).1.tcbs 5288).tprev = 0 ∧
      (task_queue_del reapKernel 5288).2 = (if [4128] ++ [6448] = [] then 1 else 0)) ∧
    ∃ r, task_create 16 0 reapKernel 7 8 64 1024 20 = some r ∧ r.2 = 7608 ∧
      (∀ a ∈ [4128, 5288, 6448] ++ [r.2], ∀ b ∈ [4128, 5288, 6448] ++ [r.2],
        (r.1.tcbs a).task_number = (r.1.tcbs b).task_number → a = b) ∧
      NumbersBelow r.1 ([4128, 5288, 6448] ++ [r.2]) := by
  refine ⟨(task_queue_del_spec reapKernel).1 [4128] [6448] 5288 reapKernel_taskList, ?_⟩
  have hv : (task_create 16 0 reapKernel 7 8 64 1024 20).map Prod.snd = some 7608 := by
    decide!
  cases h : task_create 16 0 reapKernel 7 8 64 1024 20 with
  | none => rw [h] at hv; exact absurd hv (by simp)
  | some r =>
    rw [h] at hv
    simp only [Option.map_some', Option.some.injEq] at hv
    have hp : r.2 ≠ 0 := by rw [hv]; decide
    have hb : NumbersBelow reapKernel [4128, 5288, 6448] := by
      intro t ht
      simp only [List.mem_cons, List.mem_singleton, List.not_mem_nil, or_false] at ht
      rcases ht with rfl | rfl | rfl <;> decide
    exact ⟨r, rfl, hv, (task_queue_del_spec reapKernel).2 [4128, 5288, 6448] 16 0 7 8 64 1024 20
      r.1 r.2 reapKernel_taskList.numbers hb (by decide) h hp⟩

/-- C37: on a well-formed task list `L` whose tasks own their memory in a
global heap that satisfies the invariants (the scan frees the memory of the
tasks it deletes), whatever the status of the tasks, killed tail included:
`get_sched_priority` returns, given fuel above `|L|^2 + |L|`; the tasks left
are a well-formed list `L2`, a sublist of `L`; every task that is missing
from it was `TASK_KILLED`; and the number of tasks unlinked, `|L| - |L2|`,
is at most the number of killed tasks of `L`. -/
theorem get_sched_priority_terminates (k : Kernel) (L : List Nat) (fuel hfuel : Nat)
    (hwf : TaskList k L) (hown : HeapOwns hfuel k L)
    (hlen : L.length * L.length + L.length < fuel) :
    ∃ k2 L2 p, get_sched_priority fuel hfuel k = some (k2, p) ∧ TaskList k2 L2 ∧
      L2.Sublist L ∧ (∀ t ∈ L, t ∉ L2 → (k.tcbs t).status = 255) ∧
      L.length - L2.length ≤ (L.filter (fun t => decide ((k.tcbs t).status = 255))).length := by
  obtain ⟨k2, L2, p, hrun, hwf2, _, _, hsub, hkeep, _, _, _⟩ :=
    get_sched_priority_loop_scan hfuel fuel k [] L 255 hwf hown (by simp) hlen
  have hfirst : k.first = L.head?.getD 0 := DSeg_cur _ _ _ _ _ hwf.seg
  have hrun2 : get_sched_priority fuel hfuel k = some (k2, p) := by
    unfold get_sched_priority
    rw [hfirst]
    exact hrun
  simp only [List.nil_append] at hsub hkeep
  refine ⟨k2, L2, p, hrun2, hwf2, hsub, ?_, ?_⟩
  · intro t ht hn
    by_contra hs
    exact hn (hkeep t ht hs)
  · have hsplit := List.length_eq_length_filter_add
      (fun t => decide ((k.tcbs t).status = 255)) (l := L)
    have hnd : (L.filter (fun t => ! decide ((k.tcbs t).status = 255))).Nodup :=
      hwf.nodup.filter _
    have hss : L.filter (fun t => ! decide ((k.tcbs t).status = 255)) ⊆ L2 := by
      intro t ht
      rw [List.mem_filter] at ht
      refine hkeep t ht.1 ?_
      simpa using ht.2
    have hle := (List.subperm_of_subset hnd hss).length_le
    omega

theorem get_sched_priority_terminates_witness :
    ∃ k2 L2 p, get_sched_priority 13 8 reapKernel = some (k2, p) ∧ TaskList k2 L2 ∧
      L2.Sublist [4128, 5288, 6448] ∧
      (∀ t ∈ [4128, 5288, 6448], t ∉ L2 → (reapKernel.tcbs t).status = 255) ∧
      [4128, 5288, 6448].length - L2.length ≤
        ([4128, 5288, 6448].filter
          (fun t => decide ((reapKernel.tcbs t).status = 255))).length :=
  get_sched_priority_terminates reapKernel [4128, 5288, 6448] 13 8 reapKernel_taskList
    reapKernel_heapOwns (by decide)

/-! ## The size of the heap of a new task -/

theorem init_heap_ptr (m : Mem) (start size : Nat) :
    ((init_heap m start size).2 ≠ 0 → ¬ size < HEAP_MIN_SIZE) ∧
    (start ≠ 0 → ¬ size < HEAP_MIN_SIZE → (init_heap m start size).2 = start) := by
  unfold init_heap
  refine ⟨?_, ?_⟩
  · intro h hs
    by_cases h0 : start = 0
    · rw [if_pos h0] at h; exact h rfl
    · rw [if_neg h0, if_pos hs] at h; exact h rfl
  · intro h0 hs
    rw [if_neg h0, if_neg hs]

theorem singleton_eq_append_cons (a c : HCB) (pre post : List HCB)
    (h : [a] = pre ++ c :: post) : pre = [] ∧ c = a ∧ post = [] := by
  cases pre with
  | nil =>
    simp only [List.nil_append, List.cons.injEq] at h
    exact ⟨rfl, h.1.symm, h.2.symm⟩
  | cons p ps =>
    have := congrArg List.length h
    simp at this

/-- When the four allocations and `init_heap` succeed, so does
`task_create`. -/
theorem task_create_of_allocs (hfuel : Nat) (k : Kernel) (entry arg stksize hsize prio : Nat)
    (m1 : Mem) (tcb : Nat) (m3 : Mem) (heap_tmp : Nat) (m5 : Mem) (stack : Nat) (m6 : Mem)
    (eq : Nat)
    (h1 : heap_alloc hfuel k.mem k.global_heap sizeof_TCB = some (m1, tcb)) (ht : tcb ≠ 0)
    (h2 : heap_alloc hfuel m1 k.global_heap hsize = some (m3, heap_tmp)) (hh : heap_tmp ≠ 0)
    (hi : (init_heap m3 heap_tmp hsize).2 ≠ 0)
    (h3 : heap_alloc hfuel (init_heap m3 heap_tmp hsize).1 (init_heap m3 heap_tmp hsize).2
      stksize = some (m5, stack)) (hs : stack ≠ 0)
    (h4 : heap_alloc hfuel m5 (init_heap m3 heap_tmp hsize).2 sizeof_EVENT_QUEUE =
      some (m6, eq)) (he : eq ≠ 0) :
    ∃ k2, task_create hfuel 0 k entry arg stksize hsize prio = some (k2, tcb) := by
  unfold task_create
  simp only [global_alloc, h1]
  rw [if_neg ht]
  simp only [setTcb]
  simp only [h2]
  rw [if_neg hh]
  unfold task_create_heap
  simp only [setTcb, if_true]
  rw [if_neg hi]
  simp only [tcb_alloc, if_true]
  simp only [h3]
  rw [if_neg hs]
  simp only [if_true]
  simp only [h4]
  rw [if_neg he]
  unfold task_create_finish
  simp only [setup_stack_frame]
  exact ⟨_, rfl⟩

/-- The chunks of the task heap once the stack and the inbox are allocated
in a heap that `init_heap` has just made. -/
theorem task_heap_shape (hfuel : Nat) (m3 : Mem) (heap_tmp stksize hsize : Nat) (m5 : Mem)
    (stack : Nat) (m6 : Mem) (eq : Nat) (hh : heap_tmp ≠ 0) (hin : heap_tmp + hsize < U32)
    (hov : stksize + sizeof_HCB + HEAP_MIN_NODE_SIZE < U32)
    (hi : (init_heap m3 heap_tmp hsize).2 ≠ 0)
    (h3 : heap_alloc hfuel (init_heap m3 heap_tmp hsize).1 (init_heap m3 heap_tmp hsize).2
      stksize = some (m5, stack)) (hs : stack ≠ 0)
    (h4 : heap_alloc hfuel m5 (init_heap m3 heap_tmp hsize).2 sizeof_EVENT_QUEUE =
      some (m6, eq)) (he : eq ≠ 0) :
    HEAP_MIN_SIZE ≤ hsize ∧ stksize + 64 ≤ hsize ∧ (init_heap m3 heap_tmp hsize).2 = heap_tmp ∧
    stack = heap_tmp + 32 ∧ eq = heap_tmp + stksize + 52 ∧
    HeapInv m6 heap_tmp (taskHeapChunks stksize hsize) := by
  have e20 : sizeof_HCB = 20 := rfl
  have e12 : sizeof_HEAP = 12 := rfl
  have e24 : HEAP_MIN_NODE_SIZE = 24 := rfl
  have eq12 : sizeof_EVENT_QUEUE = 12 := rfl
  have e1024 : HEAP_MIN_SIZE = 1024 := rfl
  have hmin := (init_heap_ptr m3 heap_tmp hsize).1 hi
  have hH := (init_heap_ptr m3 heap_tmp hsize).2 hh hmin
  rw [hH] at h3 h4
  have hinv0 := init_heap_inv m3 heap_tmp hsize hh hmin hin
  obtain ⟨pre, c, post, hcs, _, hfit, hp, _, hinv5, _⟩ :=
    heap_alloc_success _ _ _ stksize hfuel m5 stack hinv0 hov h3 hs
  obtain ⟨hpre, hc, hpost⟩ := singleton_eq_append_cons _ _ _ _ hcs
  subst hpre hc hpost
  have hf1 : stksize + sizeof_HCB ≤ hsize - sizeof_HEAP := hfit.2
  obtain ⟨pre2, c2, post2, hcs2, _, hfit2, hp2, _, hinv6, _⟩ :=
    heap_alloc_success _ _ _ sizeof_EVENT_QUEUE hfuel m6 eq hinv5
      (by rw [eq12, e20, e24]; simp only [U32]; omega) h4 he
  simp only [List.nil_append, List.append_nil] at hcs2
  by_cases hsplit : hsize - sizeof_HEAP > stksize + sizeof_HCB + HEAP_MIN_NODE_SIZE
  · have hsp : splitChunk stksize ⟨HEAP_MAGIC, HEAP_STATUS_FREE, sizeof_HEAP, hsize - sizeof_HEAP⟩ =
        [⟨HEAP_MAGIC, HEAP_STATUS_USED, sizeof_HEAP, stksize + sizeof_HCB⟩,
          ⟨HEAP_MAGIC, HEAP_STATUS_FREE, stksize + 32, hsize - (stksize + 32)⟩] := by
      unfold splitChunk
      rw [if_pos hsplit]
      have : uadd (uadd sizeof_HEAP stksize) sizeof_HCB = stksize + 32 := by
        unfold uadd
        rw [e12, e20]
        rw [e20, e24] at hov
        simp only [U32] at hov ⊢
        omega
      simp only [this]
      have : hsize - sizeof_HEAP - (stksize + sizeof_HCB) = hsize - (stksize + 32) := by
        rw [e12, e20]; omega
      rw [this]
    rw [hsp] at hcs2
    cases pre2 with
    | nil =>
      simp only [List.nil_append, List.cons.injEq] at hcs2
      have := hfit2.1
      rw [← hcs2.1] at this
      have hne : HEAP_STATUS_USED ≠ HEAP_STATUS_FREE := by decide
      exact absurd this hne
    | cons p ps =>
      simp only [List.cons_append, List.cons.injEq] at hcs2
      obtain ⟨hp1, hrest⟩ := hcs2
      obtain ⟨hps, hc2, hpost2⟩ := singleton_eq_append_cons _ _ _ _ hrest
      subst hps hc2 hpost2 hp1
      have hf2 : sizeof_EVENT_QUEUE + sizeof_HCB ≤ hsize - (stksize + 32) := hfit2.2
      refine ⟨by rw [e1024]; omega, by rw [eq12, e20] at hf2; omega, hH, ?_, ?_, ?_⟩
      · rw [hp]; simp only [sizeSum]; rw [e12, e20]
      · rw [hp2]; simp only [sizeSum]; rw [e12, e20]; omega
      · simp only [List.append_nil] at hinv6
        have : taskHeapChunks stksize hsize =
            [⟨HEAP_MAGIC, HEAP_STATUS_USED, sizeof_HEAP, stksize + sizeof_HCB⟩] ++
              splitChunk sizeof_EVENT_QUEUE
                ⟨HEAP_MAGIC, HEAP_STATUS_FREE, stksize + 32, hsize - (stksize + 32)⟩ := by
          unfold taskHeapChunks splitChunk
          have hu : uadd (uadd (stksize + 32) sizeof_EVENT_QUEUE) sizeof_HCB = stksize + 64 := by
            unfold uadd
            rw [eq12, e20]
            rw [e20, e24] at hov
            simp only [U32] at hov hin ⊢
            omega
          by_cases hb : hsize - (stksize + 32) >
              sizeof_EVENT_QUEUE + sizeof_HCB + HEAP_MIN_NODE_SIZE
          · rw [if_pos hb, if_pos hb]
            simp only [hu, List.singleton_append, List.cons.injEq, HCB.mk.injEq, true_and,
              and_true]
            rw [eq12, e20]; omega
          · rw [if_neg hb, if_neg hb]
            rfl
        rw [this]
        exact hinv6
  · have hsp : splitChunk stksize ⟨HEAP_MAGIC, HEAP_STATUS_FREE, sizeof_HEAP, hsize - sizeof_HEAP⟩ =
        [⟨HEAP_MAGIC, HEAP_STATUS_USED, sizeof_HEAP, hsize - sizeof_HEAP⟩] := by
      unfold splitChunk
      rw [if_neg hsplit]
    rw [hsp] at hcs2
    obtain ⟨_, hc2, _⟩ := singleton_eq_append_cons _ _ _ _ hcs2
    have := hfit2.1
    rw [hc2] at this
    have hne : HEAP_STATUS_USED ≠ HEAP_STATUS_FREE := by decide
    exact absurd this hne

theorem splitChunk_stack (stksize hsize : Nat)
    (hov : stksize + sizeof_HCB + HEAP_MIN_NODE_SIZE < U32) (hcond : stksize + 64 ≤ hsize) :
    splitChunk stksize ⟨HEAP_MAGIC, HEAP_STATUS_FREE, sizeof_HEAP, hsize - sizeof_HEAP⟩ =
      [⟨HEAP_MAGIC, HEAP_STATUS_USED, sizeof_HEAP, stksize + sizeof_HCB⟩,
        ⟨HEAP_MAGIC, HEAP_STATUS_FREE, stksize + 32, hsize - (stksize + 32)⟩] := by
  have e20 : sizeof_HCB = 20 := rfl
  have e12 : sizeof_HEAP = 12 := rfl
  have e24 : HEAP_MIN_NODE_SIZE = 24 := rfl
  unfold splitChunk
  rw [if_pos (by show hsize - sizeof_HEAP > _; rw [e12, e20, e24]; omega)]
  have : uadd (uadd sizeof_HEAP stksize) sizeof_HCB = stksize + 32 := by
    unfold uadd
    rw [e12, e20]
    rw [e20, e24] at hov
    simp only [U32] at hov ⊢
    omega
  simp only [this]
  have : hsize - sizeof_HEAP - (stksize + sizeof_HCB) = hsize - (stksize + 32) := by
    rw [e12, e20]; omega
  rw [this]

/-- With a heap block large enough, `init_heap` and the two allocations in
the task heap succeed. -/
theorem task_heap_allocs (hfuel : Nat) (m3 : Mem) (heap_tmp stksize hsize : Nat)
    (hh : heap_tmp ≠ 0) (hin : heap_tmp + hsize < U32)
    (hov : stksize + sizeof_HCB + HEAP_MIN_NODE_SIZE < U32)
    (hmin : HEAP_MIN_SIZE ≤ hsize) (hcond : stksize + 64 ≤ hsize) (hf : 2 < hfuel) :
    ∃ m5 stack m6 eq, (init_heap m3 heap_tmp hsize).2 ≠ 0 ∧
      heap_alloc hfuel (init_heap m3 heap_tmp hsize).1 (init_heap m3 heap_tmp hsize).2
        stksize = some (m5, stack) ∧ stack ≠ 0 ∧
      heap_alloc hfuel m5 (init_heap m3 heap_tmp hsize).2 sizeof_EVENT_QUEUE = some (m6, eq) ∧
      eq ≠ 0 := by
  have e20 : sizeof_HCB = 20 := rfl
  have e12 : sizeof_HEAP = 12 := rfl
  have e24 : HEAP_MIN_NODE_SIZE = 24 := rfl
  have eq12 : sizeof_EVENT_QUEUE = 12 := rfl
  have e1024 : HEAP_MIN_SIZE = 1024 := rfl
  have hmin2 : ¬ hsize < HEAP_MIN_SIZE := by omega
  have hH := (init_heap_ptr m3 heap_tmp hsize).2 hh hmin2
  rw [hH]
  have hinv0 := init_heap_inv m3 heap_tmp hsize hh hmin2 hin
  have hfit0 : Fits stksize ⟨HEAP_MAGIC, HEAP_STATUS_FREE, sizeof_HEAP, hsize - sizeof_HEAP⟩ :=
    ⟨rfl, by show stksize + sizeof_HCB ≤ hsize - sizeof_HEAP; rw [e12, e20]; omega⟩
  rcases heap_alloc_search _ heap_tmp _ stksize hfuel hinv0.1 (by omega)
      (by simp only [List.length_singleton]; omega) with
    ⟨pre, c, post, hcs, _, hfit, hrun⟩ | ⟨hno, _⟩
  swap
  · exact absurd hfit0 (hno _ (List.mem_singleton.mpr rfl))
  obtain ⟨hpre, hc, hpost⟩ := singleton_eq_append_cons _ _ _ _ hcs
  subst hpre hc hpost
  have hptr := (heap_alloc_take_chain _ heap_tmp [] [] _ stksize hinv0.1 hinv0.2.1 hfit0 hov).1
  have hinv5 := (heap_alloc_take_inv _ heap_tmp [] [] _ stksize hinv0 hfit0 hov).1
  simp only [List.nil_append, List.append_nil] at hinv5
  rw [splitChunk_stack stksize hsize hov hcond] at hinv5
  have hfit1 : Fits sizeof_EVENT_QUEUE
      ⟨HEAP_MAGIC, HEAP_STATUS_FREE, stksize + 32, hsize - (stksize + 32)⟩ :=
    ⟨rfl, by show sizeof_EVENT_QUEUE + sizeof_HCB ≤ hsize - (stksize + 32); rw [eq12, e20]; omega⟩
  have hov12 : sizeof_EVENT_QUEUE + sizeof_HCB + HEAP_MIN_NODE_SIZE < U32 := by decide
  rcases heap_alloc_search _ heap_tmp _ sizeof_EVENT_QUEUE hfuel hinv5.1 (by decide)
      (by simp only [List.length_cons, List.length_nil]; omega) with
    ⟨pre2, c2, post2, hcs2, _, hfit2, hrun2⟩ | ⟨hno, _⟩
  swap
  · exact absurd hfit1 (hno _ (by simp))
  have hinv5b := hinv5
  rw [hcs2] at hinv5b
  have hptr2 := (heap_alloc_take_chain _ heap_tmp pre2 post2 c2 sizeof_EVENT_QUEUE hinv5b.1
    hinv5b.2.1 hfit2 hov12).1
  refine ⟨_, _, _, _, hh, hrun, ?_, hrun2, ?_⟩
  · have hq : HEAP_HCB_TO_PTR (heap_tmp + sizeof_HEAP + sizeSum []) =
        heap_tmp + sizeof_HEAP + sizeSum [] + sizeof_HCB := hptr
    rw [hq]; omega
  · have hq : HEAP_HCB_TO_PTR (heap_tmp + sizeof_HEAP + sizeSum pre2) =
        heap_tmp + sizeof_HEAP + sizeSum pre2 + sizeof_HCB := hptr2
    rw [hq]; omega

/-- The block that `heap_alloc` returns lies inside the heap. -/
theorem heap_alloc_in_heap (m : Mem) (h : Nat) (cs : List HCB) (n fuel : Nat) (m2 : Mem)
    (p : Nat) (hinv : HeapInv m h cs) (hn : n + sizeof_HCB + HEAP_MIN_NODE_SIZE < U32)
    (hr : heap_alloc fuel m h n = some (m2, p)) (hp : p ≠ 0) :
    p + n < U32 ∧ ∃ cs2, HeapInv m2 h cs2 := by
  obtain ⟨pre, c, post, hcs, _, hfit, hpp, _, hinv2, _⟩ :=
    heap_alloc_success m h cs n fuel m2 p hinv hn hr hp
  refine ⟨?_, _, hinv2⟩
  have ht := hinv.1.total
  have hr := hinv.1.inrange
  rw [hcs, sizeSum_append] at ht
  simp only [sizeSum] at ht
  have := hfit.2
  rw [hpp]
  omega

/-- C38: `task_create(entry, arg, stksize, hsize, prio)` in a state whose
global heap satisfies the heap invariants, when the two allocations from
the global heap (the TCB and the block of `hsize` bytes) succeed, the
initial frame is set up (`save_task_context` returns 0) and the sizes do not
wrap (`stksize` and `hsize` plus `sizeof(HCB) + HEAP_MIN_NODE_SIZE` stay
below `2^32`), given fuel for three steps of the heap loops: the call
returns a task (a non-NULL pointer) if and only if
`hsize >= HEAP_MIN_SIZE` and
`hsize >= stksize + sizeof(HEAP) + 2*sizeof(HCB) + sizeof(EVENT_QUEUE)`;
and whenever it returns a task, the heap of the task satisfies the heap
invariants with the chunk chain `taskHeapChunks stksize hsize`: the USED
stack chunk of size `stksize + sizeof(HCB)`, the USED inbox chunk of size
`sizeof(EVENT_QUEUE) + sizeof(HCB)` or larger and, when the space left
exceeds `HEAP_MIN_NODE_SIZE`, one FREE chunk with the rest; `tcb->stack` and
`tcb->event_queue` are the payloads of the first two chunks. -/
theorem task_create_succeeds_iff (hfuel : Nat) (k : Kernel) (gcs : List HCB)
    (entry arg stksize hsize prio : Nat)
    (hg : HeapInv k.mem k.global_heap gcs) (hf : 2 < hfuel)
    (ha : ∃ m1 tcb m3 heap_tmp,
      heap_alloc hfuel k.mem k.global_heap sizeof_TCB = some (m1, tcb) ∧ tcb ≠ 0 ∧
      heap_alloc hfuel m1 k.global_heap hsize = some (m3, heap_tmp) ∧ heap_tmp ≠ 0)
    (hov1 : stksize + sizeof_HCB + HEAP_MIN_NODE_SIZE < U32)
    (hov2 : hsize + sizeof_HCB + HEAP_MIN_NODE_SIZE < U32) :
    ((∃ k2 p, task_create hfuel 0 k entry arg stksize hsize prio = some (k2, p) ∧ p ≠ 0) ↔
      (HEAP_MIN_SIZE ≤ hsize ∧
        stksize + sizeof_HEAP + 2 * sizeof_HCB + sizeof_EVENT_QUEUE ≤ hsize)) ∧
    (∀ k2 p, task_create hfuel 0 k entry arg stksize hsize prio = some (k2, p) → p ≠ 0 →
      (k2.tcbs p).stack = (k2.tcbs p).heap + sizeof_HEAP + sizeof_HCB ∧
      (k2.tcbs p).event_queue =
        (k2.tcbs p).heap + sizeof_HEAP + (stksize + sizeof_HCB) + sizeof_HCB ∧
      HeapInv k2.mem (k2.tcbs p).heap (taskHeapChunks stksize hsize)) := by
  have e20 : sizeof_HCB = 20 := rfl
  have e12 : sizeof_HEAP = 12 := rfl
  have e24 : HEAP_MIN_NODE_SIZE = 24 := rfl
  have eq12 : sizeof_EVENT_QUEUE = 12 := rfl
  obtain ⟨m1, tcb, m3, heap_tmp, h1, ht, h2, hh⟩ := ha
  obtain ⟨_, gcs1, hg1⟩ := heap_alloc_in_heap k.mem k.global_heap gcs sizeof_TCB hfuel m1 tcb hg
    (by decide) h1 ht
  have hin : heap_tmp + hsize < U32 :=
    (heap_alloc_in_heap m1 k.global_heap gcs1 hsize hfuel m3 heap_tmp hg1 hov2 h2 hh).1
  have key : ∀ k2 p, task_create hfuel 0 k entry arg stksize hsize prio = some (k2, p) → p ≠ 0 →
      HEAP_MIN_SIZE ≤ hsize ∧ stksize + 64 ≤ hsize ∧
      (k2.tcbs p).stack = (k2.tcbs p).heap + sizeof_HEAP + sizeof_HCB ∧
      (k2.tcbs p).event_queue =
        (k2.tcbs p).heap + sizeof_HEAP + (stksize + sizeof_HCB) + sizeof_HCB ∧
      HeapInv k2.mem (k2.tcbs p).heap (taskHeapChunks stksize hsize) := by
    intro k2 p hrun hp
    obtain ⟨m1b, m3b, heap_tmpb, m5, stack, m6, eq, g1, g2, _, hi, g3, hs, g4, he, hk⟩ :=
      task_create_inv hfuel 0 k entry arg stksize hsize prio k2 p hrun hp
    rw [h1] at g1
    simp only [Option.some.injEq, Prod.mk.injEq] at g1
    obtain ⟨hm1, hp1⟩ := g1
    subst hm1 hp1
    rw [h2] at g2
    simp only [Option.some.injEq, Prod.mk.injEq] at g2
    obtain ⟨hm3, hp3⟩ := g2
    subst hm3 hp3
    obtain ⟨a1, a2, a3, a4, a5, a6⟩ :=
      task_heap_shape hfuel m3 heap_tmp stksize hsize m5 stack m6 eq hh hin hov1 hi g3 hs g4 he
    obtain ⟨hsame, hmem, _⟩ := task_queue_add_same
      { k with
        mem := fill_bytes m6 stack TASK_STACK_MAGIC stksize
        tcbs := fun q =>
          if q = tcb then
            ⟨k.task_number, stack, stksize, (init_heap m3 heap_tmp hsize).2, 0, prio, 0, 0,
              entry, arg, eq, 0, 0⟩
          else k.tcbs q
        task_number := uadd k.task_number 1 } tcb
    rw [← hk] at hsame hmem
    have f1 : (k2.tcbs tcb).heap = heap_tmp := by
      have e := congrArg TCB.heap (hsame tcb)
      refine Eq.trans e ?_
      show (if tcb = tcb then _ else _ : TCB).heap = _
      rw [if_pos rfl]
      exact a3
    have f2 : (k2.tcbs tcb).stack = stack := by
      have e := congrArg TCB.stack (hsame tcb)
      refine Eq.trans e ?_
      show (if tcb = tcb then _ else _ : TCB).stack = _
      rw [if_pos rfl]
    have f3 : (k2.tcbs tcb).event_queue = eq := by
      have e := congrArg TCB.event_queue (hsame tcb)
      refine Eq.trans e ?_
      show (if tcb = tcb then _ else _ : TCB).event_queue = _
      rw [if_pos rfl]
    refine ⟨a1, a2, ?_, ?_, ?_⟩
    · rw [f1, f2, a4, e12, e20]
    · rw [f1, f3, a5, e12, e20]; omega
    · rw [f1, hmem]
      refine HeapInv_congr_payload m6 _ heap_tmp stack stksize _
        (fun x hx => fill_bytes_frame m6 stack TASK_STACK_MAGIC stksize x hx) ?_ a6
      unfold taskHeapChunks
      split
      · left
        rw [a4, e12, e20]
        refine ⟨by omega, ?_⟩
        show heap_tmp + 32 + stksize ≤ heap_tmp + 12 + (stksize + 20)
        omega
      · left
        rw [a4, e12, e20]
        refine ⟨by omega, ?_⟩
        show heap_tmp + 32 + stksize ≤ heap_tmp + 12 + (stksize + 20)
        omega
  refine ⟨⟨?_, ?_⟩, ?_⟩
  · rintro ⟨k2, p, hrun, hp⟩
    obtain ⟨a1, a2, _⟩ := key k2 p hrun hp
    exact ⟨a1, by rw [e12, e20, eq12]; omega⟩
  · rintro ⟨hmin, hcond⟩
    rw [e12, e20, eq12] at hcond
    obtain ⟨m5, stack, m6, eq, hi, g3, hs, g4, he⟩ :=
      task_heap_allocs hfuel m3 heap_tmp stksize hsize hh hin hov1 hmin (by omega) hf
    obtain ⟨k2, hk2⟩ := task_create_of_allocs hfuel k entry arg stksize hsize prio m1 tcb m3
      heap_tmp m5 stack m6 eq h1 ht h2 hh hi g3 hs g4 he
    exact ⟨k2, tcb, hk2, ht⟩
  · intro k2 p hrun hp
    exact (key k2 p hrun hp).2.2

theorem task_create_succeeds_iff_witness :
    ((∃ k2 p, task_create 16 0 reapKernel 7 8 64 1024 20 = some (k2, p) ∧ p ≠ 0) ↔
      (HEAP_MIN_SIZE ≤ 1024 ∧
        64 + sizeof_HEAP + 2 * sizeof_HCB + sizeof_EVENT_QUEUE ≤ 1024)) ∧
    (∀ k2 p, task_create 16 0 reapKernel 7 8 64 1024 20 = some (k2, p) → p ≠ 0 →
      (k2.tcbs p).stack = (k2.tcbs p).heap + sizeof_HEAP + sizeof_HCB ∧
      (k2.tcbs p).event_queue =
        (k2.tcbs p).heap + sizeof_HEAP + (64 + sizeof_HCB) + sizeof_HCB ∧
      HeapInv k2.mem (k2.tcbs p).heap (taskHeapChunks 64 1024)) := by
  have hv : (task_create 16 0 reapKernel 7 8 64 1024 20).map Prod.snd = some 7608 := by
    decide!
  cases h : task_create 16 0 reapKernel 7 8 64 1024 20 with
  | none => rw [h] at hv; exact absurd hv (by simp)
  | some r =>
    rw [h] at hv
    simp only [Option.map_some', Option.some.injEq] at hv
    have hp : r.2 ≠ 0 := by rw [hv]; decide
    obtain ⟨m1, m3, heap_tmp, _, _, _, _, g1, g2, hh, _⟩ :=
      task_create_inv 16 0 reapKernel 7 8 64 1024 20 r.1 r.2 h hp
    rw [← h]
    exact task_create_succeeds_iff 16 reapKernel reapChunks 7 8 64 1024 20 reapMem_inv
      (by decide) ⟨m1, r.2, m3, heap_tmp, g1, hp, g2, hh⟩ (by decide) (by decide)

/-! ## The list of tasks and the chain of chunks are determined by the state -/

theorem DSeg_unique (tcbs tcbs2 : Nat → TCB) :
    ∀ (L L2 : List Nat) (prev prev2 cur : Nat), DSeg tcbs prev cur L 0 →
      DSeg tcbs2 prev2 cur L2 0 → (∀ p ∈ L, (tcbs2 p).tnext = (tcbs p).tnext) → L2 = L := by
  intro L
  induction L with
  | nil =>
    intro L2 prev prev2 cur h1 h2 _
    cases L2 with
    | nil => rfl
    | cons b bs =>
      have e1 : cur = 0 := h1
      exact absurd (h2.1.symm.trans e1) h2.2.1
  | cons a as ih =>
    intro L2 prev prev2 cur h1 h2 hn
    obtain ⟨c1, a0, _, hr⟩ := h1
    cases L2 with
    | nil =>
      have e2 : cur = 0 := h2
      exact absurd (c1.symm.trans e2) a0
    | cons b bs =>
      obtain ⟨c2, _, _, hr2⟩ := h2
      have e : b = a := c2.symm.trans c1
      subst e
      rw [hn b (by simp)] at hr2
      rw [ih bs b b _ hr hr2 (fun p hp => hn p (by simp [hp]))]

theorem TaskList_unique (k k2 : Kernel) (L L2 : List Nat) (h : TaskList k L)
    (h2 : TaskList k2 L2) (hf : k2.first = k.first)
    (hn : ∀ p ∈ L, (k2.tcbs p).tnext = (k.tcbs p).tnext) : L2 = L := by
  have s2 := h2.seg
  rw [hf] at s2
  exact DSeg_unique _ _ L L2 0 0 _ h.seg s2 hn

theorem Chain_unique (m : Mem) (h : Nat) :
    ∀ (cs cs2 : List HCB) (off : Nat), Chain m h off cs → Chain m h off cs2 →
      sizeSum cs = sizeSum cs2 → (∀ c ∈ cs, c.size ≠ 0) → (∀ c ∈ cs2, c.size ≠ 0) →
      cs = cs2 := by
  intro cs
  induction cs with
  | nil =>
    intro cs2 off _ _ hs _ h2
    cases cs2 with
    | nil => rfl
    | cons d ds =>
      have := h2 d (by simp)
      simp only [sizeSum] at hs
      omega
  | cons c cs ih =>
    intro cs2 off hc hc2 hs h1 h2
    cases cs2 with
    | nil =>
      have := h1 c (by simp)
      simp only [sizeSum] at hs
      omega
    | cons d ds =>
      obtain ⟨e1, r1⟩ := hc
      obtain ⟨e2, r2⟩ := hc2
      have e : c = d := e1.symm.trans e2
      subst e
      simp only [sizeSum] at hs
      rw [ih ds _ r1 r2 (by omega) (fun x hx => h1 x (by simp [hx]))
        (fun x hx => h2 x (by simp [hx]))]

theorem WellFormed_unique (m : Mem) (h : Nat) (cs cs2 : List HCB) (h1 : WellFormed m h cs)
    (h2 : WellFormed m h cs2) : cs = cs2 :=
  Chain_unique m h cs cs2 _ h1.chain h2.chain
    (by have a := h1.total; have b := h2.total; omega) h1.sizes h2.sizes

/-! ## What `heap_alloc` and `heap_free` leave alone -/

theorem InUsedAt_append_right (h : Nat) (ys : List HCB) (a len : Nat) :
    ∀ (xs : List HCB) (off : Nat), InUsedAt h (off + sizeSum xs) ys a len →
      InUsedAt h off (xs ++ ys) a len := by
  intro xs
  induction xs with
  | nil => intro off hin; simpa [sizeSum] using hin
  | cons x xs ih =>
    intro off hin
    right
    refine ih (off + x.size) ?_
    have e : off + x.size + sizeSum xs = off + sizeSum (x :: xs) := by
      simp only [sizeSum]; omega
    rw [e]; exact hin

theorem InUsedAt_splitChunk (h n : Nat) (c : HCB) (post : List HCB) (a len : Nat)
    (hc : c.status = HEAP_STATUS_FREE) (hfit : n + sizeof_HCB ≤ c.size) :
    ∀ (pre : List HCB) (off : Nat), InUsedAt h off (pre ++ c :: post) a len →
      InUsedAt h off (pre ++ splitChunk n c ++ post) a len := by
  intro pre
  induction pre with
  | nil =>
    intro off hin
    rcases hin with hh | hh
    · rw [hc] at hh
      exact absurd hh.1 (by decide)
    · simp only [List.nil_append]
      refine InUsedAt_append_right h post a len _ off ?_
      rw [sizeSum_splitChunk n c hfit]
      exact hh
  | cons p ps ih =>
    intro off hin
    rcases hin with hh | hh
    · exact Or.inl hh
    · exact Or.inr (ih _ hh)

theorem InPayloadAt_mergeRuns (h a len : Nat) :
    ∀ (cs : List HCB) (off : Nat), InPayloadAt h off cs a len →
      InPayloadAt h off (mergeRuns cs) a len := by
  have e20 : sizeof_HCB = 20 := rfl
  intro cs
  induction cs with
  | nil => intro off hin; exact hin
  | cons c cs ih =>
    intro off hin
    cases hm : mergeRuns cs with
    | nil =>
      rw [mergeRuns_of_nil c cs hm]
      rcases hin with hh | hh
      · exact Or.inl hh
      · have := ih _ hh
        rw [hm] at this
        exact absurd this (fun x => x)
    | cons d ds =>
      rw [mergeRuns_of_cons c d cs ds hm]
      split
      · rcases hin with hh | hh
        · left
          show h + off + sizeof_HCB ≤ a ∧ a + len ≤ h + off + (c.size + d.size)
          omega
        · have := ih _ hh
          rw [hm] at this
          rcases this with h2 | h2
          · left
            show h + off + sizeof_HCB ≤ a ∧ a + len ≤ h + off + (c.size + d.size)
            omega
          · right
            show InPayloadAt h (off + (c.size + d.size)) ds a len
            rw [← Nat.add_assoc]
            exact h2
      · rcases hin with hh | hh
        · exact Or.inl hh
        · right
          have := ih _ hh
          rw [hm] at this
          exact this

/-- A call of `heap_free` on a block in use keeps the invariants of the heap
and the other blocks in use, and writes into the payload of no chunk. -/
theorem heap_free_keeps (m : Mem) (h : Nat) (cs : List HCB) (p fuel : Nat)
    (hinv : HeapInv m h cs) (hp : Live h cs p) (hfuel : cs.length < fuel) :
    ∃ m2 cs2, heap_free fuel m h p = some (m2, 0) ∧ HeapInv m2 h cs2 ∧
      cs2.length ≤ cs.length ∧ (∀ q, Live h cs q → q ≠ p → Live h cs2 q) ∧
      (∀ a len, InPayloadAt h sizeof_HEAP cs a len →
        InPayloadAt h sizeof_HEAP cs2 a len ∧ ∀ x, a ≤ x → x < a + len → m2 x = m x) := by
  obtain ⟨pre, c, post, rfl, _, rfl⟩ := hp
  obtain ⟨m2, hrun, hinv2, _⟩ := heap_free_preserves_inv m h pre post c fuel hinv hfuel
  obtain ⟨m3, hrun3, hfr⟩ := heap_free_frame_used m h pre post c fuel hinv.1 hinv.2.1 hfuel
  rw [hrun] at hrun3
  simp only [Option.some.injEq, Prod.mk.injEq, and_true] at hrun3
  subst hrun3
  refine ⟨m2, _, hrun, hinv2, ?_, ?_, ?_⟩
  · refine le_trans (mergeRuns_length_le _) ?_
    simp
  · intro q hq hne
    exact Live_after_free h pre post c q hq hne hinv.2.1
  · intro a len hin
    exact ⟨InPayloadAt_mergeRuns h a len _ _ (InPayloadAt_setFree h c post a len pre _ hin),
      fun x h1 h2 => hfr a len x hin h1 h2⟩

/-! ## What a turn of the scheduler leaves alone -/

theorem TaskList_tnext_mem (k : Kernel) (L : List Nat) (t : Nat) (h : TaskList k L)
    (ht : t ∈ L) : (k.tcbs t).tnext = 0 ∨ (k.tcbs t).tnext ∈ L := by
  obtain ⟨A, B, rfl⟩ := List.append_of_mem ht
  have e := DSeg_tnext _ _ _ _ _ _ _ h.seg
  cases B with
  | nil => exact Or.inl e
  | cons b bs =>
    right
    rw [e]
    simp

/-- A property of the state that every deletion of a task keeps is kept by
the scan of `get_sched_priority`. -/
theorem get_sched_priority_loop_keeps (hfuel : Nat) (P : Kernel → Prop)
    (hP : ∀ (k : Kernel) (pre post : List Nat) (x : Nat) (r : Kernel × Nat),
      TaskList k (pre ++ x :: post) → HeapOwns hfuel k (pre ++ x :: post) → P k →
      delete_task hfuel k x = some r → P r.1) :
    ∀ (fuel : Nat) (k : Kernel) (tcb acc : Nat) (L : List Nat) (r : Kernel × Nat),
      TaskList k L → HeapOwns hfuel k L → (tcb = 0 ∨ tcb ∈ L) →
      get_sched_priority_loop hfuel fuel k tcb acc = some r → P k → P r.1 := by
  intro fuel
  induction fuel with
  | zero => intro k tcb acc L r _ _ _ h; exact absurd h (by simp [get_sched_priority_loop])
  | succ f ih =>
    intro k tcb acc L r hwf hown hin hrun hp
    simp only [get_sched_priority_loop] at hrun
    by_cases h0 : tcb = 0
    · rw [if_pos h0] at hrun
      simp only [Option.some.injEq] at hrun
      rw [← hrun]; exact hp
    · rw [if_neg h0] at hrun
      have hm : tcb ∈ L := by
        rcases hin with h | h
        · exact absurd h h0
        · exact h
      by_cases hk : (k.tcbs tcb).status = 255
      · rw [if_pos hk] at hrun
        obtain ⟨pre, post, rfl⟩ := List.append_of_mem hm
        obtain ⟨k1, hdel, hn0, hwf1, hown1, _, htn1⟩ :=
          delete_task_spec hfuel k pre post tcb hwf hown
        have hp1 : P k1 := hP k pre post tcb (k1, _) hwf hown hp hdel
        rw [hdel] at hrun
        simp only at hrun
        rw [if_neg hn0] at hrun
        refine ih k1 _ _ (pre ++ post) r hwf1 hown1 ?_ hrun hp1
        by_cases he : pre ++ post = []
        · left
          have e1 : pre = [] := (List.append_eq_nil.mp he).1
          have e2 : post = [] := (List.append_eq_nil.mp he).2
          subst e1 e2
          exact htn1
        · have hmem : (post ++ pre ++ [tcb]).head?.getD 0 ∈ pre ++ post := by
            cases post with
            | cons y ys => simp
            | nil =>
              cases pre with
              | cons y ys => simp
              | nil => exact absurd rfl he
          exact TaskList_tnext_mem k1 _ _ hwf1 hmem
      · rw [if_neg hk] at hrun
        exact ih k _ _ L r hwf hown (TaskList_tnext_mem k L tcb hwf hm) hrun hp

theorem delete_task_keeps (hfuel : Nat) (k0 : Kernel) (a len : Nat) (k : Kernel)
    (pre post : List Nat) (x : Nat) (r : Kernel × Nat)
    (hown : HeapOwns hfuel k (pre ++ x :: post))
    (hp : KeepsPayload k0 a len k) (hrun : delete_task hfuel k x = some r) :
    KeepsPayload k0 a len r.1 := by
  obtain ⟨hg, cs0, hinv0, hin0, hfr0⟩ := hp
  obtain ⟨cs, hinv, hlen, hlive, hdis⟩ := hown
  have ecs : cs0 = cs := WellFormed_unique _ _ _ _ hinv0.1 hinv.1
  subst ecs
  obtain ⟨hsame, hmem, hgh, _, _⟩ := task_queue_del_same k x
  have hxm : x ∈ pre ++ x :: post := by simp
  have hheap : ((task_queue_del k x).1.tcbs x).heap = (k.tcbs x).heap :=
    (SameTasks_fields _ _ hsame x).2.2.2
  obtain ⟨m1, cs1, hrun1, hinv1, hlen1, hkeep1, hpay1⟩ :=
    heap_free_keeps k.mem k.global_heap cs0 (k.tcbs x).heap hfuel hinv (hlive x hxm).2 hlen
  have hx1 : Live k.global_heap cs1 x :=
    hkeep1 x (hlive x hxm).1 (fun h => (hdis x hxm x hxm).1 h.symm)
  obtain ⟨m2, cs2, hrun2, hinv2, _, _, hpay2⟩ :=
    heap_free_keeps m1 k.global_heap cs1 x hfuel hinv1 hx1 (by omega)
  unfold delete_task at hrun
  simp only at hrun
  split at hrun
  · simp only [Option.some.injEq] at hrun
    rw [← hrun]
    exact ⟨hg, cs0, hinv0, hin0, hfr0⟩
  · unfold free_task_resources global_free at hrun
    simp only [hheap, hmem, hgh, hrun1, hrun2, Option.some.injEq] at hrun
    rw [← hrun]
    refine ⟨?_, cs2, ?_, ?_, ?_⟩
    · exact hg
    · exact hinv2
    · exact (hpay2 a len (hpay1 a len hin0).1).1
    · intro y h1 h2
      show m2 y = k0.mem y
      rw [(hpay2 a len (hpay1 a len hin0).1).2 y h1 h2, (hpay1 a len hin0).2 y h1 h2]
      exact hfr0 y h1 h2

/-- A turn of the scheduler writes into the payload of no chunk of the
global heap. -/
theorem scheduler_pass_frame (fuel hfuel : Nat) (k : Kernel) (L : List Nat) (cs : List HCB)
    (a len : Nat) (r : Kernel × SchedOutcome) (hwf : TaskList k L) (hown : HeapOwns hfuel k L)
    (hinv : HeapInv k.mem k.global_heap cs)
    (hin : InPayloadAt k.global_heap sizeof_HEAP cs a len)
    (hrun : scheduler_pass fuel hfuel k = some r) :
    ∀ x, a ≤ x → x < a + len → r.1.mem x = k.mem x := by
  have hstart : KeepsPayload k a len k := ⟨rfl, cs, hinv, hin, fun _ _ _ => rfl⟩
  have hfirst : k.first = 0 ∨ k.first ∈ L := by
    have e := DSeg_cur _ _ _ _ _ hwf.seg
    cases L with
    | nil => exact Or.inl e
    | cons b bs => right; rw [e]; simp
  unfold scheduler_pass at hrun
  cases hs : get_sched_priority fuel hfuel k with
  | none => rw [hs] at hrun; exact absurd hrun (by simp)
  | some r1 =>
    have hk := get_sched_priority_loop_keeps hfuel (KeepsPayload k a len)
      (fun k' pre post x r' h1 h2 h3 h4 => delete_task_keeps hfuel k a len k' pre post x r' h2 h3 h4)
      fuel k k.first 0xFF L r1 hwf hown hfirst hs hstart
    obtain ⟨_, _, _, _, hfr⟩ := hk
    rw [hs] at hrun
    simp only at hrun
    split at hrun
    · simp only [Option.some.injEq] at hrun
      rw [← hrun]; exact hfr
    · split at hrun
      · exact absurd hrun (by simp)
      · simp only [Option.some.injEq] at hrun
        rw [← hrun]; exact hfr

/-! ## What `task_create` leaves alone -/

theorem InPayloadAt_append_right (h : Nat) (ys : List HCB) (a len : Nat) :
    ∀ (xs : List HCB) (off : Nat), InPayloadAt h (off + sizeSum xs) ys a len →
      InPayloadAt h off (xs ++ ys) a len := by
  intro xs
  induction xs with
  | nil => intro off hin; simpa [sizeSum] using hin
  | cons x xs ih =>
    intro off hin
    right
    refine ih (off + x.size) ?_
    have e : off + x.size + sizeSum xs = off + sizeSum (x :: xs) := by
      simp only [sizeSum]; omega
    rw [e]; exact hin

theorem Live_splitChunk (h n : Nat) (pre post : List HCB) (c : HCB) (q : Nat)
    (hc : c.status = HEAP_STATUS_FREE) (hfit : n + sizeof_HCB ≤ c.size)
    (hq : Live h (pre ++ c :: post) q) : Live h (pre ++ splitChunk n c ++ post) q := by
  obtain ⟨pre2, d, post2, hcs, hd, hqa⟩ := hq
  have hne : c ≠ d := by
    intro e
    rw [← e, hc] at hd
    exact absurd hd (by decide)
  rw [List.append_eq_append_iff] at hcs
  rcases hcs with ⟨a, h1, h2⟩ | ⟨b, h1, h2⟩
  · cases a with
    | nil =>
      simp only [List.nil_append, List.cons.injEq] at h2
      exact absurd h2.1 hne
    | cons z zs =>
      simp only [List.cons_append, List.cons.injEq] at h2
      obtain ⟨rfl, rfl⟩ := h2
      refine ⟨pre ++ splitChunk n c ++ zs, d, post2, by simp, hd, ?_⟩
      rw [hqa, h1, sizeSum_append, sizeSum_append, sizeSum_append, sizeSum_splitChunk n c hfit]
      simp only [sizeSum]
      omega
  · cases b with
    | nil =>
      simp only [List.nil_append, List.cons.injEq] at h2
      exact absurd h2.1.symm hne
    | cons z zs =>
      simp only [List.cons_append, List.cons.injEq] at h2
      obtain ⟨rfl, rfl⟩ := h2
      exact ⟨pre2, d, zs ++ splitChunk n c ++ post, by rw [h1]; simp, hd, hqa⟩

/-- A call of `heap_alloc` on a heap that satisfies the invariants returns,
keeps the invariants and the blocks in use, and writes inside the heap only,
outside the payload of every chunk in use; the block it returns is a new
block in use, apart from what was in use. -/
theorem heap_alloc_keeps (m : Mem) (h : Nat) (cs : List HCB) (n fuel : Nat)
    (hinv : HeapInv m h cs) (hn : n + sizeof_HCB + HEAP_MIN_NODE_SIZE < U32)
    (hfuel : cs.length < fuel) :
    ∃ m2 p cs2, heap_alloc fuel m h n = some (m2, p) ∧ HeapInv m2 h cs2 ∧
      cs2.length ≤ cs.length + 1 ∧ heap_size m2 h = heap_size m h ∧
      (∀ q, Live h cs q → Live h cs2 q ∧ q ≠ p) ∧
      (∀ a len, InUsed h cs a len → InUsed h cs2 a len ∧
        (∀ x, a ≤ x → x < a + len → m2 x = m x) ∧ (p ≠ 0 → Apart a len p n)) ∧
      (∀ x, x < h + sizeof_HEAP ∨ h + heap_size m h ≤ x → m2 x = m x) ∧
      (p = 0 → m2 = m ∧ cs2 = cs) ∧
      (p ≠ 0 → Live h cs2 p ∧ InPayloadAt h sizeof_HEAP cs2 p n ∧
        h + sizeof_HEAP + sizeof_HCB ≤ p ∧ p + n ≤ h + heap_size m h) := by
  have e20 : sizeof_HCB = 20 := rfl
  have e12 : sizeof_HEAP = 12 := rfl
  have e24 : HEAP_MIN_NODE_SIZE = 24 := rfl
  rcases heap_alloc_search m h cs n fuel hinv.1 (by omega) hfuel with
    ⟨pre, c, post, rfl, _, hfit, hrun⟩ | ⟨_, hrun⟩
  · obtain ⟨hptr, _, hframe⟩ :=
      heap_alloc_take_chain m h pre post c n hinv.1 hinv.2.1 hfit hn
    obtain ⟨hinv2, hsz⟩ := heap_alloc_take_inv m h pre post c n hinv hfit hn
    obtain ⟨u, rest, hsp, hu, husz⟩ := splitChunk_head n c hfit.2
    have htot := hinv.1.total
    rw [sizeSum_append] at htot
    simp only [sizeSum] at htot
    have hp0 : (heap_alloc_take m (h + sizeof_HEAP + sizeSum pre) n).2 ≠ 0 := by
      rw [hptr]; omega
    refine ⟨(heap_alloc_take m (h + sizeof_HEAP + sizeSum pre) n).1,
      (heap_alloc_take m (h + sizeof_HEAP + sizeSum pre) n).2,
      pre ++ splitChunk n c ++ post, hrun, hinv2, ?_, hsz, ?_, ?_, ?_, ?_, ?_⟩
    · have : (splitChunk n c).length ≤ 2 := by
        unfold splitChunk; split <;> simp
      simp only [List.length_append, List.length_cons]
      omega
    · intro q hq
      refine ⟨Live_splitChunk h n pre post c q hfit.1 hfit.2 hq, ?_⟩
      rw [hptr]
      exact Live_ne_free h pre post c q hinv.1.sizes hfit.1 hq
    · intro a len hin
      refine ⟨InUsedAt_splitChunk h n c post a len hfit.1 hfit.2 pre _ hin, ?_, ?_⟩
      · intro x h1 h2
        exact heap_alloc_take_frame_used m h pre post c n hinv.1 hinv.2.1 hfit hn a len x hin
          h1 h2
      · intro _
        have := InUsedAt_apart_free h c post a len hfit.1 pre sizeof_HEAP hin
        have hf2 := hfit.2
        rw [hptr]
        unfold Apart
        omega
    · intro x hx
      exact hframe x (by omega)
    · intro h0; exact absurd h0 hp0
    · intro _
      refine ⟨⟨pre, u, rest ++ post, by rw [hsp]; simp, hu, hptr⟩, ?_, by rw [hptr]; omega, ?_⟩
      · rw [hsp]
        have e : pre ++ u :: rest ++ post = pre ++ (u :: (rest ++ post)) := by simp
        rw [e]
        refine InPayloadAt_append_right h _ _ _ pre _ (Or.inl ?_)
        rw [hptr]
        omega
      · have hf2 := hfit.2
        rw [hptr]
        omega
  · refine ⟨m, 0, cs, hrun, hinv, by omega, rfl, ?_, ?_, fun _ _ => rfl, fun _ => ⟨rfl, rfl⟩,
      fun h0 => absurd rfl h0⟩
    · intro q hq
      refine ⟨hq, ?_⟩
      obtain ⟨_, _, _, _, _, e⟩ := hq
      omega
    · intro a len hin
      exact ⟨hin, fun _ _ _ => rfl, fun h0 => absurd rfl h0⟩

theorem init_heap_frame (m : Mem) (start size x : Nat)
    (hx : x < start ∨ start + sizeof_HEAP + sizeof_HCB ≤ x) :
    (init_heap m start size).1 x = m x := by
  have e20 : sizeof_HCB = 20 := rfl
  have e12 : sizeof_HEAP = 12 := rfl
  unfold init_heap
  split
  · rfl
  · split
    · rfl
    · simp only
      rw [set_status_frame _ _ _ _ (by omega), set_magic_frame _ _ _ _ (by omega),
        set_start_frame _ _ _ _ (by omega), set_size_frame _ _ _ _ (by omega)]
      unfold set_heap_address set_heap_size
      rw [write32_frame _ _ _ _ (by omega), write32_frame _ _ _ _ (by omega)]

/-- The error path of `task_create` frees blocks in use of the global heap:
it writes into the payload of no chunk. -/
theorem task_create_error_frame (hfuel : Nat) (k : Kernel) (tcb heap_tmp : Nat)
    (r : Kernel × Nat) (hrun : task_create_error hfuel k tcb heap_tmp = some r)
    (cs : List HCB) (hinv : HeapInv k.mem k.global_heap cs)
    (hlen : cs.length < hfuel) (ht : tcb ≠ 0 → Live k.global_heap cs tcb)
    (hh : heap_tmp ≠ 0 → Live k.global_heap cs heap_tmp) (hne : tcb ≠ heap_tmp ∨ tcb = 0)
    (a len : Nat)
    (hin : InPayloadAt k.global_heap sizeof_HEAP cs a len) :
    ∀ x, a ≤ x → x < a + len → r.1.mem x = k.mem x := by
  unfold task_create_error at hrun
  by_cases h1 : tcb ≠ 0
  · rw [if_pos h1] at hrun
    obtain ⟨m1, cs1, hrun1, hinv1, hlen1, hkeep1, hpay1⟩ :=
      heap_free_keeps k.mem k.global_heap cs tcb hfuel hinv (ht h1) hlen
    unfold global_free at hrun
    simp only [hrun1] at hrun
    by_cases h2 : heap_tmp ≠ 0
    · rw [if_pos h2] at hrun
      have hl2 : Live k.global_heap cs1 heap_tmp := hkeep1 _ (hh h2) (by
        rcases hne with h | h
        · exact fun e => h e.symm
        · exact absurd h h1)
      obtain ⟨m2, cs2, hrun2, _, _, _, hpay2⟩ :=
        heap_free_keeps m1 k.global_heap cs1 heap_tmp hfuel hinv1 hl2 (by omega)
      simp only [hrun2, Option.some.injEq] at hrun
      rw [← hrun]
      intro x hx1 hx2
      show m2 x = k.mem x
      rw [(hpay2 a len (hpay1 a len hin).1).2 x hx1 hx2, (hpay1 a len hin).2 x hx1 hx2]
    · rw [if_neg h2] at hrun
      simp only [Option.some.injEq] at hrun
      rw [← hrun]
      intro x hx1 hx2
      exact (hpay1 a len hin).2 x hx1 hx2
  · rw [if_neg h1] at hrun
    simp only at hrun
    by_cases h2 : heap_tmp ≠ 0
    · rw [if_pos h2] at hrun
      obtain ⟨m2, cs2, hrun2, _, _, _, hpay2⟩ :=
        heap_free_keeps k.mem k.global_heap cs heap_tmp hfuel hinv (hh h2) hlen
      unfold global_free at hrun
      simp only [hrun2, Option.some.injEq] at hrun
      rw [← hrun]
      intro x hx1 hx2
      exact (hpay2 a len hin).2 x hx1 hx2
    · rw [if_neg h2] at hrun
      simp only [Option.some.injEq] at hrun
      rw [← hrun]
      intro x _ _
      rfl

/-- A call of `task_create` writes into the payload of no chunk that was in
use in the global heap before the call. -/
theorem task_create_frame (hfuel saved : Nat) (k : Kernel)
    (entry arg stksize hsize prio : Nat) (cs : List HCB) (a len : Nat) (r : Kernel × Nat)
    (hinv : HeapInv k.mem k.global_heap cs) (hlen : cs.length + 2 < hfuel)
    (hov1 : stksize + sizeof_HCB + HEAP_MIN_NODE_SIZE < U32)
    (hov2 : hsize + sizeof_HCB + HEAP_MIN_NODE_SIZE < U32)
    (hin : InUsed k.global_heap cs a len)
    (hrun : task_create hfuel saved k entry arg stksize hsize prio = some r) :
    ∀ x, a ≤ x → x < a + len → r.1.mem x = k.mem x := by
  have e20 : sizeof_HCB = 20 := rfl
  have e12 : sizeof_HEAP = 12 := rfl
  have e1024 : HEAP_MIN_SIZE = 1024 := rfl
  obtain ⟨m1, tcb, cs1, h1, hinv1, hlen1, _, _, hused1, _, _, hnew1⟩ :=
    heap_alloc_keeps k.mem k.global_heap cs sizeof_TCB hfuel hinv (by decide) (by omega)
  obtain ⟨hin1, hfr1, _⟩ := hused1 a len hin
  unfold task_create at hrun
  simp only [global_alloc, h1] at hrun
  by_cases ht : tcb = 0
  · rw [if_pos ht] at hrun
    have hf := task_create_error_frame hfuel _ 0 0 r hrun cs1 hinv1 (by omega)
      (fun h => absurd rfl h) (fun h => absurd rfl h) (Or.inr rfl) a len
      (InUsedAt_payload _ _ _ _ _ hin1)
    intro x hx1 hx2
    rw [hf x hx1 hx2]
    exact hfr1 x hx1 hx2
  · rw [if_neg ht] at hrun
    simp only [setTcb] at hrun
    obtain ⟨m3, heap_tmp, cs3, h2, hinv3, hlen3, _, hlive3, hused3, _, _, hnew3⟩ :=
      heap_alloc_keeps m1 k.global_heap cs1 hsize hfuel hinv1 hov2 (by omega)
    obtain ⟨hin3, hfr3, hap3⟩ := hused3 a len hin1
    have htl : Live k.global_heap cs3 tcb := (hlive3 tcb (hnew1 ht).1).1
    have htne : tcb ≠ heap_tmp := (hlive3 tcb (hnew1 ht).1).2
    simp only [h2] at hrun
    have hpay3 := InUsedAt_payload _ _ _ _ _ hin3
    by_cases hh : heap_tmp = 0
    · rw [if_pos hh] at hrun
      have hf := task_create_error_frame hfuel _ tcb 0 r hrun cs3 hinv3 (by omega)
        (fun _ => htl) (fun h => absurd rfl h) (Or.inl ht) a len hpay3
      intro x hx1 hx2
      rw [hf x hx1 hx2]
      show m3 x = k.mem x
      rw [hfr3 x hx1 hx2, hfr1 x hx1 hx2]
    · rw [if_neg hh] at hrun
      obtain ⟨hhl, hB, hlo, hhi⟩ := hnew3 hh
      have hap := hap3 hh
      have hin32 : heap_tmp + hsize < U32 := by
        have := hinv1.1.inrange
        omega
      have herr : ∀ (kk : Kernel), task_create_error hfuel kk tcb heap_tmp = some r →
          kk.global_heap = k.global_heap →
          (∀ x, x < heap_tmp ∨ heap_tmp + hsize ≤ x → kk.mem x = m3 x) →
          ∀ x, a ≤ x → x < a + len → r.1.mem x = k.mem x := by
        intro kk he hg hd x hx1 hx2
        have hi2 : HeapInv kk.mem kk.global_heap cs3 := by
          rw [hg]
          exact HeapInv_congr_payload m3 kk.mem k.global_heap heap_tmp hsize cs3 hd hB hinv3
        have hf := task_create_error_frame hfuel kk tcb heap_tmp r he cs3 hi2 (by omega)
          (fun _ => by rw [hg]; exact htl) (fun _ => by rw [hg]; exact hhl) (Or.inl htne)
          a len (by rw [hg]; exact hpay3) x hx1 hx2
        rw [hf, hd x (by unfold Apart at hap; omega), hfr3 x hx1 hx2, hfr1 x hx1 hx2]
      unfold task_create_heap at hrun
      simp only [setTcb, if_true] at hrun
      have hif : ∀ x, x < heap_tmp ∨ heap_tmp + hsize ≤ x →
          (init_heap m3 heap_tmp hsize).1 x = m3 x := by
        intro x hx
        by_cases hs : hsize < HEAP_MIN_SIZE
        · unfold init_heap
          rw [if_neg hh, if_pos hs]
        · exact init_heap_frame m3 heap_tmp hsize x (by omega)
      by_cases hi : (init_heap m3 heap_tmp hsize).2 = 0
      · rw [if_pos hi] at hrun
        exact herr _ hrun rfl hif
      · rw [if_neg hi] at hrun
        obtain ⟨_, hmin, hH⟩ := init_heap_nonnull _ _ _ hi
        have hti := init_heap_inv m3 heap_tmp hsize hh hmin hin32
        have hsz4 : heap_size (init_heap m3 heap_tmp hsize).1 heap_tmp = hsize :=
          (init_heap_fields m3 heap_tmp hsize (by omega) (by omega) hh hmin).2.1
        simp only [tcb_alloc, if_true] at hrun
        rw [hH] at hrun
        obtain ⟨m5, stack, cs5, h3, hinv5, hlen5, hsz5, _, _, hout5, _, hnew5⟩ :=
          heap_alloc_keeps (init_heap m3 heap_tmp hsize).1 heap_tmp _ stksize hfuel hti hov1
            (by simp only [List.length_singleton]; omega)
        simp only [h3] at hrun
        have hd5 : ∀ x, x < heap_tmp ∨ heap_tmp + hsize ≤ x → m5 x = m3 x := by
          intro x hx
          rw [hout5 x (by rw [hsz4]; omega), hif x hx]
        by_cases hs : stack = 0
        · rw [if_pos hs] at hrun
          exact herr _ hrun rfl hd5
        · rw [if_neg hs] at hrun
          simp only [if_true] at hrun
          obtain ⟨m6, eq, cs6, h4, _, _, _, _, _, hout6, _, _⟩ :=
            heap_alloc_keeps m5 heap_tmp cs5 sizeof_EVENT_QUEUE hfuel hinv5 (by decide)
              (by simp only [List.length_singleton] at hlen5; omega)
          simp only [h4] at hrun
          have hd6 : ∀ x, x < heap_tmp ∨ heap_tmp + hsize ≤ x → m6 x = m3 x := by
            intro x hx
            rw [hout6 x (by rw [hsz5, hsz4]; omega), hd5 x hx]
          by_cases he : eq = 0
          · rw [if_pos he] at hrun
            exact herr _ hrun rfl hd6
          · rw [if_neg he] at hrun
            unfold task_create_finish at hrun
            simp only [setup_stack_frame] at hrun
            have hfill : ∀ x, x < heap_tmp ∨ heap_tmp + hsize ≤ x →
                fill_bytes m6 stack TASK_STACK_MAGIC stksize x = m3 x := by
              intro x hx
              obtain ⟨_, _, hslo, hshi⟩ := hnew5 hs
              rw [hsz4] at hshi
              rw [fill_bytes_frame _ _ _ _ _ (by omega), hd6 x hx]
            by_cases hsv : saved = 0
            · subst hsv
              simp only [ne_eq, not_true_eq_false, if_false, setTcb, if_true,
                Option.some.injEq] at hrun
              rw [← hrun]
              intro x hx1 hx2
              show (task_queue_add _ tcb).mem x = k.mem x
              rw [(task_queue_add_same _ _).2.1]
              show fill_bytes m6 stack TASK_STACK_MAGIC stksize x = k.mem x
              rw [hfill x (by unfold Apart at hap; omega), hfr3 x hx1 hx2, hfr1 x hx1 hx2]
            · simp only [ne_eq, hsv, not_false_eq_true, if_true, setTcb] at hrun
              exact herr _ hrun rfl hfill

/-! ## The inbox of a task that waits for an event -/

theorem SameBoxes_refl (k : Kernel) : SameBoxes k k := ⟨rfl, fun _ => ⟨rfl, rfl⟩⟩

theorem SameBoxes_of_tcbs (k k2 : Kernel) (h : k2.tcbs = k.tcbs) (hf : k2.first = k.first) :
    SameBoxes k k2 := ⟨hf, fun p => by rw [h]; exact ⟨rfl, rfl⟩⟩

theorem SameBoxes_setTcb (k : Kernel) (t : Nat) (f : TCB → TCB)
    (hf : ∀ x : TCB, (f x).tnext = x.tnext ∧ (f x).event_queue = x.event_queue) :
    SameBoxes k (setTcb k t f) := by
  refine ⟨rfl, fun p => ?_⟩
  rw [setTcb_tcbs]
  by_cases hp : p = t
  · rw [if_pos hp, hp]; exact hf _
  · rw [if_neg hp]; exact ⟨rfl, rfl⟩

theorem SameBoxes_trans (a b c : Kernel) (h1 : SameBoxes a b) (h2 : SameBoxes b c) :
    SameBoxes a c :=
  ⟨h2.1.trans h1.1, fun p => ⟨(h2.2 p).1.trans (h1.2 p).1, (h2.2 p).2.trans (h1.2 p).2⟩⟩

/-- The invariant is kept by a step that keeps the list links, the inboxes
and the memory of the inbox counters, and sets no flag. -/
theorem InboxInv_of_same (k k2 : Kernel) (L : List Nat) (hl : TaskList k L)
    (hinv : InboxInv k) (hs : SameBoxes k k2)
    (hkeep : ∀ t ∈ L, TESTFLAG (k2.tcbs t).flags WAIT_FOR_EVENT ≠ 0 →
      eq_num_events k2.mem (k.tcbs t).event_queue = 0 ∨
      (TESTFLAG (k.tcbs t).flags WAIT_FOR_EVENT ≠ 0 ∧
        ∀ x, (k.tcbs t).event_queue ≤ x → x < (k.tcbs t).event_queue + 4 →
          k2.mem x = k.mem x)) :
    InboxInv k2 := by
  intro L2 hl2 t ht hf
  have e : L2 = L := TaskList_unique k k2 L L2 hl hl2 hs.1 (fun p _ => (hs.2 p).1)
  subst e
  rw [(hs.2 t).2]
  rcases hkeep t ht hf with h | ⟨h1, h2⟩
  · exact h
  · have := hinv L2 hl t ht h1
    unfold eq_num_events at this ⊢
    rw [read32_congr k.mem k2.mem _ h2]
    exact this

/-- A step that changes the status or the priority of one task only. -/
theorem InboxInv_setTcb (k : Kernel) (L : List Nat) (t : Nat) (f : TCB → TCB)
    (hl : TaskList k L) (hinv : InboxInv k)
    (hf : ∀ x : TCB, (f x).tnext = x.tnext ∧ (f x).event_queue = x.event_queue ∧
      (f x).flags = x.flags) :
    InboxInv (setTcb k t f) := by
  refine InboxInv_of_same k _ L hl hinv (SameBoxes_setTcb k t f (fun x => ⟨(hf x).1, (hf x).2.1⟩))
    ?_
  intro p _ hp
  right
  refine ⟨?_, fun _ _ _ => rfl⟩
  rw [setTcb_tcbs] at hp
  by_cases e : p = t
  · rw [if_pos e, (hf _).2.2] at hp
    rw [e]; exact hp
  · rw [if_neg e] at hp
    exact hp

theorem task_kill_inbox (k : Kernel) (L : List Nat) (tcb : Nat) (hl : TaskList k L)
    (hinv : InboxInv k) : InboxInv (task_kill k tcb).1 := by
  have e : task_kill k tcb =
      if callTarget k tcb = 0 then (k, some TASK_ERROR)
      else (setTcb k (callTarget k tcb) (fun x => { x with status := TASK_KILLED }), none) := rfl
  by_cases h0 : callTarget k tcb = 0
  · rw [e, if_pos h0]; exact hinv
  · rw [e, if_neg h0]
    exact InboxInv_setTcb k L (callTarget k tcb) (fun x => { x with status := TASK_KILLED })
      hl hinv (fun _ => ⟨rfl, rfl, rfl⟩)

theorem task_set_status_inbox (k : Kernel) (L : List Nat) (tcb : Nat) (status : Int)
    (hl : TaskList k L) (hinv : InboxInv k) : InboxInv (task_set_status k tcb status).1 := by
  have e : task_set_status k tcb status =
      if callTarget k tcb = 0 then (k, some TASK_ERROR)
      else (setTcb k (callTarget k tcb) (fun x => { x with status := status }), none) := rfl
  by_cases h0 : callTarget k tcb = 0
  · rw [e, if_pos h0]; exact hinv
  · rw [e, if_neg h0]
    exact InboxInv_setTcb k L (callTarget k tcb) (fun x => { x with status := status })
      hl hinv (fun _ => ⟨rfl, rfl, rfl⟩)

theorem task_set_priority_inbox (k : Kernel) (L : List Nat) (tcb prio : Nat)
    (hl : TaskList k L) (hinv : InboxInv k) : InboxInv (task_set_priority k tcb prio) := by
  have e : task_set_priority k tcb prio =
      if callTarget k tcb = 0 then k
      else setTcb k (callTarget k tcb) (fun x => { x with priority := prio }) := rfl
  by_cases h0 : callTarget k tcb = 0
  · rw [e, if_pos h0]; exact hinv
  · rw [e, if_neg h0]
    exact InboxInv_setTcb k L (callTarget k tcb) (fun x => { x with priority := prio })
      hl hinv (fun _ => ⟨rfl, rfl, rfl⟩)

theorem event_task_suspend_inbox (et : Nat) (k k2 : Kernel) (L : List Nat)
    (hl : TaskList k L) (hinv : InboxInv k) (h : event_task_suspend et k = some k2) :
    InboxInv k2 := by
  unfold event_task_suspend at h
  simp only at h
  split at h
  · exact absurd h (by simp)
  · rename_i h0
    simp only [Option.some.injEq] at h
    have hm : (dequeue_event k.mem (k.tcbs et).event_queue).1 = k.mem := by
      unfold dequeue_event at h0 ⊢
      by_cases hf : eq_first k.mem (k.tcbs et).event_queue = 0
      · rw [if_pos hf]
      · rw [if_neg hf] at h0
        exact absurd h0 (by simpa using hf)
    rw [← h, hm]
    exact InboxInv_setTcb k L et (fun t => { t with status := TASK_SUSPENDED })
      hl hinv (fun _ => ⟨rfl, rfl, rfl⟩)

theorem wait_event_block_inbox (k : Kernel) (L : List Nat) (hl : TaskList k L)
    (hinv : InboxInv k)
    (h0 : eq_num_events k.mem (k.tcbs k.current_task).event_queue = 0) :
    InboxInv (wait_event_block k) := by
  have hs : SameBoxes k (wait_event_block k) := by
    refine ⟨rfl, fun p => ?_⟩
    rw [wait_event_block_tcbs]
    split
    · exact ⟨rfl, rfl⟩
    · exact ⟨rfl, rfl⟩
  refine InboxInv_of_same k _ L hl hinv hs ?_
  intro p _ hp
  by_cases e : p = k.current_task
  · left
    rw [e]
    exact h0
  · right
    rw [wait_event_block_tcbs, if_neg e] at hp
    exact ⟨hp, fun _ _ _ => rfl⟩

theorem dequeue_event_first (m : Mem) (q : Nat) (h : eq_first m q ≠ 0) :
    (dequeue_event m q).2 = eq_first m q := by
  unfold dequeue_event
  rw [if_neg h]

/-- The task that runs takes the first event out of its inbox and frees
it. -/
theorem dequeue_free_inbox (et hfuel : Nat) (k : Kernel) (cs : List HCB) (L : List Nat)
    (r : Kernel × Nat) (hs : MemSafe et k cs L) (hlen : cs.length < hfuel) (hinv : InboxInv k)
    (hn : eq_num_events k.mem (k.tcbs k.current_task).event_queue ≠ 0)
    (hrun : free_event hfuel
      { k with mem := (dequeue_event k.mem (k.tcbs k.current_task).event_queue).1 }
      (dequeue_event k.mem (k.tcbs k.current_task).event_queue).2 = some r) :
    InboxInv r.1 := by
  have hc : k.current_task ∈ L := hs.tasks.cursor (List.ne_nil_of_mem hs.broker)
  have hf := hs.counts _ hc hn
  have hd : ∀ x, x < (k.tcbs k.current_task).event_queue ∨
      (k.tcbs k.current_task).event_queue + 12 ≤ x →
      (dequeue_event k.mem (k.tcbs k.current_task).event_queue).1 x = k.mem x :=
    fun x hx => dequeue_event_frame k.mem _ x hx
  have hi2 : HeapInv (dequeue_event k.mem (k.tcbs k.current_task).event_queue).1
      k.global_heap cs :=
    HeapInv_congr_payload k.mem _ k.global_heap _ 12 cs hd
      (InUsedAt_payload _ _ _ _ _ (hs.boxes _ hc)) hs.heap
  have hlive : Live k.global_heap cs
      (dequeue_event k.mem (k.tcbs k.current_task).event_queue).2 := by
    rw [dequeue_event_first _ _ hf]
    exact (hs.firsts _ hc hf).1
  obtain ⟨m2, cs2, hfree, _, _, _, hpay⟩ :=
    heap_free_keeps _ k.global_heap cs _ hfuel hi2 hlive hlen
  unfold free_event global_free at hrun
  simp only [hfree, Option.some.injEq] at hrun
  rw [← hrun]
  refine InboxInv_of_same k _ L hs.tasks hinv (SameBoxes_of_tcbs _ _ rfl rfl) ?_
  intro p hp hfl
  right
  refine ⟨hfl, ?_⟩
  intro x hx1 hx2
  have hne : p ≠ k.current_task := by
    intro e
    rw [e] at hfl
    exact hn (hinv L hs.tasks _ hc hfl)
  have hap := hs.apart p hp _ hc hne
  show m2 x = k.mem x
  rw [(hpay _ 12 (InUsedAt_payload _ _ _ _ _ (hs.boxes p hp))).2 x hx1 (by omega)]
  exact hd x (by unfold Apart at hap; omega)

theorem check_event_inbox (et hfuel : Nat) (k : Kernel) (cs : List HCB) (L : List Nat)
    (sty : Nat) (r : Kernel × Nat × Nat × Nat) (hs : MemSafe et k cs L)
    (hlen : cs.length < hfuel) (hinv : InboxInv k)
    (hrun : check_event hfuel k sty = some r) : InboxInv r.1 := by
  unfold check_event at hrun
  simp only [get_current_task_tcb] at hrun
  by_cases hn : eq_num_events k.mem (k.tcbs k.current_task).event_queue = 0
  · rw [if_pos hn] at hrun
    simp only [Option.some.injEq] at hrun
    rw [← hrun]; exact hinv
  · rw [if_neg hn] at hrun
    split at hrun
    · exact absurd hrun (by simp)
    · rename_i k2 x hfree
      simp only [Option.some.injEq] at hrun
      rw [← hrun]
      exact dequeue_free_inbox et hfuel k cs L (k2, x) hs hlen hinv hn hfree

theorem wait_event_inbox (et hfuel fuel : Nat) (k : Kernel) (cs : List HCB) (L : List Nat)
    (o : WaitOutcome) (hs : MemSafe et k cs L) (hlen : cs.length < hfuel) (hinv : InboxInv k)
    (hrun : wait_event hfuel fuel k = some o) : InboxInv (waitState o) := by
  rcases wait_event_some hfuel fuel k o hrun with ⟨h0, rfl⟩ | ⟨hn, r, hr, he⟩
  · exact wait_event_block_inbox k L hs.tasks hinv h0
  · rw [he]
    exact dequeue_free_inbox et hfuel k cs L r hs hlen hinv hn hr

theorem generate_event_inbox (et hfuel : Nat) (k : Kernel) (cs : List HCB) (L : List Nat)
    (tcb type subtype : Nat) (r : Kernel × Nat) (hs : MemSafe et k cs L)
    (hlen : cs.length < hfuel) (hinv : InboxInv k)
    (hb : TESTFLAG (k.tcbs et).flags WAIT_FOR_EVENT = 0)
    (hrun : generate_event hfuel k et tcb type subtype = some r) : InboxInv r.1 := by
  obtain ⟨m2, p, cs2, h1, _, _, _, _, hused, _, hnull, _⟩ :=
    heap_alloc_keeps k.mem k.global_heap cs sizeof_EVENT hfuel hs.heap (by decide) hlen
  have ha : allocate_event hfuel k = some ({ k with mem := m2 }, p) := by
    unfold allocate_event global_alloc
    simp only [h1]
  by_cases hp : p = 0
  · subst hp
    rw [generate_event_of_alloc_null hfuel k et tcb type subtype _ ha] at hrun
    simp only [Option.some.injEq] at hrun
    rw [← hrun]
    refine InboxInv_of_same k _ L hs.tasks hinv (SameBoxes_of_tcbs _ _ rfl rfl) ?_
    intro t _ hfl
    right
    refine ⟨hfl, fun x _ _ => ?_⟩
    show m2 x = k.mem x
    rw [(hnull rfl).1]
  · rw [generate_event_of_alloc hfuel k et tcb type subtype _ p ha hp] at hrun
    simp only [Option.some.injEq] at hrun
    have hsb : SameBoxes k r.1 := by
      rw [← hrun]
      exact SameBoxes_trans _ _ _ (SameBoxes_of_tcbs k _ rfl rfl)
        (SameBoxes_setTcb _ et (fun t => { t with status := TASK_RUNABLE })
          (fun _ => ⟨rfl, rfl⟩))
    refine InboxInv_of_same k _ L hs.tasks hinv hsb ?_
    intro t ht hfl
    right
    have hfl2 : TESTFLAG (k.tcbs t).flags WAIT_FOR_EVENT ≠ 0 := by
      have e : (r.1.tcbs t).flags = (k.tcbs t).flags := by
        rw [← hrun]
        show ((setTcb _ et (fun t => { t with status := TASK_RUNABLE })).tcbs t).flags = _
        rw [setTcb_tcbs]
        by_cases e1 : t = et
        · rw [if_pos e1, e1]
        · rw [if_neg e1]
      rw [e] at hfl
      exact hfl
    refine ⟨hfl2, ?_⟩
    have hte : t ≠ et := by
      intro e
      rw [e] at hfl2
      exact hfl2 hb
    obtain ⟨_, hfrt, hapt⟩ := hused _ 12 (hs.boxes t ht)
    obtain ⟨_, hfre, hape⟩ := hused _ 12 (hs.boxes et hs.broker)
    have hapt2 := hapt hp
    have hape2 := hape hp
    have hbb := hs.apart t ht et hs.broker hte
    have e32 : sizeof_EVENT = 32 := rfl
    unfold Apart at hapt2 hape2 hbb
    rw [e32] at hapt2 hape2
    intro x hx1 hx2
    rw [← hrun]
    show enqueue_event _ (k.tcbs et).event_queue p x = k.mem x
    have hst := (event_stores m2 p type subtype (if tcb = 0 then get_current_task_tcb k else tcb)
      (get_current_task_tcb ({ k with mem := m2 } : Kernel))).2.2.2.2.2
    have hlast : eq_last (write32 (write32 (write32 (write32 (write32 m2 p type) (p + 4) subtype)
        (p + 12) (if tcb = 0 then get_current_task_tcb k else tcb))
        (p + 8) (get_current_task_tcb ({ k with mem := m2 } : Kernel))) (p + 16) 0)
        (k.tcbs et).event_queue = eq_last k.mem (k.tcbs et).event_queue := by
      unfold eq_last
      refine read32_congr _ _ _ (fun y hy1 hy2 => ?_)
      rw [hst y (by omega)]
      exact hfre y (by omega) (by omega)
    rw [enqueue_event_frame2 _ _ _ x (by omega) ?_ (fun _ => by omega)]
    · rw [hst x (by omega)]
      exact hfrt x hx1 (by omega)
    · intro hl
      rw [hlast] at hl ⊢
      have := hs.lasts et hs.broker hl t ht
      unfold Apart at this
      omega

theorem event_task_deliver_first (k : Kernel) (e : Nat) :
    (event_task_deliver k e).first = k.first := by
  unfold event_task_deliver
  simp only
  split <;> rfl

theorem event_task_step_inbox (et : Nat) (k k2 : Kernel) (cs : List HCB) (L : List Nat)
    (hs : MemSafe et k cs L) (hinv : InboxInv k)
    (hb : TESTFLAG (k.tcbs et).flags WAIT_FOR_EVENT = 0)
    (hrun : event_task_step et k = some k2) : InboxInv k2 := by
  unfold event_task_step at hrun
  simp only at hrun
  split at hrun
  swap
  · exact absurd hrun (by simp)
  rename_i hr2
  simp only [Option.some.injEq] at hrun
  have hf : eq_first k.mem (k.tcbs et).event_queue ≠ 0 := by
    intro h0
    rw [dequeue_event_empty _ _ h0] at hr2
    exact hr2 rfl
  have he := dequeue_event_first k.mem (k.tcbs et).event_queue hf
  rw [he] at hrun
  obtain ⟨_, hfa⟩ := hs.firsts et hs.broker hf
  obtain ⟨hdL, hdne⟩ := hs.dests hf
  have hdq : ∀ x, x < (k.tcbs et).event_queue ∨ (k.tcbs et).event_queue + 12 ≤ x →
      (dequeue_event k.mem (k.tcbs et).event_queue).1 x = k.mem x :=
    fun x hx => dequeue_event_frame k.mem _ x hx
  have hbe := hfa et hs.broker
  have hd : event_destination (dequeue_event k.mem (k.tcbs et).event_queue).1
      (eq_first k.mem (k.tcbs et).event_queue) =
      event_destination k.mem (eq_first k.mem (k.tcbs et).event_queue) := by
    unfold event_destination
    refine read32_congr _ _ _ (fun y hy1 hy2 => hdq y ?_)
    unfold Apart at hbe
    omega
  have htc : ∀ t, k2.tcbs t =
      if t = event_destination k.mem (eq_first k.mem (k.tcbs et).event_queue) ∧
          TESTFLAG (k.tcbs (event_destination k.mem
            (eq_first k.mem (k.tcbs et).event_queue))).flags WAIT_FOR_EVENT ≠ 0 then
        woken (k.tcbs t)
      else k.tcbs t := by
    intro t
    rw [← hrun, event_task_deliver_tcbs]
    show (if t = event_destination (dequeue_event k.mem (k.tcbs et).event_queue).1 _ ∧
      TESTFLAG (k.tcbs (event_destination (dequeue_event k.mem (k.tcbs et).event_queue).1
        _)).flags WAIT_FOR_EVENT ≠ 0 then woken (k.tcbs t) else k.tcbs t) = _
    rw [hd]
  have hsb : SameBoxes k k2 := by
    refine ⟨by rw [← hrun, event_task_deliver_first], fun p => ?_⟩
    rw [htc p]
    split
    · exact ⟨rfl, rfl⟩
    · exact ⟨rfl, rfl⟩
  have hmem : k2.mem = enqueue_event (dequeue_event k.mem (k.tcbs et).event_queue).1
      (k.tcbs (event_destination k.mem (eq_first k.mem (k.tcbs et).event_queue))).event_queue
      (eq_first k.mem (k.tcbs et).event_queue) := by
    rw [← hrun, event_task_deliver_mem]
    unfold destBox
    show enqueue_event _ (k.tcbs (event_destination
      (dequeue_event k.mem (k.tcbs et).event_queue).1 _)).event_queue _ = _
    rw [hd]
  refine InboxInv_of_same k _ L hs.tasks hinv hsb ?_
  intro t ht hfl
  right
  rw [htc t] at hfl
  by_cases hc : t = event_destination k.mem (eq_first k.mem (k.tcbs et).event_queue) ∧
      TESTFLAG (k.tcbs (event_destination k.mem
        (eq_first k.mem (k.tcbs et).event_queue))).flags WAIT_FOR_EVENT ≠ 0
  · rw [if_pos hc] at hfl
    exact absurd (TESTFLAG_CLEARFLAG _) hfl
  · rw [if_neg hc] at hfl
    refine ⟨hfl, ?_⟩
    have htd : t ≠ event_destination k.mem (eq_first k.mem (k.tcbs et).event_queue) := by
      intro e
      apply hc
      refine ⟨e, ?_⟩
      rw [← e]; exact hfl
    have hte : t ≠ et := by
      intro e
      rw [e] at hfl
      exact hfl hb
    have a1 := hs.apart t ht _ hdL htd
    have a2 := hs.apart t ht et hs.broker hte
    have a3 := hs.apart _ hdL et hs.broker hdne
    have a4 := hfa t ht
    unfold Apart at a1 a2 a3 a4
    have hlast : eq_last (dequeue_event k.mem (k.tcbs et).event_queue).1
        (k.tcbs (event_destination k.mem (eq_first k.mem (k.tcbs et).event_queue))).event_queue =
        eq_last k.mem
          (k.tcbs (event_destination k.mem
            (eq_first k.mem (k.tcbs et).event_queue))).event_queue := by
      unfold eq_last
      exact read32_congr _ _ _ (fun y hy1 hy2 => hdq y (by omega))
    intro x hx1 hx2
    rw [hmem, enqueue_event_frame2 _ _ _ x (by omega) ?_ (fun _ => by omega)]
    · exact hdq x (by omega)
    · intro hl
      rw [hlast] at hl ⊢
      have := hs.lasts _ hdL hl t ht
      unfold Apart at this
      omega

theorem SameButAt_tcbs (k0 k k2 : Kernel) (tcb : Nat) (h : k2.tcbs = k.tcbs)
    (hf : k2.first = k.first) (hs : SameButAt k0 k tcb) : SameButAt k0 k2 tcb :=
  ⟨hf.trans hs.1, fun q hq => by rw [h]; exact hs.2 q hq⟩

theorem SameButAt_setTcb (k0 k : Kernel) (tcb : Nat) (f : TCB → TCB)
    (hs : SameButAt k0 k tcb) : SameButAt k0 (setTcb k tcb f) tcb := by
  refine ⟨hs.1, fun q hq => ?_⟩
  rw [setTcb_tcbs, if_neg hq]
  exact hs.2 q hq

theorem global_free_first (hfuel : Nat) (k : Kernel) (p : Nat) (r : Kernel × Nat)
    (h : global_free hfuel k p = some r) : r.1.first = k.first := by
  unfold global_free at h
  split at h
  · exact absurd h (by simp)
  · simp only [Option.some.injEq] at h
    rw [← h]

theorem task_create_error_first (hfuel : Nat) (k : Kernel) (tcb heap_tmp : Nat)
    (r : Kernel × Nat) (h : task_create_error hfuel k tcb heap_tmp = some r) :
    r.1.first = k.first := by
  unfold task_create_error at h
  split at h
  · exact absurd h (by simp)
  · rename_i k1 x1 h1
    split at h
    · exact absurd h (by simp)
    · rename_i k2 x2 h2
      simp only [Option.some.injEq] at h
      rw [← h]
      have e1 : k1.first = k.first := by
        by_cases ht : tcb ≠ 0
        · rw [if_pos ht] at h1
          exact global_free_first _ _ _ _ h1
        · rw [if_neg ht] at h1
          simp only [Option.some.injEq, Prod.mk.injEq] at h1
          rw [← h1.1]
      have e2 : k2.first = k1.first := by
        by_cases ht : heap_tmp ≠ 0
        · rw [if_pos ht] at h2
          exact global_free_first _ _ _ _ h2
        · rw [if_neg ht] at h2
          simp only [Option.some.injEq, Prod.mk.injEq] at h2
          rw [← h2.1]
      show k2.first = k.first
      rw [e2, e1]

theorem SameButAt_error (hfuel : Nat) (k0 k : Kernel) (tcb heap_tmp : Nat) (r : Kernel × Nat)
    (h : task_create_error hfuel k tcb heap_tmp = some r) (hs : SameButAt k0 k tcb) :
    SameButAt k0 r.1 tcb :=
  SameButAt_tcbs k0 k r.1 tcb (task_create_error_tcbs _ _ _ _ _ h)
    (task_create_error_first _ _ _ _ _ h) hs

theorem global_alloc_first (hfuel : Nat) (k : Kernel) (n : Nat) (r : Kernel × Nat)
    (h : global_alloc hfuel k n = some r) : r.1.first = k.first := by
  unfold global_alloc at h
  split at h
  · exact absurd h (by simp)
  · simp only [Option.some.injEq] at h
    rw [← h]

theorem tcb_alloc_first (hfuel : Nat) (k : Kernel) (tcb n : Nat) (r : Kernel × Nat)
    (h : tcb_alloc hfuel k tcb n = some r) : r.1.first = k.first := by
  unfold tcb_alloc at h
  split at h
  · exact absurd h (by simp)
  · simp only [Option.some.injEq] at h
    rw [← h]

theorem task_create_finish_same_but (hfuel saved : Nat) (k0 k : Kernel) (tcb heap_tmp : Nat)
    (entry arg stksize prio : Nat) (r : Kernel × Nat)
    (hrun : task_create_finish hfuel saved k tcb heap_tmp entry arg stksize prio = some r)
    (hf : SameButAt k0 k tcb) (ht : tcb ≠ 0) : r.2 ≠ 0 ∨ SameButAt k0 r.1 tcb := by
  unfold task_create_finish at hrun
  simp only [setup_stack_frame] at hrun
  have h1 := SameButAt_setTcb k0 k tcb (fun t => { t with ssize := stksize }) hf
  by_cases hsv : saved = 0
  · subst hsv
    simp only [ne_eq, not_true_eq_false, if_false, Option.some.injEq] at hrun
    left
    rw [← hrun]
    exact ht
  · right
    simp only [ne_eq, hsv, not_false_eq_true, if_true] at hrun
    exact SameButAt_error _ _ _ _ _ _ hrun (SameButAt_tcbs _ _ _ _ rfl rfl h1)

theorem task_create_heap_same_but (hfuel saved : Nat) (k0 k : Kernel) (tcb heap_tmp : Nat)
    (entry arg stksize hsize prio : Nat) (r : Kernel × Nat)
    (hrun : task_create_heap hfuel saved k tcb heap_tmp entry arg stksize hsize prio = some r)
    (hf : SameButAt k0 k tcb) (ht : tcb ≠ 0) : r.2 ≠ 0 ∨ SameButAt k0 r.1 tcb := by
  unfold task_create_heap at hrun
  simp only at hrun
  have h1 : SameButAt k0 (setTcb { k with mem := (init_heap k.mem heap_tmp hsize).1 } tcb
      (fun t => { t with heap := (init_heap k.mem heap_tmp hsize).2 })) tcb :=
    SameButAt_setTcb _ _ _ _ (SameButAt_tcbs _ _ _ _ rfl rfl hf)
  split at hrun
  · exact Or.inr (SameButAt_error _ _ _ _ _ _ hrun h1)
  · split at hrun
    · exact absurd hrun (by simp)
    · rename_i k2 stack h2
      have h3 : SameButAt k0 (setTcb k2 tcb (fun t => { t with stack := stack })) tcb :=
        SameButAt_setTcb _ _ _ _
          (SameButAt_tcbs _ _ _ _ (tcb_alloc_tcbs _ _ _ _ _ h2) (tcb_alloc_first _ _ _ _ _ h2) h1)
      split at hrun
      · exact Or.inr (SameButAt_error _ _ _ _ _ _ hrun h3)
      · split at hrun
        · exact absurd hrun (by simp)
        · rename_i k4 eq h4
          have h5 : SameButAt k0 (setTcb k4 tcb (fun t => { t with event_queue := eq })) tcb :=
            SameButAt_setTcb _ _ _ _
              (SameButAt_tcbs _ _ _ _ (tcb_alloc_tcbs _ _ _ _ _ h4)
                (tcb_alloc_first _ _ _ _ _ h4) h3)
          split at hrun
          · exact Or.inr (SameButAt_error _ _ _ _ _ _ hrun h5)
          · exact task_create_finish_same_but _ _ _ _ _ _ _ _ _ _ _ hrun h5 ht

/-- A call of `task_create` that does not return a task leaves the head of
the task list and every task control block as they were, but the block that
`global_alloc` handed out for the new task. -/
theorem task_create_same_but (hfuel saved : Nat) (k : Kernel)
    (entry arg stksize hsize prio : Nat) (r : Kernel × Nat)
    (hrun : task_create hfuel saved k entry arg stksize hsize prio = some r) :
    ∃ k1 tcb, global_alloc hfuel k sizeof_TCB = some (k1, tcb) ∧
      (r.2 ≠ 0 ∨ SameButAt k r.1 tcb) := by
  unfold task_create at hrun
  split at hrun
  · exact absurd hrun (by simp)
  · rename_i k1 tcb h1
    refine ⟨k1, tcb, h1, ?_⟩
    have e1 := global_alloc_tcbs _ _ _ _ h1
    have f1 := global_alloc_first _ _ _ _ h1
    have h0 : SameButAt k k1 tcb := ⟨f1, fun q _ => by rw [e1]⟩
    by_cases ht : tcb = 0
    · right
      rw [if_pos ht] at hrun
      have := SameButAt_error _ _ _ _ _ _ hrun (SameButAt_tcbs k k1 k1 0 rfl rfl (by
        rw [← ht]; exact h0))
      rw [ht]; exact this
    · rw [if_neg ht] at hrun
      have h2 : SameButAt k (setTcb k1 tcb (fun _ => zeroTCB)) tcb :=
        SameButAt_setTcb _ _ _ _ h0
      simp only at hrun
      split at hrun
      · exact absurd hrun (by simp)
      · rename_i k3 heap_tmp h3
        have h4 := SameButAt_tcbs _ _ _ _ (global_alloc_tcbs _ _ _ _ h3)
          (global_alloc_first _ _ _ _ h3) h2
        split at hrun
        · exact Or.inr (SameButAt_error _ _ _ _ _ _ hrun h4)
        · exact task_create_heap_same_but _ _ _ _ _ _ _ _ _ _ _ _ hrun h4 ht

theorem task_create_inbox (et hfuel saved : Nat) (k : Kernel) (cs : List HCB) (L : List Nat)
    (entry arg stksize hsize prio : Nat) (r : Kernel × Nat) (hs : MemSafe et k cs L)
    (hfu : cs.length + 2 < hfuel) (hov1 : stksize + sizeof_HCB + HEAP_MIN_NODE_SIZE < U32)
    (hov2 : hsize + sizeof_HCB + HEAP_MIN_NODE_SIZE < U32) (hinv : InboxInv k)
    (hrun : task_create hfuel saved k entry arg stksize hsize prio = some r) :
    InboxInv r.1 := by
  -- the block that `global_alloc` hands out is not a task of the list
  obtain ⟨m1, p, cs1, h1, _, _, _, hlive, _, _, _, _⟩ :=
    heap_alloc_keeps k.mem k.global_heap cs sizeof_TCB hfuel hs.heap (by decide) (by omega)
  have hpL : p ∉ L := fun hm => (hlive p (hs.owns p hm)).2 rfl
  have hga : global_alloc hfuel k sizeof_TCB = some ({ k with mem := m1 }, p) := by
    unfold global_alloc
    simp only [h1]
  -- what is common to the two outcomes
  have key : ∀ L2, TaskList r.1 L2 → ∀ t ∈ L2, TESTFLAG (r.1.tcbs t).flags WAIT_FOR_EVENT ≠ 0 →
      t ∈ L ∧ (r.1.tcbs t).flags = (k.tcbs t).flags ∧
      (r.1.tcbs t).event_queue = (k.tcbs t).event_queue := by
    intro L2 hl2 t ht hfl
    by_cases hr : r.2 ≠ 0
    · obtain ⟨m1b, m3, heap_tmp, m5, stack, m6, eq, g1, _, _, _, _, _, _, _, hk⟩ :=
        task_create_inv hfuel saved k entry arg stksize hsize prio r.1 r.2 hrun hr
      rw [h1] at g1
      simp only [Option.some.injEq, Prod.mk.injEq] at g1
      obtain ⟨_, hp2⟩ := g1
      rw [← hp2] at hk hr
      obtain ⟨hsame, _, _⟩ := task_queue_add_same
        { k with
          mem := fill_bytes m6 stack TASK_STACK_MAGIC stksize
          tcbs := fun q =>
            if q = p then
              ⟨k.task_number, stack, stksize, (init_heap m3 heap_tmp hsize).2, 0, prio, 0, 0,
                entry, arg, eq, 0, 0⟩
            else k.tcbs q
          task_number := uadd k.task_number 1 } p
      have hseg : DSeg (fun q =>
            if q = p then
              (⟨k.task_number, stack, stksize, (init_heap m3 heap_tmp hsize).2, 0, prio, 0, 0,
                entry, arg, eq, 0, 0⟩ : TCB)
            else k.tcbs q) 0 k.first L 0 := by
        refine DSeg_congr k.tcbs _ L (fun q hq => ?_) 0 _ 0 hs.tasks.seg
        have : q ≠ p := fun e => hpL (e ▸ hq)
        simp only [if_neg this, and_self]
      obtain ⟨hseg2, _, _⟩ := task_queue_add_links
        { k with
          mem := fill_bytes m6 stack TASK_STACK_MAGIC stksize
          tcbs := fun q =>
            if q = p then
              ⟨k.task_number, stack, stksize, (init_heap m3 heap_tmp hsize).2, 0, prio, 0, 0,
                entry, arg, eq, 0, 0⟩
            else k.tcbs q
          task_number := uadd k.task_number 1 } L p hseg hs.tasks.last_eq hs.tasks.nodup hpL hr
      rw [← hk] at hsame hseg2
      have e : L2 = L ++ [p] := DSeg_unique _ _ (L ++ [p]) L2 0 0 _ hseg2 hl2.seg (fun _ _ => rfl)
      have hfe : (r.1.tcbs t).flags = (if t = p then
            (⟨k.task_number, stack, stksize, (init_heap m3 heap_tmp hsize).2, 0, prio, 0, 0,
                entry, arg, eq, 0, 0⟩ : TCB) else k.tcbs t).flags := by
        have e := congrArg TCB.flags (hsame t)
        exact e
      have hqe : (r.1.tcbs t).event_queue = (if t = p then
            (⟨k.task_number, stack, stksize, (init_heap m3 heap_tmp hsize).2, 0, prio, 0, 0,
                entry, arg, eq, 0, 0⟩ : TCB) else k.tcbs t).event_queue := by
        have e := congrArg TCB.event_queue (hsame t)
        exact e
      by_cases htp : t = p
      · rw [if_pos htp] at hfe
        rw [hfe] at hfl
        have h0 : TESTFLAG 0 WAIT_FOR_EVENT = 0 := by decide
        exact absurd h0 hfl
      · rw [if_neg htp] at hfe hqe
        rw [e] at ht
        rcases List.mem_append.mp ht with h | h
        · exact ⟨h, hfe, hqe⟩
        · exact absurd (List.mem_singleton.mp h) htp
    · obtain ⟨k1, tcb, g1, hor⟩ :=
        task_create_same_but hfuel saved k entry arg stksize hsize prio r hrun
      rw [hga] at g1
      simp only [Option.some.injEq, Prod.mk.injEq] at g1
      obtain ⟨_, hp2⟩ := g1
      rcases hor with h | ⟨hfst, hrec⟩
      · exact absurd h hr
      · rw [← hp2] at hrec
        have e : L2 = L := TaskList_unique k r.1 L L2 hs.tasks hl2 hfst (fun q hq => by
          rw [hrec q (fun e => hpL (e ▸ hq))])
        rw [e] at ht
        have htp : t ≠ p := fun e => hpL (e ▸ ht)
        exact ⟨ht, by rw [hrec t htp], by rw [hrec t htp]⟩
  intro L2 hl2 t ht hfl
  obtain ⟨htL, hfe, hqe⟩ := key L2 hl2 t ht hfl
  rw [hfe] at hfl
  have h0 := hinv L hs.tasks t htL hfl
  rw [hqe]
  have hfr := task_create_frame hfuel saved k entry arg stksize hsize prio cs _ 12 r hs.heap hfu
    hov1 hov2 (hs.boxes t htL) hrun
  unfold eq_num_events at h0 ⊢
  rw [read32_congr k.mem r.1.mem _ (fun x hx1 hx2 => hfr x hx1 (by omega))]
  exact h0

theorem scheduler_pass_inbox (et fuel hfuel : Nat) (k : Kernel) (cs : List HCB)
    (L : List Nat) (r : Kernel × SchedOutcome) (hs : MemSafe et k cs L)
    (hown : HeapOwns hfuel k L) (hinv : InboxInv k)
    (hrun : scheduler_pass fuel hfuel k = some r) : InboxInv r.1 := by
  have hfirst : k.first = 0 ∨ k.first ∈ L := by
    have e := DSeg_cur _ _ _ _ _ hs.tasks.seg
    cases hL : L with
    | nil => rw [hL] at e; exact Or.inl e
    | cons b bs => rw [hL] at e; right; rw [e]; simp
  have hrec : SameTasks k r.1 ∧
      ∀ L2, DSeg r.1.tcbs 0 r.1.first L2 0 → ∀ t ∈ L2, t ∈ L := by
    have hP : ∀ (k1 : Kernel) (pre post : List Nat) (x : Nat) (r1 : Kernel × Nat),
        TaskList k1 (pre ++ x :: post) → HeapOwns hfuel k1 (pre ++ x :: post) →
        (SameTasks k k1 ∧ ∀ L2, DSeg k1.tcbs 0 k1.first L2 0 → ∀ t ∈ L2, t ∈ L) →
        delete_task hfuel k1 x = some r1 →
        (SameTasks k r1.1 ∧ ∀ L2, DSeg r1.1.tcbs 0 r1.1.first L2 0 → ∀ t ∈ L2, t ∈ L) := by
      intro k1 pre post x r1 hwf1 hown1 hp hdel
      obtain ⟨k2, hdel2, _, hwf2, _, hsame2, _⟩ := delete_task_spec hfuel k1 pre post x hwf1 hown1
      rw [hdel2] at hdel
      simp only [Option.some.injEq] at hdel
      rw [← hdel]
      refine ⟨SameTasks_trans _ _ _ hp.1 hsame2, ?_⟩
      intro L2 hseg t ht
      have e : L2 = pre ++ post := DSeg_unique _ _ _ L2 0 0 _ hwf2.seg hseg (fun _ _ => rfl)
      rw [e] at ht
      refine hp.2 _ hwf1.seg t ?_
      simp only [List.mem_append, List.mem_cons] at ht ⊢
      tauto
    have hstart : SameTasks k k ∧ ∀ L2, DSeg k.tcbs 0 k.first L2 0 → ∀ t ∈ L2, t ∈ L := by
      refine ⟨SameTasks_refl k, fun L2 hseg t ht => ?_⟩
      have e : L2 = L := DSeg_unique _ _ _ L2 0 0 _ hs.tasks.seg hseg (fun _ _ => rfl)
      rw [e] at ht
      exact ht
    unfold scheduler_pass at hrun
    cases hsc : get_sched_priority fuel hfuel k with
    | none => rw [hsc] at hrun; exact absurd hrun (by simp)
    | some r1 =>
      have hk := get_sched_priority_loop_keeps hfuel
        (fun k1 => SameTasks k k1 ∧ ∀ L2, DSeg k1.tcbs 0 k1.first L2 0 → ∀ t ∈ L2, t ∈ L)
        hP fuel k k.first 0xFF L r1 hs.tasks hown hfirst hsc hstart
      rw [hsc] at hrun
      simp only at hrun
      split at hrun
      · simp only [Option.some.injEq] at hrun
        rw [← hrun]; exact hk
      · split at hrun
        · exact absurd hrun (by simp)
        · simp only [Option.some.injEq] at hrun
          rw [← hrun]; exact hk
  intro L2 hl2 t ht hfl
  have htL := hrec.2 L2 hl2.seg t ht
  have hfe : (r.1.tcbs t).flags = (k.tcbs t).flags := by
    have e := congrArg TCB.flags (hrec.1 t)
    exact e
  have hqe : (r.1.tcbs t).event_queue = (k.tcbs t).event_queue := by
    have e := congrArg TCB.event_queue (hrec.1 t)
    exact e
  rw [hfe] at hfl
  have h0 := hinv L hs.tasks t htL hfl
  rw [hqe]
  have hfr := scheduler_pass_frame fuel hfuel k L cs _ 12 r hs.tasks hown hs.heap
    (InUsedAt_payload _ _ _ _ _ (hs.boxes t htL)) hrun
  unfold eq_num_events at h0 ⊢
  rw [read32_congr k.mem r.1.mem _ (fun x hx1 hx2 => hfr x hx1 (by omega))]
  exact h0

/-- Every step that starts in a state whose memory is in order keeps the
counter of the inbox of every task with `WAIT_FOR_EVENT` at 0. -/
theorem callResult_inbox (et : Nat) (k k2 : Kernel) (c : Call) (hok : SafeStep et k c)
    (hrun : callResult et k c = some k2)
    (hb : TESTFLAG (k.tcbs et).flags WAIT_FOR_EVENT = 0) (hinv : InboxInv k) :
    InboxInv k2 := by
  obtain ⟨_, cs, L, hs, hfu⟩ := hok
  cases c with
  | create hfuel saved entry arg stksize hsize prio =>
    simp only [callResult, Option.map_eq_some'] at hrun
    obtain ⟨r, hr, rfl⟩ := hrun
    obtain ⟨f1, f2, f3⟩ := hfu
    exact task_create_inbox et hfuel saved k cs L entry arg stksize hsize prio r hs f1 f2 f3
      hinv hr
  | kill tcb =>
    simp only [callResult, Option.some.injEq] at hrun
    rw [← hrun]
    exact task_kill_inbox k L tcb hs.tasks hinv
  | set_status tcb status =>
    simp only [callResult, Option.some.injEq] at hrun
    rw [← hrun]
    exact task_set_status_inbox k L tcb status hs.tasks hinv
  | set_priority tcb prio =>
    simp only [callResult, Option.some.injEq] at hrun
    rw [← hrun]
    exact task_set_priority_inbox k L tcb prio hs.tasks hinv
  | generate hfuel tcb type subtype =>
    simp only [callResult, Option.map_eq_some'] at hrun
    obtain ⟨r, hr, rfl⟩ := hrun
    exact generate_event_inbox et hfuel k cs L tcb type subtype r hs hfu hinv hb hr
  | check hfuel sty =>
    simp only [callResult, Option.map_eq_some'] at hrun
    obtain ⟨r, hr, rfl⟩ := hrun
    exact check_event_inbox et hfuel k cs L sty r hs hfu hinv hr
  | wait hfuel fuel =>
    simp only [callResult, Option.map_eq_some'] at hrun
    obtain ⟨o, ho, rfl⟩ := hrun
    exact wait_event_inbox et hfuel fuel k cs L o hs hfu hinv ho
  | deliver => exact event_task_step_inbox et k k2 cs L hs hinv hb hrun
  | suspend => exact event_task_suspend_inbox et k k2 L hs.tasks hinv hrun
  | sched fuel hfuel =>
    simp only [callResult, Option.map_eq_some'] at hrun
    obtain ⟨r, hr, rfl⟩ := hrun
    exact scheduler_pass_inbox et fuel hfuel k cs L r hs hfu hinv hr

theorem ReachBy_allowed (et : Nat) (k k2 : Kernel) (h : ReachBy (SafeStep et) et k k2) :
    ReachBy (Allowed et) et k k2 := by
  induction h with
  | refl => exact ReachBy.refl _
  | step k1 k3 c _ hok hrun ih => exact ReachBy.step _ _ _ c ih hok.1 hrun

theorem ReachBy_inbox (et : Nat) (k k2 : Kernel) (hreach : ReachBy (SafeStep et) et k k2)
    (hi : WaitInv k) (hb : TESTFLAG (k.tcbs et).flags WAIT_FOR_EVENT = 0)
    (hinv : InboxInv k) : InboxInv k2 := by
  induction hreach with
  | refl => exact hinv
  | step k1 k3 c hr hok hrun ih =>
    have h2 := ReachBy_waitInv et k k1 (ReachBy_allowed et k k1 hr) hi hb
    exact callResult_inbox et k1 k3 c hok hrun h2.2 ih

theorem eventKernel_taskList : TaskList (running eventKernel 5288) [4128, 5288, 6448] where
  seg := ⟨rfl, by decide, rfl, rfl, by decide, rfl, rfl, by decide, rfl, rfl⟩
  last_eq := rfl
  nodup := by decide
  numbers := by decide
  cursor := fun _ => by decide

theorem eventKernel_memSafe :
    MemSafe 4128 (running eventKernel 5288) reapChunks [4128, 5288, 6448] where
  heap := reapMem_inv
  tasks := eventKernel_taskList
  broker := by decide
  owns := by
    intro t ht
    simp only [List.mem_cons, List.mem_singleton, List.not_mem_nil, or_false] at ht
    rcases ht with rfl | rfl | rfl
    · exact ⟨[], _, _, rfl, rfl, rfl⟩
    · exact ⟨List.take 2 reapChunks, _, _, rfl, rfl, rfl⟩
    · exact ⟨List.take 4 reapChunks, _, _, rfl, rfl, rfl⟩
  boxes := by
    intro t ht
    simp only [List.mem_cons, List.mem_singleton, List.not_mem_nil, or_false] at ht
    rcases ht with rfl | rfl | rfl <;> decide
  apart := by
    intro a ha b hb hne
    simp only [List.mem_cons, List.mem_singleton, List.not_mem_nil, or_false] at ha hb
    rcases ha with rfl | rfl | rfl <;> rcases hb with rfl | rfl | rfl <;>
      first | exact absurd rfl hne | decide
  counts := by
    intro a ha hn
    simp only [List.mem_cons, List.mem_singleton, List.not_mem_nil, or_false] at ha
    rcases ha with rfl | rfl | rfl <;> exact absurd (by decide) hn
  firsts := by
    intro a ha hn
    simp only [List.mem_cons, List.mem_singleton, List.not_mem_nil, or_false] at ha
    rcases ha with rfl | rfl | rfl <;> exact absurd (by decide) hn
  lasts := by
    intro a ha hn
    simp only [List.mem_cons, List.mem_singleton, List.not_mem_nil, or_false] at ha
    rcases ha with rfl | rfl | rfl <;> exact absurd (by decide) hn
  dests := fun hn => absurd (by decide) hn

theorem eventKernel_inboxInv : InboxInv (running eventKernel 5288) := by
  intro L _ t _ hfl
  exfalso
  apply hfl
  show TESTFLAG (eventKernel.tcbs t).flags WAIT_FOR_EVENT = 0
  unfold eventKernel
  simp only
  split
  · decide
  · split
    · decide
    · split
      · decide
      · decide

/-- C28 (amended): from a state in which every status is a non-negative
`int`, no task with `WAIT_FOR_EVENT` set has status 0 and the broker does not
have the flag, through any sequence of steps (`task_create`, `task_kill`,
`task_set_status`, `task_set_priority`, `generate_event`, `check_event`,
`wait_event`, the deliveries and the suspension of the broker, the turns of
the scheduler) in which `task_set_status` is given a non-negative `int` that
is not 0 for a task with the flag set, `wait_event` is not called by the
broker, and the status of a task that calls `wait_event` is below `INT_MAX`
(`Allowed`): a `TCB` has `WAIT_FOR_EVENT` set only while its status is
greater than zero.  When moreover every step starts in a state whose memory
is in order and has fuel for the heap loops (`SafeStep`: the heap
invariants hold, the inboxes of the tasks of the task list lie in blocks in
use and overlap neither each other nor the first and last events of the
inboxes, and the event that the broker delivers is addressed to a task of
the list other than the broker), and the inbox of every task of the list
with the flag set is empty at the start: every task of the task list that
has `WAIT_FOR_EVENT` set has a status greater than zero and an empty inbox
(`num_events` is 0).  And a call of `wait_event` that blocks leaves the
caller with the flag set, a status greater than zero, and the counter of its
inbox at 0. -/
theorem wait_flag_implies_blocked (et : Nat) (k k2 : Kernel) (hi : WaitInv k)
    (hb : TESTFLAG (k.tcbs et).flags WAIT_FOR_EVENT = 0) :
    (ReachBy (Allowed et) et k k2 →
      ∀ t, TESTFLAG (k2.tcbs t).flags WAIT_FOR_EVENT ≠ 0 → 0 < (k2.tcbs t).status) ∧
    (ReachBy (SafeStep et) et k k2 → InboxInv k →
      ∀ L, TaskList k2 L → ∀ t ∈ L, TESTFLAG (k2.tcbs t).flags WAIT_FOR_EVENT ≠ 0 →
        0 < (k2.tcbs t).status ∧ eq_num_events k2.mem (k2.tcbs t).event_queue = 0) ∧
    (ReachBy (Allowed et) et k k2 →
      ∀ hfuel fuel k3, k2.current_task ≠ et →
        (k2.tcbs k2.current_task).status < 2147483647 →
        wait_event hfuel fuel k2 = some (WaitOutcome.blocked k3) →
        TESTFLAG (k3.tcbs k2.current_task).flags WAIT_FOR_EVENT ≠ 0 ∧
        0 < (k3.tcbs k2.current_task).status ∧
        eq_num_events k3.mem (k3.tcbs k2.current_task).event_queue = 0) := by
  refine ⟨?_, ?_, ?_⟩
  · intro hreach t
    exact ((ReachBy_waitInv et k k2 hreach hi hb).1 t).2.2
  · intro hreach hinv L hl t ht hfl
    have h1 := ReachBy_waitInv et k k2 (ReachBy_allowed et k k2 hreach) hi hb
    exact ⟨(h1.1 t).2.2 hfl, ReachBy_inbox et k k2 hreach hi hb hinv L hl t ht hfl⟩
  · intro hreach hfuel fuel k3 hne hmax hrun
    obtain ⟨h1, h2⟩ := ReachBy_waitInv et k k2 hreach hi hb
    have h3 := callResult_waitInv et k2 k3 (Call.wait hfuel fuel) ⟨hne, hmax⟩
      (by simp only [callResult, hrun]; rfl) h1 h2
    obtain ⟨a1, _, a3, a4, a5⟩ := wait_event_blocked hfuel fuel k2 k3 hrun
    exact ⟨a4, (h3.1 _).2.2 a4, by rw [a1, a3]; exact a5⟩

theorem wait_flag_implies_blocked_witness :
    TESTFLAG ((wait_event_block (running eventKernel 5288)).tcbs 5288).flags
      WAIT_FOR_EVENT ≠ 0 ∧
    0 < ((wait_event_block (running eventKernel 5288)).tcbs 5288).status ∧
    eq_num_events (wait_event_block (running eventKernel 5288)).mem
      ((wait_event_block (running eventKernel 5288)).tcbs 5288).event_queue = 0 :=
  ⟨by decide,
    (wait_flag_implies_blocked 4128 (running eventKernel 5288)
      (wait_event_block (running eventKernel 5288)) eventKernel_waitInv (by decide)).2.1
      (ReachBy.step _ _ _ (Call.wait 8 1) (ReachBy.refl _)
        ⟨⟨by show (5288 : Nat) ≠ 4128; decide, by decide⟩,
          reapChunks, [4128, 5288, 6448], eventKernel_memSafe,
            by show reapChunks.length < 8; decide⟩ rfl)
      eventKernel_inboxInv [4128, 5288, 6448]
      ⟨⟨rfl, by decide, rfl, rfl, by decide, rfl, rfl, by decide, rfl, rfl⟩, rfl, by decide,
        by decide, fun _ => by decide⟩
      5288 (by decide) (by decide)⟩

end Sros
